import Mathlib

/-!
Verification of the xdd decision-diagram library (BDD/ZDD engine with
multiplicities) against its specification.  The Rust sources are shallowly
embedded: the node store is a list of nodes (address `a` lives at list index
`a - 2`, addresses 0 and 1 being the FALSE and TRUE sinks), multiplicities are
a parameter structure mirroring the `Multiplicity` trait, stateful recursive
operations are written with an explicit fuel parameter and return `Option`
(`none` models a Rust panic or exhausted fuel), and `HashMap` memo tables are
association lists (insert at the front, look up the first match).
-/

namespace Xdd

set_option synthInstance.maxSize 512

/-- Mirror of the Rust `Multiplicity` trait: constants and operations of the
multiplicity monoid, plus the two capability flags. -/
structure MultOps (M : Type) where
  one : M
  irrelevant : Bool
  symmetricOr : Bool
  combineOr : M → M → M
  mul : M → M → M
  gcd : M → M → M × M × M

/-- The `NoMultiplicity` instance: the unit monoid, with
`MULTIPLICITIES_IRRELEVANT = true`. -/
def noMultOps : MultOps Unit :=
  ⟨(), true, true, fun _ _ => (), fun _ _ => (), fun _ _ => ((), (), ())⟩

/-- The `u32` multiplicity instance (arithmetic modelled on `Nat`; Rust would
abort on overflow, which no claim here exercises).  `gcd a b` returns
`(a/g, b/g, g)` as in the source. -/
def u32MultOps : MultOps Nat :=
  ⟨1, false, true, fun a b => a + b, fun a b => a * b,
    fun a b => (a / Nat.gcd a b, b / Nat.gcd a b, Nat.gcd a b)⟩

/-- Mirror of `NodeIndex<A,M>`: a node address together with a multiplicity. -/
structure NodeIndex (M : Type) where
  address : Nat
  multiplicity : M
deriving DecidableEq, Repr

/-- Mirror of `Node<A,M>`: a decision variable and the two child edges.  The
Rust field `variable` is a Lean keyword, hence `var`. -/
structure Node (M : Type) where
  var : Nat
  lo : NodeIndex M
  hi : NodeIndex M
deriving DecidableEq, Repr

/-- The FALSE sink edge (address 0, multiplicity ONE). -/
def NodeIndex.FALSE (ops : MultOps M) : NodeIndex M := ⟨0, ops.one⟩

/-- The TRUE sink edge (address 1, multiplicity ONE). -/
def NodeIndex.TRUE (ops : MultOps M) : NodeIndex M := ⟨1, ops.one⟩

/-- Mirror of `NodeIndex::is_false`. -/
def NodeIndex.isFalse (i : NodeIndex M) : Bool := i.address == 0

/-- Mirror of `NodeIndex::is_true`. -/
def NodeIndex.isTrue (i : NodeIndex M) : Bool := i.address == 1

/-- Mirror of `NodeIndex::is_sink`. -/
def NodeIndex.isSink (i : NodeIndex M) : Bool := i.isFalse || i.isTrue

/-- Mirror of `NodeIndex::multiply`: scale the multiplicity of an edge. -/
def NodeIndex.multiply (ops : MultOps M) (i : NodeIndex M) (m : M) : NodeIndex M :=
  ⟨i.address, ops.mul i.multiplicity m⟩

/-- The node store of `NodeList<A,M>`: the node at address `a ≥ 2` is the list
entry at index `a - 2`; addresses 0 and 1 are the sinks and are not stored. -/
abbrev Store (M : Type) := List (Node M)

/-- Mirror of `NodeList::node`: fetch the node at an address; `none` models the
out-of-range / sink panic. -/
def nodeAt (st : Store M) (a : Nat) : Option (Node M) :=
  if a < 2 then none else st[a - 2]?

/-- Mirror of `NodeList::find_node_index`: first list position holding the node,
as an address. -/
def findNodeIndex [DecidableEq M] (st : Store M) (node : Node M) : Option Nat :=
  (st.findIdx? (fun n => n = node)).map (fun i => i + 2)

/-- Mirror of `NodeList::add_node`: append and return the new address. -/
def addNode (st : Store M) (node : Node M) : Store M × Nat :=
  (st ++ [node], st.length + 2)

/-- Mirror of `XDDBase::add_node_if_not_present`: canonicalize multiplicities by
extracting the gcd of the children (the FALSE child contributing no
constraint), then find-or-insert the node. -/
def addNodeIfNotPresent [DecidableEq M] (ops : MultOps M) (st : Store M)
    (node : Node M) : Store M × NodeIndex M :=
  let pair :=
    if ops.irrelevant then (node, ops.one)
    else
      let triple :=
        if node.hi.isFalse then (ops.one, ops.one, node.lo.multiplicity)
        else if node.lo.isFalse then (ops.one, ops.one, node.hi.multiplicity)
        else ops.gcd node.lo.multiplicity node.hi.multiplicity
      (⟨node.var, ⟨node.lo.address, triple.1⟩, ⟨node.hi.address, triple.2.1⟩⟩,
        triple.2.2)
  match findNodeIndex st pair.1 with
  | some a => (st, ⟨a, pair.2⟩)
  | none => let (st2, a) := addNode st pair.1; (st2, ⟨a, pair.2⟩)

/-- Memo tables (`HashMap<K,V>` passed by `&mut`): an association list, new
entries at the front. -/
abbrev Cache (K V : Type) := List (K × V)

/-- First-match lookup in a memo table. -/
def cacheFind [DecidableEq K] (c : Cache K V) (k : K) : Option V :=
  (c.find? (fun kv => kv.1 = k)).map (fun kv => kv.2)

/-- Insert into a memo table. -/
def cacheInsert (c : Cache K V) (k : K) (v : V) : Cache K V := (k, v) :: c

/-- Mirror of `XDDBase::create_node_bdd`: if `lo == hi` (address and
multiplicity) return `lo` and add nothing, otherwise find-or-insert the node;
record the result in the memo table either way. -/
def createNodeBdd [DecidableEq M] [DecidableEq K] (ops : MultOps M)
    (st : Store M) (cache : Cache K (NodeIndex M)) (lo hi : NodeIndex M)
    (v : Nat) (key : K) : Store M × Cache K (NodeIndex M) × NodeIndex M :=
  let pair := if lo = hi then (st, lo) else addNodeIfNotPresent ops st ⟨v, lo, hi⟩
  (pair.1, cacheInsert cache key pair.2, pair.2)

/-- Mirror of `XDDBase::create_node_zdd`: if the `hi` edge is FALSE return `lo`
and add nothing, otherwise find-or-insert the node; record the result. -/
def createNodeZdd [DecidableEq M] [DecidableEq K] (ops : MultOps M)
    (st : Store M) (cache : Cache K (NodeIndex M)) (lo hi : NodeIndex M)
    (v : Nat) (key : K) : Store M × Cache K (NodeIndex M) × NodeIndex M :=
  let pair := if hi.isFalse then (st, lo) else addNodeIfNotPresent ops st ⟨v, lo, hi⟩
  (pair.1, cacheInsert cache key pair.2, pair.2)

/-- Mirror of `XDDBase::node_incorporating_multiplicity`: the node of an edge
with the edge multiplicity pushed into both children. -/
def nodeIncorporatingMultiplicity (ops : MultOps M) (st : Store M)
    (i : NodeIndex M) : Option (Node M) :=
  (nodeAt st i.address).map (fun n =>
    ⟨n.var, n.lo.multiply ops i.multiplicity, n.hi.multiply ops i.multiplicity⟩)

/-- Mirror of `XDDBase::evaluate_bdd`: follow the decision nodes dictated by
the variable assignment `x`; `none` models a panic (bad address or variable
index) or exhausted fuel. -/
def evaluateBdd (st : Store M) : Nat → NodeIndex M → List Bool → Option Bool
  | 0, _, _ => none
  | fuel+1, index, x =>
    if index.isSink then some index.isTrue
    else do
      let node ← nodeAt st index.address
      let b ← x[node.var]?
      evaluateBdd st fuel (if b then node.hi else node.lo) x

/-- The inner loops of `evaluate_zdd`: starting at position `upto`, check that
every variable before `target` is false.  Returns `some false` on the first
true variable, `some true` on reaching `target`, `none` when the scan falls
off the end of `x` (an index panic in Rust). -/
def advanceFalse (x : List Bool) : Nat → Nat → Nat → Option Bool
  | 0, _, _ => none
  | fuel+1, upto, target =>
    if upto = target then some true
    else do
      let b ← x[upto]?
      if b then some false else advanceFalse x fuel (upto+1) target

/-- The main loop of `XDDBase::evaluate_zdd`, carrying `up_to_variable`. -/
def evaluateZddLoop (st : Store M) (x : List Bool) :
    Nat → NodeIndex M → Nat → Option Bool
  | 0, _, _ => none
  | fuel+1, index, upto =>
    if index.isSink then
      (advanceFalse x (x.length + 1) upto x.length).map (fun ok => ok && index.isTrue)
    else do
      let node ← nodeAt st index.address
      let ok ← advanceFalse x (x.length + 1) upto node.var
      if ok then do
        let b ← x[node.var]?
        evaluateZddLoop st x fuel (if b then node.hi else node.lo) (node.var + 1)
      else some false

/-- Mirror of `XDDBase::evaluate_zdd`: variables absent from the path are
forced false. -/
def evaluateZdd (st : Store M) (fuel : Nat) (index : NodeIndex M)
    (x : List Bool) : Option Bool :=
  evaluateZddLoop st x fuel index 0

/-- Mirror of `XDDBase::mul_bdd` (BDD `and`; a Product on multisets), with the
per-operator memo table threaded through.  Fuel-recursive. -/
def mulBdd [DecidableEq M] (ops : MultOps M) :
    Nat → Store M → Cache (NodeIndex M × NodeIndex M) (NodeIndex M) →
    NodeIndex M → NodeIndex M →
    Option (Store M × Cache (NodeIndex M × NodeIndex M) (NodeIndex M) × NodeIndex M)
  | 0, _, _, _, _ => none
  | fuel+1, st, cache, i1, i2 =>
    if i1.isFalse || i2.isFalse then some (st, cache, NodeIndex.FALSE ops)
    else if i1.isTrue then some (st, cache, i2.multiply ops i1.multiplicity)
    else if i2.isTrue then some (st, cache, i1.multiply ops i2.multiplicity)
    else if ops.irrelevant && i1.address == i2.address then
      some (st, cache, i1.multiply ops i2.multiplicity)
    else
      let key := if i1.address < i2.address then (i1, i2) else (i2, i1)
      match cacheFind cache key with
      | some res => some (st, cache, res)
      | none => do
        let node1 ← nodeIncorporatingMultiplicity ops st i1
        let node2 ← nodeIncorporatingMultiplicity ops st i2
        let c1 := if node1.var ≤ node2.var then (node1.lo, node1.hi) else (i1, i1)
        let c2 := if node2.var ≤ node1.var then (node2.lo, node2.hi) else (i2, i2)
        let r1 ← mulBdd ops fuel st cache c1.1 c2.1
        let r2 ← mulBdd ops fuel r1.1 r1.2.1 c1.2 c2.2
        some (createNodeBdd ops r2.1 r2.2.1 r1.2.2 r2.2.2
          (if node1.var ≤ node2.var then node1.var else node2.var) key)

/-- Mirror of `XDDBase::sum_bdd` (BDD `or`; a Sum on multisets). -/
def sumBdd [DecidableEq M] (ops : MultOps M) :
    Nat → Store M → Cache (NodeIndex M × NodeIndex M) (NodeIndex M) →
    NodeIndex M → NodeIndex M →
    Option (Store M × Cache (NodeIndex M × NodeIndex M) (NodeIndex M) × NodeIndex M)
  | 0, _, _, _, _ => none
  | fuel+1, st, cache, j1, j2 =>
    if j1.address == j2.address then
      some (st, cache, ⟨j1.address, ops.combineOr j1.multiplicity j2.multiplicity⟩)
    else if j1.isFalse then some (st, cache, j2)
    else if j2.isFalse then some (st, cache, j1)
    else if ops.irrelevant && (j1.isTrue || j2.isTrue) then
      some (st, cache, NodeIndex.TRUE ops)
    else
      let p := if (ops.symmetricOr && j1.address < j2.address) || j1.address == 1
        then (j2, j1) else (j1, j2)
      let i1 := p.1
      let i2 := p.2
      let key := (i1, i2)
      match cacheFind cache key with
      | some res => some (st, cache, res)
      | none => do
        let node1 ← nodeIncorporatingMultiplicity ops st i1
        let node2 ←
          if i2.isTrue then
            some (⟨node1.var, ⟨1, i2.multiplicity⟩, ⟨1, i2.multiplicity⟩⟩ : Node M)
          else nodeIncorporatingMultiplicity ops st i2
        let c1 := if node1.var ≤ node2.var then (node1.lo, node1.hi) else (i1, i1)
        let c2 := if node2.var ≤ node1.var then (node2.lo, node2.hi) else (i2, i2)
        let r1 ← sumBdd ops fuel st cache c1.1 c2.1
        let r2 ← sumBdd ops fuel r1.1 r1.2.1 c1.2 c2.2
        some (createNodeBdd ops r2.1 r2.2.1 r1.2.2 r2.2.2
          (if node1.var ≤ node2.var then node1.var else node2.var) key)

/-- Mirror of `XDDBase::and_zdd_true`: intersect with the family containing only
the empty set by walking the `lo` spine to a sink. -/
def andZddTrue (ops : MultOps M) (st : Store M) :
    Nat → NodeIndex M → Option (NodeIndex M)
  | 0, _ => none
  | fuel+1, index =>
    if index.isSink then some index
    else do
      let node ← nodeAt st index.address
      andZddTrue ops st fuel (node.lo.multiply ops index.multiplicity)

/-- Mirror of `XDDBase::mul_zdd` (ZDD `and`: family intersection / Product). -/
def mulZdd [DecidableEq M] (ops : MultOps M) :
    Nat → Store M → Cache (NodeIndex M × NodeIndex M) (NodeIndex M) →
    NodeIndex M → NodeIndex M →
    Option (Store M × Cache (NodeIndex M × NodeIndex M) (NodeIndex M) × NodeIndex M)
  | 0, _, _, _, _ => none
  | fuel+1, st, cache, i1, i2 =>
    if i1.isFalse || i2.isFalse then some (st, cache, NodeIndex.FALSE ops)
    else if i1.isTrue then do
      let r ← andZddTrue ops st (st.length + 2) i2
      some (st, cache, r.multiply ops i1.multiplicity)
    else if i2.isTrue then do
      let r ← andZddTrue ops st (st.length + 2) i1
      some (st, cache, r.multiply ops i2.multiplicity)
    else if ops.irrelevant && i1 == i2 then
      some (st, cache, i1.multiply ops i2.multiplicity)
    else
      let key := if i1.address < i2.address then (i1, i2) else (i2, i1)
      match cacheFind cache key with
      | some res => some (st, cache, res)
      | none => do
        let node1 ← nodeIncorporatingMultiplicity ops st i1
        let node2 ← nodeIncorporatingMultiplicity ops st i2
        let c1 := if node1.var ≤ node2.var then (node1.lo, node1.hi)
          else (i1, NodeIndex.FALSE ops)
        let c2 := if node2.var ≤ node1.var then (node2.lo, node2.hi)
          else (i2, NodeIndex.FALSE ops)
        let r1 ← mulZdd ops fuel st cache c1.1 c2.1
        let r2 ← mulZdd ops fuel r1.1 r1.2.1 c1.2 c2.2
        some (createNodeZdd ops r2.1 r2.2.1 r1.2.2 r2.2.2
          (if node1.var ≤ node2.var then node1.var else node2.var) key)

/-- Mirror of `XDDBase::sum_zdd` (ZDD `or`: family union as a multiset). -/
def sumZdd [DecidableEq M] (ops : MultOps M) :
    Nat → Store M → Cache (NodeIndex M × NodeIndex M) (NodeIndex M) →
    NodeIndex M → NodeIndex M →
    Option (Store M × Cache (NodeIndex M × NodeIndex M) (NodeIndex M) × NodeIndex M)
  | 0, _, _, _, _ => none
  | fuel+1, st, cache, j1, j2 =>
    if j1.address == j2.address then
      some (st, cache, ⟨j1.address, ops.combineOr j1.multiplicity j2.multiplicity⟩)
    else if j1.isFalse then some (st, cache, j2)
    else if j2.isFalse then some (st, cache, j1)
    else
      let p := if (ops.symmetricOr && j1.address < j2.address) || j1.address == 1
        then (j2, j1) else (j1, j2)
      let i1 := p.1
      let i2 := p.2
      let key := (i1, i2)
      match cacheFind cache key with
      | some res => some (st, cache, res)
      | none => do
        let node1 ← nodeIncorporatingMultiplicity ops st i1
        let node2 ←
          if i2.isTrue then
            some (⟨node1.var, ⟨1, i2.multiplicity⟩, NodeIndex.FALSE ops⟩ : Node M)
          else nodeIncorporatingMultiplicity ops st i2
        let c1 := if node1.var ≤ node2.var then (node1.lo, node1.hi)
          else (i1, NodeIndex.FALSE ops)
        let c2 := if node2.var ≤ node1.var then (node2.lo, node2.hi)
          else (i2, NodeIndex.FALSE ops)
        let r1 ← sumZdd ops fuel st cache c1.1 c2.1
        let r2 ← sumZdd ops fuel r1.1 r1.2.1 c1.2 c2.2
        some (createNodeZdd ops r2.1 r2.2.1 r1.2.2 r2.2.2
          (if node1.var ≤ node2.var then node1.var else node2.var) key)

/-- Mirror of `XDDBase::not_bdd`: recursively swap the sinks; every result
multiplicity is ONE.  The memo table maps input address to result address. -/
def notBdd [DecidableEq M] (ops : MultOps M) :
    Nat → Store M → Cache Nat Nat → NodeIndex M →
    Option (Store M × Cache Nat Nat × NodeIndex M)
  | 0, _, _, _ => none
  | fuel+1, st, cache, index =>
    if index.isTrue then some (st, cache, NodeIndex.FALSE ops)
    else if index.isFalse then some (st, cache, NodeIndex.TRUE ops)
    else match cacheFind cache index.address with
    | some res => some (st, cache, (⟨res, ops.one⟩ : NodeIndex M))
    | none => do
      let node ← nodeAt st index.address
      let r1 ← notBdd ops fuel st cache node.lo
      let r2 ← notBdd ops fuel r1.1 r1.2.1 node.hi
      let p := addNodeIfNotPresent ops r2.1 ⟨node.var, r1.2.2, r2.2.2⟩
      some (p.1, cacheInsert r2.2.1 index.address p.2.address, p.2)

/-- Builder for the chains of `zdd_variables_in_range_dont_matter` and
`true_regardless_of_variables_below_zdd`: add `count` nodes at variables
`upto + count - 1` down to `upto`, each with both children the previous
edge. -/
def chainDontCare [DecidableEq M] (ops : MultOps M) :
    Nat → Nat → Store M → NodeIndex M → Store M × NodeIndex M
  | 0, _, st, idx => (st, idx)
  | count+1, upto, st, idx =>
    let p := chainDontCare ops count (upto+1) st idx
    addNodeIfNotPresent ops p.1 ⟨upto, p.2, p.2⟩

/-- Mirror of `XDDBase::zdd_variables_in_range_dont_matter`. -/
def zddVariablesInRangeDontMatter [DecidableEq M] (ops : MultOps M)
    (st : Store M) (base : NodeIndex M) (lo hi : Nat) : Store M × NodeIndex M :=
  chainDontCare ops (hi - lo) lo st base

/-- Mirror of `XDDBase::true_regardless_of_variables_below_zdd`: the all-true
chain of variables from `upto` (inclusive) to `total` (exclusive). -/
def trueRegardlessOfVariablesBelowZdd [DecidableEq M] (ops : MultOps M)
    (st : Store M) (upto total : Nat) : Store M × NodeIndex M :=
  chainDontCare ops (total - upto) upto st (NodeIndex.TRUE ops)

/-- The chain-wrapping loop at the end of `XDDBase::not_zdd`: for `i` from
`upto + count - 1` down to `upto`, wrap the accumulated edge in a node with a
`true_regardless` chain on the `hi` side. -/
def notZddChain [DecidableEq M] (ops : MultOps M) :
    Nat → Nat → Nat → Store M → NodeIndex M → Store M × NodeIndex M
  | 0, _, _, st, idx => (st, idx)
  | count+1, upto, total, st, idx =>
    let p := notZddChain ops count (upto+1) total st idx
    let q := trueRegardlessOfVariablesBelowZdd ops p.1 (upto+1) total
    addNodeIfNotPresent ops q.1 ⟨upto, p.2, q.2⟩

/-- Mirror of `XDDBase::not_zdd`: complement with respect to the variable
window `[upto, total)`; result multiplicities are ONE.  The memo table is
keyed on `(address, upto)`. -/
def notZdd [DecidableEq M] (ops : MultOps M) :
    Nat → Store M → Cache (Nat × Nat) Nat → NodeIndex M → Nat → Nat →
    Option (Store M × Cache (Nat × Nat) Nat × NodeIndex M)
  | 0, _, _, _, _, _ => none
  | fuel+1, st, cache, index, upto, total =>
    match cacheFind cache (index.address, upto) with
    | some res => some (st, cache, (⟨res, ops.one⟩ : NodeIndex M))
    | none => do
      let core ←
        if index.isFalse then
          some (st, cache, total, NodeIndex.TRUE ops)
        else if index.isTrue then
          some (st, cache, total, NodeIndex.FALSE ops)
        else do
          let node ← nodeAt st index.address
          let r1 ← notZdd ops fuel st cache node.lo (node.var+1) total
          let r2 ← notZdd ops fuel r1.1 r1.2.1 node.hi (node.var+1) total
          let p := if r2.2.2.isFalse then (r2.1, r1.2.2)
            else addNodeIfNotPresent ops r2.1 ⟨node.var, r1.2.2, r2.2.2⟩
          some (p.1, r2.2.1, node.var, p.2)
      let q := notZddChain ops (core.2.2.1 - upto) upto total core.1 core.2.2.2
      some (q.1, cacheInsert core.2.1 (index.address, upto) q.2.address, q.2)

/-- Mirror of `XDDBase::single_variable`: the node `(v, FALSE, TRUE)`. -/
def singleVariable [DecidableEq M] (ops : MultOps M) (st : Store M)
    (v : Nat) : Store M × NodeIndex M :=
  addNodeIfNotPresent ops st ⟨v, NodeIndex.FALSE ops, NodeIndex.TRUE ops⟩

/-- The loop of `XDDBase::single_variable_zdd`, building variables
`i0 + count - 1` down to `i0`. -/
def singleVariableZddAux [DecidableEq M] (ops : MultOps M) (v : Nat) :
    Nat → Nat → Store M → NodeIndex M → Store M × NodeIndex M
  | 0, _, st, idx => (st, idx)
  | count+1, i0, st, idx =>
    let p := singleVariableZddAux ops v count (i0+1) st idx
    addNodeIfNotPresent ops p.1
      ⟨i0, if i0 = v then NodeIndex.FALSE ops else p.2, p.2⟩

/-- Mirror of `XDDBase::single_variable_zdd`. -/
def singleVariableZdd [DecidableEq M] (ops : MultOps M) (st : Store M)
    (v total : Nat) : Store M × NodeIndex M :=
  singleVariableZddAux ops v total 0 st (NodeIndex.TRUE ops)

/-- The loop of `XDDBase::exactly_one_of_bdd` over the reversed variable list;
`v0` is the first listed variable, at which the loop exits early.  `none`
models the final panic (reached only on malformed input). -/
def exactlyOneOfBddAux [DecidableEq M] (ops : MultOps M) (v0 : Nat) :
    List Nat → Store M → NodeIndex M → NodeIndex M →
    Option (Store M × NodeIndex M)
  | [], _, _, _ => none
  | v :: rest, st, left, right =>
    let p := addNodeIfNotPresent ops st ⟨v, left, right⟩
    if v = v0 then some (p.1, p.2)
    else
      let q := addNodeIfNotPresent ops p.1 ⟨v, right, NodeIndex.FALSE ops⟩
      exactlyOneOfBddAux ops v0 rest q.1 p.2 q.2

/-- Mirror of `XDDBase::exactly_one_of_bdd`. -/
def exactlyOneOfBdd [DecidableEq M] (ops : MultOps M) (st : Store M)
    (vars : List Nat) : Option (Store M × NodeIndex M) :=
  match vars with
  | [] => some (st, NodeIndex.FALSE ops)
  | v0 :: _ =>
    exactlyOneOfBddAux ops v0 vars.reverse st (NodeIndex.FALSE ops)
      (NodeIndex.TRUE ops)

/-- Mirror of `XDDBase::exactly_n_of_bdd`, with its `(n, |vars|)`-keyed memo
table; structural recursion over the variable list. -/
def exactlyNOfBdd [DecidableEq M] (ops : MultOps M) :
    Nat → List Nat → Store M → Cache (Nat × Nat) (NodeIndex M) →
    Store M × Cache (Nat × Nat) (NodeIndex M) × NodeIndex M
  | n, vars, st, cache =>
    if n > vars.length then (st, cache, NodeIndex.FALSE ops)
    else match vars with
    | [] => (st, cache, NodeIndex.TRUE ops)
    | v :: rest =>
      match cacheFind cache (n, vars.length) with
      | some existing => (st, cache, existing)
      | none =>
        let r1 := if n > 0 then exactlyNOfBdd ops (n-1) rest st cache
          else (st, cache, NodeIndex.FALSE ops)
        let r2 := exactlyNOfBdd ops n rest r1.1 r1.2.1
        let lo := r2.2.2
        let hi := r1.2.2
        let p := if lo = hi then (r2.1, lo)
          else addNodeIfNotPresent ops r2.1 ⟨v, lo, hi⟩
        (p.1, cacheInsert r2.2.1 (n, vars.length) p.2, p.2)

/-- The loop of `XDDBase::exactly_one_of_zdd` over the reversed variable list,
carrying the `dealt_with` bound; `v0` is the first listed variable. -/
def exactlyOneOfZddAux [DecidableEq M] (ops : MultOps M) (v0 : Nat) :
    List Nat → Nat → Store M → NodeIndex M → NodeIndex M →
    Option (Store M × NodeIndex M)
  | [], _, _, _, _ => none
  | v :: rest, dealtWith, st, left, right =>
    let a := zddVariablesInRangeDontMatter ops st left (v+1) dealtWith
    let b := zddVariablesInRangeDontMatter ops a.1 right (v+1) dealtWith
    let p := addNodeIfNotPresent ops b.1 ⟨v, a.2, b.2⟩
    if v = v0 then some (zddVariablesInRangeDontMatter ops p.1 p.2 0 v)
    else
      let q := addNodeIfNotPresent ops p.1 ⟨v, b.2, NodeIndex.FALSE ops⟩
      exactlyOneOfZddAux ops v0 rest v q.1 p.2 q.2

/-- Mirror of `XDDBase::exactly_one_of_zdd`. -/
def exactlyOneOfZdd [DecidableEq M] (ops : MultOps M) (st : Store M)
    (vars : List Nat) (total : Nat) : Option (Store M × NodeIndex M) :=
  match vars with
  | [] => some (st, NodeIndex.FALSE ops)
  | v0 :: _ =>
    exactlyOneOfZddAux ops v0 vars.reverse total st (NodeIndex.FALSE ops)
      (NodeIndex.TRUE ops)

/-- The loop body of `DecisionDiagramFactory::poly_and`: combine the next
element (as first argument of `and`, per the source) with the accumulator, or
start the accumulator. -/
def polyAndStep (andOp : σ → E → E → σ × E) (acc : σ × Option E) (n : E) :
    σ × Option E :=
  match acc with
  | (s1, some ni) => let p := andOp s1 n ni; (p.1, some p.2)
  | (s1, none) => (s1, some n)

/-- Mirror of `DecisionDiagramFactory::poly_and` over an abstract state-passing
`and` operation: fold the slice left to right, starting from `None`. -/
def polyAnd (andOp : σ → E → E → σ × E) (s : σ) (indices : List E) :
    σ × Option E :=
  indices.foldl (polyAndStep andOp) (s, none)

/-- The left-to-right fold computed by `poly_and` on a non-empty slice: each
new element is combined (as the first argument, per the source) with the
accumulated result. -/
def polyAndFold (andOp : σ → E → E → σ × E) (s : σ) (acc : E)
    (indices : List E) : σ × E :=
  indices.foldl (fun p n => andOp p.1 n p.2) (s, acc)

/-- Mirror of `PermutationEncodingAsVariables::variable` for permutations of
`n` elements: the computation via `rows = n - j` exactly as in the source. -/
def permVariable (n i j : Nat) : Nat :=
  let rows := n - j
  let elementsInRows := (n - 1 + (n - rows)) * rows / 2
  i - 1 + elementsInRows

/-- Mirror of `PermutationEncodingAsVariables::new`: the list of pairs `(i, j)`
grouped by descending `j`, ascending `i` within a group. -/
def permElements (n : Nat) : List (Nat × Nat) :=
  ((List.range' 2 (n-1)).reverse).flatMap
    (fun j => (List.range' 1 (j-1)).map (fun i => (i, j)))

/-- An edge address that is meaningful against the store: a sink or a stored
node. -/
def goodIdx (st : Store M) (e : NodeIndex M) : Prop := e.address < st.length + 2

instance goodIdxDecidable (st : Store M) (e : NodeIndex M) :
    Decidable (goodIdx st e) := by
  unfold goodIdx; infer_instance

/-- Check of the variable-order invariant for one child edge: sinks are exempt;
a stored child must have a strictly larger variable. -/
def childOKb (st : Store M) (v : Nat) (e : NodeIndex M) : Bool :=
  decide (e.address < 2) ||
    (match nodeAt st e.address with
     | some c => decide (v < c.var)
     | none => false)

/-- Check of the structural invariant for the node stored at list position `k`
(address `k + 2`): both children topologically earlier, both child variables
strictly larger. -/
def nodeOKb (st : Store M) (k : Nat) (nd : Node M) : Bool :=
  decide (nd.lo.address < k + 2) && decide (nd.hi.address < k + 2) &&
    childOKb st nd.var nd.lo && childOKb st nd.var nd.hi

/-- The structural store invariant (spec I1): topological ordering of
addresses plus strict variable ordering along edges. -/
def StoreWF (st : Store M) : Prop :=
  ∀ k, (h : k < st.length) → nodeOKb st k (st.get ⟨k, h⟩) = true

instance storeWFDecidable (st : Store M) : Decidable (StoreWF st) := by
  unfold StoreWF; infer_instance

/-- Hash-cons uniqueness (spec I2): no two stored nodes are equal. -/
def UniqueStore (st : Store M) : Prop :=
  ∀ k1, (h1 : k1 < st.length) → ∀ k2, (h2 : k2 < st.length) →
    st.get ⟨k1, h1⟩ = st.get ⟨k2, h2⟩ → k1 = k2

instance uniqueStoreDecidable [DecidableEq M] (st : Store M) : Decidable (UniqueStore st) := by
  unfold UniqueStore; infer_instance

/-- All stored variables lie below the factory bound `V`. -/
def VarsBelow (V : Nat) (st : Store M) : Prop :=
  ∀ k, (h : k < st.length) → (st.get ⟨k, h⟩).var < V

instance varsBelowDecidable (V : Nat) (st : Store M) : Decidable (VarsBelow V st) := by
  unfold VarsBelow; infer_instance

/-- The root level of the diagram at address `a` is strictly above `v` (sinks
vacuously satisfy this, matching the use of sinks as bottom-most cofactors). -/
def LvlGt (st : Store M) (a v : Nat) : Prop :=
  ∀ nd, nodeAt st a = some nd → v < nd.var

/-- Store growth: the new store is the old one plus appended nodes (stores are
append-only outside gc). -/
def StoreExtends (st st' : Store M) : Prop := ∃ tail, st' = st ++ tail

/-- Evaluation as a BDD, abstracted over fuel. -/
def EvalBdd (st : Store M) (e : NodeIndex M) (x : List Bool) (b : Bool) : Prop :=
  ∃ fuel, evaluateBdd st fuel e x = some b

/-- `evaluate_zdd` from the loop state `(e, up_to_variable = u)` terminates
with value `b`, for some fuel (fuel-monotone, hence deterministic). -/
def EvalZdd (st : Store M) (e : NodeIndex M) (x : List Bool) (u : Nat)
    (b : Bool) : Prop :=
  ∃ fuel, evaluateZddLoop st x fuel e u = some b

/-- Soundness of the `and_cache`: every entry is two valid edges mapped to a
valid edge computing their pointwise conjunction, with the level bound needed
to re-insert results under higher nodes. -/
def MulCacheOK (st : Store M)
    (cache : Cache (NodeIndex M × NodeIndex M) (NodeIndex M)) : Prop :=
  ∀ p ∈ cache,
    goodIdx st p.1.1 ∧ goodIdx st p.1.2 ∧ goodIdx st p.2 ∧
    (∀ v, LvlGt st p.1.1.address v → LvlGt st p.1.2.address v →
      LvlGt st p.2.address v) ∧
    (∀ x b1 b2, EvalBdd st p.1.1 x b1 → EvalBdd st p.1.2 x b2 →
      EvalBdd st p.2 x (b1 && b2))

/-- Bundled conclusion of the `mul_bdd` correctness induction: the store only
grows and stays well-formed, the memo table stays sound, and the returned edge
is a valid, level-bounded diagram computing the pointwise conjunction. -/
def MulOut (st : Store M) (i1 i2 : NodeIndex M)
    (out : Store M × Cache (NodeIndex M × NodeIndex M) (NodeIndex M) × NodeIndex M) :
    Prop :=
  StoreExtends st out.1 ∧ StoreWF out.1 ∧ MulCacheOK out.1 out.2.1 ∧
  goodIdx out.1 out.2.2 ∧
  (∀ v, LvlGt st i1.address v → LvlGt st i2.address v →
    LvlGt out.1 out.2.2.address v) ∧
  (∀ V, VarsBelow V st → VarsBelow V out.1) ∧
  (∀ x b1 b2, EvalBdd st i1 x b1 → EvalBdd st i2 x b2 →
    EvalBdd out.1 out.2.2 x (b1 && b2))

/-- The modulus of `u64` arithmetic. -/
def u64 : Nat := 2 ^ 64

/-- `k` iterations of `deal_with_variable_being_indeterminate` for the `u64`
generating function: each one is `variable_set + variable_not_set`, i.e. a
wrapping doubling (the variable index is immaterial for a plain count). -/
def doubleMod (g : Nat) : Nat → Nat
  | 0 => g
  | k+1 => (doubleMod g k + doubleMod g k) % u64

/-- `deal_with_variable_range_being_indeterminate` for the `u64` generating
function: one doubling per variable in `[s, e)`. -/
def dealRangeU64 (g s e : Nat) : Nat := doubleMod g (e - s)

/-- `GeneratingFunctionWithMultiplicity<NoMultiplicity>` for `u64`:
`multiply` is the identity. -/
def unitGfMul (g : Nat) (_ : Unit) : Nat := g

/-- `GeneratingFunctionWithMultiplicity<u32>` for `u64` (via `Into<u64>`):
wrapping multiplication. -/
def u32GfMul (g m : Nat) : Nat := (g * m) % u64

/-- The level bound used by `all_number_solutions` and `number_solutions` for
a child or root edge: `num_variables` for a sink, the node's variable
otherwise; `none` models the `self.node` panic on a bad address. -/
def levelOfOpt (st : Store M) (V : Nat) (e : NodeIndex M) : Option Nat :=
  if e.isSink then some V else (nodeAt st e.address).map (fun n => n.var)

/-- The body of the `all_number_solutions::<u64>` loop: the count for the node
`nd`, looked up from the counts `res` of all earlier addresses.  `u64`'s
`variable_set` and `variable_not_set` are the identity and are omitted.
`none` models an index panic. -/
def ansStep [DecidableEq M] (ops : MultOps M) (gfMul : Nat → M → Nat)
    (bdd : Bool) (st : Store M) (V : Nat) (res : List Nat) (nd : Node M) :
    Option Nat := do
  let loG0 ← res[nd.lo.address]?
  let loG := if ops.irrelevant = true ∨ nd.lo.multiplicity = ops.one then loG0
    else gfMul loG0 nd.lo.multiplicity
  let loLevel ← levelOfOpt st V nd.lo
  let lo := if bdd then dealRangeU64 loG (nd.var + 1) loLevel else loG
  let hiG0 ← res[nd.hi.address]?
  let hiG := if ops.irrelevant = true ∨ nd.hi.multiplicity = ops.one then hiG0
    else gfMul hiG0 nd.hi.multiplicity
  let hiLevel ← levelOfOpt st V nd.hi
  let hi := if bdd then dealRangeU64 hiG (nd.var + 1) hiLevel else hiG
  some ((lo + hi) % u64)

/-- The `all_number_solutions` loop over addresses `i, i+1, ...` (`k`
iterations remain), extending the per-address count table `res`. -/
def ansLoop [DecidableEq M] (ops : MultOps M) (gfMul : Nat → M → Nat)
    (bdd : Bool) (st : Store M) (V : Nat) :
    Nat → Nat → List Nat → Option (List Nat)
  | 0, _, res => some res
  | k+1, i, res => do
    let nd ← nodeAt st i
    let g ← ansStep ops gfMul bdd st V res nd
    ansLoop ops gfMul bdd st V k (i+1) (res ++ [g])

/-- Mirror of `XDDBase::all_number_solutions::<u64>`: counts for every address
below `length`, starting from the sink values 0 and 1. -/
def allNumberSolutions [DecidableEq M] (ops : MultOps M) (gfMul : Nat → M → Nat)
    (bdd : Bool) (st : Store M) (V : Nat) (length : Nat) : Option (List Nat) :=
  ansLoop ops gfMul bdd st V (length - 2) 2 [0, 1]

/-- Mirror of `XDDBase::number_solutions::<u64>`: build the count table up to
the root, take the root entry, bridge the variable range `[0, level(root))`
in the BDD case, and multiply by the root edge's multiplicity. -/
def numberSolutions [DecidableEq M] (ops : MultOps M) (gfMul : Nat → M → Nat)
    (bdd : Bool) (st : Store M) (V : Nat) (index : NodeIndex M) : Option Nat := do
  let work ← allNumberSolutions ops gfMul bdd st V (index.address + 1)
  let found ← work[index.address]?
  let beforeMultOpt := if bdd
    then (levelOfOpt st V index).map (fun level => dealRangeU64 found 0 level)
    else some found
  let beforeMult ← beforeMultOpt
  some (gfMul beforeMult index.multiplicity)

/-- All Boolean vectors of length `n`, in truth-table order (first variable
most significant, `false` before `true`). -/
def allVectors : Nat → List (List Bool)
  | 0 => [[]]
  | n+1 => (allVectors n).map (fun y => false :: y) ++
      (allVectors n).map (fun y => true :: y)

/-- The number of assignments of the variables `u, ..., V-1` under which the
diagram rooted at `e` evaluates true as a BDD.  Variables before `u` are
padded with `false`; a diagram all of whose levels are at `u` or deeper never
reads them. -/
def bddCountFrom (st : Store M) (V : Nat) (e : NodeIndex M) (u : Nat) : Nat :=
  ((allVectors (V - u)).filter (fun y =>
    evaluateBdd st (st.length + 2) e (List.replicate u false ++ y) ==
      some true)).length

/-- The number of assignments of the variables `u, ..., V-1` accepted from the
state `(e, up_to_variable = u)` of the ZDD evaluation loop.  At `u = 0` this
is the number of solutions of `e` as a ZDD. -/
def zddCountFrom (st : Store M) (V : Nat) (e : NodeIndex M) (u : Nat) : Nat :=
  ((allVectors (V - u)).filter (fun y =>
    evaluateZddLoop st (List.replicate u false ++ y) (st.length + 2) e u ==
      some true)).length

/-- Every node reachable from address `a` is at level `u` or deeper: sinks
vacuously, a stored node by its own variable (its children being deeper by
the store invariant). -/
def LvlGe (st : Store M) (a u : Nat) : Prop :=
  ∀ nd, nodeAt st a = some nd → u ≤ nd.var

/-- The level used by `all_number_solutions` and `number_solutions` for an
edge to address `a`: the number of variables for a sink, the node's variable
otherwise. -/
def levelOf (st : Store M) (V a : Nat) : Nat :=
  match nodeAt st a with
  | some nd => nd.var
  | none => V

/-- No variable set: the single solution of the TRUE sink of a ZDD. -/
def allFalse (y : List Bool) : Bool := y.all (fun b => !b)

/-- Soundness of the `not_cache` of `not_bdd`: each entry maps a valid
address to a valid address whose diagram computes the pointwise negation
(multiplicities on either side are immaterial to evaluation), with the level
bound needed to re-insert results under higher nodes. -/
def NotCacheOK (st : Store M) (cache : Cache Nat Nat) : Prop :=
  ∀ p ∈ cache,
    p.1 < st.length + 2 ∧ p.2 < st.length + 2 ∧
    (∀ v, LvlGt st p.1 v → LvlGt st p.2 v) ∧
    (∀ (m m' : M) x b, EvalBdd st ⟨p.1, m⟩ x b → EvalBdd st ⟨p.2, m'⟩ x (!b))

/-- Bundled conclusion of the `not_bdd` correctness induction: the store only
grows and stays well-formed, the memo table stays sound, and the returned
edge is a valid, level-bounded diagram computing the pointwise negation. -/
def NotOut (st : Store M) (i : NodeIndex M)
    (out : Store M × Cache Nat Nat × NodeIndex M) : Prop :=
  StoreExtends st out.1 ∧ StoreWF out.1 ∧ NotCacheOK out.1 out.2.1 ∧
  goodIdx out.1 out.2.2 ∧
  (∀ v, LvlGt st i.address v → LvlGt out.1 out.2.2.address v) ∧
  (∀ V, VarsBelow V st → VarsBelow V out.1) ∧
  (∀ x b, EvalBdd st i x b → EvalBdd out.1 out.2.2 x (!b))

/-- Mirror of the recursive `do_keep` marking pass of `NodeList::gc`: mark the
address (1 = `A::TRUE` placeholder) and recurse into the children unless the
address is already marked.  The sinks are pre-marked, so the `nodes[address-2]`
read (modelled by `nodeAt`, `none` on a sink or bad address) is never reached
for them. -/
def doKeep (st : Store M) : Nat → List Nat → NodeIndex M → Option (List Nat)
  | 0, _, _ => none
  | fuel+1, map, n => do
    let cur ← map[n.address]?
    if cur = 1 then some map
    else do
      let map1 := map.set n.address 1
      let nd ← nodeAt st n.address
      let m1 ← doKeep st fuel map1 nd.lo
      doKeep st fuel m1 nd.hi

/-- The `for k in keep` loop of `NodeList::gc`. -/
def doKeepAll (st : Store M) (fuel : Nat) :
    List (NodeIndex M) → List Nat → Option (List Nat)
  | [], map => some map
  | n :: rest, map => do
    let m1 ← doKeep st fuel map n
    doKeepAll st fuel rest m1

/-- Mirror of the second (compaction) pass of `NodeList::gc`: for `i` over the
`k` remaining addresses, a marked address is renamed to the next compacted
address and its node is re-written with renamed child addresses (children are
below `i`, hence already final); an unmarked address keeps the `A::FALSE`
placeholder 0. -/
def gcCompactAux (st : Store M) : Nat → Nat → List Nat → List (Node M) →
    Option (List Nat × List (Node M))
  | 0, _, map, acc => some (map, acc)
  | k+1, i, map, acc => do
    let into ← map[i]?
    if into = 1 then do
      let nd ← nodeAt st i
      let map1 := map.set i (acc.length + 2)
      let rlo ← map1[nd.lo.address]?
      let rhi ← map1[nd.hi.address]?
      gcCompactAux st k (i+1) map1
        (acc ++ [⟨nd.var, ⟨rlo, nd.lo.multiplicity⟩, ⟨rhi, nd.hi.multiplicity⟩⟩])
    else gcCompactAux st k (i+1) map acc

/-- Mirror of `NodeList::gc`: mark the sinks and everything reachable from
`keep`, reset the sink placeholders to their real addresses (FALSE at 0, TRUE
at 1), then compact.  Returns the new store and the renaming vector. -/
def gc [DecidableEq M] (st : Store M) (keep : List (NodeIndex M)) :
    Option (Store M × List Nat) := do
  let map1 ← doKeepAll st (st.length + 2) keep
    (((List.replicate (st.length + 2) 0).set 0 1).set 1 1)
  let r ← gcCompactAux st st.length 2 ((map1.set 0 0).set 1 1) []
  some (r.2, r.1)

/-- Mirror of `NodeRenaming::rename`: `none` (inner) when the address was
given no new address by the collection, except that FALSE maps to itself; the
multiplicity is carried over.  The outer `none` models the index panic. -/
def rename (map : List Nat) (index : NodeIndex M) : Option (Option (NodeIndex M)) :=
  (map[index.address]?).map (fun res =>
    if res = 0 ∧ index.address ≠ 0 then none
    else some ⟨res, index.multiplicity⟩)

/-- The almost-closedness invariant of the marking pass: every marked
non-sink address has its node's children marked, except for addresses in the
excuse set `P` (the addresses whose marking is still in progress). -/
def AC (st : Store M) (map : List Nat) (P : Nat → Prop) : Prop :=
  ∀ a, 2 ≤ a → map[a]? = some 1 →
    P a ∨ ∃ nd, nodeAt st a = some nd ∧
      map[nd.lo.address]? = some 1 ∧ map[nd.hi.address]? = some 1

/-- The correspondence invariant of the compaction pass, for the finalized
region below `i`: FALSE and TRUE map to themselves, and every kept address
`j` maps to a fresh address `r ≥ 2` whose node in the compacted store is the
old node with both children renamed (sink children to themselves, kept
children to fresh addresses). -/
def MapOK (st stPart : Store M) (map : List Nat) (i : Nat) : Prop :=
  map[0]? = some 0 ∧ map[1]? = some 1 ∧
  ∀ j, 2 ≤ j → j < i → ∀ r, map[j]? = some r → r ≠ 1 ∧
    (2 ≤ r → r - 2 < stPart.length ∧
      ∃ nd, nodeAt st j = some nd ∧
      ∃ rlo rhi, map[nd.lo.address]? = some rlo ∧ map[nd.hi.address]? = some rhi ∧
        stPart[r - 2]? =
          some ⟨nd.var, ⟨rlo, nd.lo.multiplicity⟩, ⟨rhi, nd.hi.multiplicity⟩⟩ ∧
        (nd.lo.address < 2 → rlo = nd.lo.address) ∧
        (2 ≤ nd.lo.address → 2 ≤ rlo) ∧
        (nd.hi.address < 2 → rhi = nd.hi.address) ∧
        (2 ≤ nd.hi.address → 2 ≤ rhi))

/-- Structural soundness of a binary-operation memo table (enough for the
store invariant): every memoized result is a valid edge whose level is
bounded below whenever both key edges are. -/
def WfCacheOK (st : Store M)
    (cache : Cache (NodeIndex M × NodeIndex M) (NodeIndex M)) : Prop :=
  ∀ p ∈ cache,
    goodIdx st p.2 ∧
    (∀ v, LvlGt st p.1.1.address v → LvlGt st p.1.2.address v →
      LvlGt st p.2.address v)

/-- Bundled conclusion of the structural-invariant induction for the binary
combiners (`sum_bdd`, `mul_zdd`, `sum_zdd`): the store only grows and stays
well-formed, the memo table stays structurally sound, and the result is a
valid, level-bounded edge. -/
def WfOut (st : Store M) (i1 i2 : NodeIndex M)
    (out : Store M × Cache (NodeIndex M × NodeIndex M) (NodeIndex M) × NodeIndex M) :
    Prop :=
  StoreExtends st out.1 ∧ StoreWF out.1 ∧ WfCacheOK out.1 out.2.1 ∧
  goodIdx out.1 out.2.2 ∧
  (∀ v, LvlGt st i1.address v → LvlGt st i2.address v →
    LvlGt out.1 out.2.2.address v)

/-- Structural soundness of the `not_zdd` memo table (keyed on
`(address, upto)`): every memoized result is a valid address whose diagram
starts no lower than `upto`. -/
def NotZddCacheOK (st : Store M) (cache : Cache (Nat × Nat) Nat) : Prop :=
  ∀ p ∈ cache, p.2 < st.length + 2 ∧ (∀ v, v < p.1.2 → LvlGt st p.2 v)

/-- Bundled conclusion of the structural-invariant induction for `not_zdd`:
the store only grows and stays well-formed, the memo table stays structurally
sound, and the result is a valid edge starting no lower than `upto`. -/
def NotZddOut (st : Store M) (upto : Nat)
    (out : Store M × Cache (Nat × Nat) Nat × NodeIndex M) : Prop :=
  StoreExtends st out.1 ∧ StoreWF out.1 ∧ NotZddCacheOK out.1 out.2.1 ∧
  goodIdx out.1 out.2.2 ∧
  (∀ v, v < upto → LvlGt out.1 out.2.2.address v)

/-- Semantic soundness of the `not_zdd` memo table over `total = T`
variables: every entry maps a valid `(address, upto)` key to a valid edge
starting no lower than `upto` that computes the pointwise complement on the
window `[upto, T)`. -/
def NotZddSemCacheOK (T : Nat) (st : Store M)
    (cache : Cache (Nat × Nat) Nat) : Prop :=
  ∀ p ∈ cache,
    p.1.1 < st.length + 2 ∧ p.2 < st.length + 2 ∧
    (∀ v, v < p.1.2 → LvlGt st p.2 v) ∧
    (∀ (m m' : M) x b, x.length = T → EvalZdd st ⟨p.1.1, m⟩ x p.1.2 b →
      EvalZdd st ⟨p.2, m'⟩ x p.1.2 (!b))

/-- Bundled conclusion of the semantic correctness induction for `not_zdd`:
the structural invariants of `NotZddOut` plus preservation of the variable
bound and the complement property of the returned edge. -/
def NotZddSemOut (T : Nat) (st : Store M) (i : NodeIndex M) (upto : Nat)
    (out : Store M × Cache (Nat × Nat) Nat × NodeIndex M) : Prop :=
  StoreExtends st out.1 ∧ StoreWF out.1 ∧ VarsBelow T out.1 ∧
  NotZddSemCacheOK T out.1 out.2.1 ∧ goodIdx out.1 out.2.2 ∧
  (∀ v, v < upto → LvlGt out.1 out.2.2.address v) ∧
  (∀ x b, x.length = T → EvalZdd st i x upto b →
    EvalZdd out.1 out.2.2 x upto (!b))

/-- Structural soundness of the `exactly_n_of_bdd` memo table relative to the
current (suffix) variable list: each entry's length key addresses a suffix of
`vars`, and its edge is a valid diagram over that suffix's variables. -/
def ExactCacheOK (st : Store M) (vars : List Nat)
    (cache : Cache (Nat × Nat) (NodeIndex M)) : Prop :=
  ∀ p ∈ cache, p.1.2 ≤ vars.length ∧ goodIdx st p.2 ∧
    (∀ v, (∀ w ∈ vars.drop (vars.length - p.1.2), v < w) →
      LvlGt st p.2.address v)

/-- The assignments of the variables `u, ..., V-1` (in truth-table order,
variables padded with `false` before `u`) under which the diagram rooted at
`e` evaluates true as a BDD; `bddCountFrom` is its length. -/
def bddSolsFrom (st : Store M) (V : Nat) (e : NodeIndex M) (u : Nat) :
    List (List Bool) :=
  (allVectors (V - u)).filter (fun y =>
    evaluateBdd st (st.length + 2) e (List.replicate u false ++ y) ==
      some true)

/-- The assignments of the variables `u, ..., V-1` (in truth-table order)
accepted from the ZDD evaluation state `(e, up_to_variable = u)`;
`zddCountFrom` is its length. -/
def zddSolsFrom (st : Store M) (V : Nat) (e : NodeIndex M) (u : Nat) :
    List (List Bool) :=
  (allVectors (V - u)).filter (fun y =>
    evaluateZddLoop st (List.replicate u false ++ y) (st.length + 2) e u ==
      some true)

/-- The big-endian binary digits of `q` on `c` bits (the position of `q` in
`allVectors c`). -/
def natToBits : Nat → Nat → List Bool
  | 0, _ => []
  | c+1, q => decide (2^c ≤ q) :: natToBits c (q % 2^c)

/-- The increasing list of the variables set in the assignment `y` of the
variables `u, u+1, ...` — the list `get_ith_solution` returns. -/
def trueVarsShift : Nat → List Bool → List Nat
  | _, [] => []
  | u, b :: y => if b then u :: trueVarsShift (u+1) y else trueVarsShift (u+1) y

/-- The indeterminate-variable block of `get_ith_solution` (the two inner
`for` loops): at each of the `c` remaining variables from `i` on, the popped
doubling entry is `2^(c-1) * base` (`u64` arithmetic); the variable is set,
and its block of solutions skipped, exactly when doing so does not pass
`solution_index = k`. -/
def ithIndetLoop (k base : Nat) : Nat → Nat → Nat → List Nat → Nat × List Nat
  | 0, _, bypassed, res => (bypassed, res)
  | c+1, i, bypassed, res =>
    let b2 := (bypassed + doubleMod base c) % u64
    if b2 ≤ k then ithIndetLoop k base c (i+1) b2 (res ++ [i])
    else ithIndetLoop k base c (i+1) bypassed res

/-- Mirror of `SolutionFinder::number_solutions_starting_from_variable` for
the all-solutions finder (`WANT_MIN_VARS = false`, generating function
`u64`): the table entry, bridged from `startingVariable` to the edge's level
in the BDD case, times the edge multiplicity. -/
def numberSolutionsStartingFromVariable [DecidableEq M] (ops : MultOps M)
    (gfMul : Nat → M → Nat) (bdd : Bool) (st : Store M) (V : Nat)
    (work : List Nat) (index : NodeIndex M) (startingVariable : Nat) :
    Option Nat := do
  let found ← work[index.address]?
  let beforeMultOpt := if bdd then
      (levelOfOpt st V index).map
        (fun level => dealRangeU64 found startingVariable level)
    else some found
  let beforeMult ← beforeMultOpt
  some (gfMul beforeMult index.multiplicity)

/-- Mirror of the main loop of `SolutionFinder::get_ith_solution`
(`WANT_MIN_VARS = false`, generating function `u64`): accumulate the scale,
consume the indeterminate variables before the current level (BDD only), check
the two `assert!`s (`none` models a panic), stop at a sink (which must be
TRUE), and otherwise descend left unless all solutions through `lo` are
skipped. -/
def getIthLoop [DecidableEq M] (ops : MultOps M) (gfMul : Nat → M → Nat)
    (bdd : Bool) (st : Store M) (V : Nat) (work : List Nat) (k : Nat) :
    Nat → NodeIndex M → List Nat → Nat → M → Nat → Option (List Nat)
  | 0, _, _, _, _, _ => none
  | fuel+1, current, res, bypassed, scale, upTo => do
    let scale1 := ops.mul scale current.multiplicity
    let cnt ← work[current.address]?
    let level ← levelOfOpt st V current
    let p := if bdd then
        ithIndetLoop k (gfMul cnt scale1) (level - upTo) upTo bypassed res
      else (bypassed, res)
    let upTo1 := if bdd then level + 1 else upTo
    if p.1 ≤ k ∧ k < (p.1 + gfMul cnt scale1) % u64 then
      if current.isSink then
        if current.isTrue then some p.2 else none
      else do
        let node ← nodeAt st current.address
        let numOnLeft ← numberSolutionsStartingFromVariable ops gfMul bdd st V
          work node.lo upTo1
        let bIfRight := (p.1 + gfMul numOnLeft scale1) % u64
        if bIfRight ≤ k then
          getIthLoop ops gfMul bdd st V work k fuel node.hi (p.2 ++ [node.var])
            bIfRight scale1 upTo1
        else
          getIthLoop ops gfMul bdd st V work k fuel node.lo p.2 p.1 scale1 upTo1
    else none

/-- Mirror of `SolutionFinder::get_ith_solution` over the finder built by
`find_all_solutions` (table up to the start index): `some none` is Rust's
`None` (rank out of range), `some (some l)` a returned solution, and the
outer `none` a panic or exhausted fuel. -/
def getIthSolution [DecidableEq M] (ops : MultOps M) (gfMul : Nat → M → Nat)
    (bdd : Bool) (st : Store M) (V : Nat) (fuel : Nat) (index : NodeIndex M)
    (k : Nat) : Option (Option (List Nat)) := do
  let work ← allNumberSolutions ops gfMul bdd st V (index.address + 1)
  let n ← numberSolutionsStartingFromVariable ops gfMul bdd st V work index 0
  if n ≤ k then some none
  else do
    let r ← getIthLoop ops gfMul bdd st V work k fuel index [] 0 ops.one 0
    some (some r)


theorem permElements_succ (n : Nat) (hn : 1 ≤ n) :
    permElements (n+1) =
      ((List.range' 1 n).map (fun i => (i, n+1))) ++ permElements n := by
  unfold permElements
  have h1 : n + 1 - 1 = (n - 1) + 1 := by omega
  rw [h1, List.range'_concat, List.reverse_append]
  have h3 : 2 + 1 * (n - 1) = n + 1 := by omega
  rw [h3]
  simp only [List.reverse_singleton, List.singleton_append, List.flatMap_cons]
  congr 2

theorem permElements_get (n i j : Nat) (hi : 1 ≤ i) (hij : i < j) (hjn : j ≤ n) :
    (permElements n)[i - 1 + (n - 1 + j) * (n - j) / 2]? = some (i, j) := by
  induction n with
  | zero => omega
  | succ n ih =>
    have hn : 1 ≤ n := by omega
    rw [permElements_succ n hn]
    rcases Nat.lt_or_ge j (n+1) with hj | hj
    · -- j ≤ n : the pair lives in the tail; index shifts by the block length n
      have hjn' : j ≤ n := by omega
      have hj2 : 2 ≤ j := by omega
      obtain ⟨d, hd⟩ : ∃ d, n = j + d := ⟨n - j, by omega⟩
      have ha2 : (n - 1 + j) * (n - j) % 2 = 0 := by
        rcases Nat.even_or_odd (n - j) with h | h
        · exact Nat.even_iff.mp (Nat.even_mul.mpr (Or.inr h))
        · have h1 : Even (n - 1 + j) := by
            rcases h with ⟨c, hc⟩
            exact ⟨j + c, by omega⟩
          exact Nat.even_iff.mp (Nat.even_mul.mpr (Or.inl h1))
      have key : (n + 1 - 1 + j) * (n + 1 - j)
          = 2 * n + (n - 1 + j) * (n - j) := by
        clear ha2 ih hjn hj hjn' hij hi
        obtain ⟨e, he⟩ : ∃ e, j = e + 1 := ⟨j - 1, by omega⟩
        subst hd
        subst he
        have r1 : e + 1 + d + 1 - 1 = e + 1 + d := by omega
        have r2 : e + 1 + d + 1 - (e + 1) = d + 1 := by omega
        have r3 : e + 1 + d - 1 = e + d := by omega
        have r4 : e + 1 + d - (e + 1) = d := by omega
        rw [r1, r2, r3, r4]
        ring
      have harith : (n + 1 - 1 + j) * (n + 1 - j) / 2
          = n + (n - 1 + j) * (n - j) / 2 := by
        rw [key]; omega
      rw [harith]
      have hlen : ((List.range' 1 n).map (fun i => (i, n+1))).length = n := by
        simp
      have hidx : i - 1 + (n + (n - 1 + j) * (n - j) / 2)
          = ((List.range' 1 n).map (fun i => (i, n+1))).length
            + (i - 1 + (n - 1 + j) * (n - j) / 2) := by
        rw [hlen]; omega
      rw [hidx, List.getElem?_append_right (by omega)]
      rw [Nat.add_sub_cancel_left]
      exact ih hjn'
    · -- j = n + 1 : the pair lives in the leading block at position i - 1
      have hj1 : j = n + 1 := by omega
      subst hj1
      have harith : (n + 1 - 1 + (n + 1)) * (n + 1 - (n + 1)) / 2 = 0 := by
        simp
      rw [harith]
      simp only [Nat.add_zero]
      have hlen : i - 1 < ((List.range' 1 n).map (fun i => (i, n+1))).length := by
        simp only [List.length_map, List.length_range']
        omega
      rw [List.getElem?_append_left hlen]
      rw [List.getElem?_map, List.getElem?_range' 1 1 (by omega : i - 1 < n)]
      have : 1 + 1 * (i - 1) = i := by omega
      rw [this]
      rfl

/-- C4 counterexample: the claimed index formula `i - 1 + (n-1 + n-j)·(n-j)/2`
disagrees with the code at `n = 4, (i, j) = (1, 3)`: the code (and the actual
position of `(1,3)` in the variable list) give 3, the claimed formula gives 2. -/
theorem claim4_counterexample :
    permVariable 4 1 3 = 3 ∧ (permElements 4)[3]? = some (1, 3) ∧
      1 - 1 + (4 - 1 + (4 - 3)) * (4 - 3) / 2 = 2 ∧ (3 : Nat) ≠ 2 := by
  decide

/-- C4 (amended): for `1 ≤ i < j ≤ n`, the variable index assigned to the pair
`(i, j)` equals `i - 1 + (n-1 + j)·(n-j)/2`, and this is the position of
`(i, j)` in the variable list built by the encoding constructor. -/
theorem claim4_variable_index (n i j : Nat) (hi : 1 ≤ i) (hij : i < j)
    (hjn : j ≤ n) :
    permVariable n i j = i - 1 + (n - 1 + j) * (n - j) / 2 ∧
      (permElements n)[permVariable n i j]? = some (i, j) := by
  have hform : permVariable n i j = i - 1 + (n - 1 + j) * (n - j) / 2 := by
    unfold permVariable
    have : n - (n - j) = j := Nat.sub_sub_self (by omega)
    simp only [this]
  exact ⟨hform, by rw [hform]; exact permElements_get n i j hi hij hjn⟩

theorem claim4_witness :
    1 ≤ 2 ∧ 2 < 3 ∧ 3 ≤ 5 ∧
      (permVariable 5 2 3 = 2 - 1 + (5 - 1 + 3) * (5 - 3) / 2 ∧
        (permElements 5)[permVariable 5 2 3]? = some (2, 3)) :=
  ⟨by decide, by decide, by decide,
    claim4_variable_index 5 2 3 (by decide) (by decide) (by decide)⟩

/-- C3 counterexample: `add_node_if_not_present` does not apply the BDD
reduction.  Inserting the node `(v0, TRUE, TRUE)` (equal `lo` and `hi` edges)
into an empty `NoMultiplicity` store returns a fresh node at address 2, not the
`lo` edge, and the store grows by one node.  (The ZDD helpers rely on this:
`zdd_variables_in_range_dont_matter` inserts such nodes deliberately.) -/
theorem claim3_counterexample :
    (addNodeIfNotPresent noMultOps ([] : Store Unit)
        ⟨0, ⟨1, ()⟩, ⟨1, ()⟩⟩).2 ≠ (⟨1, ()⟩ : NodeIndex Unit) ∧
      (addNodeIfNotPresent noMultOps ([] : Store Unit)
        ⟨0, ⟨1, ()⟩, ⟨1, ()⟩⟩).1.length = 1 := by
  decide

/-- C3 (amended): the BDD reduction is applied by `create_node_bdd`, not by
`add_node_if_not_present`: for every node whose `lo` and `hi` edges are equal
in both address and multiplicity, `create_node_bdd` returns that `lo` edge
directly and adds no node to the store (it only records the memo entry). -/
theorem claim3_create_node_bdd [DecidableEq M] [DecidableEq K]
    (ops : MultOps M) (st : Store M) (cache : Cache K (NodeIndex M))
    (lo hi : NodeIndex M) (v : Nat) (key : K) (h : lo = hi) :
    createNodeBdd ops st cache lo hi v key = (st, cacheInsert cache key lo, lo) := by
  unfold createNodeBdd
  simp [h]

theorem claim3_witness :
    (⟨1, ()⟩ : NodeIndex Unit) = (⟨1, ()⟩ : NodeIndex Unit) ∧
      createNodeBdd noMultOps ([] : Store Unit) ([] : Cache Nat (NodeIndex Unit))
        ⟨1, ()⟩ ⟨1, ()⟩ 0 7
        = ([], cacheInsert [] 7 ⟨1, ()⟩, ⟨1, ()⟩) :=
  ⟨rfl, claim3_create_node_bdd noMultOps [] [] ⟨1, ()⟩ ⟨1, ()⟩ 0 7 rfl⟩

theorem polyAnd_foldl_some {σ E : Type} (andOp : σ → E → E → σ × E)
    (xs : List E) : ∀ s acc,
    xs.foldl (polyAndStep andOp) (s, some acc)
      = ((polyAndFold andOp s acc xs).1, some (polyAndFold andOp s acc xs).2) := by
  induction xs with
  | nil => intro s acc; rfl
  | cons n rest ih =>
    intro s acc
    simp only [List.foldl_cons, polyAndStep]
    rw [ih]
    rfl

/-- C10: `poly_and` returns `None` exactly on the empty slice; on `x :: xs` it
returns `Some` of the left-to-right fold of the factory's `and` (each list
element passed as the first argument, as in the source) starting from `x`; in
particular a single-element slice returns that edge with the state untouched,
never invoking `and`. -/
theorem claim10_poly_and {σ E : Type} (andOp : σ → E → E → σ × E) (s : σ) :
    (∀ xs : List E, (polyAnd andOp s xs).2 = none ↔ xs = []) ∧
      (∀ (x : E) (xs : List E),
        polyAnd andOp s (x :: xs)
          = ((polyAndFold andOp s x xs).1, some (polyAndFold andOp s x xs).2)) ∧
      (∀ x : E, polyAnd andOp s [x] = (s, some x)) := by
  refine ⟨?_, ?_, ?_⟩
  · intro xs
    cases xs with
    | nil => simp [polyAnd]
    | cons x rest =>
      simp only [polyAnd, List.foldl_cons, polyAndStep]
      rw [polyAnd_foldl_some]
      simp
  · intro x xs
    simp only [polyAnd, List.foldl_cons, polyAndStep]
    exact polyAnd_foldl_some andOp xs s x
  · intro x
    rfl

theorem StoreExtends.refl (st : Store M) : StoreExtends st st := ⟨[], by simp⟩

theorem StoreExtends.trans {st1 st2 st3 : Store M}
    (h1 : StoreExtends st1 st2) (h2 : StoreExtends st2 st3) :
    StoreExtends st1 st3 := by
  obtain ⟨t1, rfl⟩ := h1
  obtain ⟨t2, rfl⟩ := h2
  exact ⟨t1 ++ t2, by simp⟩

theorem StoreExtends.length_le {st st' : Store M} (h : StoreExtends st st') :
    st.length ≤ st'.length := by
  obtain ⟨t, rfl⟩ := h
  simp

theorem nodeAt_some_range {st : Store M} {a : Nat} {nd : Node M}
    (h : nodeAt st a = some nd) : 2 ≤ a ∧ a < st.length + 2 := by
  unfold nodeAt at h
  by_cases h2 : a < 2
  · simp [h2] at h
  · rw [if_neg h2] at h
    obtain ⟨hlt, -⟩ := List.getElem?_eq_some_iff.mp h
    omega

theorem nodeAt_of_lt {st : Store M} {a : Nat} (h2 : 2 ≤ a)
    (hlt : a < st.length + 2) : ∃ nd, nodeAt st a = some nd := by
  unfold nodeAt
  rw [if_neg (by omega)]
  exact ⟨st.get ⟨a - 2, by omega⟩, by
    rw [List.get_eq_getElem]; exact List.getElem?_eq_getElem (by omega)⟩

theorem nodeAt_congr {st st' : Store M} (hext : StoreExtends st st')
    {a : Nat} (hlt : a < st.length + 2) : nodeAt st' a = nodeAt st a := by
  obtain ⟨t, rfl⟩ := hext
  unfold nodeAt
  by_cases h2 : a < 2
  · simp [h2]
  · rw [if_neg h2, if_neg h2, List.getElem?_append_left (by omega)]

theorem nodeAt_extends {st st' : Store M} (hext : StoreExtends st st')
    {a : Nat} {nd : Node M} (h : nodeAt st a = some nd) :
    nodeAt st' a = some nd := by
  rw [nodeAt_congr hext (nodeAt_some_range h).2]
  exact h

theorem nodeAt_get {st : Store M} {a : Nat} {nd : Node M}
    (h : nodeAt st a = some nd) :
    ∃ hk : a - 2 < st.length, st.get ⟨a - 2, hk⟩ = nd := by
  unfold nodeAt at h
  by_cases h2 : a < 2
  · simp [h2] at h
  · rw [if_neg h2] at h
    obtain ⟨hlt, he⟩ := List.getElem?_eq_some_iff.mp h
    exact ⟨hlt, by rw [List.get_eq_getElem]; exact he⟩

theorem storeWF_children {st : Store M} (wf : StoreWF st) {a : Nat}
    {nd : Node M} (h : nodeAt st a = some nd) :
    nd.lo.address < a ∧ nd.hi.address < a ∧
      LvlGt st nd.lo.address nd.var ∧ LvlGt st nd.hi.address nd.var := by
  have h2 := (nodeAt_some_range h).1
  obtain ⟨hk, hget⟩ := nodeAt_get h
  have hok := wf (a - 2) hk
  rw [hget] at hok
  unfold nodeOKb at hok
  simp only [Bool.and_eq_true, decide_eq_true_eq] at hok
  obtain ⟨⟨⟨hlo, hhi⟩, hclo⟩, hchi⟩ := hok
  refine ⟨by omega, by omega, ?_, ?_⟩
  · intro c hc
    unfold childOKb at hclo
    rw [hc] at hclo
    simp only [Bool.or_eq_true, decide_eq_true_eq] at hclo
    rcases hclo with h1 | h1
    · exact absurd hc (by unfold nodeAt; simp [h1])
    · exact h1
  · intro c hc
    unfold childOKb at hchi
    rw [hc] at hchi
    simp only [Bool.or_eq_true, decide_eq_true_eq] at hchi
    rcases hchi with h1 | h1
    · exact absurd hc (by unfold nodeAt; simp [h1])
    · exact h1

theorem LvlGt_congr {st st' : Store M} (hext : StoreExtends st st')
    {a v : Nat} (hlt : a < st.length + 2) :
    LvlGt st' a v ↔ LvlGt st a v := by
  unfold LvlGt
  rw [nodeAt_congr hext hlt]

theorem goodIdx_mono {st st' : Store M} (hext : StoreExtends st st')
    {e : NodeIndex M} (h : goodIdx st e) : goodIdx st' e := by
  unfold goodIdx at *
  have := hext.length_le
  omega

theorem findIdx?_some {α : Type u} (p : α → Bool) :
    ∀ (l : List α) (i : Nat), l.findIdx? p = some i →
      ∃ h : i < l.length, p (l.get ⟨i, h⟩) = true := by
  intro l
  induction l with
  | nil => intro i h; simp [List.findIdx?] at h
  | cons x xs ih =>
    intro i h
    rw [List.findIdx?_cons] at h
    by_cases hp : p x = true
    · rw [if_pos hp] at h
      obtain rfl : i = 0 := by simpa using h.symm
      exact ⟨by simp, hp⟩
    · rw [if_neg hp, List.findIdx?_succ] at h
      obtain ⟨j, hj, rfl⟩ : ∃ j, xs.findIdx? p = some j ∧ i = j + 1 := by
        cases he : xs.findIdx? p with
        | none => rw [he] at h; simp at h
        | some j => rw [he] at h; simp at h; exact ⟨j, rfl, h.symm⟩
      obtain ⟨hlt, hpj⟩ := ih j hj
      exact ⟨by simpa using Nat.succ_lt_succ hlt, hpj⟩


theorem evaluateBdd_succ (st : Store M) (fuel : Nat) (e : NodeIndex M)
    (x : List Bool) :
    evaluateBdd st (fuel+1) e x =
      if e.isSink then some e.isTrue
      else (nodeAt st e.address).bind (fun node =>
        (x[node.var]?).bind (fun b =>
          evaluateBdd st fuel (if b then node.hi else node.lo) x)) := rfl

theorem evaluateBdd_mono (st : Store M) :
    ∀ fuel fuel' (e : NodeIndex M) x b, fuel ≤ fuel' →
      evaluateBdd st fuel e x = some b → evaluateBdd st fuel' e x = some b := by
  intro fuel
  induction fuel with
  | zero => intro fuel' e x b _ h; simp [evaluateBdd] at h
  | succ f ih =>
    intro fuel' e x b hle h
    obtain ⟨f', rfl⟩ : ∃ f', fuel' = f' + 1 := ⟨fuel' - 1, by omega⟩
    rw [evaluateBdd_succ] at h ⊢
    by_cases hs : e.isSink
    · rw [if_pos hs] at h ⊢; exact h
    · rw [if_neg hs] at h ⊢
      cases hn : nodeAt st e.address with
      | none => rw [hn] at h; simp at h
      | some nd =>
        rw [hn] at h
        simp only [Option.some_bind] at h ⊢
        cases hx : x[nd.var]? with
        | none => rw [hx] at h; simp at h
        | some xv =>
          rw [hx] at h
          simp only [Option.some_bind] at h ⊢
          exact ih f' _ x b (by omega) h

theorem evaluateBdd_mult (st : Store M) (fuel : Nat) (a : Nat) (m m' : M)
    (x : List Bool) :
    evaluateBdd st fuel ⟨a, m⟩ x = evaluateBdd st fuel ⟨a, m'⟩ x := by
  cases fuel with
  | zero => rfl
  | succ f =>
    rw [evaluateBdd_succ, evaluateBdd_succ]
    simp [NodeIndex.isSink, NodeIndex.isTrue, NodeIndex.isFalse]

theorem evaluateBdd_extends {st st' : Store M} (hext : StoreExtends st st') :
    ∀ fuel (e : NodeIndex M) x b,
      evaluateBdd st fuel e x = some b → evaluateBdd st' fuel e x = some b := by
  intro fuel
  induction fuel with
  | zero => intro e x b h; simp [evaluateBdd] at h
  | succ f ih =>
    intro e x b h
    rw [evaluateBdd_succ] at h ⊢
    by_cases hs : e.isSink
    · rw [if_pos hs] at h ⊢; exact h
    · rw [if_neg hs] at h ⊢
      cases hn : nodeAt st e.address with
      | none => rw [hn] at h; simp at h
      | some nd =>
        rw [hn] at h
        rw [nodeAt_extends hext hn]
        simp only [Option.some_bind] at h ⊢
        cases hx : x[nd.var]? with
        | none => rw [hx] at h; simp at h
        | some xv =>
          rw [hx] at h
          simp only [Option.some_bind] at h ⊢
          exact ih _ x b h

theorem evaluateBdd_congr {st st' : Store M} (wf : StoreWF st)
    (hext : StoreExtends st st') :
    ∀ fuel (e : NodeIndex M) x, e.address < st.length + 2 →
      evaluateBdd st' fuel e x = evaluateBdd st fuel e x := by
  intro fuel
  induction fuel with
  | zero => intro e x _; rfl
  | succ f ih =>
    intro e x hgood
    rw [evaluateBdd_succ, evaluateBdd_succ]
    by_cases hs : e.isSink
    · rw [if_pos hs, if_pos hs]
    · rw [if_neg hs, if_neg hs, nodeAt_congr hext hgood]
      cases hn : nodeAt st e.address with
      | none => rfl
      | some nd =>
        simp only [Option.some_bind]
        cases hx : x[nd.var]? with
        | none => rfl
        | some xv =>
          simp only [Option.some_bind]
          have hlt := (storeWF_children wf hn).1
          have hlt2 := (storeWF_children wf hn).2.1
          have hrange := (nodeAt_some_range hn).2
          cases xv with
          | false => exact ih nd.lo x (by omega)
          | true => exact ih nd.hi x (by omega)

theorem evaluateBdd_canonical {st : Store M} (wf : StoreWF st) :
    ∀ a fuel (e : NodeIndex M) x b, e.address = a →
      evaluateBdd st fuel e x = some b →
      evaluateBdd st (e.address + 1) e x = some b := by
  intro a
  induction a using Nat.strong_induction_on with
  | _ a ih =>
    intro fuel e x b ha h
    obtain ⟨f, rfl⟩ : ∃ f, fuel = f + 1 := by
      cases fuel with
      | zero => simp [evaluateBdd] at h
      | succ f => exact ⟨f, rfl⟩
    rw [evaluateBdd_succ] at h
    by_cases hs : e.isSink
    · rw [if_pos hs] at h
      rw [evaluateBdd_succ, if_pos hs]
      exact h
    · rw [if_neg hs] at h
      cases hn : nodeAt st e.address with
      | none => rw [hn] at h; simp at h
      | some nd =>
        rw [hn] at h
        simp only [Option.some_bind] at h
        cases hx : x[nd.var]? with
        | none => rw [hx] at h; simp at h
        | some xv =>
          rw [hx] at h
          simp only [Option.some_bind] at h
          have hch : (if xv then nd.hi else nd.lo).address < e.address := by
            have h1 := (storeWF_children wf hn).1
            have h2 := (storeWF_children wf hn).2.1
            cases xv <;> simp <;> omega
          have hrec := ih _ (ha ▸ hch) f _ x b rfl h
          rw [evaluateBdd_succ, if_neg hs, hn]
          simp only [Option.some_bind, hx]
          exact evaluateBdd_mono st _ _ _ x b (by omega) hrec

theorem EvalBdd_mono_fuel {st : Store M} {e : NodeIndex M} {x : List Bool}
    {b : Bool} {fuel : Nat} (h : evaluateBdd st fuel e x = some b) :
    EvalBdd st e x b := ⟨fuel, h⟩

theorem EvalBdd_det {st : Store M} {e : NodeIndex M} {x : List Bool}
    {b b' : Bool} (h : EvalBdd st e x b) (h' : EvalBdd st e x b') : b = b' := by
  obtain ⟨f1, h1⟩ := h
  obtain ⟨f2, h2⟩ := h'
  have e1 := evaluateBdd_mono st f1 (f1 + f2) e x b (by omega) h1
  have e2 := evaluateBdd_mono st f2 (f1 + f2) e x b' (by omega) h2
  rw [e1] at e2
  exact Option.some_injective Bool e2

theorem EvalBdd_extends {st st' : Store M} (hext : StoreExtends st st')
    {e : NodeIndex M} {x : List Bool} {b : Bool} (h : EvalBdd st e x b) :
    EvalBdd st' e x b := by
  obtain ⟨f, hf⟩ := h
  exact ⟨f, evaluateBdd_extends hext f e x b hf⟩

theorem EvalBdd_congr {st st' : Store M} (wf : StoreWF st)
    (hext : StoreExtends st st') {e : NodeIndex M} (hg : goodIdx st e)
    {x : List Bool} {b : Bool} (h : EvalBdd st' e x b) : EvalBdd st e x b := by
  obtain ⟨f, hf⟩ := h
  rw [evaluateBdd_congr wf hext f e x hg] at hf
  exact ⟨f, hf⟩

theorem EvalBdd_mult {st : Store M} {a : Nat} {m m' : M} {x : List Bool}
    {b : Bool} (h : EvalBdd st ⟨a, m⟩ x b) : EvalBdd st ⟨a, m'⟩ x b := by
  obtain ⟨f, hf⟩ := h
  rw [evaluateBdd_mult st f a m m' x] at hf
  exact ⟨f, hf⟩

theorem EvalBdd_false {st : Store M} {m : M} {x : List Bool} {b : Bool}
    (h : EvalBdd st ⟨0, m⟩ x b) : b = false := by
  obtain ⟨f, hf⟩ := h
  cases f with
  | zero => simp [evaluateBdd] at hf
  | succ f =>
    rw [evaluateBdd_succ] at hf
    simp [NodeIndex.isSink, NodeIndex.isFalse, NodeIndex.isTrue] at hf
    exact hf

theorem EvalBdd_true {st : Store M} {m : M} {x : List Bool} {b : Bool}
    (h : EvalBdd st ⟨1, m⟩ x b) : b = true := by
  obtain ⟨f, hf⟩ := h
  cases f with
  | zero => simp [evaluateBdd] at hf
  | succ f =>
    rw [evaluateBdd_succ] at hf
    simp [NodeIndex.isSink, NodeIndex.isFalse, NodeIndex.isTrue] at hf
    exact hf

theorem EvalBdd_false_intro (st : Store M) (m : M) (x : List Bool) :
    EvalBdd st ⟨0, m⟩ x false :=
  ⟨1, by simp [evaluateBdd, NodeIndex.isSink, NodeIndex.isFalse, NodeIndex.isTrue]⟩

theorem EvalBdd_true_intro (st : Store M) (m : M) (x : List Bool) :
    EvalBdd st ⟨1, m⟩ x true :=
  ⟨1, by simp [evaluateBdd, NodeIndex.isSink, NodeIndex.isFalse, NodeIndex.isTrue]⟩

theorem EvalBdd_step {st : Store M} {e : NodeIndex M} {nd : Node M}
    (hn : nodeAt st e.address = some nd) {x : List Bool} {b : Bool} :
    EvalBdd st e x b ↔
      ∃ xv, x[nd.var]? = some xv ∧ EvalBdd st (if xv then nd.hi else nd.lo) x b := by
  have hs : e.isSink = false := by
    have := (nodeAt_some_range hn).1
    simp [NodeIndex.isSink, NodeIndex.isFalse, NodeIndex.isTrue]
    omega
  constructor
  · rintro ⟨f, hf⟩
    obtain ⟨f0, rfl⟩ : ∃ f0, f = f0 + 1 := by
      cases f with
      | zero => simp [evaluateBdd] at hf
      | succ f0 => exact ⟨f0, rfl⟩
    rw [evaluateBdd_succ, if_neg (by simp [hs]), hn] at hf
    simp only [Option.some_bind] at hf
    cases hx : x[nd.var]? with
    | none => rw [hx] at hf; simp at hf
    | some xv =>
      rw [hx] at hf
      simp only [Option.some_bind] at hf
      exact ⟨xv, rfl, ⟨f0, hf⟩⟩

  · rintro ⟨xv, hx, f0, hf⟩
    refine ⟨f0 + 1, ?_⟩
    rw [evaluateBdd_succ, if_neg (by simp [hs]), hn]
    simp only [Option.some_bind, hx]
    exact hf

theorem cacheFind_mem [DecidableEq K] {c : Cache K V} {k : K} {r : V}
    (h : cacheFind c k = some r) : (k, r) ∈ c := by
  unfold cacheFind at h
  cases hf : c.find? (fun kv => kv.1 = k) with
  | none => rw [hf] at h; simp at h
  | some kv =>
    rw [hf] at h
    have h2 : kv.2 = r := by simpa using h
    have hp := List.find?_some hf
    have hm := List.mem_of_find?_eq_some hf
    simp only [decide_eq_true_eq] at hp
    have hkv : kv = (k, r) := by
      cases kv with
      | mk k1 v1 =>
        simp only at hp h2
        rw [hp, h2]
    rw [hkv] at hm
    exact hm


theorem childOKb_congr {st st' : Store M} (hext : StoreExtends st st') {v : Nat}
    {e : NodeIndex M} (hgood : e.address < st.length + 2) :
    childOKb st' v e = childOKb st v e := by
  unfold childOKb
  rw [nodeAt_congr hext hgood]

theorem childOKb_of {st : Store M} {v : Nat} {e : NodeIndex M}
    (hgood : e.address < st.length + 2) (hlvl : LvlGt st e.address v) :
    childOKb st v e = true := by
  unfold childOKb
  by_cases h2 : e.address < 2
  · simp [h2]
  · obtain ⟨c, hc⟩ := nodeAt_of_lt (by omega) hgood
    simp [h2, hc, hlvl c hc]

theorem storeWF_append {st : Store M} (wf : StoreWF st) {nd2 : Node M}
    (hlo : nd2.lo.address < st.length + 2) (hhi : nd2.hi.address < st.length + 2)
    (hvlo : LvlGt st nd2.lo.address nd2.var) (hvhi : LvlGt st nd2.hi.address nd2.var) :
    StoreWF (st ++ [nd2]) := by
  have hext : StoreExtends st (st ++ [nd2]) := ⟨[nd2], rfl⟩
  intro k h
  have hklen : k < st.length + 1 := by simpa using h
  by_cases hk : k < st.length
  · have hget : (st ++ [nd2]).get ⟨k, h⟩ = st.get ⟨k, hk⟩ := by
      simp [List.get_eq_getElem, List.getElem_append_left hk]
    rw [hget]
    have hwf := wf k hk
    set nd := st.get ⟨k, hk⟩ with hnd
    unfold nodeOKb at hwf ⊢
    simp only [Bool.and_eq_true, decide_eq_true_eq] at hwf ⊢
    obtain ⟨⟨⟨h1, h2⟩, h3⟩, h4⟩ := hwf
    refine ⟨⟨⟨h1, h2⟩, ?_⟩, ?_⟩
    · rw [childOKb_congr hext (by omega)]; exact h3
    · rw [childOKb_congr hext (by omega)]; exact h4
  · have hk2 : k = st.length := by omega
    subst hk2
    have hget : (st ++ [nd2]).get ⟨st.length, h⟩ = nd2 := by
      rw [List.get_eq_getElem]
      simp
    rw [hget]
    unfold nodeOKb
    simp only [Bool.and_eq_true, decide_eq_true_eq]
    refine ⟨⟨⟨by omega, by omega⟩, ?_⟩, ?_⟩
    · rw [childOKb_congr hext hlo]; exact childOKb_of hlo hvlo
    · rw [childOKb_congr hext hhi]; exact childOKb_of hhi hvhi

theorem addNodeIfNotPresent_cases [DecidableEq M] (ops : MultOps M)
    (st : Store M) (nd : Node M) :
    ∃ (nd2 : Node M) (m : M),
      nd2.var = nd.var ∧ nd2.lo.address = nd.lo.address ∧
      nd2.hi.address = nd.hi.address ∧
      ((∃ a, findNodeIndex st nd2 = some a ∧
          addNodeIfNotPresent ops st nd = (st, ⟨a, m⟩)) ∨
        (findNodeIndex st nd2 = none ∧
          addNodeIfNotPresent ops st nd = (st ++ [nd2], ⟨st.length + 2, m⟩))) := by
  unfold addNodeIfNotPresent
  by_cases hirr : ops.irrelevant
  · simp only [if_pos hirr]
    refine ⟨nd, ops.one, rfl, rfl, rfl, ?_⟩
    cases hf : findNodeIndex st nd with
    | some a => exact Or.inl ⟨a, rfl, by simp [hf]⟩
    | none => exact Or.inr ⟨rfl, by simp [hf, addNode]⟩
  · simp only [if_neg hirr]
    set t := if nd.hi.isFalse then (ops.one, ops.one, nd.lo.multiplicity)
      else if nd.lo.isFalse then (ops.one, ops.one, nd.hi.multiplicity)
      else ops.gcd nd.lo.multiplicity nd.hi.multiplicity with ht
    refine ⟨⟨nd.var, ⟨nd.lo.address, t.1⟩, ⟨nd.hi.address, t.2.1⟩⟩, t.2.2,
      rfl, rfl, rfl, ?_⟩
    cases hf : findNodeIndex st ⟨nd.var, ⟨nd.lo.address, t.1⟩, ⟨nd.hi.address, t.2.1⟩⟩ with
    | some a => exact Or.inl ⟨a, rfl, by simp [hf]⟩
    | none => exact Or.inr ⟨rfl, by simp [hf, addNode]⟩

theorem findNodeIndex_some [DecidableEq M] {st : Store M} {nd : Node M} {a : Nat}
    (h : findNodeIndex st nd = some a) : nodeAt st a = some nd ∧ 2 ≤ a := by
  unfold findNodeIndex at h
  cases hf : st.findIdx? (fun n => n = nd) with
  | none => rw [hf] at h; simp at h
  | some i =>
    rw [hf] at h
    simp only [Option.map_some'] at h
    obtain ⟨hlt, hp⟩ := findIdx?_some _ st i hf
    simp only [decide_eq_true_eq] at hp
    have ha : a = i + 2 := by
      have := Option.some_injective _ h
      omega
    subst ha
    constructor
    · unfold nodeAt
      rw [if_neg (by omega)]
      have : i + 2 - 2 = i := by omega
      rw [this]
      rw [List.getElem?_eq_getElem (by omega)]
      rw [← List.get_eq_getElem st ⟨i, hlt⟩]
      rw [hp]
    · omega

theorem addNodeIfNotPresent_spec [DecidableEq M] (ops : MultOps M)
    {st : Store M} (wf : StoreWF st) (nd : Node M)
    (hlo : nd.lo.address < st.length + 2) (hhi : nd.hi.address < st.length + 2)
    (hvlo : LvlGt st nd.lo.address nd.var) (hvhi : LvlGt st nd.hi.address nd.var) :
    StoreExtends st (addNodeIfNotPresent ops st nd).1 ∧
    StoreWF (addNodeIfNotPresent ops st nd).1 ∧
    (addNodeIfNotPresent ops st nd).1.length ≤ st.length + 1 ∧
    goodIdx (addNodeIfNotPresent ops st nd).1 (addNodeIfNotPresent ops st nd).2 ∧
    (∃ nd', nodeAt (addNodeIfNotPresent ops st nd).1
        (addNodeIfNotPresent ops st nd).2.address = some nd' ∧
      nd'.var = nd.var ∧ nd'.lo.address = nd.lo.address ∧
      nd'.hi.address = nd.hi.address) ∧
    (∀ V, VarsBelow V st → nd.var < V →
      VarsBelow V (addNodeIfNotPresent ops st nd).1) := by
  obtain ⟨nd2, m, hvar, hloa, hhia, hcase⟩ := addNodeIfNotPresent_cases ops st nd
  rcases hcase with ⟨a, hf, heq⟩ | ⟨hf, heq⟩
  · rw [heq]
    obtain ⟨hna, ha2⟩ := findNodeIndex_some hf
    refine ⟨StoreExtends.refl st, wf, Nat.le_succ st.length, ?_, ?_, ?_⟩
    · exact (nodeAt_some_range hna).2
    · exact ⟨nd2, hna, hvar, hloa, hhia⟩
    · intro V hV _; exact hV
  · rw [heq]
    have hext : StoreExtends st (st ++ [nd2]) := ⟨[nd2], rfl⟩
    have hwf2 : StoreWF (st ++ [nd2]) := by
      refine storeWF_append wf (by omega) (by omega) ?_ ?_
      · rw [hloa, hvar]; exact hvlo
      · rw [hhia, hvar]; exact hvhi
    have hna : nodeAt (st ++ [nd2]) (st.length + 2) = some nd2 := by
      unfold nodeAt
      rw [if_neg (by omega)]
      have h1 : st.length + 2 - 2 = st.length := by omega
      rw [h1]
      rw [List.getElem?_eq_getElem (by simp)]
      congr
      rw [List.getElem_append_right (by omega)]
      simp
    refine ⟨hext, hwf2, by simp, ?_, ⟨nd2, hna, hvar, hloa, hhia⟩, ?_⟩
    · show st.length + 2 < (st ++ [nd2]).length + 2
      simp
    intro V hV hvar2
    intro k h
    have hklen : k < st.length + 1 := by simpa using h
    by_cases hk : k < st.length
    · have hget : (st ++ [nd2]).get ⟨k, h⟩ = st.get ⟨k, hk⟩ := by
        simp [List.get_eq_getElem, List.getElem_append_left hk]
      rw [hget]
      exact hV k hk
    · have hk2 : k = st.length := by omega
      subst hk2
      have hget : (st ++ [nd2]).get ⟨st.length, h⟩ = nd2 := by
        rw [List.get_eq_getElem]
        simp
      rw [hget, hvar]
      exact hvar2


theorem LvlGt_sink {st : Store M} {a v : Nat} (h : a < 2) : LvlGt st a v := by
  intro nd hnd
  have := (nodeAt_some_range hnd).1
  omega

theorem LvlGt_of_node {st : Store M} {a v : Nat} {nd : Node M}
    (hnd : nodeAt st a = some nd) (h : v < nd.var) : LvlGt st a v := by
  intro nd' hnd'
  rw [hnd] at hnd'
  cases Option.some_injective _ hnd'
  exact h

theorem LvlGt_node_elim {st : Store M} {a v : Nat} {nd : Node M}
    (hl : LvlGt st a v) (hnd : nodeAt st a = some nd) : v < nd.var := hl nd hnd

theorem MulCacheOK_nil (st : Store M) :
    MulCacheOK st ([] : Cache (NodeIndex M × NodeIndex M) (NodeIndex M)) := by
  intro p hp
  simp at hp

theorem MulCacheOK_extends {st st' : Store M} (wf : StoreWF st)
    (hext : StoreExtends st st')
    {cache : Cache (NodeIndex M × NodeIndex M) (NodeIndex M)}
    (hc : MulCacheOK st cache) : MulCacheOK st' cache := by
  intro p hp
  obtain ⟨hg1, hg2, hg3, hlvl, heval⟩ := hc p hp
  refine ⟨goodIdx_mono hext hg1, goodIdx_mono hext hg2, goodIdx_mono hext hg3,
    ?_, ?_⟩
  · intro v h1 h2
    rw [LvlGt_congr hext hg3]
    rw [LvlGt_congr hext hg1] at h1
    rw [LvlGt_congr hext hg2] at h2
    exact hlvl v h1 h2
  · intro x b1 b2 h1 h2
    exact EvalBdd_extends hext
      (heval x b1 b2 (EvalBdd_congr wf hext hg1 h1) (EvalBdd_congr wf hext hg2 h2))

theorem nodeIncorporatingMultiplicity_some {ops : MultOps M} {st : Store M}
    {i : NodeIndex M} {nd : Node M}
    (h : nodeIncorporatingMultiplicity ops st i = some nd) :
    ∃ n0, nodeAt st i.address = some n0 ∧
      nd.var = n0.var ∧ nd.lo.address = n0.lo.address ∧
      nd.hi.address = n0.hi.address := by
  unfold nodeIncorporatingMultiplicity at h
  cases hn : nodeAt st i.address with
  | none => rw [hn] at h; simp at h
  | some n0 =>
    rw [hn] at h
    simp only [Option.map_some'] at h
    cases Option.some_injective _ h
    exact ⟨n0, rfl, rfl, rfl, rfl⟩


theorem LvlGt_mono {st : Store M} {a v w : Nat} (hvw : v ≤ w)
    (h : LvlGt st a w) : LvlGt st a v := by
  intro nd hnd
  have := h nd hnd
  omega

theorem EvalBdd_addr {st : Store M} {i j : NodeIndex M} {x : List Bool}
    {b : Bool} (hij : i.address = j.address) (h : EvalBdd st i x b) :
    EvalBdd st j x b := by
  have h2 : EvalBdd st ⟨i.address, j.multiplicity⟩ x b := EvalBdd_mult h
  rw [hij] at h2
  exact h2

theorem varsBelow_nodeAt {st : Store M} {V a : Nat} {nd : Node M}
    (hV : VarsBelow V st) (h : nodeAt st a = some nd) : nd.var < V := by
  obtain ⟨hk, hget⟩ := nodeAt_get h
  have := hV (a - 2) hk
  rw [hget] at this
  exact this


set_option maxHeartbeats 1000000

theorem mulBddMain [DecidableEq M] (ops : MultOps M) (f : Nat)
    (ih : ∀ (st : Store M) cache (i1 i2 : NodeIndex M) out,
      mulBdd ops f st cache i1 i2 = some out →
      StoreWF st → MulCacheOK st cache → goodIdx st i1 → goodIdx st i2 →
      MulOut st i1 i2 out)
    (st : Store M) (cache : Cache (NodeIndex M × NodeIndex M) (NodeIndex M))
    (i1 i2 : NodeIndex M)
    (out : Store M × Cache (NodeIndex M × NodeIndex M) (NodeIndex M) × NodeIndex M)
    (wf : StoreWF st) (hcache : MulCacheOK st cache)
    (hg1 : goodIdx st i1) (hg2 : goodIdx st i2)
    (node1 node2 : Node M)
    (hn1 : nodeIncorporatingMultiplicity ops st i1 = some node1)
    (hn2 : nodeIncorporatingMultiplicity ops st i2 = some node2)
    (r1 r2 : Store M × Cache (NodeIndex M × NodeIndex M) (NodeIndex M) × NodeIndex M)
    (hr1 : mulBdd ops f st cache
      (if node1.var ≤ node2.var then (node1.lo, node1.hi) else (i1, i1)).1
      (if node2.var ≤ node1.var then (node2.lo, node2.hi) else (i2, i2)).1 = some r1)
    (hr2 : mulBdd ops f r1.1 r1.2.1
      (if node1.var ≤ node2.var then (node1.lo, node1.hi) else (i1, i1)).2
      (if node2.var ≤ node1.var then (node2.lo, node2.hi) else (i2, i2)).2 = some r2)
    (key : NodeIndex M × NodeIndex M)
    (hkey : key = (i1, i2) ∨ key = (i2, i1))
    (hout : createNodeBdd ops r2.1 r2.2.1 r1.2.2 r2.2.2
      (if node1.var ≤ node2.var then node1.var else node2.var) key = out) :
    MulOut st i1 i2 out := by
  obtain ⟨n01, hn01, hv1, hlo1, hhi1⟩ := nodeIncorporatingMultiplicity_some hn1
  obtain ⟨n02, hn02, hv2, hlo2, hhi2⟩ := nodeIncorporatingMultiplicity_some hn2
  set a1 := (if node1.var ≤ node2.var then (node1.lo, node1.hi) else (i1, i1))
    with ha1
  set a2 := (if node2.var ≤ node1.var then (node2.lo, node2.hi) else (i2, i2))
    with ha2
  set vm := (if node1.var ≤ node2.var then node1.var else node2.var) with hvm
  have hch1 := storeWF_children wf hn01
  have hch2 := storeWF_children wf hn02
  have hi1r := nodeAt_some_range hn01
  have hi2r := nodeAt_some_range hn02
  -- cofactors are valid edges
  have hga11 : goodIdx st a1.1 := by
    by_cases hcmp : node1.var ≤ node2.var
    · simp only [ha1, if_pos hcmp]
      unfold goodIdx
      rw [hlo1]; omega
    · simp only [ha1, if_neg hcmp]; exact hg1
  have hga12 : goodIdx st a1.2 := by
    by_cases hcmp : node1.var ≤ node2.var
    · simp only [ha1, if_pos hcmp]
      unfold goodIdx
      rw [hhi1]; omega
    · simp only [ha1, if_neg hcmp]; exact hg1
  have hga21 : goodIdx st a2.1 := by
    by_cases hcmp : node2.var ≤ node1.var
    · simp only [ha2, if_pos hcmp]
      unfold goodIdx
      rw [hlo2]; omega
    · simp only [ha2, if_neg hcmp]; exact hg2
  have hga22 : goodIdx st a2.2 := by
    by_cases hcmp : node2.var ≤ node1.var
    · simp only [ha2, if_pos hcmp]
      unfold goodIdx
      rw [hhi2]; omega
    · simp only [ha2, if_neg hcmp]; exact hg2
  -- level bounds for the cofactors
  have hlv1 : ∀ v, v < n01.var → v < n02.var →
      LvlGt st a1.1.address v ∧ LvlGt st a1.2.address v := by
    intro v hva hvb
    by_cases hcmp : node1.var ≤ node2.var
    · simp only [ha1, if_pos hcmp]
      constructor
      · rw [hlo1]; exact LvlGt_mono (by omega) hch1.2.2.1
      · rw [hhi1]; exact LvlGt_mono (by omega) hch1.2.2.2
    · simp only [ha1, if_neg hcmp]
      exact ⟨LvlGt_of_node hn01 hva, LvlGt_of_node hn01 hva⟩
  have hlv2 : ∀ v, v < n01.var → v < n02.var →
      LvlGt st a2.1.address v ∧ LvlGt st a2.2.address v := by
    intro v hva hvb
    by_cases hcmp : node2.var ≤ node1.var
    · simp only [ha2, if_pos hcmp]
      constructor
      · rw [hlo2]; exact LvlGt_mono (by omega) hch2.2.2.1
      · rw [hhi2]; exact LvlGt_mono (by omega) hch2.2.2.2
    · simp only [ha2, if_neg hcmp]
      exact ⟨LvlGt_of_node hn02 hvb, LvlGt_of_node hn02 hvb⟩
  -- level bounds at vm itself
  have hvm1 : vm = n01.var ∨ vm = n02.var := by
    by_cases hcmp : node1.var ≤ node2.var
    · exact Or.inl (by rw [hvm, if_pos hcmp, hv1])
    · exact Or.inr (by rw [hvm, if_neg hcmp, hv2])
  have hlvm1 : LvlGt st a1.1.address vm ∧ LvlGt st a1.2.address vm := by
    by_cases hcmp : node1.var ≤ node2.var
    · have hvme : vm = n01.var := by rw [hvm, if_pos hcmp, hv1]
      simp only [ha1, if_pos hcmp, hvme]
      constructor
      · rw [hlo1]; exact hch1.2.2.1
      · rw [hhi1]; exact hch1.2.2.2
    · have hvme : vm = n02.var := by rw [hvm, if_neg hcmp, hv2]
      have hlt : n02.var < n01.var := by
        rw [← hv1, ← hv2]; omega
      simp only [ha1, if_neg hcmp, hvme]
      exact ⟨LvlGt_of_node hn01 hlt, LvlGt_of_node hn01 hlt⟩
  have hlvm2 : LvlGt st a2.1.address vm ∧ LvlGt st a2.2.address vm := by
    by_cases hcmp : node2.var ≤ node1.var
    · have hvme : vm ≤ n02.var := by
        by_cases hc2 : node1.var ≤ node2.var
        · have he : vm = n01.var := by rw [hvm, if_pos hc2, hv1]
          rw [he, ← hv1, ← hv2]
          exact hc2
        · have he : vm = n02.var := by rw [hvm, if_neg hc2, hv2]
          omega
      simp only [ha2, if_pos hcmp]
      constructor
      · rw [hlo2]; exact LvlGt_mono hvme hch2.2.2.1
      · rw [hhi2]; exact LvlGt_mono hvme hch2.2.2.2
    · have hvme : vm = n01.var := by
        rw [hvm, if_pos (by omega), hv1]
      have hlt : n01.var < n02.var := by
        rw [← hv1, ← hv2]; omega
      simp only [ha2, if_neg hcmp, hvme]
      exact ⟨LvlGt_of_node hn02 hlt, LvlGt_of_node hn02 hlt⟩
  -- the decision variable is readable whenever both inputs evaluate
  have hxv : ∀ x b1 b2, EvalBdd st i1 x b1 → EvalBdd st i2 x b2 →
      ∃ xv, x[vm]? = some xv := by
    intro x b1 b2 h1 h2
    by_cases hcmp : node1.var ≤ node2.var
    · obtain ⟨xv, hx, -⟩ := (EvalBdd_step hn01).mp h1
      exact ⟨xv, by rw [hvm, if_pos hcmp, hv1]; exact hx⟩
    · obtain ⟨xv, hx, -⟩ := (EvalBdd_step hn02).mp h2
      exact ⟨xv, by rw [hvm, if_neg hcmp, hv2]; exact hx⟩
  -- cofactor evaluations
  have hcof1f : ∀ x b1, EvalBdd st i1 x b1 → x[vm]? = some false →
      EvalBdd st a1.1 x b1 := by
    intro x b1 h1 hx
    by_cases hcmp : node1.var ≤ node2.var
    · have hvme : vm = n01.var := by rw [hvm, if_pos hcmp, hv1]
      obtain ⟨xv', hx', he⟩ := (EvalBdd_step hn01).mp h1
      rw [hvme] at hx
      rw [hx] at hx'
      cases Option.some_injective _ hx'
      simp only [ha1, if_pos hcmp]
      simp only [Bool.false_eq_true, if_false] at he
      exact EvalBdd_addr hlo1.symm he
    · simp only [ha1, if_neg hcmp]
      exact h1
  have hcof1t : ∀ x b1, EvalBdd st i1 x b1 → x[vm]? = some true →
      EvalBdd st a1.2 x b1 := by
    intro x b1 h1 hx
    by_cases hcmp : node1.var ≤ node2.var
    · have hvme : vm = n01.var := by rw [hvm, if_pos hcmp, hv1]
      obtain ⟨xv', hx', he⟩ := (EvalBdd_step hn01).mp h1
      rw [hvme] at hx
      rw [hx] at hx'
      cases Option.some_injective _ hx'
      simp only [ha1, if_pos hcmp]
      simp only [if_true] at he
      exact EvalBdd_addr hhi1.symm he
    · simp only [ha1, if_neg hcmp]
      exact h1
  have hcof2f : ∀ x b2, EvalBdd st i2 x b2 → x[vm]? = some false →
      EvalBdd st a2.1 x b2 := by
    intro x b2 h2 hx
    by_cases hcmp : node2.var ≤ node1.var
    · have hvme : vm = n02.var := by
        rcases Nat.le_total node1.var node2.var with hc | hc
        · rw [hvm, if_pos hc, hv1, ← hv2]
          rw [← hv1]
          omega
        · rw [hvm]
          by_cases hc2 : node1.var ≤ node2.var
          · rw [if_pos hc2, hv1, ← hv2, ← hv1]; omega
          · rw [if_neg hc2, hv2]
      obtain ⟨xv', hx', he⟩ := (EvalBdd_step hn02).mp h2
      rw [hvme] at hx
      rw [hx] at hx'
      cases Option.some_injective _ hx'
      simp only [ha2, if_pos hcmp]
      simp only [Bool.false_eq_true, if_false] at he
      exact EvalBdd_addr hlo2.symm he
    · simp only [ha2, if_neg hcmp]
      exact h2
  have hcof2t : ∀ x b2, EvalBdd st i2 x b2 → x[vm]? = some true →
      EvalBdd st a2.2 x b2 := by
    intro x b2 h2 hx
    by_cases hcmp : node2.var ≤ node1.var
    · have hvme : vm = n02.var := by
        rcases Nat.le_total node1.var node2.var with hc | hc
        · rw [hvm, if_pos hc, hv1, ← hv2]
          rw [← hv1]
          omega
        · rw [hvm]
          by_cases hc2 : node1.var ≤ node2.var
          · rw [if_pos hc2, hv1, ← hv2, ← hv1]; omega
          · rw [if_neg hc2, hv2]
      obtain ⟨xv', hx', he⟩ := (EvalBdd_step hn02).mp h2
      rw [hvme] at hx
      rw [hx] at hx'
      cases Option.some_injective _ hx'
      simp only [ha2, if_pos hcmp]
      simp only [if_true] at he
      exact EvalBdd_addr hhi2.symm he
    · simp only [ha2, if_neg hcmp]
      exact h2
  -- the two recursive calls
  obtain ⟨ext1, wf1, hc1, hgr1, hlvl1, hvb1, hev1⟩ :=
    ih st cache a1.1 a2.1 r1 hr1 wf hcache hga11 hga21
  obtain ⟨ext2, wf2, hc2, hgr2, hlvl2, hvb2, hev2⟩ :=
    ih r1.1 r1.2.1 a1.2 a2.2 r2 hr2 wf1 hc1 (goodIdx_mono ext1 hga12)
      (goodIdx_mono ext1 hga22)
  have hgr1' : goodIdx r2.1 r1.2.2 := goodIdx_mono ext2 hgr1
  -- levels of the recursion results at vm
  have hrlv1 : LvlGt r2.1 r1.2.2.address vm := by
    rw [LvlGt_congr ext2 hgr1]
    exact hlvl1 vm hlvm1.1 hlvm2.1
  have hrlv2 : LvlGt r2.1 r2.2.2.address vm := by
    refine hlvl2 vm ?_ ?_
    · rw [LvlGt_congr ext1 hga12]
      exact hlvm1.2
    · rw [LvlGt_congr ext1 hga22]
      exact hlvm2.2
  -- case split on the reduction in create_node_bdd
  by_cases hmerge : r1.2.2 = r2.2.2
  · -- the two children are equal: the result is the common child
    have hout2 : out = (r2.1, cacheInsert r2.2.1 key r1.2.2, r1.2.2) := by
      rw [← hout]
      unfold createNodeBdd
      simp [hmerge]
    subst hout2
    have hextTot : StoreExtends st r2.1 := StoreExtends.trans ext1 ext2
    have hreslvl : ∀ v, v < n01.var → v < n02.var →
        LvlGt r2.1 r1.2.2.address v := by
      intro v hva hvb
      rw [LvlGt_congr ext2 hgr1]
      exact hlvl1 v (hlv1 v hva hvb).1 (hlv2 v hva hvb).1
    have hevalFin : ∀ x b1 b2, EvalBdd st i1 x b1 → EvalBdd st i2 x b2 →
        EvalBdd r2.1 r1.2.2 x (b1 && b2) := by
      intro x b1 b2 h1 h2
      obtain ⟨xv, hxvm⟩ := hxv x b1 b2 h1 h2
      cases xv with
      | false =>
        exact EvalBdd_extends ext2
          (hev1 x b1 b2 (hcof1f x b1 h1 hxvm) (hcof2f x b2 h2 hxvm))
      | true =>
        rw [hmerge]
        exact hev2 x b1 b2 (EvalBdd_extends ext1 (hcof1t x b1 h1 hxvm))
          (EvalBdd_extends ext1 (hcof2t x b2 h2 hxvm))
    refine ⟨hextTot, wf2, ?_, hgr1', ?_, ?_, hevalFin⟩
    · -- cache soundness with the new entry
      intro p hp
      rcases List.mem_cons.mp hp with hpk | hpold
      · subst hpk
        rcases hkey with hk | hk <;> subst hk
        · refine ⟨goodIdx_mono hextTot hg1, goodIdx_mono hextTot hg2, hgr1',
            ?_, ?_⟩
          · intro v hA hB
            rw [LvlGt_congr hextTot hg1] at hA
            rw [LvlGt_congr hextTot hg2] at hB
            exact hreslvl v (LvlGt_node_elim hA hn01) (LvlGt_node_elim hB hn02)
          · intro x b1 b2 hA hB
            exact hevalFin x b1 b2 (EvalBdd_congr wf hextTot hg1 hA)
              (EvalBdd_congr wf hextTot hg2 hB)
        · refine ⟨goodIdx_mono hextTot hg2, goodIdx_mono hextTot hg1, hgr1',
            ?_, ?_⟩
          · intro v hA hB
            rw [LvlGt_congr hextTot hg2] at hA
            rw [LvlGt_congr hextTot hg1] at hB
            exact hreslvl v (LvlGt_node_elim hB hn01) (LvlGt_node_elim hA hn02)
          · intro x b1 b2 hA hB
            rw [Bool.and_comm]
            exact hevalFin x b2 b1 (EvalBdd_congr wf hextTot hg1 hB)
              (EvalBdd_congr wf hextTot hg2 hA)
      · exact hc2 p hpold
    · intro v hA hB
      exact hreslvl v (LvlGt_node_elim hA hn01) (LvlGt_node_elim hB hn02)
    · intro V hV
      exact hvb2 V (hvb1 V hV)
  · -- distinct children: a node is inserted (or found)
    have hspec := addNodeIfNotPresent_spec ops wf2
      ⟨vm, r1.2.2, r2.2.2⟩ hgr1' hgr2 hrlv1 hrlv2
    obtain ⟨extp, wfp, hlenp, hgoodp, ⟨nd', hnd', hndv, hndlo, hndhi⟩, hvbp⟩ := hspec
    have hout2 : out = ((addNodeIfNotPresent ops r2.1 ⟨vm, r1.2.2, r2.2.2⟩).1,
        cacheInsert r2.2.1 key (addNodeIfNotPresent ops r2.1 ⟨vm, r1.2.2, r2.2.2⟩).2,
        (addNodeIfNotPresent ops r2.1 ⟨vm, r1.2.2, r2.2.2⟩).2) := by
      rw [← hout]
      unfold createNodeBdd
      simp [hmerge]
    subst hout2
    set p2 := addNodeIfNotPresent ops r2.1 ⟨vm, r1.2.2, r2.2.2⟩ with hp2
    have hextTot : StoreExtends st p2.1 :=
      StoreExtends.trans ext1 (StoreExtends.trans ext2 extp)
    have hreslvl : ∀ v, v < n01.var → v < n02.var →
        LvlGt p2.1 p2.2.address v := by
      intro v hva hvb
      refine LvlGt_of_node hnd' ?_
      rw [hndv]
      show v < vm
      rcases hvm1 with hh | hh <;> rw [hh] <;> omega
    have hevalFin : ∀ x b1 b2, EvalBdd st i1 x b1 → EvalBdd st i2 x b2 →
        EvalBdd p2.1 p2.2 x (b1 && b2) := by
      intro x b1 b2 h1 h2
      obtain ⟨xv, hxvm⟩ := hxv x b1 b2 h1 h2
      refine (EvalBdd_step hnd').mpr ⟨xv, ?_, ?_⟩
      · rw [hndv]; exact hxvm
      · cases xv with
        | false =>
          simp only [Bool.false_eq_true, if_false]
          refine EvalBdd_addr (show r1.2.2.address = nd'.lo.address from hndlo.symm) ?_
          exact EvalBdd_extends (StoreExtends.trans ext2 extp)
            (hev1 x b1 b2 (hcof1f x b1 h1 hxvm) (hcof2f x b2 h2 hxvm))
        | true =>
          simp only [if_true]
          refine EvalBdd_addr (show r2.2.2.address = nd'.hi.address from hndhi.symm) ?_
          exact EvalBdd_extends extp
            (hev2 x b1 b2 (EvalBdd_extends ext1 (hcof1t x b1 h1 hxvm))
              (EvalBdd_extends ext1 (hcof2t x b2 h2 hxvm)))
    refine ⟨hextTot, wfp, ?_, hgoodp, ?_, ?_, hevalFin⟩
    · intro p hp
      rcases List.mem_cons.mp hp with hpk | hpold
      · subst hpk
        rcases hkey with hk | hk <;> subst hk
        · refine ⟨goodIdx_mono hextTot hg1, goodIdx_mono hextTot hg2, hgoodp,
            ?_, ?_⟩
          · intro v hA hB
            rw [LvlGt_congr hextTot hg1] at hA
            rw [LvlGt_congr hextTot hg2] at hB
            exact hreslvl v (LvlGt_node_elim hA hn01) (LvlGt_node_elim hB hn02)
          · intro x b1 b2 hA hB
            exact hevalFin x b1 b2 (EvalBdd_congr wf hextTot hg1 hA)
              (EvalBdd_congr wf hextTot hg2 hB)
        · refine ⟨goodIdx_mono hextTot hg2, goodIdx_mono hextTot hg1, hgoodp,
            ?_, ?_⟩
          · intro v hA hB
            rw [LvlGt_congr hextTot hg2] at hA
            rw [LvlGt_congr hextTot hg1] at hB
            exact hreslvl v (LvlGt_node_elim hB hn01) (LvlGt_node_elim hA hn02)
          · intro x b1 b2 hA hB
            rw [Bool.and_comm]
            exact hevalFin x b2 b1 (EvalBdd_congr wf hextTot hg1 hB)
              (EvalBdd_congr wf hextTot hg2 hA)
      · exact MulCacheOK_extends wf2 extp hc2 p hpold
    · intro v hA hB
      exact hreslvl v (LvlGt_node_elim hA hn01) (LvlGt_node_elim hB hn02)
    · intro V hV
      refine hvbp V (hvb2 V (hvb1 V hV)) ?_
      show vm < V
      rcases hvm1 with hh | hh
      · rw [hh]
        exact varsBelow_nodeAt hV hn01
      · rw [hh]
        exact varsBelow_nodeAt hV hn02


theorem mulBdd_spec [DecidableEq M] (ops : MultOps M) :
    ∀ fuel (st : Store M) cache (i1 i2 : NodeIndex M) out,
      mulBdd ops fuel st cache i1 i2 = some out →
      StoreWF st → MulCacheOK st cache → goodIdx st i1 → goodIdx st i2 →
      MulOut st i1 i2 out := by
  intro fuel
  induction fuel with
  | zero => intro st cache i1 i2 out h; simp [mulBdd] at h
  | succ f ih =>
    intro st cache i1 i2 out h wf hcache hg1 hg2
    simp only [mulBdd] at h
    by_cases hf12 : (i1.isFalse || i2.isFalse) = true
    · rw [if_pos hf12] at h
      cases Option.some_injective _ h
      refine ⟨StoreExtends.refl st, wf, hcache, by simp [goodIdx, NodeIndex.FALSE],
        ?_, ?_, ?_⟩
      · intro v _ _
        exact LvlGt_sink (by simp [NodeIndex.FALSE])
      · intro V hV; exact hV
      · intro x b1 b2 h1 h2
        simp only [Bool.or_eq_true] at hf12
        rcases hf12 with hf | hf
        · have hb1 : b1 = false := by
            have : i1 = ⟨0, i1.multiplicity⟩ := by
              cases i1; simp [NodeIndex.isFalse] at hf; simp [hf]
            rw [this] at h1
            exact EvalBdd_false h1
          rw [hb1]
          simp only [Bool.false_and]
          exact EvalBdd_false_intro st ops.one x
        · have hb2 : b2 = false := by
            have : i2 = ⟨0, i2.multiplicity⟩ := by
              cases i2; simp [NodeIndex.isFalse] at hf; simp [hf]
            rw [this] at h2
            exact EvalBdd_false h2
          rw [hb2]
          simp only [Bool.and_false]
          exact EvalBdd_false_intro st ops.one x
    · rw [if_neg hf12] at h
      by_cases ht1 : i1.isTrue = true
      · rw [if_pos ht1] at h
        cases Option.some_injective _ h
        refine ⟨StoreExtends.refl st, wf, hcache, hg2, ?_, ?_, ?_⟩
        · intro v _ h2v; exact h2v
        · intro V hV; exact hV
        · intro x b1 b2 h1 h2
          have hb1 : b1 = true := by
            have : i1 = ⟨1, i1.multiplicity⟩ := by
              cases i1; simp [NodeIndex.isTrue] at ht1; simp [ht1]
            rw [this] at h1
            exact EvalBdd_true h1
          rw [hb1]
          simp only [Bool.true_and]
          exact EvalBdd_mult h2
      · rw [if_neg ht1] at h
        by_cases ht2 : i2.isTrue = true
        · rw [if_pos ht2] at h
          cases Option.some_injective _ h
          refine ⟨StoreExtends.refl st, wf, hcache, hg1, ?_, ?_, ?_⟩
          · intro v h1v _; exact h1v
          · intro V hV; exact hV
          · intro x b1 b2 h1 h2
            have hb2 : b2 = true := by
              have : i2 = ⟨1, i2.multiplicity⟩ := by
                cases i2; simp [NodeIndex.isTrue] at ht2; simp [ht2]
              rw [this] at h2
              exact EvalBdd_true h2
            rw [hb2]
            simp only [Bool.and_true]
            exact EvalBdd_mult h1
        · rw [if_neg ht2] at h
          by_cases hirr : (ops.irrelevant && i1.address == i2.address) = true
          · rw [if_pos hirr] at h
            cases Option.some_injective _ h
            simp only [Bool.and_eq_true, beq_iff_eq] at hirr
            refine ⟨StoreExtends.refl st, wf, hcache, hg1, ?_, ?_, ?_⟩
            · intro v h1v _; exact h1v
            · intro V hV; exact hV
            · intro x b1 b2 h1 h2
              have hb : b2 = b1 := by
                have h2' : EvalBdd st ⟨i1.address, i1.multiplicity⟩ x b2 := by
                  rw [hirr.2]
                  exact EvalBdd_mult h2
                exact EvalBdd_det h2' h1
              rw [hb, Bool.and_self]
              exact EvalBdd_mult h1
          · rw [if_neg hirr] at h
            by_cases hlt : i1.address < i2.address
            · simp only [if_pos hlt] at h
              cases hcf : cacheFind cache (i1, i2) with
              | some res =>
                rw [hcf] at h
                cases Option.some_injective _ h
                obtain ⟨hg1m, hg2m, hg3, hlvl, heval⟩ := hcache _ (cacheFind_mem hcf)
                exact ⟨StoreExtends.refl st, wf, hcache, hg3, hlvl,
                  fun V hV => hV, heval⟩
              | none =>
                rw [hcf] at h
                cases hn1 : nodeIncorporatingMultiplicity ops st i1 with
                | none => simp [hn1] at h
                | some node1 =>
                  simp only [hn1, Option.bind_eq_bind, Option.some_bind] at h
                  cases hn2 : nodeIncorporatingMultiplicity ops st i2 with
                  | none => simp [hn2] at h
                  | some node2 =>
                    simp only [hn2, Option.bind_eq_bind, Option.some_bind] at h
                    cases hr1 : mulBdd ops f st cache
                        (if node1.var ≤ node2.var then (node1.lo, node1.hi)
                          else (i1, i1)).1
                        (if node2.var ≤ node1.var then (node2.lo, node2.hi)
                          else (i2, i2)).1 with
                    | none => simp [hr1] at h
                    | some r1 =>
                      simp only [hr1, Option.bind_eq_bind, Option.some_bind] at h
                      cases hr2 : mulBdd ops f r1.1 r1.2.1
                          (if node1.var ≤ node2.var then (node1.lo, node1.hi)
                            else (i1, i1)).2
                          (if node2.var ≤ node1.var then (node2.lo, node2.hi)
                            else (i2, i2)).2 with
                      | none => simp [hr2] at h
                      | some r2 =>
                        simp only [hr2, Option.bind_eq_bind, Option.some_bind] at h
                        have hout := Option.some_injective _ h
                        exact mulBddMain ops f ih st cache i1 i2 out wf hcache
                          hg1 hg2 node1 node2 hn1 hn2 r1 r2 hr1 hr2
                          (i1, i2) (Or.inl rfl) hout
            · simp only [if_neg hlt] at h
              cases hcf : cacheFind cache (i2, i1) with
              | some res =>
                rw [hcf] at h
                cases Option.some_injective _ h
                obtain ⟨hg1m, hg2m, hg3, hlvl, heval⟩ := hcache _ (cacheFind_mem hcf)
                refine ⟨StoreExtends.refl st, wf, hcache, hg3, ?_,
                  fun V hV => hV, ?_⟩
                · intro v h1 h2
                  exact hlvl v h2 h1
                · intro x b1 b2 h1 h2
                  rw [Bool.and_comm]
                  exact heval x b2 b1 h2 h1
              | none =>
                rw [hcf] at h
                cases hn1 : nodeIncorporatingMultiplicity ops st i1 with
                | none => simp [hn1] at h
                | some node1 =>
                  simp only [hn1, Option.bind_eq_bind, Option.some_bind] at h
                  cases hn2 : nodeIncorporatingMultiplicity ops st i2 with
                  | none => simp [hn2] at h
                  | some node2 =>
                    simp only [hn2, Option.bind_eq_bind, Option.some_bind] at h
                    cases hr1 : mulBdd ops f st cache
                        (if node1.var ≤ node2.var then (node1.lo, node1.hi)
                          else (i1, i1)).1
                        (if node2.var ≤ node1.var then (node2.lo, node2.hi)
                          else (i2, i2)).1 with
                    | none => simp [hr1] at h
                    | some r1 =>
                      simp only [hr1, Option.bind_eq_bind, Option.some_bind] at h
                      cases hr2 : mulBdd ops f r1.1 r1.2.1
                          (if node1.var ≤ node2.var then (node1.lo, node1.hi)
                            else (i1, i1)).2
                          (if node2.var ≤ node1.var then (node2.lo, node2.hi)
                            else (i2, i2)).2 with
                      | none => simp [hr2] at h
                      | some r2 =>
                        simp only [hr2, Option.bind_eq_bind, Option.some_bind] at h
                        have hout := Option.some_injective _ h
                        exact mulBddMain ops f ih st cache i1 i2 out wf hcache
                          hg1 hg2 node1 node2 hn1 hn2 r1 r2 hr1 hr2
                          (i2, i1) (Or.inr rfl) hout

/-- C1: in any BDD factory state (a well-formed store with a sound `and` memo
table) and for any edges `f`, `g` built in it, whenever the BDD apply
`mul_bdd(f, g)` completes, evaluating its result as a BDD on an assignment `x`
yields exactly `evaluate_bdd(f, x) ∧ evaluate_bdd(g, x)`. -/
theorem claim1_and_evaluates_conjunction [DecidableEq M] (ops : MultOps M)
    (fuel : Nat) (st st2 : Store M)
    (cache cache2 : Cache (NodeIndex M × NodeIndex M) (NodeIndex M))
    (f g rres : NodeIndex M)
    (hrun : mulBdd ops fuel st cache f g = some (st2, cache2, rres))
    (wf : StoreWF st) (hcache : MulCacheOK st cache)
    (hgf : goodIdx st f) (hgg : goodIdx st g)
    (x : List Bool) (b1 b2 : Bool) (fuel1 fuel2 : Nat)
    (h1 : evaluateBdd st fuel1 f x = some b1)
    (h2 : evaluateBdd st fuel2 g x = some b2) :
    evaluateBdd st2 (rres.address + 1) rres x = some (b1 && b2) := by
  obtain ⟨hext, wf2, hc2, hgood, hlvl, hvb, heval⟩ :=
    mulBdd_spec ops fuel st cache f g (st2, cache2, rres) hrun wf hcache hgf hgg
  obtain ⟨fuel3, h3⟩ := heval x b1 b2 ⟨fuel1, h1⟩ ⟨fuel2, h2⟩
  exact evaluateBdd_canonical wf2 rres.address fuel3 rres x (b1 && b2) rfl h3

theorem claim1_witness :
    mulBdd noMultOps 10
        ([⟨0, ⟨0,()⟩, ⟨1,()⟩⟩, ⟨1, ⟨0,()⟩, ⟨1,()⟩⟩] : Store Unit) []
        ⟨2,()⟩ ⟨3,()⟩
      = some ([⟨0, ⟨0,()⟩, ⟨1,()⟩⟩, ⟨1, ⟨0,()⟩, ⟨1,()⟩⟩, ⟨0, ⟨0,()⟩, ⟨3,()⟩⟩],
          [((⟨2,()⟩, ⟨3,()⟩), ⟨4,()⟩)], ⟨4,()⟩) ∧
    evaluateBdd ([⟨0, ⟨0,()⟩, ⟨1,()⟩⟩, ⟨1, ⟨0,()⟩, ⟨1,()⟩⟩,
        ⟨0, ⟨0,()⟩, ⟨3,()⟩⟩] : Store Unit) 5 ⟨4,()⟩ [true, true]
      = some (true && true) := by
  constructor
  · decide
  · exact claim1_and_evaluates_conjunction noMultOps 10
      [⟨0, ⟨0,()⟩, ⟨1,()⟩⟩, ⟨1, ⟨0,()⟩, ⟨1,()⟩⟩]
      [⟨0, ⟨0,()⟩, ⟨1,()⟩⟩, ⟨1, ⟨0,()⟩, ⟨1,()⟩⟩, ⟨0, ⟨0,()⟩, ⟨3,()⟩⟩]
      [] [((⟨2,()⟩, ⟨3,()⟩), ⟨4,()⟩)] ⟨2,()⟩ ⟨3,()⟩ ⟨4,()⟩
      (by decide) (by decide) (MulCacheOK_nil _) (by decide) (by decide)
      [true, true] true true 3 3 (by decide) (by decide)

theorem allVectors_succ (n : Nat) :
    allVectors (n+1) = (allVectors n).map (fun y => false :: y) ++
      (allVectors n).map (fun y => true :: y) := rfl

theorem allVectors_length : ∀ n, (allVectors n).length = 2 ^ n := by
  intro n
  induction n with
  | zero => rfl
  | succ n ih =>
    rw [allVectors_succ, List.length_append, List.length_map, List.length_map,
      ih, Nat.pow_succ]
    omega

theorem allVectors_mem (n : Nat) (x : List Bool) :
    x ∈ allVectors n ↔ x.length = n := by
  induction n generalizing x with
  | zero =>
    show x ∈ [[]] ↔ x.length = 0
    simp [List.length_eq_zero]
  | succ n ih =>
    rw [allVectors_succ]
    simp only [List.mem_append, List.mem_map]
    constructor
    · rintro (⟨y, hy, rfl⟩ | ⟨y, hy, rfl⟩) <;> simp [(ih y).mp hy]
    · intro hx
      cases x with
      | nil => simp at hx
      | cons b y =>
        have hy : y.length = n := by simpa using hx
        cases b
        · exact Or.inl ⟨y, (ih y).mpr hy, rfl⟩
        · exact Or.inr ⟨y, (ih y).mpr hy, rfl⟩

theorem allVectors_nodup : ∀ n, (allVectors n).Nodup := by
  intro n
  induction n with
  | zero => simp [allVectors]
  | succ n ih =>
    rw [allVectors_succ]
    have hinj1 : Function.Injective (fun y : List Bool => false :: y) := by
      intro a b h; injection h
    have hinj2 : Function.Injective (fun y : List Bool => true :: y) := by
      intro a b h; injection h
    refine (ih.map hinj1).append (ih.map hinj2) ?_
    intro a ha hb
    simp only [List.mem_map] at ha hb
    obtain ⟨y, -, rfl⟩ := ha
    obtain ⟨z, -, hz⟩ := hb
    exact Bool.noConfusion (List.head_eq_of_cons_eq hz)

theorem length_filter_map {α β : Type} (f : α → β) (p : β → Bool) :
    ∀ l : List α, ((l.map f).filter p).length = (l.filter (fun a => p (f a))).length := by
  intro l
  induction l with
  | nil => rfl
  | cons a t ih =>
    simp only [List.map_cons, List.filter_cons]
    by_cases hp : p (f a)
    · simp [hp, ih]
    · simp [hp, ih]

theorem doubleMod_spec (c : Nat) : ∀ k, doubleMod (c % u64) k = 2 ^ k * c % u64 := by
  intro k
  induction k with
  | zero => simp [doubleMod]
  | succ k ih =>
    show (doubleMod (c % u64) k + doubleMod (c % u64) k) % u64 = 2 ^ (k+1) * c % u64
    have h2 : 2 ^ (k+1) * c = 2 ^ k * c + 2 ^ k * c := by ring
    rw [ih, h2]
    conv_rhs => rw [Nat.add_mod]

theorem pad_getElem_lt {u i : Nat} (h : i < u) (y : List Bool) :
    (List.replicate u false ++ y)[i]? = some false := by
  rw [List.getElem?_append_left (by simpa using h)]
  simp [List.getElem?_replicate, h]

theorem pad_getElem_ge {u i : Nat} (h : u ≤ i) (y : List Bool) :
    (List.replicate u false ++ y)[i]? = y[i - u]? := by
  rw [List.getElem?_append_right (by simpa using h)]
  simp

theorem pad_shift {u i : Nat} (h : u + 1 ≤ i) (b : Bool) (y : List Bool) :
    (List.replicate u false ++ b :: y)[i]? = (List.replicate (u+1) false ++ y)[i]? := by
  rw [pad_getElem_ge (by omega), pad_getElem_ge h]
  obtain ⟨j, hj⟩ : ∃ j, i - u = j + 1 := ⟨i - u - 1, by omega⟩
  rw [hj]
  simp only [List.getElem?_cons_succ]
  congr 1
  omega

theorem pad_cons (u : Nat) (y : List Bool) :
    List.replicate u false ++ false :: y = List.replicate (u+1) false ++ y := by
  rw [List.replicate_succ', List.append_assoc]
  rfl

theorem LvlGe_mono {st : Store M} {a u w : Nat} (h : w ≤ u) (hu : LvlGe st a u) :
    LvlGe st a w := fun nd hnd => le_trans h (hu nd hnd)

theorem LvlGe_levelOf (st : Store M) (V a : Nat) : LvlGe st a (levelOf st V a) := by
  intro nd hnd
  unfold levelOf
  rw [hnd]

theorem levelOf_le {st : Store M} {V : Nat} (vb : VarsBelow V st) (a : Nat) :
    levelOf st V a ≤ V := by
  unfold levelOf
  cases hnd : nodeAt st a with
  | none => exact le_refl V
  | some nd => exact le_of_lt (varsBelow_nodeAt vb hnd)

theorem levelOf_sink {st : Store M} {V a : Nat} (h : a < 2) : levelOf st V a = V := by
  unfold levelOf
  rw [show nodeAt st a = none from by unfold nodeAt; simp [h]]

theorem levelOf_node {st : Store M} {V a : Nat} {nd : Node M}
    (h : nodeAt st a = some nd) : levelOf st V a = nd.var := by
  unfold levelOf
  rw [h]

theorem nodeIndex_unit_eta (e : NodeIndex Unit) :
    (⟨e.address, ()⟩ : NodeIndex Unit) = e := by
  cases e with
  | mk a m => cases m; rfl

theorem not_isSink_of_nodeAt {st : Store M} {e : NodeIndex M} {nd : Node M}
    (h : nodeAt st e.address = some nd) : e.isSink = false := by
  have h2 := (nodeAt_some_range h).1
  unfold NodeIndex.isSink NodeIndex.isFalse NodeIndex.isTrue
  have h0 : e.address ≠ 0 := by omega
  have h1 : e.address ≠ 1 := by omega
  simp [h0, h1]

theorem not_isSink_ge {e : NodeIndex M} (h : e.isSink = false) : 2 ≤ e.address := by
  unfold NodeIndex.isSink NodeIndex.isFalse NodeIndex.isTrue at h
  simp only [Bool.or_eq_false_iff, beq_eq_false_iff_ne, ne_eq] at h
  omega

theorem evaluateBdd_agree {st : Store M} (wf : StoreWF st) {u : Nat} :
    ∀ fuel (e : NodeIndex M) (x x' : List Bool),
      (∀ i, u ≤ i → x[i]? = x'[i]?) → LvlGe st e.address u →
      evaluateBdd st fuel e x = evaluateBdd st fuel e x' := by
  intro fuel
  induction fuel with
  | zero => intro e x x' _ _; rfl
  | succ f ih =>
    intro e x x' hag hlv
    rw [evaluateBdd_succ, evaluateBdd_succ]
    by_cases hs : e.isSink
    · rw [if_pos hs, if_pos hs]
    · rw [if_neg hs, if_neg hs]
      cases hn : nodeAt st e.address with
      | none => rfl
      | some nd =>
        simp only [Option.some_bind]
        have hvu : u ≤ nd.var := hlv nd hn
        rw [hag nd.var hvu]
        cases hx : x'[nd.var]? with
        | none => rfl
        | some b =>
          simp only [Option.some_bind]
          have hch := storeWF_children wf hn
          cases b
          · exact ih nd.lo x x' hag
              (fun c hc => le_trans hvu (le_of_lt (hch.2.2.1 c hc)))
          · exact ih nd.hi x x' hag
              (fun c hc => le_trans hvu (le_of_lt (hch.2.2.2 c hc)))

theorem evaluateBdd_total {st : Store M} (wf : StoreWF st) {V : Nat}
    (vb : VarsBelow V st) {x : List Bool} (hx : V ≤ x.length) :
    ∀ a (e : NodeIndex M), e.address ≤ a → goodIdx st e →
      ∃ b, evaluateBdd st (a+1) e x = some b := by
  intro a
  induction a with
  | zero =>
    intro e he _
    have h0 : e.address = 0 := by omega
    have hs : e.isSink = true := by
      unfold NodeIndex.isSink NodeIndex.isFalse NodeIndex.isTrue
      simp [h0]
    exact ⟨e.isTrue, by rw [evaluateBdd_succ, if_pos hs]⟩
  | succ n ih =>
    intro e he hg
    by_cases hs : e.isSink
    · exact ⟨e.isTrue, by rw [evaluateBdd_succ, if_pos hs]⟩
    · have h2 : 2 ≤ e.address := not_isSink_ge (by simpa using hs)
      obtain ⟨nd, hnd⟩ := nodeAt_of_lt h2 hg
      have hch := storeWF_children wf hnd
      have hlo := hch.1
      have hhi := hch.2.1
      have hvar : nd.var < V := varsBelow_nodeAt vb hnd
      have hxlt : nd.var < x.length := by omega
      have hglo : goodIdx st nd.lo := by unfold goodIdx at hg ⊢; omega
      have hghi : goodIdx st nd.hi := by unfold goodIdx at hg ⊢; omega
      obtain ⟨bv, hbv⟩ : ∃ bv, x[nd.var]? = some bv :=
        ⟨x.get ⟨nd.var, hxlt⟩, by
          rw [List.get_eq_getElem]; exact List.getElem?_eq_getElem hxlt⟩
      obtain ⟨b, hb⟩ : ∃ b,
          evaluateBdd st (n+1) (if bv then nd.hi else nd.lo) x = some b := by
        cases bv
        · exact ih nd.lo (by omega) hglo
        · exact ih nd.hi (by omega) hghi
      refine ⟨b, ?_⟩
      rw [evaluateBdd_succ, if_neg hs, hnd]
      simp only [Option.some_bind]
      rw [hbv]
      simp only [Option.some_bind]
      exact hb

theorem bddCountFrom_falseSink (st : Store M) (V u : Nat) (m : M) :
    bddCountFrom st V ⟨0, m⟩ u = 0 := by
  unfold bddCountFrom
  have hrw : ∀ y ∈ allVectors (V - u),
      (evaluateBdd st (st.length + 2) ⟨0, m⟩ (List.replicate u false ++ y) ==
        some true) = (fun _ : List Bool => false) y := by
    intro y _
    rfl
  rw [List.filter_congr hrw]
  simp

theorem bddCountFrom_trueSink (st : Store M) (V u : Nat) (m : M) :
    bddCountFrom st V ⟨1, m⟩ u = 2 ^ (V - u) := by
  unfold bddCountFrom
  have hrw : ∀ y ∈ allVectors (V - u),
      (evaluateBdd st (st.length + 2) ⟨1, m⟩ (List.replicate u false ++ y) ==
        some true) = (fun _ : List Bool => true) y := by
    intro y _
    rfl
  rw [List.filter_congr hrw]
  simp [allVectors_length]

theorem bddCountFrom_double {st : Store M} (wf : StoreWF st) {V : Nat}
    {e : NodeIndex M} {u : Nat} (hu : u < V) (hl : LvlGe st e.address (u+1)) :
    bddCountFrom st V e u = 2 * bddCountFrom st V e (u+1) := by
  unfold bddCountFrom
  have hVu : V - u = (V - (u+1)) + 1 := by omega
  rw [hVu, allVectors_succ, List.filter_append, List.length_append,
    length_filter_map, length_filter_map]
  have hhalf : ∀ b : Bool, ∀ y ∈ allVectors (V - (u+1)),
      (evaluateBdd st (st.length + 2) e (List.replicate u false ++ b :: y) ==
        some true) =
      (evaluateBdd st (st.length + 2) e (List.replicate (u+1) false ++ y) ==
        some true) := by
    intro b y _
    rw [evaluateBdd_agree wf (st.length + 2) e _ _
      (fun i hi => pad_shift hi b y) hl]
  rw [List.filter_congr (hhalf false), List.filter_congr (hhalf true)]
  omega

theorem bddCountFrom_bridge {st : Store M} (wf : StoreWF st) (V : Nat)
    (e : NodeIndex M) :
    ∀ k u, u + k ≤ V → LvlGe st e.address (u + k) →
      bddCountFrom st V e u = 2 ^ k * bddCountFrom st V e (u + k) := by
  intro k
  induction k with
  | zero => intro u _ _; simp
  | succ k ih =>
    intro u hk hl
    have hadd : u + 1 + k = u + (k + 1) := by omega
    have h1 : bddCountFrom st V e u = 2 * bddCountFrom st V e (u+1) :=
      bddCountFrom_double wf (by omega) (LvlGe_mono (by omega) hl)
    have h2 := ih (u+1) (by omega) (by rw [hadd]; exact hl)
    rw [h1, h2, hadd]
    ring

theorem bddCountFrom_node {st : Store M} (wf : StoreWF st) {V : Nat}
    (vb : VarsBelow V st) (e : NodeIndex M) {nd : Node M}
    (hnd : nodeAt st e.address = some nd) :
    bddCountFrom st V e nd.var =
      bddCountFrom st V nd.lo (nd.var + 1) + bddCountFrom st V nd.hi (nd.var + 1) := by
  have hv : nd.var < V := varsBelow_nodeAt vb hnd
  have hch := storeWF_children wf hnd
  have hlo := hch.1
  have hhi := hch.2.1
  have hs : e.isSink = false := not_isSink_of_nodeAt hnd
  have hea : e.address < st.length + 2 := (nodeAt_some_range hnd).2
  have hglo : goodIdx st nd.lo := by unfold goodIdx; omega
  have hghi : goodIdx st nd.hi := by unfold goodIdx; omega
  have hF : st.length + 2 = st.length + 1 + 1 := rfl
  unfold bddCountFrom
  have hVu : V - nd.var = (V - (nd.var+1)) + 1 := by omega
  rw [hVu, allVectors_succ, List.filter_append, List.length_append,
    length_filter_map, length_filter_map]
  congr 1
  · apply congrArg List.length
    apply List.filter_congr
    intro y hy
    have hylen : y.length = V - (nd.var + 1) := (allVectors_mem _ y).mp hy
    have hxlen : V ≤ (List.replicate (nd.var+1) false ++ y).length := by
      simp only [List.length_append, List.length_replicate, hylen]
      omega
    show (evaluateBdd st (st.length + 2) e
        (List.replicate nd.var false ++ false :: y) == some true) = _
    rw [pad_cons, hF, evaluateBdd_succ, if_neg (by simp [hs]), hnd]
    simp only [Option.some_bind]
    rw [pad_getElem_lt (by omega) y]
    simp only [Option.some_bind]
    obtain ⟨b, hb⟩ := evaluateBdd_total wf vb hxlen st.length nd.lo (by omega) hglo
    show (evaluateBdd st (st.length + 1) nd.lo _ == some true) = _
    rw [hb, evaluateBdd_mono st (st.length+1) (st.length+1+1) nd.lo _ b
      (by omega) hb]
  · apply congrArg List.length
    apply List.filter_congr
    intro y hy
    have hylen : y.length = V - (nd.var + 1) := (allVectors_mem _ y).mp hy
    have hxlen : V ≤ (List.replicate (nd.var+1) false ++ y).length := by
      simp only [List.length_append, List.length_replicate, hylen]
      omega
    show (evaluateBdd st (st.length + 2) e
        (List.replicate nd.var false ++ true :: y) == some true) = _
    rw [hF, evaluateBdd_succ, if_neg (by simp [hs]), hnd]
    simp only [Option.some_bind]
    have hxv : (List.replicate nd.var false ++ true :: y)[nd.var]? = some true := by
      rw [pad_getElem_ge (le_refl nd.var)]
      simp
    rw [hxv]
    simp only [Option.some_bind]
    have hlge : LvlGe st nd.hi.address (nd.var+1) := fun c hc => hch.2.2.2 c hc
    have hag := evaluateBdd_agree wf (st.length+1) nd.hi
      (List.replicate nd.var false ++ true :: y)
      (List.replicate (nd.var+1) false ++ y)
      (fun i hi => pad_shift hi true y) hlge
    obtain ⟨b, hb⟩ := evaluateBdd_total wf vb hxlen st.length nd.hi (by omega) hghi
    show (evaluateBdd st (st.length + 1) nd.hi _ == some true) = _
    rw [hag, hb, evaluateBdd_mono st (st.length+1) (st.length+1+1) nd.hi _ b
      (by omega) hb]

theorem isSink_lt {e : NodeIndex M} (h : e.isSink = true) : e.address < 2 := by
  unfold NodeIndex.isSink NodeIndex.isFalse NodeIndex.isTrue at h
  simp only [Bool.or_eq_true, beq_iff_eq] at h
  omega

theorem levelOf_branch {st : Store M} {V : Nat} {e : NodeIndex M}
    (hg : e.address < st.length + 2) :
    levelOfOpt st V e = some (levelOf st V e.address) := by
  unfold levelOfOpt
  by_cases hs : e.isSink
  · rw [if_pos hs, levelOf_sink (isSink_lt hs)]
  · rw [if_neg hs]
    obtain ⟨nd, hnd⟩ := nodeAt_of_lt (not_isSink_ge (by simpa using hs)) hg
    rw [hnd, levelOf_node hnd]
    rfl

theorem levelOf_ge_child {st : Store M} {V : Nat}
    {a v : Nat} (hl : LvlGt st a v) (hv : v < V) :
    v + 1 ≤ levelOf st V a := by
  unfold levelOf
  cases hnd : nodeAt st a with
  | none => show v + 1 ≤ V; omega
  | some nd => exact hl nd hnd

theorem ansLoop_succ [DecidableEq M] (ops : MultOps M) (gfMul : Nat → M → Nat)
    (bdd : Bool) (st : Store M) (V k i : Nat) (res : List Nat) :
    ansLoop ops gfMul bdd st V (k+1) i res =
      (nodeAt st i).bind (fun nd => (ansStep ops gfMul bdd st V res nd).bind
        (fun g => ansLoop ops gfMul bdd st V k (i+1) (res ++ [g]))) := rfl

theorem ansStep_unit_bdd {st : Store Unit} (V : Nat) {res : List Nat}
    {nd : Node Unit} {cLo cHi : Nat}
    (hLo : res[nd.lo.address]? = some cLo) (hHi : res[nd.hi.address]? = some cHi)
    (hgLo : nd.lo.address < st.length + 2) (hgHi : nd.hi.address < st.length + 2) :
    ansStep noMultOps unitGfMul true st V res nd =
      some ((dealRangeU64 cLo (nd.var + 1) (levelOf st V nd.lo.address) +
        dealRangeU64 cHi (nd.var + 1) (levelOf st V nd.hi.address)) % u64) := by
  unfold ansStep
  rw [hLo]
  simp only [Option.bind_eq_bind, Option.some_bind]
  rw [levelOf_branch hgLo]
  simp only [Option.bind_eq_bind, Option.some_bind]
  rw [hHi]
  simp only [Option.bind_eq_bind, Option.some_bind]
  rw [levelOf_branch hgHi]
  simp only [Option.bind_eq_bind, Option.some_bind]
  simp

theorem ansLoop_bdd {st : Store Unit} {V : Nat} (wf : StoreWF st)
    (vb : VarsBelow V st) :
    ∀ k i res, 2 ≤ i → i + k ≤ st.length + 2 → res.length = i →
      (∀ a, a < i → res[a]? =
        some (bddCountFrom st V ⟨a, ()⟩ (levelOf st V a) % u64)) →
      ∃ res', ansLoop noMultOps unitGfMul true st V k i res = some res' ∧
        res'.length = i + k ∧
        (∀ a, a < i + k → res'[a]? =
          some (bddCountFrom st V ⟨a, ()⟩ (levelOf st V a) % u64)) := by
  intro k
  induction k with
  | zero =>
    intro i res _ _ hlen hinv
    exact ⟨res, rfl, by omega, fun a ha => hinv a (by omega)⟩
  | succ k ih =>
    intro i res h2 hk hlen hinv
    have hilt : i < st.length + 2 := by omega
    obtain ⟨nd, hnd⟩ := nodeAt_of_lt h2 hilt
    have hch := storeWF_children wf hnd
    have hlo := hch.1
    have hhi := hch.2.1
    have hv : nd.var < V := varsBelow_nodeAt vb hnd
    have hLo := hinv nd.lo.address (by omega)
    have hHi := hinv nd.hi.address (by omega)
    rw [nodeIndex_unit_eta] at hLo hHi
    have hgLo2 : nd.lo.address < st.length + 2 := by omega
    have hgHi2 : nd.hi.address < st.length + 2 := by omega
    have hstep := ansStep_unit_bdd V hLo hHi hgLo2 hgHi2
    have hvlo : nd.var + 1 ≤ levelOf st V nd.lo.address :=
      levelOf_ge_child hch.2.2.1 hv
    have hvhi : nd.var + 1 ≤ levelOf st V nd.hi.address :=
      levelOf_ge_child hch.2.2.2 hv
    have hlolev : levelOf st V nd.lo.address ≤ V := levelOf_le vb nd.lo.address
    have hhilev : levelOf st V nd.hi.address ≤ V := levelOf_le vb nd.hi.address
    have hblo : bddCountFrom st V nd.lo (nd.var+1) =
        2 ^ (levelOf st V nd.lo.address - (nd.var+1)) *
          bddCountFrom st V nd.lo (levelOf st V nd.lo.address) := by
      have hk1 : (nd.var+1) + (levelOf st V nd.lo.address - (nd.var+1)) =
          levelOf st V nd.lo.address := by omega
      have h := bddCountFrom_bridge wf V nd.lo
        (levelOf st V nd.lo.address - (nd.var+1)) (nd.var+1) (by omega)
        (by rw [hk1]; exact LvlGe_levelOf st V nd.lo.address)
      rw [hk1] at h
      exact h
    have hbhi : bddCountFrom st V nd.hi (nd.var+1) =
        2 ^ (levelOf st V nd.hi.address - (nd.var+1)) *
          bddCountFrom st V nd.hi (levelOf st V nd.hi.address) := by
      have hk1 : (nd.var+1) + (levelOf st V nd.hi.address - (nd.var+1)) =
          levelOf st V nd.hi.address := by omega
      have h := bddCountFrom_bridge wf V nd.hi
        (levelOf st V nd.hi.address - (nd.var+1)) (nd.var+1) (by omega)
        (by rw [hk1]; exact LvlGe_levelOf st V nd.hi.address)
      rw [hk1] at h
      exact h
    have hgval : (dealRangeU64
          (bddCountFrom st V nd.lo (levelOf st V nd.lo.address) % u64)
          (nd.var + 1) (levelOf st V nd.lo.address) +
        dealRangeU64
          (bddCountFrom st V nd.hi (levelOf st V nd.hi.address) % u64)
          (nd.var + 1) (levelOf st V nd.hi.address)) % u64 =
        bddCountFrom st V (⟨i, ()⟩ : NodeIndex Unit) (levelOf st V i) % u64 := by
      unfold dealRangeU64
      rw [doubleMod_spec, doubleMod_spec, ← hblo, ← hbhi, ← Nat.add_mod,
        levelOf_node hnd]
      have hsplit := bddCountFrom_node wf vb (⟨i, ()⟩ : NodeIndex Unit) hnd
      rw [hsplit]
    rw [ansLoop_succ, hnd]
    simp only [Option.bind_eq_bind, Option.some_bind]
    rw [hstep]
    simp only [Option.bind_eq_bind, Option.some_bind]
    have hnew : ∀ a, a < i + 1 →
        (res ++ [(dealRangeU64
            (bddCountFrom st V nd.lo (levelOf st V nd.lo.address) % u64)
            (nd.var + 1) (levelOf st V nd.lo.address) +
          dealRangeU64
            (bddCountFrom st V nd.hi (levelOf st V nd.hi.address) % u64)
            (nd.var + 1) (levelOf st V nd.hi.address)) % u64])[a]? =
        some (bddCountFrom st V ⟨a, ()⟩ (levelOf st V a) % u64) := by
      intro a ha
      by_cases hai : a < i
      · rw [List.getElem?_append_left (by omega), hinv a hai]
      · have hae : a = i := by omega
        subst hae
        rw [List.getElem?_append_right (by omega), hlen, Nat.sub_self]
        show some _ = _
        rw [hgval]
        simp
    obtain ⟨res', h1, hlen', hinv'⟩ := ih (i+1) _ (by omega) (by omega)
      (by simp [hlen]) hnew
    exact ⟨res', h1, by omega, fun a ha => hinv' a (by omega)⟩

theorem numberSolutions_bdd_unit {st : Store Unit} {V : Nat} {e : NodeIndex Unit}
    (wf : StoreWF st) (vb : VarsBelow V st) (hg : goodIdx st e) :
    numberSolutions noMultOps unitGfMul true st V e =
      some (bddCountFrom st V e 0 % u64) := by
  have hga : e.address < st.length + 2 := hg
  have hbase : ∀ a, a < 2 → ([0, 1] : List Nat)[a]? =
      some (bddCountFrom st V ⟨a, ()⟩ (levelOf st V a) % u64) := by
    intro a ha
    match a, ha with
    | 0, _ =>
      rw [levelOf_sink (by omega), bddCountFrom_falseSink]
      simp
    | 1, _ =>
      rw [levelOf_sink (by omega), bddCountFrom_trueSink, Nat.sub_self]
      show some 1 = some (2 ^ 0 % u64)
      rw [Nat.mod_eq_of_lt (by norm_num [u64])]
      norm_num
  obtain ⟨work, hw, hwlen, hwinv⟩ := ansLoop_bdd wf vb (e.address + 1 - 2) 2
    [0, 1] (le_refl 2) (by omega) rfl hbase
  have hwroot := hwinv e.address (by omega)
  rw [nodeIndex_unit_eta] at hwroot
  unfold numberSolutions allNumberSolutions
  rw [hw]
  simp only [Option.bind_eq_bind, Option.some_bind]
  rw [hwroot]
  simp only [Option.bind_eq_bind, Option.some_bind]
  simp only [if_true]
  rw [levelOf_branch hga]
  simp only [Option.map_some', Option.bind_eq_bind, Option.some_bind, unitGfMul]
  have hlev : levelOf st V e.address ≤ V := levelOf_le vb e.address
  have hbr := bddCountFrom_bridge wf V e (levelOf st V e.address) 0
    (by omega) (by rw [Nat.zero_add]; exact LvlGe_levelOf st V e.address)
  rw [Nat.zero_add] at hbr
  unfold dealRangeU64
  rw [Nat.sub_zero, doubleMod_spec, ← hbr]

theorem advanceFalse_succ (x : List Bool) (fuel upto target : Nat) :
    advanceFalse x (fuel+1) upto target =
      if upto = target then some true
      else (x[upto]?).bind (fun b =>
        if b then some false else advanceFalse x fuel (upto+1) target) := rfl

theorem advanceFalse_fuel (x : List Bool) :
    ∀ d u f1 f2, d < f1 → d < f2 →
      advanceFalse x f1 u (u + d) = advanceFalse x f2 u (u + d) := by
  intro d
  induction d with
  | zero =>
    intro u f1 f2 h1 h2
    obtain ⟨g1, rfl⟩ : ∃ g, f1 = g + 1 := ⟨f1 - 1, by omega⟩
    obtain ⟨g2, rfl⟩ : ∃ g, f2 = g + 1 := ⟨f2 - 1, by omega⟩
    rw [advanceFalse_succ, advanceFalse_succ]
    simp
  | succ d ih =>
    intro u f1 f2 h1 h2
    obtain ⟨g1, rfl⟩ : ∃ g, f1 = g + 1 := ⟨f1 - 1, by omega⟩
    obtain ⟨g2, rfl⟩ : ∃ g, f2 = g + 1 := ⟨f2 - 1, by omega⟩
    rw [advanceFalse_succ, advanceFalse_succ, if_neg (by omega), if_neg (by omega)]
    cases hx : x[u]? with
    | none => rfl
    | some b =>
      simp only [Option.bind_eq_bind, Option.some_bind]
      cases b
      · rw [if_neg Bool.false_ne_true, if_neg Bool.false_ne_true]
        have hadd : u + (d + 1) = (u + 1) + d := by omega
        rw [hadd]
        exact ih (u+1) g1 g2 (by omega) (by omega)
      · rfl

theorem advanceFalse_shift {x : List Bool} {u t : Nat} (hut : u < t)
    (ht : t ≤ x.length) (hx : x[u]? = some false) :
    advanceFalse x (x.length+1) u t = advanceFalse x (x.length+1) (u+1) t := by
  rw [advanceFalse_succ, if_neg (by omega), hx]
  simp only [Option.bind_eq_bind, Option.some_bind]
  rw [if_neg Bool.false_ne_true]
  have hd : t = (u+1) + (t - (u+1)) := by omega
  rw [hd]
  exact advanceFalse_fuel x (t - (u+1)) (u+1) x.length (x.length+1)
    (by omega) (by omega)

theorem advanceFalse_hitTrue {x : List Bool} {u t fuel : Nat} (hut : u ≠ t)
    (hx : x[u]? = some true) :
    advanceFalse x (fuel+1) u t = some false := by
  rw [advanceFalse_succ, if_neg hut, hx]
  simp only [Option.bind_eq_bind, Option.some_bind]
  simp

theorem advanceFalse_refl (x : List Bool) (fuel u : Nat) :
    advanceFalse x (fuel+1) u u = some true := by
  rw [advanceFalse_succ, if_pos rfl]

theorem advanceFalse_allFalse :
    ∀ (y : List Bool) (u fuel : Nat), y.length < fuel →
      advanceFalse (List.replicate u false ++ y) fuel u (u + y.length) =
        some (allFalse y) := by
  intro y
  induction y with
  | nil =>
    intro u fuel hf
    obtain ⟨g, rfl⟩ : ∃ g, fuel = g + 1 := ⟨fuel - 1, by omega⟩
    simp only [List.length_nil, Nat.add_zero]
    rw [advanceFalse_refl]
    rfl
  | cons b y ih =>
    intro u fuel hf
    obtain ⟨g, rfl⟩ : ∃ g, fuel = g + 1 := ⟨fuel - 1, by omega⟩
    rw [advanceFalse_succ, if_neg (by simp), pad_getElem_ge (le_refl u)]
    simp only [Nat.sub_self, List.getElem?_cons_zero, Option.bind_eq_bind,
      Option.some_bind]
    cases b
    · rw [if_neg Bool.false_ne_true, pad_cons]
      have hadd : u + (false :: y).length = (u + 1) + y.length := by
        simp; omega
      rw [hadd, ih (u+1) g (by simp at hf; omega)]
      simp [allFalse]
    · rw [if_pos rfl]
      simp [allFalse]

theorem advanceFalse_le {x : List Bool} :
    ∀ fuel u t, advanceFalse x fuel u t = some true → u ≤ t := by
  intro fuel
  induction fuel with
  | zero => intro u t h; simp [advanceFalse] at h
  | succ f ih =>
    intro u t h
    rw [advanceFalse_succ] at h
    by_cases hut : u = t
    · omega
    · rw [if_neg hut] at h
      cases hx : x[u]? with
      | none => rw [hx] at h; simp at h
      | some b =>
        rw [hx] at h
        simp only [Option.bind_eq_bind, Option.some_bind] at h
        cases b
        · rw [if_neg Bool.false_ne_true] at h
          have := ih (u+1) t h
          omega
        · rw [if_pos rfl] at h
          simp at h

theorem advanceFalse_agree {x x' : List Bool} {u : Nat}
    (hag : ∀ i, u ≤ i → x[i]? = x'[i]?) :
    ∀ fuel w t, u ≤ w → advanceFalse x fuel w t = advanceFalse x' fuel w t := by
  intro fuel
  induction fuel with
  | zero => intro w t _; rfl
  | succ f ih =>
    intro w t hw
    rw [advanceFalse_succ, advanceFalse_succ]
    by_cases hwt : w = t
    · rw [if_pos hwt, if_pos hwt]
    · rw [if_neg hwt, if_neg hwt, hag w hw]
      cases hx : x'[w]? with
      | none => rfl
      | some b =>
        simp only [Option.bind_eq_bind, Option.some_bind]
        cases b
        · rw [if_neg Bool.false_ne_true, if_neg Bool.false_ne_true]
          exact ih (w+1) t (by omega)
        · rfl

theorem advanceFalse_total (x : List Bool) :
    ∀ (d u fuel : Nat), d < fuel → u + d ≤ x.length →
      ∃ b, advanceFalse x fuel u (u + d) = some b := by
  intro d
  induction d with
  | zero =>
    intro u fuel hf _
    obtain ⟨g, rfl⟩ : ∃ g, fuel = g + 1 := ⟨fuel - 1, by omega⟩
    exact ⟨true, by simp only [Nat.add_zero]; exact advanceFalse_refl x g u⟩
  | succ d ih =>
    intro u fuel hf hlen
    obtain ⟨g, rfl⟩ : ∃ g, fuel = g + 1 := ⟨fuel - 1, by omega⟩
    rw [advanceFalse_succ, if_neg (by omega)]
    obtain ⟨bv, hbv⟩ : ∃ bv, x[u]? = some bv :=
      ⟨x.get ⟨u, by omega⟩, by
        rw [List.get_eq_getElem]; exact List.getElem?_eq_getElem (by omega)⟩
    rw [hbv]
    simp only [Option.bind_eq_bind, Option.some_bind]
    cases bv
    · rw [if_neg Bool.false_ne_true]
      have hadd : u + (d + 1) = (u + 1) + d := by omega
      rw [hadd]
      exact ih (u+1) g (by omega) (by omega)
    · exact ⟨false, by rw [if_pos rfl]⟩

theorem evaluateZddLoop_succ (st : Store M) (x : List Bool) (fuel : Nat)
    (e : NodeIndex M) (upto : Nat) :
    evaluateZddLoop st x (fuel+1) e upto =
      if e.isSink then
        (advanceFalse x (x.length + 1) upto x.length).map
          (fun ok => ok && e.isTrue)
      else (nodeAt st e.address).bind (fun node =>
        (advanceFalse x (x.length + 1) upto node.var).bind (fun ok =>
          if ok then (x[node.var]?).bind (fun b =>
            evaluateZddLoop st x fuel (if b then node.hi else node.lo)
              (node.var + 1))
          else some false)) := rfl

theorem evaluateZddLoop_mono (st : Store M) (x : List Bool) :
    ∀ fuel fuel' (e : NodeIndex M) u b, fuel ≤ fuel' →
      evaluateZddLoop st x fuel e u = some b →
      evaluateZddLoop st x fuel' e u = some b := by
  intro fuel
  induction fuel with
  | zero => intro fuel' e u b _ h; simp [evaluateZddLoop] at h
  | succ f ih =>
    intro fuel' e u b hle h
    obtain ⟨f', rfl⟩ : ∃ g, fuel' = g + 1 := ⟨fuel' - 1, by omega⟩
    rw [evaluateZddLoop_succ] at h ⊢
    by_cases hs : e.isSink
    · rw [if_pos hs] at h ⊢; exact h
    · rw [if_neg hs] at h ⊢
      cases hn : nodeAt st e.address with
      | none => rw [hn] at h; simp at h
      | some nd =>
        rw [hn] at h
        simp only [Option.bind_eq_bind, Option.some_bind] at h ⊢
        cases hok : advanceFalse x (x.length+1) u nd.var with
        | none => rw [hok] at h; simp at h
        | some ok =>
          rw [hok] at h
          simp only [Option.bind_eq_bind, Option.some_bind] at h ⊢
          cases ok
          · rw [if_neg Bool.false_ne_true] at h ⊢; exact h
          · rw [if_pos rfl] at h ⊢
            cases hx : x[nd.var]? with
            | none => rw [hx] at h; simp at h
            | some bv =>
              rw [hx] at h
              simp only [Option.bind_eq_bind, Option.some_bind] at h ⊢
              exact ih f' _ _ b (by omega) h

theorem evaluateZddLoop_agree (st : Store M) {x x' : List Bool}
    {u : Nat} (hlen : x.length = x'.length)
    (hag : ∀ i, u ≤ i → x[i]? = x'[i]?) :
    ∀ fuel (e : NodeIndex M) w, u ≤ w →
      evaluateZddLoop st x fuel e w = evaluateZddLoop st x' fuel e w := by
  intro fuel
  induction fuel with
  | zero => intro e w _; rfl
  | succ f ih =>
    intro e w hw
    rw [evaluateZddLoop_succ, evaluateZddLoop_succ, hlen]
    by_cases hs : e.isSink
    · rw [if_pos hs, if_pos hs,
        advanceFalse_agree hag (x'.length+1) w x'.length hw]
    · rw [if_neg hs, if_neg hs]
      cases hn : nodeAt st e.address with
      | none => rfl
      | some nd =>
        simp only [Option.bind_eq_bind, Option.some_bind]
        rw [advanceFalse_agree hag (x'.length+1) w nd.var hw]
        cases hok : advanceFalse x' (x'.length+1) w nd.var with
        | none => rfl
        | some ok =>
          simp only [Option.bind_eq_bind, Option.some_bind]
          cases ok
          · rw [if_neg Bool.false_ne_true, if_neg Bool.false_ne_true]
          · rw [if_pos rfl, if_pos rfl]
            have hwv : w ≤ nd.var := advanceFalse_le (x'.length+1) w nd.var hok
            rw [hag nd.var (by omega)]
            cases hx : x'[nd.var]? with
            | none => rfl
            | some bv =>
              simp only [Option.bind_eq_bind, Option.some_bind]
              cases bv
              · exact ih nd.lo (nd.var+1) (by omega)
              · exact ih nd.hi (nd.var+1) (by omega)

theorem evaluateZddLoop_total {st : Store M} (wf : StoreWF st) {V : Nat}
    (vb : VarsBelow V st) {x : List Bool} (hx : x.length = V) :
    ∀ a (e : NodeIndex M) u, e.address ≤ a → goodIdx st e →
      LvlGe st e.address u → u ≤ V →
      ∃ b, evaluateZddLoop st x (a+1) e u = some b := by
  have hsink : ∀ fuel (e : NodeIndex M) u, e.isSink = true → u ≤ V →
      ∃ b, evaluateZddLoop st x (fuel+1) e u = some b := by
    intro fuel e u hs hu
    obtain ⟨b0, hb0⟩ : ∃ b0, advanceFalse x (x.length+1) u x.length = some b0 := by
      have h := advanceFalse_total x (x.length - u) u (x.length+1)
        (by omega) (by omega)
      have hadd : u + (x.length - u) = x.length := by omega
      rw [hadd] at h
      exact h
    exact ⟨b0 && e.isTrue, by
      rw [evaluateZddLoop_succ, if_pos hs, hb0]; rfl⟩
  intro a
  induction a with
  | zero =>
    intro e u he hg hl hu
    have h0 : e.address = 0 := by omega
    have hs : e.isSink = true := by
      unfold NodeIndex.isSink NodeIndex.isFalse NodeIndex.isTrue
      simp [h0]
    exact hsink 0 e u hs hu
  | succ n ih =>
    intro e u he hg hl hu
    by_cases hs : e.isSink
    · exact hsink (n+1) e u hs hu
    · have h2 : 2 ≤ e.address := not_isSink_ge (by simpa using hs)
      obtain ⟨nd, hnd⟩ := nodeAt_of_lt h2 hg
      have hch := storeWF_children wf hnd
      have hlo := hch.1
      have hhi := hch.2.1
      have hvar : nd.var < V := varsBelow_nodeAt vb hnd
      have huv : u ≤ nd.var := hl nd hnd
      have hglo : goodIdx st nd.lo := by unfold goodIdx at hg ⊢; omega
      have hghi : goodIdx st nd.hi := by unfold goodIdx at hg ⊢; omega
      obtain ⟨ok, hok⟩ : ∃ ok, advanceFalse x (x.length+1) u nd.var = some ok := by
        have h := advanceFalse_total x (nd.var - u) u (x.length+1)
          (by omega) (by omega)
        have hadd : u + (nd.var - u) = nd.var := by omega
        rw [hadd] at h
        exact h
      cases ok with
      | false =>
        exact ⟨false, by
          rw [evaluateZddLoop_succ, if_neg hs, hnd]
          simp only [Option.bind_eq_bind, Option.some_bind]
          rw [hok]
          simp only [Option.bind_eq_bind, Option.some_bind]
          rw [if_neg Bool.false_ne_true]⟩
      | true =>
        obtain ⟨bv, hbv⟩ : ∃ bv, x[nd.var]? = some bv :=
          ⟨x.get ⟨nd.var, by omega⟩, by
            rw [List.get_eq_getElem]; exact List.getElem?_eq_getElem (by omega)⟩
        obtain ⟨b, hb⟩ : ∃ b,
            evaluateZddLoop st x (n+1) (if bv then nd.hi else nd.lo)
              (nd.var + 1) = some b := by
          cases bv
          · exact ih nd.lo (nd.var+1) (by omega) hglo
              (fun c hc => hch.2.2.1 c hc) (by omega)
          · exact ih nd.hi (nd.var+1) (by omega) hghi
              (fun c hc => hch.2.2.2 c hc) (by omega)
        refine ⟨b, ?_⟩
        rw [evaluateZddLoop_succ, if_neg hs, hnd]
        simp only [Option.bind_eq_bind, Option.some_bind]
        rw [hok]
        simp only [Option.bind_eq_bind, Option.some_bind]
        simp only [if_true]
        rw [hbv]
        simp only [Option.bind_eq_bind, Option.some_bind]
        exact hb

theorem allVectors_allFalse : ∀ n : Nat,
    ((allVectors n).filter (fun y => allFalse y)).length = 1 := by
  intro n
  induction n with
  | zero => rfl
  | succ n ih =>
    rw [allVectors_succ, List.filter_append, List.length_append,
      length_filter_map, length_filter_map]
    have h1 : ∀ y ∈ allVectors n, allFalse (false :: y) = allFalse y := by
      intro y _
      simp [allFalse]
    have h2 : ∀ y ∈ allVectors n,
        allFalse (true :: y) = (fun _ : List Bool => false) y := by
      intro y _
      simp [allFalse]
    rw [List.filter_congr h1, List.filter_congr h2, ih]
    simp

theorem zddCountFrom_falseSink (st : Store M) (V u : Nat) (m : M) :
    zddCountFrom st V ⟨0, m⟩ u = 0 := by
  unfold zddCountFrom
  have hrw : ∀ y ∈ allVectors (V - u),
      (evaluateZddLoop st (List.replicate u false ++ y) (st.length + 2)
        (⟨0, m⟩ : NodeIndex M) u == some true) = (fun _ : List Bool => false) y := by
    intro y _
    have hF : st.length + 2 = st.length + 1 + 1 := rfl
    have hss : (⟨0, m⟩ : NodeIndex M).isSink = true := rfl
    rw [hF, evaluateZddLoop_succ, if_pos hss]
    cases hadv : advanceFalse (List.replicate u false ++ y)
        ((List.replicate u false ++ y).length + 1) u
        (List.replicate u false ++ y).length with
    | none => rfl
    | some ok => simp [NodeIndex.isTrue]
  rw [List.filter_congr hrw]
  simp

theorem zddCountFrom_trueSink (st : Store M) (V u : Nat) (m : M) :
    zddCountFrom st V ⟨1, m⟩ u = 1 := by
  unfold zddCountFrom
  have hrw : ∀ y ∈ allVectors (V - u),
      (evaluateZddLoop st (List.replicate u false ++ y) (st.length + 2)
        (⟨1, m⟩ : NodeIndex M) u == some true) = (fun y => allFalse y) y := by
    intro y _
    have hF : st.length + 2 = st.length + 1 + 1 := rfl
    have hss : (⟨1, m⟩ : NodeIndex M).isSink = true := rfl
    rw [hF, evaluateZddLoop_succ, if_pos hss]
    have hlen : (List.replicate u false ++ y).length = u + y.length := by simp
    have hadv := advanceFalse_allFalse y u
      ((List.replicate u false ++ y).length + 1) (by omega)
    rw [← hlen] at hadv
    rw [hadv]
    simp [NodeIndex.isTrue]
  rw [List.filter_congr hrw]
  exact allVectors_allFalse (V - u)

theorem evaluateZddLoop_shift {st : Store M} {V : Nat} (vb : VarsBelow V st)
    {x : List Bool} (hxlen : x.length = V) {e : NodeIndex M} {u : Nat}
    (hu : u < V) (hl : LvlGe st e.address (u+1)) (hxu : x[u]? = some false)
    (fuel : Nat) :
    evaluateZddLoop st x (fuel+1) e u = evaluateZddLoop st x (fuel+1) e (u+1) := by
  rw [evaluateZddLoop_succ, evaluateZddLoop_succ]
  by_cases hs : e.isSink
  · rw [if_pos hs, if_pos hs, advanceFalse_shift (by omega) (by omega) hxu]
  · rw [if_neg hs, if_neg hs]
    cases hn : nodeAt st e.address with
    | none => rfl
    | some nd =>
      simp only [Option.bind_eq_bind, Option.some_bind]
      have hv : u + 1 ≤ nd.var := hl nd hn
      have hvV : nd.var < V := varsBelow_nodeAt vb hn
      rw [advanceFalse_shift (by omega) (by omega) hxu]

theorem zddCountFrom_step {st : Store M} {V : Nat} (vb : VarsBelow V st)
    (e : NodeIndex M) {u : Nat} (hu : u < V) (hl : LvlGe st e.address (u+1)) :
    zddCountFrom st V e u = zddCountFrom st V e (u+1) := by
  unfold zddCountFrom
  have hVu : V - u = (V - (u+1)) + 1 := by omega
  rw [hVu, allVectors_succ, List.filter_append, List.length_append,
    length_filter_map, length_filter_map]
  have hfalse : ∀ y ∈ allVectors (V - (u+1)),
      (evaluateZddLoop st (List.replicate u false ++ false :: y) (st.length + 2)
        e u == some true) =
      (evaluateZddLoop st (List.replicate (u+1) false ++ y) (st.length + 2)
        e (u+1) == some true) := by
    intro y hy
    have hylen : y.length = V - (u + 1) := (allVectors_mem _ y).mp hy
    have hxlen : (List.replicate (u+1) false ++ y).length = V := by
      simp
      omega
    have hxu : (List.replicate (u+1) false ++ y)[u]? = some false :=
      pad_getElem_lt (by omega) y
    have hF : st.length + 2 = st.length + 1 + 1 := rfl
    rw [pad_cons, hF, evaluateZddLoop_shift vb hxlen hu hl hxu]
  have htrue : ∀ y ∈ allVectors (V - (u+1)),
      (evaluateZddLoop st (List.replicate u false ++ true :: y) (st.length + 2)
        e u == some true) = (fun _ : List Bool => false) y := by
    intro y hy
    have hylen : y.length = V - (u + 1) := (allVectors_mem _ y).mp hy
    have hxlen : (List.replicate u false ++ true :: y).length = u + (1 + y.length) := by
      simp
      omega
    have hxu : (List.replicate u false ++ true :: y)[u]? = some true := by
      rw [pad_getElem_ge (le_refl u)]
      simp
    have hF : st.length + 2 = st.length + 1 + 1 := rfl
    rw [hF, evaluateZddLoop_succ]
    by_cases hs : e.isSink
    · have hne : u ≠ (List.replicate u false ++ true :: y).length := by
        rw [hxlen]
        omega
      rw [if_pos hs, advanceFalse_hitTrue hne hxu]
      simp
    · rw [if_neg hs]
      cases hn : nodeAt st e.address with
      | none => rfl
      | some nd =>
        simp only [Option.bind_eq_bind, Option.some_bind]
        have hv : u + 1 ≤ nd.var := hl nd hn
        rw [advanceFalse_hitTrue (by omega) hxu]
        simp only [Option.bind_eq_bind, Option.some_bind]
        rw [if_neg Bool.false_ne_true]
        rfl
  rw [List.filter_congr hfalse, List.filter_congr htrue]
  simp

theorem zddCountFrom_transfer {st : Store M} {V : Nat} (vb : VarsBelow V st)
    (e : NodeIndex M) :
    ∀ k u, u + k ≤ V → LvlGe st e.address (u + k) →
      zddCountFrom st V e u = zddCountFrom st V e (u + k) := by
  intro k
  induction k with
  | zero => intro u _ _; rfl
  | succ k ih =>
    intro u hk hl
    have hadd : u + 1 + k = u + (k + 1) := by omega
    have h1 : zddCountFrom st V e u = zddCountFrom st V e (u+1) :=
      zddCountFrom_step vb e (by omega) (LvlGe_mono (by omega) hl)
    have h2 := ih (u+1) (by omega) (by rw [hadd]; exact hl)
    rw [h1, h2, hadd]

theorem zddCountFrom_node {st : Store M} (wf : StoreWF st) {V : Nat}
    (vb : VarsBelow V st) (e : NodeIndex M) {nd : Node M}
    (hnd : nodeAt st e.address = some nd) :
    zddCountFrom st V e nd.var =
      zddCountFrom st V nd.lo (nd.var + 1) + zddCountFrom st V nd.hi (nd.var + 1) := by
  have hv : nd.var < V := varsBelow_nodeAt vb hnd
  have hch := storeWF_children wf hnd
  have hlo := hch.1
  have hhi := hch.2.1
  have hs : e.isSink = false := not_isSink_of_nodeAt hnd
  have hea : e.address < st.length + 2 := (nodeAt_some_range hnd).2
  have hglo : goodIdx st nd.lo := by unfold goodIdx; omega
  have hghi : goodIdx st nd.hi := by unfold goodIdx; omega
  have hF : st.length + 2 = st.length + 1 + 1 := rfl
  unfold zddCountFrom
  have hVu : V - nd.var = (V - (nd.var+1)) + 1 := by omega
  rw [hVu, allVectors_succ, List.filter_append, List.length_append,
    length_filter_map, length_filter_map]
  congr 1
  · apply congrArg List.length
    apply List.filter_congr
    intro y hy
    have hylen : y.length = V - (nd.var + 1) := (allVectors_mem _ y).mp hy
    have hxlen : (List.replicate (nd.var+1) false ++ y).length = V := by
      simp
      omega
    show (evaluateZddLoop st (List.replicate nd.var false ++ false :: y)
        (st.length + 2) e nd.var == some true) = _
    rw [pad_cons, hF, evaluateZddLoop_succ, if_neg (by simp [hs]), hnd]
    simp only [Option.bind_eq_bind, Option.some_bind]
    rw [advanceFalse_refl]
    simp only [Option.bind_eq_bind, Option.some_bind, if_true]
    rw [pad_getElem_lt (by omega) y]
    simp only [Option.bind_eq_bind, Option.some_bind]
    obtain ⟨b, hb⟩ := evaluateZddLoop_total wf vb hxlen st.length nd.lo
      (nd.var + 1) (by omega) hglo (fun c hc => hch.2.2.1 c hc) (by omega)
    show (evaluateZddLoop st _ (st.length + 1)
        (if false = true then nd.hi else nd.lo) (nd.var + 1) == some true) = _
    rw [if_neg Bool.false_ne_true, hb,
      evaluateZddLoop_mono st _ (st.length+1) (st.length+1+1) nd.lo _ b
        (by omega) hb]
  · apply congrArg List.length
    apply List.filter_congr
    intro y hy
    have hylen : y.length = V - (nd.var + 1) := (allVectors_mem _ y).mp hy
    have hxlen : (List.replicate (nd.var+1) false ++ y).length = V := by
      simp
      omega
    have hxlen2 : (List.replicate nd.var false ++ true :: y).length = V := by
      simp
      omega
    have hxv : (List.replicate nd.var false ++ true :: y)[nd.var]? = some true := by
      rw [pad_getElem_ge (le_refl nd.var)]
      simp
    show (evaluateZddLoop st (List.replicate nd.var false ++ true :: y)
        (st.length + 2) e nd.var == some true) = _
    rw [hF, evaluateZddLoop_succ, if_neg (by simp [hs]), hnd]
    simp only [Option.bind_eq_bind, Option.some_bind]
    rw [advanceFalse_refl]
    simp only [Option.bind_eq_bind, Option.some_bind, if_true]
    rw [hxv]
    simp only [Option.bind_eq_bind, Option.some_bind]
    have hag := evaluateZddLoop_agree st
      (show (List.replicate nd.var false ++ true :: y).length =
        (List.replicate (nd.var+1) false ++ y).length by rw [hxlen2, hxlen])
      (fun i hi => pad_shift hi true y) (st.length+1) nd.hi (nd.var+1)
      (le_refl (nd.var+1))
    obtain ⟨b, hb⟩ := evaluateZddLoop_total wf vb hxlen st.length nd.hi
      (nd.var + 1) (by omega) hghi (fun c hc => hch.2.2.2 c hc) (by omega)
    show (evaluateZddLoop st _ (st.length + 1)
        (if true = true then nd.hi else nd.lo) (nd.var + 1) == some true) = _
    rw [if_pos rfl, hag, hb,
      evaluateZddLoop_mono st _ (st.length+1) (st.length+1+1) nd.hi _ b
        (by omega) hb]

theorem ansStep_unit_zdd {st : Store Unit} (V : Nat) {res : List Nat}
    {nd : Node Unit} {cLo cHi : Nat}
    (hLo : res[nd.lo.address]? = some cLo) (hHi : res[nd.hi.address]? = some cHi)
    (hgLo : nd.lo.address < st.length + 2) (hgHi : nd.hi.address < st.length + 2) :
    ansStep noMultOps unitGfMul false st V res nd = some ((cLo + cHi) % u64) := by
  unfold ansStep
  rw [hLo]
  simp only [Option.bind_eq_bind, Option.some_bind]
  rw [levelOf_branch hgLo]
  simp only [Option.bind_eq_bind, Option.some_bind]
  rw [hHi]
  simp only [Option.bind_eq_bind, Option.some_bind]
  rw [levelOf_branch hgHi]
  simp only [Option.bind_eq_bind, Option.some_bind]
  simp

theorem ansLoop_zdd {st : Store Unit} {V : Nat} (wf : StoreWF st)
    (vb : VarsBelow V st) :
    ∀ k i res, 2 ≤ i → i + k ≤ st.length + 2 → res.length = i →
      (∀ a, a < i → res[a]? =
        some (zddCountFrom st V ⟨a, ()⟩ (levelOf st V a) % u64)) →
      ∃ res', ansLoop noMultOps unitGfMul false st V k i res = some res' ∧
        res'.length = i + k ∧
        (∀ a, a < i + k → res'[a]? =
          some (zddCountFrom st V ⟨a, ()⟩ (levelOf st V a) % u64)) := by
  intro k
  induction k with
  | zero =>
    intro i res _ _ hlen hinv
    exact ⟨res, rfl, by omega, fun a ha => hinv a (by omega)⟩
  | succ k ih =>
    intro i res h2 hk hlen hinv
    have hilt : i < st.length + 2 := by omega
    obtain ⟨nd, hnd⟩ := nodeAt_of_lt h2 hilt
    have hch := storeWF_children wf hnd
    have hlo := hch.1
    have hhi := hch.2.1
    have hv : nd.var < V := varsBelow_nodeAt vb hnd
    have hLo := hinv nd.lo.address (by omega)
    have hHi := hinv nd.hi.address (by omega)
    rw [nodeIndex_unit_eta] at hLo hHi
    have hgLo2 : nd.lo.address < st.length + 2 := by omega
    have hgHi2 : nd.hi.address < st.length + 2 := by omega
    have hstep := ansStep_unit_zdd V hLo hHi hgLo2 hgHi2
    have hvlo : nd.var + 1 ≤ levelOf st V nd.lo.address :=
      levelOf_ge_child hch.2.2.1 hv
    have hvhi : nd.var + 1 ≤ levelOf st V nd.hi.address :=
      levelOf_ge_child hch.2.2.2 hv
    have hlolev : levelOf st V nd.lo.address ≤ V := levelOf_le vb nd.lo.address
    have hhilev : levelOf st V nd.hi.address ≤ V := levelOf_le vb nd.hi.address
    have hblo : zddCountFrom st V nd.lo (nd.var+1) =
        zddCountFrom st V nd.lo (levelOf st V nd.lo.address) := by
      have hk1 : (nd.var+1) + (levelOf st V nd.lo.address - (nd.var+1)) =
          levelOf st V nd.lo.address := by omega
      have h := zddCountFrom_transfer vb nd.lo
        (levelOf st V nd.lo.address - (nd.var+1)) (nd.var+1) (by omega)
        (by rw [hk1]; exact LvlGe_levelOf st V nd.lo.address)
      rw [hk1] at h
      exact h
    have hbhi : zddCountFrom st V nd.hi (nd.var+1) =
        zddCountFrom st V nd.hi (levelOf st V nd.hi.address) := by
      have hk1 : (nd.var+1) + (levelOf st V nd.hi.address - (nd.var+1)) =
          levelOf st V nd.hi.address := by omega
      have h := zddCountFrom_transfer vb nd.hi
        (levelOf st V nd.hi.address - (nd.var+1)) (nd.var+1) (by omega)
        (by rw [hk1]; exact LvlGe_levelOf st V nd.hi.address)
      rw [hk1] at h
      exact h
    have hgval : (zddCountFrom st V nd.lo (levelOf st V nd.lo.address) % u64 +
          zddCountFrom st V nd.hi (levelOf st V nd.hi.address) % u64) % u64 =
        zddCountFrom st V (⟨i, ()⟩ : NodeIndex Unit) (levelOf st V i) % u64 := by
      rw [← hblo, ← hbhi, ← Nat.add_mod, levelOf_node hnd]
      have hsplit := zddCountFrom_node wf vb (⟨i, ()⟩ : NodeIndex Unit) hnd
      rw [hsplit]
    rw [ansLoop_succ, hnd]
    simp only [Option.bind_eq_bind, Option.some_bind]
    rw [hstep]
    simp only [Option.bind_eq_bind, Option.some_bind]
    have hnew : ∀ a, a < i + 1 →
        (res ++ [(zddCountFrom st V nd.lo (levelOf st V nd.lo.address) % u64 +
          zddCountFrom st V nd.hi (levelOf st V nd.hi.address) % u64) % u64])[a]? =
        some (zddCountFrom st V ⟨a, ()⟩ (levelOf st V a) % u64) := by
      intro a ha
      by_cases hai : a < i
      · rw [List.getElem?_append_left (by omega), hinv a hai]
      · have hae : a = i := by omega
        subst hae
        rw [List.getElem?_append_right (by omega), hlen, Nat.sub_self]
        show some _ = _
        rw [hgval]
        simp
    obtain ⟨res', h1, hlen', hinv'⟩ := ih (i+1) _ (by omega) (by omega)
      (by simp [hlen]) hnew
    exact ⟨res', h1, by omega, fun a ha => hinv' a (by omega)⟩

theorem numberSolutions_zdd_unit {st : Store Unit} {V : Nat} {e : NodeIndex Unit}
    (wf : StoreWF st) (vb : VarsBelow V st) (hg : goodIdx st e) :
    numberSolutions noMultOps unitGfMul false st V e =
      some (zddCountFrom st V e 0 % u64) := by
  have hga : e.address < st.length + 2 := hg
  have hbase : ∀ a, a < 2 → ([0, 1] : List Nat)[a]? =
      some (zddCountFrom st V ⟨a, ()⟩ (levelOf st V a) % u64) := by
    intro a ha
    match a, ha with
    | 0, _ =>
      rw [levelOf_sink (by omega), zddCountFrom_falseSink]
      simp
    | 1, _ =>
      rw [levelOf_sink (by omega), zddCountFrom_trueSink]
      show some 1 = some (1 % u64)
      rw [Nat.mod_eq_of_lt (by norm_num [u64])]
  obtain ⟨work, hw, hwlen, hwinv⟩ := ansLoop_zdd wf vb (e.address + 1 - 2) 2
    [0, 1] (le_refl 2) (by omega) rfl hbase
  have hwroot := hwinv e.address (by omega)
  rw [nodeIndex_unit_eta] at hwroot
  unfold numberSolutions allNumberSolutions
  rw [hw]
  simp only [Option.bind_eq_bind, Option.some_bind]
  rw [hwroot]
  simp only [Option.bind_eq_bind, Option.some_bind]
  simp only [Bool.false_eq_true, if_false]
  simp only [Option.bind_eq_bind, Option.some_bind, unitGfMul]
  have hlev : levelOf st V e.address ≤ V := levelOf_le vb e.address
  have htr := zddCountFrom_transfer vb e (levelOf st V e.address) 0
    (by omega) (by rw [Nat.zero_add]; exact LvlGe_levelOf st V e.address)
  rw [Nat.zero_add] at htr
  rw [htr]

/-- C2 counterexample: as soon as multiplicities matter, `number_solutions`
is the multiplicity-weighted count and not the cardinality of the solution
set.  In a `u32` factory with one variable, `or(TRUE, TRUE)` (mirrored by
`sum_bdd`) yields the edge to TRUE with multiplicity 2; `number_solutions`
reports 4 while exactly 2 of the 2 Boolean vectors are solutions. -/
theorem claim2_counterexample :
    sumBdd u32MultOps 1 [] [] (NodeIndex.TRUE u32MultOps)
      (NodeIndex.TRUE u32MultOps) =
      some ([], [], (⟨1, 2⟩ : NodeIndex Nat)) ∧
    numberSolutions u32MultOps u32GfMul true ([] : Store Nat) 1 ⟨1, 2⟩ =
      some 4 ∧
    bddCountFrom ([] : Store Nat) 1 ⟨1, 2⟩ 0 = 2 := by
  refine ⟨rfl, ?_, rfl⟩
  rfl

/-- C2 (corrected): in a factory without multiplicities (`NoMultiplicity`,
the instance whose `u64` `multiply` is the identity), for every edge of a
well-formed store with all variables below `V < 64`,
`number_solutions::<u64>` returns exactly the number of length-`V` Boolean
vectors accepted by the edge: under `evaluate_bdd` semantics when computed
as a BDD (where the variable range `[0, var_of(root))` is bridged), and
under `evaluate_zdd` semantics when computed as a ZDD (no bridging).  With
nontrivial multiplicities the claim fails (`claim2_counterexample`). -/
theorem claim2_number_solutions {st : Store Unit} {V : Nat} {e : NodeIndex Unit}
    (wf : StoreWF st) (vb : VarsBelow V st) (hg : goodIdx st e) (hV : V < 64) :
    numberSolutions noMultOps unitGfMul true st V e =
      some (bddCountFrom st V e 0) ∧
    numberSolutions noMultOps unitGfMul false st V e =
      some (zddCountFrom st V e 0) := by
  have hpow : 2 ^ V < u64 := by
    have h1 : (2:Nat) ^ V < 2 ^ 64 := Nat.pow_lt_pow_right (by norm_num) hV
    exact h1
  have hbound : ∀ n : Nat, n ≤ 2 ^ V → n % u64 = n := by
    intro n hn
    exact Nat.mod_eq_of_lt (by omega)
  have hb : bddCountFrom st V e 0 ≤ 2 ^ V := by
    unfold bddCountFrom
    have h1 := List.length_filter_le
      (fun y => evaluateBdd st (st.length + 2) e (List.replicate 0 false ++ y) ==
        some true) (allVectors (V - 0))
    rw [allVectors_length] at h1
    simpa using h1
  have hz : zddCountFrom st V e 0 ≤ 2 ^ V := by
    unfold zddCountFrom
    have h1 := List.length_filter_le
      (fun y => evaluateZddLoop st (List.replicate 0 false ++ y)
        (st.length + 2) e 0 == some true) (allVectors (V - 0))
    rw [allVectors_length] at h1
    simpa using h1
  constructor
  · rw [numberSolutions_bdd_unit wf vb hg, hbound _ hb]
  · rw [numberSolutions_zdd_unit wf vb hg, hbound _ hz]

/-- C2 witness: the one-variable store holding the single node
`(var 0, lo FALSE, hi TRUE)` satisfies the hypotheses, and the theorem
instantiates on its root edge, where both counts are 1. -/
theorem claim2_witness :
    StoreWF ([⟨0, ⟨0, ()⟩, ⟨1, ()⟩⟩] : Store Unit) ∧
    VarsBelow 1 ([⟨0, ⟨0, ()⟩, ⟨1, ()⟩⟩] : Store Unit) ∧
    goodIdx ([⟨0, ⟨0, ()⟩, ⟨1, ()⟩⟩] : Store Unit) ⟨2, ()⟩ ∧ 1 < 64 ∧
    (numberSolutions noMultOps unitGfMul true [⟨0, ⟨0, ()⟩, ⟨1, ()⟩⟩] 1 ⟨2, ()⟩ =
      some (bddCountFrom [⟨0, ⟨0, ()⟩, ⟨1, ()⟩⟩] 1 ⟨2, ()⟩ 0) ∧
    numberSolutions noMultOps unitGfMul false [⟨0, ⟨0, ()⟩, ⟨1, ()⟩⟩] 1 ⟨2, ()⟩ =
      some (zddCountFrom [⟨0, ⟨0, ()⟩, ⟨1, ()⟩⟩] 1 ⟨2, ()⟩ 0)) :=
  ⟨by decide, by decide, by decide, by decide,
    claim2_number_solutions (by decide) (by decide) (by decide) (by decide)⟩

theorem NotCacheOK_nil (st : Store M) : NotCacheOK st ([] : Cache Nat Nat) := by
  intro p hp
  simp at hp

theorem NotCacheOK_extends {st st' : Store M} (wf : StoreWF st)
    (hext : StoreExtends st st') {cache : Cache Nat Nat}
    (hc : NotCacheOK st cache) : NotCacheOK st' cache := by
  intro p hp
  obtain ⟨hg1, hg2, hlvl, heval⟩ := hc p hp
  have hlen := hext.length_le
  refine ⟨by omega, by omega, ?_, ?_⟩
  · intro v h1
    rw [LvlGt_congr hext hg2]
    rw [LvlGt_congr hext hg1] at h1
    exact hlvl v h1
  · intro m m' x b h1
    exact EvalBdd_extends hext
      (heval m m' x b (EvalBdd_congr wf hext
        (show goodIdx st (⟨p.1, m⟩ : NodeIndex M) from hg1) h1))

theorem notBdd_spec [DecidableEq M] (ops : MultOps M) :
    ∀ fuel (st : Store M) (cache : Cache Nat Nat) (i : NodeIndex M) out,
      notBdd ops fuel st cache i = some out →
      StoreWF st → NotCacheOK st cache → goodIdx st i →
      NotOut st i out := by
  intro fuel
  induction fuel with
  | zero => intro st cache i out h _ _ _; simp [notBdd] at h
  | succ f ih =>
    intro st cache i out h wf hc hg
    simp only [notBdd] at h
    by_cases ht : i.isTrue = true
    · rw [if_pos ht] at h
      cases Option.some_injective _ h
      have hia : i.address = 1 := by
        cases i; simpa [NodeIndex.isTrue] using ht
      refine ⟨StoreExtends.refl st, wf, hc, by show (0:Nat) < st.length + 2; omega,
        ?_, fun V hV => hV, ?_⟩
      · intro v _
        exact LvlGt_sink (by show (0:Nat) < 2; omega)
      · intro x b hb
        have hb1 : EvalBdd st ⟨1, ops.one⟩ x b :=
          EvalBdd_addr (by rw [hia]) hb
        rw [EvalBdd_true hb1]
        exact EvalBdd_false_intro st ops.one x
    · rw [if_neg ht] at h
      by_cases hf0 : i.isFalse = true
      · rw [if_pos hf0] at h
        cases Option.some_injective _ h
        have hia : i.address = 0 := by
          cases i; simpa [NodeIndex.isFalse] using hf0
        refine ⟨StoreExtends.refl st, wf, hc, by show (1:Nat) < st.length + 2; omega,
          ?_, fun V hV => hV, ?_⟩
        · intro v _
          exact LvlGt_sink (by show (1:Nat) < 2; omega)
        · intro x b hb
          have hb1 : EvalBdd st ⟨0, ops.one⟩ x b :=
            EvalBdd_addr (by rw [hia]) hb
        -- b = false
          rw [EvalBdd_false hb1]
          exact EvalBdd_true_intro st ops.one x
      · rw [if_neg hf0] at h
        cases hcf : cacheFind cache i.address with
        | some res =>
          rw [hcf] at h
          cases Option.some_injective _ h
          obtain ⟨hg1, hg2, hlvl, heval⟩ := hc _ (cacheFind_mem hcf)
          refine ⟨StoreExtends.refl st, wf, hc, hg2, hlvl, fun V hV => hV, ?_⟩
          intro x b hb
          exact heval i.multiplicity ops.one x b
            (by cases i; exact hb)
        | none =>
          rw [hcf] at h
          cases hn : nodeAt st i.address with
          | none => simp [hn] at h
          | some node =>
            simp only [hn, Option.bind_eq_bind, Option.some_bind] at h
            cases hr1 : notBdd ops f st cache node.lo with
            | none => simp [hr1] at h
            | some r1 =>
              simp only [hr1, Option.bind_eq_bind, Option.some_bind] at h
              cases hr2 : notBdd ops f r1.1 r1.2.1 node.hi with
              | none => simp [hr2] at h
              | some r2 =>
                simp only [hr2, Option.bind_eq_bind, Option.some_bind] at h
                cases Option.some_injective _ h
                have hch := storeWF_children wf hn
                have hglo : goodIdx st node.lo := by
                  unfold goodIdx at hg ⊢
                  have := hch.1
                  omega
                have hghi : goodIdx st node.hi := by
                  unfold goodIdx at hg ⊢
                  have := hch.2.1
                  omega
                obtain ⟨ext1, wf1, hc1, hgr1, hlvl1, hvb1, hev1⟩ :=
                  ih st cache node.lo r1 hr1 wf hc hglo
                obtain ⟨ext2, wf2, hc2, hgr2, hlvl2, hvb2, hev2⟩ :=
                  ih r1.1 r1.2.1 node.hi r2 hr2 wf1 hc1 (goodIdx_mono ext1 hghi)
                have hgr1' : goodIdx r2.1 r1.2.2 := goodIdx_mono ext2 hgr1
                have hrlv1 : LvlGt r2.1 r1.2.2.address node.var := by
                  rw [LvlGt_congr ext2 hgr1]
                  exact hlvl1 node.var hch.2.2.1
                have hrlv2 : LvlGt r2.1 r2.2.2.address node.var := by
                  refine hlvl2 node.var ?_
                  rw [LvlGt_congr ext1 hghi]
                  exact hch.2.2.2
                have hspec := addNodeIfNotPresent_spec ops wf2
                  ⟨node.var, r1.2.2, r2.2.2⟩ hgr1' hgr2 hrlv1 hrlv2
                obtain ⟨extp, wfp, hlenp, hgoodp,
                  ⟨nd', hnd', hndv, hndlo, hndhi⟩, hvbp⟩ := hspec
                set p2 := addNodeIfNotPresent ops r2.1
                  ⟨node.var, r1.2.2, r2.2.2⟩ with hp2
                have hextTot : StoreExtends st p2.1 :=
                  StoreExtends.trans ext1 (StoreExtends.trans ext2 extp)
                have hia2 : i.address < st.length + 2 := hg
                have hreslvl : ∀ v, LvlGt st i.address v →
                    LvlGt p2.1 p2.2.address v := by
                  intro v hv
                  refine LvlGt_of_node hnd' ?_
                  rw [hndv]
                  show v < node.var
                  exact LvlGt_node_elim hv hn
                have hevalFin : ∀ x b, EvalBdd st i x b →
                    EvalBdd p2.1 p2.2 x (!b) := by
                  intro x b hb
                  obtain ⟨xv, hx, he⟩ := (EvalBdd_step hn).mp hb
                  refine (EvalBdd_step hnd').mpr ⟨xv, ?_, ?_⟩
                  · rw [hndv]
                    exact hx
                  · cases xv with
                    | false =>
                      simp only [Bool.false_eq_true, if_false] at he ⊢
                      refine EvalBdd_addr
                        (show r1.2.2.address = nd'.lo.address from hndlo.symm) ?_
                      exact EvalBdd_extends (StoreExtends.trans ext2 extp)
                        (hev1 x b he)
                    | true =>
                      simp only [if_true] at he ⊢
                      refine EvalBdd_addr
                        (show r2.2.2.address = nd'.hi.address from hndhi.symm) ?_
                      exact EvalBdd_extends extp
                        (hev2 x b (EvalBdd_extends ext1 he))
                refine ⟨hextTot, wfp, ?_, hgoodp, hreslvl, ?_, hevalFin⟩
                · -- cache soundness with the new entry
                  intro q hq
                  rcases List.mem_cons.mp hq with hqk | hqold
                  · subst hqk
                    have hlenTot := hextTot.length_le
                    refine ⟨by show i.address < p2.1.length + 2; omega, hgoodp,
                      ?_, ?_⟩
                    · intro v hv
                      have hv2 : LvlGt p2.1 i.address v := hv
                      rw [LvlGt_congr hextTot hia2] at hv2
                      exact hreslvl v hv2
                    · intro m m' x b hb
                      have hb2 : EvalBdd p2.1 ⟨i.address, m⟩ x b := hb
                      have hb' : EvalBdd st i x b := by
                        refine EvalBdd_congr wf hextTot hg ?_
                        exact EvalBdd_addr
                          (show (⟨i.address, m⟩ : NodeIndex M).address = i.address
                            from rfl) hb2
                      show EvalBdd p2.1 ⟨p2.2.address, m'⟩ x (!b)
                      exact EvalBdd_addr
                        (show p2.2.address =
                          (⟨p2.2.address, m'⟩ : NodeIndex M).address from rfl)
                        (hevalFin x b hb')
                  · exact NotCacheOK_extends wf2 extp hc2 q hqold
                · intro V hV
                  have hnv : node.var < V := varsBelow_nodeAt hV hn
                  exact hvbp V (hvb2 V (hvb1 V hV)) hnv

/-- C8 counterexample: `not(not(f)) = f` fails as an edge equality.  With
`u32` multiplicities, the edge `or(TRUE, TRUE)` (address 1, multiplicity 2)
double-negates to address 1 with multiplicity 1, because `not_bdd` resets
all multiplicities to ONE.  Even without multiplicities, the ZDD double
negation of the root of `exactly_one_of_zdd([0,1])` returns a different
address, because the store holds a node with a FALSE `hi` edge (which
`not_zdd` never recreates). -/
theorem claim8_counterexample :
    (sumBdd u32MultOps 1 [] [] (NodeIndex.TRUE u32MultOps)
        (NodeIndex.TRUE u32MultOps) = some ([], [], (⟨1, 2⟩ : NodeIndex Nat))) ∧
    (((notBdd u32MultOps 5 ([] : Store Nat) [] ⟨1, 2⟩).bind (fun r1 =>
        notBdd u32MultOps 5 r1.1 r1.2.1 r1.2.2)).map (fun r2 => r2.2.2) =
      some (⟨1, 1⟩ : NodeIndex Nat)) ∧
    (⟨1, 1⟩ : NodeIndex Nat) ≠ (⟨1, 2⟩ : NodeIndex Nat) ∧
    (((exactlyOneOfZdd noMultOps ([] : Store Unit) [0, 1] 2).bind (fun p =>
        (notZdd noMultOps 20 p.1 [] p.2 0 2).bind (fun r1 =>
          (notZdd noMultOps 20 r1.1 r1.2.1 r1.2.2 0 2).map (fun r2 =>
            (p.2, r2.2.2))))) =
      some ((⟨4, ()⟩ : NodeIndex Unit), (⟨6, ()⟩ : NodeIndex Unit))) ∧
    (⟨6, ()⟩ : NodeIndex Unit) ≠ (⟨4, ()⟩ : NodeIndex Unit) := by
  refine ⟨rfl, rfl, by decide, rfl, by decide⟩

/-- The BDD half of the corrected C8: if `not_bdd(f)` returns `g` and
`not_bdd(g)` returns `h` (same factory, the memo table threaded through, any
multiplicity type), then `h` evaluates exactly as `f` on every input. -/
theorem notNotBdd_sem [DecidableEq M] (ops : MultOps M) {fuel1 fuel2 : Nat}
    {st st1 st2 : Store M} {c0 c1 c2 : Cache Nat Nat} {f g h : NodeIndex M}
    (wf : StoreWF st) (hc : NotCacheOK st c0) (hg : goodIdx st f)
    (h1 : notBdd ops fuel1 st c0 f = some (st1, c1, g))
    (h2 : notBdd ops fuel2 st1 c1 g = some (st2, c2, h))
    {x : List Bool} {b : Bool} (he : EvalBdd st f x b) :
    EvalBdd st2 h x b := by
  obtain ⟨ext1, wf1, hcc1, hg1, -, -, hev1⟩ :=
    notBdd_spec ops fuel1 st c0 f _ h1 wf hc hg
  obtain ⟨ext2, wf2, hcc2, hg2, -, -, hev2⟩ :=
    notBdd_spec ops fuel2 st1 c1 g _ h2 wf1 hcc1 hg1
  have hng : EvalBdd st1 g x (!b) := hev1 x b he
  have h2e := hev2 x (!b) hng
  rw [Bool.not_not] at h2e
  exact h2e

theorem doKeep_spec {st : Store M} :
    ∀ (fuel : Nat) (map : List Nat) (n : NodeIndex M) (m' : List Nat),
      doKeep st fuel map n = some m' →
      m'.length = map.length ∧
      (∀ j : Nat, m'[j]? = map[j]? ∨ m'[j]? = some 1) ∧
      (∀ j : Nat, map[j]? = some 1 → m'[j]? = some 1) ∧
      m'[n.address]? = some 1 ∧
      (∀ P : Nat → Prop, AC st map P → AC st m' P) := by
  intro fuel
  induction fuel with
  | zero => intro map n m' h; simp [doKeep] at h
  | succ f ih =>
    intro map n m' h
    simp only [doKeep] at h
    cases hc : map[n.address]? with
    | none => rw [hc] at h; simp at h
    | some cur =>
      rw [hc] at h
      simp only [Option.bind_eq_bind, Option.some_bind] at h
      by_cases hcur : cur = 1
      · rw [if_pos hcur] at h
        cases Option.some_injective _ h
        subst hcur
        exact ⟨rfl, fun j => Or.inl rfl, fun j hj => hj, hc, fun P hP => hP⟩
      · rw [if_neg hcur] at h
        have hain : n.address < map.length := (List.getElem?_eq_some_iff.mp hc).1
        cases hn : nodeAt st n.address with
        | none => rw [hn] at h; simp at h
        | some nd =>
          rw [hn] at h
          simp only [Option.bind_eq_bind, Option.some_bind] at h
          cases h1 : doKeep st f (map.set n.address 1) nd.lo with
          | none => rw [h1] at h; simp at h
          | some m1 =>
            rw [h1] at h
            simp only [Option.bind_eq_bind, Option.some_bind] at h
            obtain ⟨hlen1, hor1, hmono1, hmark1, hac1⟩ := ih _ _ _ h1
            obtain ⟨hlen2, hor2, hmono2, hmark2, hac2⟩ := ih _ _ _ h
            have hset : ∀ j : Nat, (map.set n.address 1)[j]? =
                if n.address = j then some 1 else map[j]? := by
              intro j
              rw [List.getElem?_set]
              by_cases hj : n.address = j
              · subst hj
                simp [hain]
              · simp [hj]
            have hsetlen : (map.set n.address 1).length = map.length :=
              List.length_set ..
            have hmono0 : ∀ j : Nat, map[j]? = some 1 →
                (map.set n.address 1)[j]? = some 1 := by
              intro j hj
              rw [hset]
              by_cases hja : n.address = j
              · simp [hja]
              · simp [hja, hj]
            refine ⟨by rw [hlen2, hlen1, hsetlen], ?_, ?_, ?_, ?_⟩
            · intro j
              rcases hor2 j with h2e | h2e
              · rcases hor1 j with h1e | h1e
                · rw [h2e, h1e, hset]
                  by_cases hja : n.address = j
                  · right; simp [hja]
                  · left; simp [hja]
                · right; rw [h2e, h1e]
              · right; exact h2e
            · intro j hj
              exact hmono2 j (hmono1 j (hmono0 j hj))
            · refine hmono2 n.address (hmono1 n.address ?_)
              rw [hset]
              simp
            · intro P hP
              have hP1 : AC st (map.set n.address 1) (fun b => P b ∨ b = n.address) := by
                intro a h2a hma
                rw [hset] at hma
                by_cases hja : n.address = a
                · exact Or.inl (Or.inr hja.symm)
                · rw [if_neg hja] at hma
                  rcases hP a h2a hma with hPa | ⟨nda, hnda, hl, hh⟩
                  · exact Or.inl (Or.inl hPa)
                  · exact Or.inr ⟨nda, hnda, hmono0 _ hl, hmono0 _ hh⟩
              have hP2 := hac2 _ (hac1 _ hP1)
              intro a h2a hma
              rcases hP2 a h2a hma with (hPa | hEq) | hcl
              · exact Or.inl hPa
              · subst hEq
                exact Or.inr ⟨nd, hn, hmono2 _ hmark1, hmark2⟩
              · exact Or.inr hcl

theorem doKeepAll_spec {st : Store M} (fuel : Nat) :
    ∀ (keep : List (NodeIndex M)) (map m' : List Nat),
      doKeepAll st fuel keep map = some m' →
      m'.length = map.length ∧
      (∀ j : Nat, m'[j]? = map[j]? ∨ m'[j]? = some 1) ∧
      (∀ j : Nat, map[j]? = some 1 → m'[j]? = some 1) ∧
      (∀ n ∈ keep, m'[n.address]? = some 1) ∧
      (∀ P : Nat → Prop, AC st map P → AC st m' P) := by
  intro keep
  induction keep with
  | nil =>
    intro map m' h
    cases Option.some_injective _ h
    exact ⟨rfl, fun j => Or.inl rfl, fun j hj => hj, by simp, fun P hP => hP⟩
  | cons n rest ih =>
    intro map m' h
    simp only [doKeepAll] at h
    cases h1 : doKeep st fuel map n with
    | none => rw [h1] at h; simp at h
    | some m1 =>
      rw [h1] at h
      simp only [Option.bind_eq_bind, Option.some_bind] at h
      obtain ⟨hlen1, hor1, hmono1, hmark1, hac1⟩ := doKeep_spec fuel map n m1 h1
      obtain ⟨hlen2, hor2, hmono2, hmark2, hac2⟩ := ih m1 m' h
      refine ⟨by rw [hlen2, hlen1], ?_, ?_, ?_, fun P hP => hac2 P (hac1 P hP)⟩
      · intro j
        rcases hor2 j with h2e | h2e
        · rcases hor1 j with h1e | h1e
          · left; rw [h2e, h1e]
          · right; rw [h2e, h1e]
        · right; exact h2e
      · intro j hj
        exact hmono2 j (hmono1 j hj)
      · intro k hk
        rcases List.mem_cons.mp hk with hk1 | hk2
        · subst hk1
          exact hmono2 _ hmark1
        · exact hmark2 k hk2

theorem gcCompactAux_spec {st : Store M} (wf : StoreWF st) :
    ∀ (k i : Nat) (map : List Nat) (acc : List (Node M))
      (out : List Nat × List (Node M)), gcCompactAux st k i map acc = some out →
      2 ≤ i → i + k = st.length + 2 → map.length = st.length + 2 →
      (∀ j : Nat, i ≤ j → j < st.length + 2 →
        map[j]? = some 0 ∨ map[j]? = some 1) →
      (∀ j : Nat, i ≤ j → map[j]? = some 1 →
        ∃ nd, nodeAt st j = some nd ∧
          (nd.lo.address < 2 ∨ map[nd.lo.address]? = some 1 ∨
            (∃ r, map[nd.lo.address]? = some r ∧ 2 ≤ r)) ∧
          (nd.hi.address < 2 ∨ map[nd.hi.address]? = some 1 ∨
            (∃ r, map[nd.hi.address]? = some r ∧ 2 ≤ r))) →
      MapOK st acc map i →
      (∀ j : Nat, j < i → ∀ r, map[j]? = some r → r < acc.length + 2) →
      StoreWF acc →
      out.1.length = st.length + 2 ∧
      (∀ j : Nat, j < i → out.1[j]? = map[j]?) ∧
      (∀ j : Nat, i ≤ j → map[j]? = some 1 → ∃ r, out.1[j]? = some r ∧ 2 ≤ r) ∧
      (∀ j : Nat, i ≤ j → map[j]? = some 0 → out.1[j]? = some 0) ∧
      MapOK st out.2 out.1 (st.length + 2) ∧
      StoreWF out.2 := by
  intro k
  induction k with
  | zero =>
    intro i map acc out h h2i hik hlen h01 hcl hok hbnd hwfacc
    cases Option.some_injective _ h
    have hie : i = st.length + 2 := by omega
    subst hie
    refine ⟨hlen, fun j _ => rfl, ?_, fun j hj hj0 => hj0, hok, hwfacc⟩
    intro j hj hj1
    have hjl := (List.getElem?_eq_some_iff.mp hj1).1
    exact absurd hjl (by omega)
  | succ k ih =>
    intro i map acc out h h2i hik hlen h01 hcl hok hbnd hwfacc
    simp only [gcCompactAux] at h
    have hiin : i < map.length := by omega
    cases hc : map[i]? with
    | none =>
      have hnone := List.getElem?_eq_none_iff.mp hc
      exact absurd hnone (by omega)
    | some into =>
      rw [hc] at h
      simp only [Option.bind_eq_bind, Option.some_bind] at h
      by_cases hinto : into = 1
      · subst hinto
        rw [if_pos rfl] at h
        have hilt2 : i < st.length + 2 := by omega
        obtain ⟨nd, hnd⟩ := nodeAt_of_lt h2i hilt2
        rw [hnd] at h
        simp only [Option.bind_eq_bind, Option.some_bind] at h
        have hch := storeWF_children wf hnd
        have hlo := hch.1
        have hhi := hch.2.1
        have hset : ∀ j : Nat, (map.set i (acc.length + 2))[j]? =
            if i = j then some (acc.length + 2) else map[j]? := by
          intro j
          rw [List.getElem?_set]
          by_cases hj : i = j
          · subst hj
            simp [hiin]
          · simp [hj]
        have hrlo : (map.set i (acc.length + 2))[nd.lo.address]? =
            map[nd.lo.address]? := by
          rw [hset, if_neg (by omega)]
        have hrhi : (map.set i (acc.length + 2))[nd.hi.address]? =
            map[nd.hi.address]? := by
          rw [hset, if_neg (by omega)]
        rw [hrlo] at h
        obtain ⟨hok0, hok1, hokj⟩ := hok
        -- child values
        obtain ⟨nd', hnd', hclo, hchi⟩ := hcl i (le_refl i) hc
        obtain rfl : nd = nd' := by
          rw [hnd] at hnd'
          exact Option.some_injective _ hnd'
        have hchildval : ∀ (c : NodeIndex M), c.address < i →
            (c.address < 2 ∨ map[c.address]? = some 1 ∨
              (∃ r, map[c.address]? = some r ∧ 2 ≤ r)) →
            ∃ rc, map[c.address]? = some rc ∧
              (c.address < 2 → rc = c.address) ∧ (2 ≤ c.address → 2 ≤ rc) := by
          intro c hci hdisj
          by_cases hcs : c.address < 2
          · have hca : c.address = 0 ∨ c.address = 1 := by omega
            rcases hca with hca | hca
            · exact ⟨0, by rw [hca]; exact hok0, by omega, by omega⟩
            · exact ⟨1, by rw [hca]; exact hok1, by omega, by omega⟩
          · rcases hdisj with hs | hm | ⟨r, hr, hr2⟩
            · omega
            · exact absurd rfl (hokj c.address (by omega) (by omega) 1 hm).1
            · exact ⟨r, hr, by omega, fun _ => hr2⟩
        obtain ⟨rlo, hrloV, hrloS, hrloK⟩ := hchildval nd.lo (by omega) hclo
        obtain ⟨rhi, hrhiV, hrhiS, hrhiK⟩ := hchildval nd.hi (by omega) hchi
        rw [hrloV] at h
        simp only [Option.bind_eq_bind, Option.some_bind] at h
        rw [hrhi, hrhiV] at h
        simp only [Option.bind_eq_bind, Option.some_bind] at h
        -- bounds and level facts for the appended compacted node
        have hrlobnd : rlo < acc.length + 2 :=
          hbnd nd.lo.address (by omega) rlo hrloV
        have hrhibnd : rhi < acc.length + 2 :=
          hbnd nd.hi.address (by omega) rhi hrhiV
        have hlvlacc : ∀ (c : NodeIndex M), c.address < i →
            LvlGt st c.address nd.var →
            ∀ rc, map[c.address]? = some rc →
            (c.address < 2 → rc = c.address) → LvlGt acc rc nd.var := by
          intro c hci hlv rc hrc hsnk
          by_cases hrc2 : rc < 2
          · exact LvlGt_sink hrc2
          · have hca2 : 2 ≤ c.address := by
              by_contra hca
              have h01c : c.address = 0 ∨ c.address = 1 := by omega
              have := hsnk (by omega)
              omega
            obtain ⟨hne1, hrest⟩ := hokj c.address hca2 (by omega) rc hrc
            obtain ⟨hrl2, nd2, hnd2, rlo2, rhi2, hvlo2, hvhi2, hacc2, hS⟩ :=
              hrest (by omega)
            intro nd3 hnd3
            unfold nodeAt at hnd3
            rw [if_neg (by omega)] at hnd3
            rw [hacc2] at hnd3
            cases Option.some_injective _ hnd3
            show nd.var <
              (⟨nd2.var, ⟨rlo2, nd2.lo.multiplicity⟩,
                ⟨rhi2, nd2.hi.multiplicity⟩⟩ : Node M).var
            exact hlv nd2 hnd2
        have hlvlo : LvlGt acc rlo nd.var :=
          hlvlacc nd.lo (by omega) hch.2.2.1 rlo hrloV hrloS
        have hlvhi : LvlGt acc rhi nd.var :=
          hlvlacc nd.hi (by omega) hch.2.2.2 rhi hrhiV hrhiS
        have hwfacc' : StoreWF
            (acc ++ [⟨nd.var, ⟨rlo, nd.lo.multiplicity⟩,
              ⟨rhi, nd.hi.multiplicity⟩⟩]) :=
          storeWF_append hwfacc hrlobnd hrhibnd hlvlo hlvhi
        have hbnd' : ∀ j : Nat, j < i + 1 →
            ∀ r, (map.set i (acc.length + 2))[j]? = some r →
            r < (acc ++ [(⟨nd.var, ⟨rlo, nd.lo.multiplicity⟩,
              ⟨rhi, nd.hi.multiplicity⟩⟩ : Node M)]).length + 2 := by
          intro j hj r hr
          rw [List.length_append, List.length_singleton]
          rw [hset] at hr
          by_cases hje : i = j
          · rw [if_pos hje] at hr
            cases Option.some_injective _ hr
            omega
          · rw [if_neg hje] at hr
            have := hbnd j (by omega) r hr
            omega
        -- invariants for the recursive call
        have hlen1 : (map.set i (acc.length + 2)).length = st.length + 2 := by
          rw [List.length_set]; exact hlen
        have h01' : ∀ j, i + 1 ≤ j → j < st.length + 2 →
            (map.set i (acc.length + 2))[j]? = some 0 ∨
            (map.set i (acc.length + 2))[j]? = some 1 := by
          intro j hj hjl
          rw [hset, if_neg (by omega)]
          exact h01 j (by omega) hjl
        have hcl' : ∀ j, i + 1 ≤ j →
            (map.set i (acc.length + 2))[j]? = some 1 →
            ∃ nd2, nodeAt st j = some nd2 ∧
              (nd2.lo.address < 2 ∨
                (map.set i (acc.length + 2))[nd2.lo.address]? = some 1 ∨
                (∃ r, (map.set i (acc.length + 2))[nd2.lo.address]? = some r ∧
                  2 ≤ r)) ∧
              (nd2.hi.address < 2 ∨
                (map.set i (acc.length + 2))[nd2.hi.address]? = some 1 ∨
                (∃ r, (map.set i (acc.length + 2))[nd2.hi.address]? = some r ∧
                  2 ≤ r)) := by
          intro j hj hm
          rw [hset, if_neg (by omega)] at hm
          obtain ⟨nd2, hnd2, hl2, hh2⟩ := hcl j (by omega) hm
          refine ⟨nd2, hnd2, ?_, ?_⟩
          · rcases hl2 with hs | hm2 | ⟨r, hr, hr2⟩
            · exact Or.inl hs
            · by_cases hca : i = nd2.lo.address
              · right; right
                refine ⟨acc.length + 2, ?_, by omega⟩
                rw [hset, if_pos hca]
              · right; left
                rw [hset, if_neg hca]
                exact hm2
            · by_cases hca : i = nd2.lo.address
              · right; right
                refine ⟨acc.length + 2, ?_, by omega⟩
                rw [hset, if_pos hca]
              · right; right
                refine ⟨r, ?_, hr2⟩
                rw [hset, if_neg hca]
                exact hr
          · rcases hh2 with hs | hm2 | ⟨r, hr, hr2⟩
            · exact Or.inl hs
            · by_cases hca : i = nd2.hi.address
              · right; right
                refine ⟨acc.length + 2, ?_, by omega⟩
                rw [hset, if_pos hca]
              · right; left
                rw [hset, if_neg hca]
                exact hm2
            · by_cases hca : i = nd2.hi.address
              · right; right
                refine ⟨acc.length + 2, ?_, by omega⟩
                rw [hset, if_pos hca]
              · right; right
                refine ⟨r, ?_, hr2⟩
                rw [hset, if_neg hca]
                exact hr
        have hok' : MapOK st
            (acc ++ [⟨nd.var, ⟨rlo, nd.lo.multiplicity⟩, ⟨rhi, nd.hi.multiplicity⟩⟩])
            (map.set i (acc.length + 2)) (i + 1) := by
          refine ⟨by rw [hset, if_neg (by omega)]; exact hok0,
            by rw [hset, if_neg (by omega)]; exact hok1, ?_⟩
          intro j h2j hji r hr
          by_cases hji2 : j < i
          · rw [hset, if_neg (by omega)] at hr
            obtain ⟨hne1, hrest⟩ := hokj j h2j hji2 r hr
            refine ⟨hne1, ?_⟩
            intro hr2
            obtain ⟨hrl, nd2, hnd2, rlo2, rhi2, hvlo2, hvhi2, hacc2, hS⟩ :=
              hrest hr2
            have hlo2 := (storeWF_children wf hnd2).1
            have hhi2 := (storeWF_children wf hnd2).2.1
            refine ⟨by simp; omega, nd2, hnd2, rlo2, rhi2, ?_, ?_, ?_, hS⟩
            · rw [hset, if_neg (by omega)]; exact hvlo2
            · rw [hset, if_neg (by omega)]; exact hvhi2
            · rw [List.getElem?_append_left (by omega)]
              exact hacc2
          · have hje : j = i := by omega
            subst hje
            rw [hset, if_pos rfl] at hr
            cases Option.some_injective _ hr
            refine ⟨by omega, ?_⟩
            intro _
            refine ⟨by simp [Nat.add_sub_cancel], nd, hnd, rlo, rhi, ?_, ?_, ?_,
              hrloS, hrloK, hrhiS, hrhiK⟩
            · rw [hset, if_neg (by omega)]; exact hrloV
            · rw [hset, if_neg (by omega)]; exact hrhiV
            · rw [Nat.add_sub_cancel, List.getElem?_append_right (le_refl _)]
              simp
        obtain ⟨hfl, hfpre, hf1, hf0, hfok, hfwf⟩ := ih (i+1) _ _ out h
          (by omega) (by omega) hlen1 h01' hcl' hok' hbnd' hwfacc'
        refine ⟨hfl, ?_, ?_, ?_, hfok, hfwf⟩
        · intro j hj
          rw [hfpre j (by omega), hset, if_neg (by omega)]
        · intro j hj hm
          by_cases hje : j = i
          · subst hje
            refine ⟨acc.length + 2, ?_, by omega⟩
            rw [hfpre j (by omega), hset, if_pos rfl]
          · refine hf1 j (by omega) ?_
            rw [hset, if_neg (by omega)]
            exact hm
        · intro j hj hm
          by_cases hje : j = i
          · subst hje
            rw [hc] at hm
            simp at hm
          · refine hf0 j (by omega) ?_
            rw [hset, if_neg (by omega)]
            exact hm
      · rw [if_neg hinto] at h
        have hinto0 : into = 0 := by
          rcases h01 i (le_refl i) (by omega) with h0 | h0 <;>
            rw [hc] at h0 <;> cases Option.some_injective _ h0
          · rfl
          · exact absurd rfl hinto
        subst hinto0
        obtain ⟨hok0, hok1, hokj⟩ := hok
        have hok' : MapOK st acc map (i + 1) := by
          refine ⟨hok0, hok1, ?_⟩
          intro j h2j hji r hr
          by_cases hji2 : j < i
          · exact hokj j h2j hji2 r hr
          · have hje : j = i := by omega
            subst hje
            rw [hc] at hr
            cases Option.some_injective _ hr
            exact ⟨by omega, by omega⟩
        have hbnd' : ∀ j : Nat, j < i + 1 → ∀ r, map[j]? = some r →
            r < acc.length + 2 := by
          intro j hj r hr
          by_cases hje : j = i
          · subst hje
            rw [hc] at hr
            cases Option.some_injective _ hr
            omega
          · exact hbnd j (by omega) r hr
        obtain ⟨hfl, hfpre, hf1, hf0, hfok, hfwf⟩ := ih (i+1) _ _ out h
          (by omega) (by omega) hlen
          (fun j hj hjl => h01 j (by omega) hjl)
          (fun j hj hm => hcl j (by omega) hm) hok' hbnd' hwfacc
        refine ⟨hfl, fun j hj => hfpre j (by omega), ?_, ?_, hfok, hfwf⟩
        · intro j hj hm
          by_cases hje : j = i
          · subst hje
            rw [hc] at hm
            simp at hm
          · exact hf1 j (by omega) hm
        · intro j hj hm
          by_cases hje : j = i
          · subst hje
            rw [hfpre j (by omega)]
            exact hc
          · exact hf0 j (by omega) hm

theorem gc_spec [DecidableEq M] {st : Store M} (wf : StoreWF st)
    {keep : List (NodeIndex M)} {stF : Store M} {mapF : List Nat}
    (hgc : gc st keep = some (stF, mapF))
    (hkeep : ∀ n ∈ keep, goodIdx st n) :
    mapF.length = st.length + 2 ∧
    MapOK st stF mapF (st.length + 2) ∧
    StoreWF stF ∧
    (∀ n ∈ keep, ∃ r, mapF[n.address]? = some r ∧
      (n.address < 2 → r = n.address) ∧ (2 ≤ n.address → 2 ≤ r)) := by
  unfold gc at hgc
  set map0 := ((List.replicate (st.length + 2) 0).set 0 1).set 1 1 with hmap0def
  have hmap0len : map0.length = st.length + 2 := by
    rw [hmap0def]
    simp
  have hm00 : map0[0]? = some 1 := by
    rw [hmap0def, List.getElem?_set_ne (by omega), List.getElem?_set_eq (by simp)]
  have hm01 : map0[1]? = some 1 := by
    rw [hmap0def, List.getElem?_set_eq (by simp)]
  have hm0j : ∀ j : Nat, 2 ≤ j →
      map0[j]? = (List.replicate (st.length + 2) (0 : Nat))[j]? := by
    intro j hj
    rw [hmap0def, List.getElem?_set_ne (by omega), List.getElem?_set_ne (by omega)]
  have hac0 : AC st map0 (fun _ => False) := by
    intro a h2a hma
    rw [hm0j a h2a, List.getElem?_replicate] at hma
    by_cases hlt : a < st.length + 2
    · rw [if_pos hlt] at hma
      simp at hma
    · rw [if_neg hlt] at hma
      simp at hma
  cases h1 : doKeepAll st (st.length + 2) keep map0 with
  | none => rw [h1] at hgc; simp at hgc
  | some map1 =>
    rw [h1] at hgc
    simp only [Option.bind_eq_bind, Option.some_bind] at hgc
    obtain ⟨hl1, hor1, hmono1, hmark1, hac1⟩ :=
      doKeepAll_spec (st.length + 2) keep map0 map1 h1
    have hm10 : map1[0]? = some 1 := hmono1 0 hm00
    have hm11 : map1[1]? = some 1 := hmono1 1 hm01
    have hl1' : map1.length = st.length + 2 := by rw [hl1, hmap0len]
    have h01m1 : ∀ j : Nat, 2 ≤ j → j < st.length + 2 →
        map1[j]? = some 0 ∨ map1[j]? = some 1 := by
      intro j h2j hjl
      rcases hor1 j with he | he
      · rw [he, hm0j j h2j, List.getElem?_replicate, if_pos hjl]
        exact Or.inl rfl
      · exact Or.inr he
    have hcl1 := hac1 (fun _ => False) hac0
    -- the compacted map input
    set map2 := (map1.set 0 0).set 1 1 with hmap2def
    have hm20 : map2[0]? = some 0 := by
      rw [hmap2def, List.getElem?_set_ne (by omega),
        List.getElem?_set_eq (by rw [hl1, hmap0len]; omega)]
    have hm21 : map2[1]? = some 1 := by
      rw [hmap2def, List.getElem?_set_eq (by simp [hl1, hmap0len])]
    have hm2j : ∀ j : Nat, 2 ≤ j → map2[j]? = map1[j]? := by
      intro j hj
      rw [hmap2def, List.getElem?_set_ne (by omega), List.getElem?_set_ne (by omega)]
    have hl2 : map2.length = st.length + 2 := by
      rw [hmap2def]
      simp [hl1, hmap0len]
    cases h2 : gcCompactAux st st.length 2 map2 [] with
    | none => rw [h2] at hgc; simp at hgc
    | some r =>
      rw [h2] at hgc
      simp only [Option.bind_eq_bind, Option.some_bind] at hgc
      have hpair := Option.some_injective _ hgc
      injection hpair with hstF hmapF
      obtain ⟨hfl, hfpre, hf1, hf0, hfok, hfwf⟩ := gcCompactAux_spec wf st.length 2
        map2 [] r h2 (le_refl 2) (by omega) hl2
        (fun j h2j hjl => by rw [hm2j j h2j]; exact h01m1 j h2j hjl)
        (by
          intro j h2j hm
          rw [hm2j j h2j] at hm
          rcases hcl1 j h2j hm with hF | ⟨nd, hnd, hclo, hchi⟩
          · exact absurd hF (by simp)
          · refine ⟨nd, hnd, ?_, ?_⟩
            · by_cases hs : nd.lo.address < 2
              · exact Or.inl hs
              · right; left
                rw [hm2j _ (by omega)]
                exact hclo
            · by_cases hs : nd.hi.address < 2
              · exact Or.inl hs
              · right; left
                rw [hm2j _ (by omega)]
                exact hchi)
        ⟨hm20, hm21, by intro j h2j hji r' _; omega⟩
        (by
          intro j hj r' hr'
          have hj01 : j = 0 ∨ j = 1 := by omega
          rcases hj01 with hj0 | hj0 <;> subst hj0
          · rw [hm20] at hr'
            cases Option.some_injective _ hr'
            omega
          · rw [hm21] at hr'
            cases Option.some_injective _ hr'
            omega)
        (by intro k hk; exact absurd hk (by simp))
      subst hstF
      subst hmapF
      refine ⟨hfl, hfok, hfwf, ?_⟩
      intro n hn
      have hmarked : map1[n.address]? = some 1 := hmark1 n hn
      by_cases hs : n.address < 2
      · have hca : n.address = 0 ∨ n.address = 1 := by omega
        rcases hca with hca | hca
        · refine ⟨0, ?_, by omega, by omega⟩
          rw [hca, hfpre 0 (by omega)]
          exact hm20
        · refine ⟨1, ?_, by omega, by omega⟩
          rw [hca, hfpre 1 (by omega)]
          exact hm21
      · obtain ⟨rv, hrv, hrv2⟩ := hf1 n.address (by omega)
          (by rw [hm2j _ (by omega)]; exact hmarked)
        exact ⟨rv, hrv, by omega, fun _ => hrv2⟩

theorem gc_eval {st stF : Store M} {mapF : List Nat}
    (hok : MapOK st stF mapF (st.length + 2))
    (hlen : mapF.length = st.length + 2) :
    ∀ fuel (a r : Nat) (m : M) (x : List Bool), mapF[a]? = some r →
      (a < 2 → r = a) → (2 ≤ a → 2 ≤ r) →
      evaluateBdd stF fuel ⟨r, m⟩ x = evaluateBdd st fuel ⟨a, m⟩ x := by
  intro fuel
  induction fuel with
  | zero => intros; rfl
  | succ f ih =>
    intro a r m x hr hs hk
    by_cases ha : a < 2
    · have hra : r = a := hs ha
      subst hra
      rw [evaluateBdd_succ, evaluateBdd_succ]
      have hsk : (⟨r, m⟩ : NodeIndex M).isSink = true := by
        unfold NodeIndex.isSink NodeIndex.isFalse NodeIndex.isTrue
        have : r = 0 ∨ r = 1 := by omega
        rcases this with h0 | h0 <;> simp [h0]
      rw [if_pos hsk, if_pos hsk]
    · have h2a : 2 ≤ a := by omega
      have hr2 : 2 ≤ r := hk h2a
      have hain : a < mapF.length := (List.getElem?_eq_some_iff.mp hr).1
      obtain ⟨hrl, nd, hnd, rlo, rhi, hvlo, hvhi, hacc, hloS, hloK, hhiS, hhiK⟩ :=
        (hok.2.2 a h2a (by omega) r hr).2 hr2
      have hndF : nodeAt stF r = some
          (⟨nd.var, ⟨rlo, nd.lo.multiplicity⟩, ⟨rhi, nd.hi.multiplicity⟩⟩ : Node M) := by
        unfold nodeAt
        rw [if_neg (by omega)]
        exact hacc
      rw [evaluateBdd_succ, evaluateBdd_succ]
      have hsk1 : (⟨r, m⟩ : NodeIndex M).isSink = false := by
        unfold NodeIndex.isSink NodeIndex.isFalse NodeIndex.isTrue
        have h0 : r ≠ 0 := by omega
        have h1 : r ≠ 1 := by omega
        simp [h0, h1]
      have hsk2 : (⟨a, m⟩ : NodeIndex M).isSink = false := by
        unfold NodeIndex.isSink NodeIndex.isFalse NodeIndex.isTrue
        have h0 : a ≠ 0 := by omega
        have h1 : a ≠ 1 := by omega
        simp [h0, h1]
      rw [if_neg (by simp [hsk1]), if_neg (by simp [hsk2])]
      have haddr1 : (⟨r, m⟩ : NodeIndex M).address = r := rfl
      have haddr2 : (⟨a, m⟩ : NodeIndex M).address = a := rfl
      rw [haddr1, haddr2, hndF, hnd]
      simp only [Option.some_bind]
      show (x[nd.var]?).bind (fun b => evaluateBdd stF f
          (if b then (⟨rhi, nd.hi.multiplicity⟩ : NodeIndex M)
            else ⟨rlo, nd.lo.multiplicity⟩) x) =
        (x[nd.var]?).bind (fun b => evaluateBdd st f
          (if b then nd.hi else nd.lo) x)
      cases hx : x[nd.var]? with
      | none => rfl
      | some b =>
        simp only [Option.some_bind]
        cases b
        · show evaluateBdd stF f ⟨rlo, nd.lo.multiplicity⟩ x =
            evaluateBdd st f nd.lo x
          exact ih nd.lo.address rlo nd.lo.multiplicity x hvlo hloS hloK
        · show evaluateBdd stF f ⟨rhi, nd.hi.multiplicity⟩ x =
            evaluateBdd st f nd.hi x
          exact ih nd.hi.address rhi nd.hi.multiplicity x hvhi hhiS hhiK

/-- C6: after `gc(keep)`, every kept edge is renamed to `Some` edge with the
same multiplicity that evaluates identically (same enumeration) against the
compacted store, and `rename` returns `None` exactly for the addresses the
collection gave no new address (value 0 in the renaming vector, the FALSE
sink apart). -/
theorem claim6_gc_renaming [DecidableEq M] {st : Store M} (wf : StoreWF st)
    {keep : List (NodeIndex M)} {stF : Store M} {mapF : List Nat}
    (hgc : gc st keep = some (stF, mapF))
    (hkeep : ∀ n ∈ keep, goodIdx st n) :
    (∀ n ∈ keep, ∃ rv, rename mapF n = some (some ⟨rv, n.multiplicity⟩) ∧
      ∀ fuel x, evaluateBdd stF fuel ⟨rv, n.multiplicity⟩ x =
        evaluateBdd st fuel n x) ∧
    (∀ e : NodeIndex M, goodIdx st e →
      (rename mapF e = some none ↔ mapF[e.address]? = some 0 ∧ e.address ≠ 0)) := by
  obtain ⟨hlen, hok, _, hkept⟩ := gc_spec wf hgc hkeep
  constructor
  · intro n hn
    obtain ⟨rv, hrv, hrvS, hrvK⟩ := hkept n hn
    refine ⟨rv, ?_, ?_⟩
    · unfold rename
      rw [hrv]
      simp only [Option.map_some']
      rw [if_neg ?_]
      intro ⟨hrv0, hna⟩
      by_cases hs : n.address < 2
      · have := hrvS hs
        omega
      · have := hrvK (by omega)
        omega
    · intro fuel x
      have h := gc_eval hok hlen fuel n.address rv n.multiplicity x hrv hrvS hrvK
      rw [h]
  · intro e hg
    have hein : e.address < mapF.length := by
      unfold goodIdx at hg
      omega
    obtain ⟨v, hv⟩ : ∃ v, mapF[e.address]? = some v :=
      ⟨mapF.get ⟨e.address, hein⟩, by
        rw [List.get_eq_getElem]; exact List.getElem?_eq_getElem hein⟩
    unfold rename
    rw [hv]
    simp only [Option.map_some']
    constructor
    · intro h
      by_cases hc : v = 0 ∧ e.address ≠ 0
      · exact ⟨by rw [hc.1], hc.2⟩
      · rw [if_neg hc] at h
        simp at h
    · intro ⟨h0, hne⟩
      have hv0 := Option.some_injective _ h0
      subst hv0
      rw [if_pos ⟨rfl, hne⟩]

/-- C6 witness: collecting the two-node store with only the second node kept
renames its root from address 3 to address 2 with identical evaluation, and
maps the discarded first node (address 2) to none. -/
theorem claim6_witness :
    gc ([⟨0, ⟨0, ()⟩, ⟨1, ()⟩⟩, ⟨1, ⟨0, ()⟩, ⟨1, ()⟩⟩] : Store Unit) [⟨3, ()⟩] =
      some ([⟨1, ⟨0, ()⟩, ⟨1, ()⟩⟩], [0, 1, 0, 2]) ∧
    rename [0, 1, 0, 2] (⟨3, ()⟩ : NodeIndex Unit) = some (some ⟨2, ()⟩) ∧
    evaluateBdd ([⟨1, ⟨0, ()⟩, ⟨1, ()⟩⟩] : Store Unit) 2 ⟨2, ()⟩ [false, true] =
      evaluateBdd ([⟨0, ⟨0, ()⟩, ⟨1, ()⟩⟩, ⟨1, ⟨0, ()⟩, ⟨1, ()⟩⟩] : Store Unit)
        2 ⟨3, ()⟩ [false, true] ∧
    rename [0, 1, 0, 2] (⟨2, ()⟩ : NodeIndex Unit) = some none := by
  have hgc : gc ([⟨0, ⟨0, ()⟩, ⟨1, ()⟩⟩, ⟨1, ⟨0, ()⟩, ⟨1, ()⟩⟩] : Store Unit)
      [⟨3, ()⟩] = some ([⟨1, ⟨0, ()⟩, ⟨1, ()⟩⟩], [0, 1, 0, 2]) := by decide
  obtain ⟨h1, h2⟩ := claim6_gc_renaming (by decide) hgc (by decide)
  obtain ⟨rv, hrv, hev⟩ := h1 ⟨3, ()⟩ (by decide)
  have hrv2 : rv = 2 := by
    have hcalc : rename [0, 1, 0, 2] (⟨3, ()⟩ : NodeIndex Unit) =
        some (some ⟨2, ()⟩) := by decide
    rw [hcalc] at hrv
    have h3 := Option.some_injective _ hrv
    have h4 := Option.some_injective _ h3
    have h5 := congrArg NodeIndex.address h4
    exact h5.symm
  subst hrv2
  refine ⟨hgc, by decide, hev 2 [false, true], ?_⟩
  exact (h2 ⟨2, ()⟩ (by decide)).mpr ⟨by decide, by decide⟩

theorem LvlGt_anti {st st' : Store M} (hext : StoreExtends st st') {a v : Nat}
    (h : LvlGt st' a v) : LvlGt st a v := by
  intro nd hnd
  exact h nd (nodeAt_extends hext hnd)

theorem WfCacheOK_nil (st : Store M) :
    WfCacheOK st ([] : Cache (NodeIndex M × NodeIndex M) (NodeIndex M)) := by
  intro p hp
  simp at hp

theorem WfCacheOK_extends {st st' : Store M} (hext : StoreExtends st st')
    {cache : Cache (NodeIndex M × NodeIndex M) (NodeIndex M)}
    (hc : WfCacheOK st cache) : WfCacheOK st' cache := by
  intro p hp
  obtain ⟨hg, hlvl⟩ := hc p hp
  refine ⟨goodIdx_mono hext hg, ?_⟩
  intro v h1 h2
  rw [LvlGt_congr hext hg]
  exact hlvl v (LvlGt_anti hext h1) (LvlGt_anti hext h2)

theorem MulCacheOK_to_wf {st : Store M}
    {cache : Cache (NodeIndex M × NodeIndex M) (NodeIndex M)}
    (hc : MulCacheOK st cache) : WfCacheOK st cache := by
  intro p hp
  obtain ⟨-, -, hg, hlvl, -⟩ := hc p hp
  exact ⟨hg, hlvl⟩

theorem createNodeBdd_wf [DecidableEq M] [DecidableEq K] (ops : MultOps M)
    {st : Store M} (wf : StoreWF st) (cache : Cache K (NodeIndex M))
    (lo hi : NodeIndex M) (v : Nat) (key : K)
    (hglo : goodIdx st lo) (hghi : goodIdx st hi)
    (hllo : LvlGt st lo.address v) (hlhi : LvlGt st hi.address v) :
    StoreExtends st (createNodeBdd ops st cache lo hi v key).1 ∧
    StoreWF (createNodeBdd ops st cache lo hi v key).1 ∧
    (createNodeBdd ops st cache lo hi v key).2.1 =
      cacheInsert cache key (createNodeBdd ops st cache lo hi v key).2.2 ∧
    goodIdx (createNodeBdd ops st cache lo hi v key).1
      (createNodeBdd ops st cache lo hi v key).2.2 ∧
    (∀ w, w < v → LvlGt (createNodeBdd ops st cache lo hi v key).1
      (createNodeBdd ops st cache lo hi v key).2.2.address w) := by
  by_cases hme : lo = hi
  · have he : createNodeBdd ops st cache lo hi v key =
        (st, cacheInsert cache key lo, lo) := by
      simp only [createNodeBdd, if_pos hme]
    rw [he]
    exact ⟨StoreExtends.refl st, wf, rfl, hglo,
      fun w hw => LvlGt_mono (by omega) hllo⟩
  · have he : createNodeBdd ops st cache lo hi v key =
        ((addNodeIfNotPresent ops st ⟨v, lo, hi⟩).1,
          cacheInsert cache key (addNodeIfNotPresent ops st ⟨v, lo, hi⟩).2,
          (addNodeIfNotPresent ops st ⟨v, lo, hi⟩).2) := by
      simp only [createNodeBdd, if_neg hme]
    rw [he]
    obtain ⟨hext, hwf, hlen, hgood, ⟨nd', hnd', hv', hlo', hhi'⟩, hvb⟩ :=
      addNodeIfNotPresent_spec ops wf ⟨v, lo, hi⟩ hglo hghi hllo hlhi
    refine ⟨hext, hwf, rfl, hgood, ?_⟩
    intro w hw
    refine LvlGt_of_node hnd' ?_
    rw [hv']
    exact hw

theorem createNodeZdd_wf [DecidableEq M] [DecidableEq K] (ops : MultOps M)
    {st : Store M} (wf : StoreWF st) (cache : Cache K (NodeIndex M))
    (lo hi : NodeIndex M) (v : Nat) (key : K)
    (hglo : goodIdx st lo) (hghi : goodIdx st hi)
    (hllo : LvlGt st lo.address v) (hlhi : LvlGt st hi.address v) :
    StoreExtends st (createNodeZdd ops st cache lo hi v key).1 ∧
    StoreWF (createNodeZdd ops st cache lo hi v key).1 ∧
    (createNodeZdd ops st cache lo hi v key).2.1 =
      cacheInsert cache key (createNodeZdd ops st cache lo hi v key).2.2 ∧
    goodIdx (createNodeZdd ops st cache lo hi v key).1
      (createNodeZdd ops st cache lo hi v key).2.2 ∧
    (∀ w, w < v → LvlGt (createNodeZdd ops st cache lo hi v key).1
      (createNodeZdd ops st cache lo hi v key).2.2.address w) := by
  by_cases hme : hi.isFalse = true
  · have he : createNodeZdd ops st cache lo hi v key =
        (st, cacheInsert cache key lo, lo) := by
      simp only [createNodeZdd, if_pos hme]
    rw [he]
    exact ⟨StoreExtends.refl st, wf, rfl, hglo,
      fun w hw => LvlGt_mono (by omega) hllo⟩
  · have he : createNodeZdd ops st cache lo hi v key =
        ((addNodeIfNotPresent ops st ⟨v, lo, hi⟩).1,
          cacheInsert cache key (addNodeIfNotPresent ops st ⟨v, lo, hi⟩).2,
          (addNodeIfNotPresent ops st ⟨v, lo, hi⟩).2) := by
      simp only [createNodeZdd, if_neg hme]
    rw [he]
    obtain ⟨hext, hwf, hlen, hgood, ⟨nd', hnd', hv', hlo', hhi'⟩, hvb⟩ :=
      addNodeIfNotPresent_spec ops wf ⟨v, lo, hi⟩ hglo hghi hllo hlhi
    refine ⟨hext, hwf, rfl, hgood, ?_⟩
    intro w hw
    refine LvlGt_of_node hnd' ?_
    rw [hv']
    exact hw

theorem wfCombineMain [DecidableEq M] (ops : MultOps M)
    {st : Store M} {i1 i2 a11 a12 a21 a22 : NodeIndex M} {vm : Nat}
    {r1 r2 out :
      Store M × Cache (NodeIndex M × NodeIndex M) (NodeIndex M) × NodeIndex M}
    (hga12 : goodIdx st a12) (hga22 : goodIdx st a22)
    (hlvm11 : LvlGt st a11.address vm) (hlvm12 : LvlGt st a12.address vm)
    (hlvm21 : LvlGt st a21.address vm) (hlvm22 : LvlGt st a22.address vm)
    (hkeyw : ∀ w, LvlGt st i1.address w → LvlGt st i2.address w → w < vm)
    {key : NodeIndex M × NodeIndex M}
    (hkey : key = (i1, i2) ∨ key = (i2, i1))
    (hR1 : WfOut st a11 a21 r1) (hR2 : WfOut r1.1 a12 a22 r2)
    (hout : createNodeBdd ops r2.1 r2.2.1 r1.2.2 r2.2.2 vm key = out) :
    WfOut st i1 i2 out := by
  obtain ⟨ext1, wf1, hc1, hgr1, hlvl1⟩ := hR1
  obtain ⟨ext2, wf2, hc2, hgr2, hlvl2⟩ := hR2
  have hgr1' : goodIdx r2.1 r1.2.2 := goodIdx_mono ext2 hgr1
  have hrlv1 : LvlGt r2.1 r1.2.2.address vm := by
    rw [LvlGt_congr ext2 hgr1]
    exact hlvl1 vm hlvm11 hlvm21
  have hrlv2 : LvlGt r2.1 r2.2.2.address vm := by
    refine hlvl2 vm ?_ ?_
    · rw [LvlGt_congr ext1 hga12]; exact hlvm12
    · rw [LvlGt_congr ext1 hga22]; exact hlvm22
  obtain ⟨extp, wfp, hcsh, hgoodp, hplvl⟩ :=
    createNodeBdd_wf ops wf2 r2.2.1 r1.2.2 r2.2.2 vm key hgr1' hgr2
      hrlv1 hrlv2
  subst hout
  have hextTot : StoreExtends st
      (createNodeBdd ops r2.1 r2.2.1 r1.2.2 r2.2.2 vm key).1 :=
    StoreExtends.trans ext1 (StoreExtends.trans ext2 extp)
  refine ⟨hextTot, wfp, ?_, hgoodp, ?_⟩
  · rw [hcsh]
    intro p hp
    rcases List.mem_cons.mp hp with hpk | hpold
    · subst hpk
      rcases hkey with hk | hk <;> subst hk
      · refine ⟨hgoodp, ?_⟩
        intro w hA hB
        exact hplvl w (hkeyw w (LvlGt_anti hextTot hA) (LvlGt_anti hextTot hB))
      · refine ⟨hgoodp, ?_⟩
        intro w hA hB
        exact hplvl w (hkeyw w (LvlGt_anti hextTot hB) (LvlGt_anti hextTot hA))
    · exact WfCacheOK_extends extp hc2 p hpold
  · intro w hA hB
    exact hplvl w (hkeyw w hA hB)

theorem wfCombineMainZ [DecidableEq M] (ops : MultOps M)
    {st : Store M} {i1 i2 a11 a12 a21 a22 : NodeIndex M} {vm : Nat}
    {r1 r2 out :
      Store M × Cache (NodeIndex M × NodeIndex M) (NodeIndex M) × NodeIndex M}
    (hga12 : goodIdx st a12) (hga22 : goodIdx st a22)
    (hlvm11 : LvlGt st a11.address vm) (hlvm12 : LvlGt st a12.address vm)
    (hlvm21 : LvlGt st a21.address vm) (hlvm22 : LvlGt st a22.address vm)
    (hkeyw : ∀ w, LvlGt st i1.address w → LvlGt st i2.address w → w < vm)
    {key : NodeIndex M × NodeIndex M}
    (hkey : key = (i1, i2) ∨ key = (i2, i1))
    (hR1 : WfOut st a11 a21 r1) (hR2 : WfOut r1.1 a12 a22 r2)
    (hout : createNodeZdd ops r2.1 r2.2.1 r1.2.2 r2.2.2 vm key = out) :
    WfOut st i1 i2 out := by
  obtain ⟨ext1, wf1, hc1, hgr1, hlvl1⟩ := hR1
  obtain ⟨ext2, wf2, hc2, hgr2, hlvl2⟩ := hR2
  have hgr1' : goodIdx r2.1 r1.2.2 := goodIdx_mono ext2 hgr1
  have hrlv1 : LvlGt r2.1 r1.2.2.address vm := by
    rw [LvlGt_congr ext2 hgr1]
    exact hlvl1 vm hlvm11 hlvm21
  have hrlv2 : LvlGt r2.1 r2.2.2.address vm := by
    refine hlvl2 vm ?_ ?_
    · rw [LvlGt_congr ext1 hga12]; exact hlvm12
    · rw [LvlGt_congr ext1 hga22]; exact hlvm22
  obtain ⟨extp, wfp, hcsh, hgoodp, hplvl⟩ :=
    createNodeZdd_wf ops wf2 r2.2.1 r1.2.2 r2.2.2 vm key hgr1' hgr2
      hrlv1 hrlv2
  subst hout
  have hextTot : StoreExtends st
      (createNodeZdd ops r2.1 r2.2.1 r1.2.2 r2.2.2 vm key).1 :=
    StoreExtends.trans ext1 (StoreExtends.trans ext2 extp)
  refine ⟨hextTot, wfp, ?_, hgoodp, ?_⟩
  · rw [hcsh]
    intro p hp
    rcases List.mem_cons.mp hp with hpk | hpold
    · subst hpk
      rcases hkey with hk | hk <;> subst hk
      · refine ⟨hgoodp, ?_⟩
        intro w hA hB
        exact hplvl w (hkeyw w (LvlGt_anti hextTot hA) (LvlGt_anti hextTot hB))
      · refine ⟨hgoodp, ?_⟩
        intro w hA hB
        exact hplvl w (hkeyw w (LvlGt_anti hextTot hB) (LvlGt_anti hextTot hA))
    · exact WfCacheOK_extends extp hc2 p hpold
  · intro w hA hB
    exact hplvl w (hkeyw w hA hB)

theorem WfOut_swap {st : Store M} {i1 i2 : NodeIndex M}
    {out : Store M × Cache (NodeIndex M × NodeIndex M) (NodeIndex M) × NodeIndex M}
    (h : WfOut st i1 i2 out) : WfOut st i2 i1 out := by
  obtain ⟨e, w, c, g, l⟩ := h
  exact ⟨e, w, c, g, fun v hA hB => l v hB hA⟩

theorem andZddTrue_sink (ops : MultOps M) (st : Store M) :
    ∀ fuel (i : NodeIndex M) r, andZddTrue ops st fuel i = some r →
      r.address < 2 := by
  intro fuel
  induction fuel with
  | zero => intro i r h; simp [andZddTrue] at h
  | succ f ih =>
    intro i r h
    simp only [andZddTrue] at h
    by_cases hs : i.isSink = true
    · rw [if_pos hs] at h
      cases Option.some_injective _ h
      exact isSink_lt hs
    · rw [if_neg hs] at h
      cases hn : nodeAt st i.address with
      | none => simp [hn] at h
      | some nd =>
        simp only [hn, Option.bind_eq_bind, Option.some_bind] at h
        exact ih _ _ h

theorem sumBddWfMain [DecidableEq M] (ops : MultOps M) (f : Nat)
    (ih : ∀ (st : Store M) cache (x y : NodeIndex M) o,
      sumBdd ops f st cache x y = some o →
      StoreWF st → WfCacheOK st cache → goodIdx st x → goodIdx st y →
      WfOut st x y o)
    (st : Store M) (cache : Cache (NodeIndex M × NodeIndex M) (NodeIndex M))
    (i1 i2 : NodeIndex M)
    (out : Store M × Cache (NodeIndex M × NodeIndex M) (NodeIndex M) × NodeIndex M)
    (wf : StoreWF st) (hcache : WfCacheOK st cache)
    (hg1 : goodIdx st i1) (hg2 : goodIdx st i2)
    (node1 node2 : Node M)
    (hn1 : nodeIncorporatingMultiplicity ops st i1 = some node1)
    (hn2 : nodeIncorporatingMultiplicity ops st i2 = some node2 ∨
      (node2.var = node1.var ∧ node2.lo.address < 2 ∧ node2.hi.address < 2))
    (r1 r2 : Store M × Cache (NodeIndex M × NodeIndex M) (NodeIndex M) × NodeIndex M)
    (hr1 : sumBdd ops f st cache
      (if node1.var ≤ node2.var then (node1.lo, node1.hi) else (i1, i1)).1
      (if node2.var ≤ node1.var then (node2.lo, node2.hi) else (i2, i2)).1 =
        some r1)
    (hr2 : sumBdd ops f r1.1 r1.2.1
      (if node1.var ≤ node2.var then (node1.lo, node1.hi) else (i1, i1)).2
      (if node2.var ≤ node1.var then (node2.lo, node2.hi) else (i2, i2)).2 =
        some r2)
    (hout : createNodeBdd ops r2.1 r2.2.1 r1.2.2 r2.2.2
      (if node1.var ≤ node2.var then node1.var else node2.var) (i1, i2) = out) :
    WfOut st i1 i2 out := by
  obtain ⟨n01, hn01, hv1, hlo1, hhi1⟩ := nodeIncorporatingMultiplicity_some hn1
  set a1 := (if node1.var ≤ node2.var then (node1.lo, node1.hi) else (i1, i1))
    with ha1
  set a2 := (if node2.var ≤ node1.var then (node2.lo, node2.hi) else (i2, i2))
    with ha2
  set vm := (if node1.var ≤ node2.var then node1.var else node2.var) with hvm
  have hch1 := storeWF_children wf hn01
  have hi1r := nodeAt_some_range hn01
  have h2facts : goodIdx st node2.lo ∧ goodIdx st node2.hi ∧
      LvlGt st node2.lo.address node2.var ∧
      LvlGt st node2.hi.address node2.var := by
    rcases hn2 with hreal | ⟨hv2e, hlo2s, hhi2s⟩
    · obtain ⟨n02, hn02, hv2, hlo2, hhi2⟩ :=
        nodeIncorporatingMultiplicity_some hreal
      have hch2 := storeWF_children wf hn02
      have hi2r := nodeAt_some_range hn02
      refine ⟨?_, ?_, ?_, ?_⟩
      · unfold goodIdx
        rw [hlo2]
        omega
      · unfold goodIdx
        rw [hhi2]
        omega
      · rw [hlo2, hv2]
        exact hch2.2.2.1
      · rw [hhi2, hv2]
        exact hch2.2.2.2
    · exact ⟨by unfold goodIdx; omega, by unfold goodIdx; omega,
        LvlGt_sink hlo2s, LvlGt_sink hhi2s⟩
  have hvmf : vm ≤ node1.var ∧ vm ≤ node2.var ∧
      (vm = node1.var ∨ vm = node2.var) := by
    rw [hvm]
    by_cases hcmp : node1.var ≤ node2.var
    · rw [if_pos hcmp]
      exact ⟨le_refl _, hcmp, Or.inl rfl⟩
    · rw [if_neg hcmp]
      exact ⟨by omega, le_refl _, Or.inr rfl⟩
  have hN2 : ¬ node2.var ≤ node1.var →
      ∃ n02, nodeAt st i2.address = some n02 ∧ node2.var = n02.var := by
    intro hcmp
    rcases hn2 with hreal | ⟨hv2e, -, -⟩
    · obtain ⟨n02, hn02, hv2, -, -⟩ := nodeIncorporatingMultiplicity_some hreal
      exact ⟨n02, hn02, hv2⟩
    · exact absurd (le_of_eq hv2e) hcmp
  have hga11 : goodIdx st a1.1 := by
    by_cases hcmp : node1.var ≤ node2.var
    · simp only [ha1, if_pos hcmp]
      unfold goodIdx
      rw [hlo1]
      omega
    · simp only [ha1, if_neg hcmp]
      exact hg1
  have hga12 : goodIdx st a1.2 := by
    by_cases hcmp : node1.var ≤ node2.var
    · simp only [ha1, if_pos hcmp]
      unfold goodIdx
      rw [hhi1]
      omega
    · simp only [ha1, if_neg hcmp]
      exact hg1
  have hga21 : goodIdx st a2.1 := by
    by_cases hcmp : node2.var ≤ node1.var
    · simp only [ha2, if_pos hcmp]
      exact h2facts.1
    · simp only [ha2, if_neg hcmp]
      exact hg2
  have hga22 : goodIdx st a2.2 := by
    by_cases hcmp : node2.var ≤ node1.var
    · simp only [ha2, if_pos hcmp]
      exact h2facts.2.1
    · simp only [ha2, if_neg hcmp]
      exact hg2
  have hlvm11 : LvlGt st a1.1.address vm := by
    by_cases hcmp : node1.var ≤ node2.var
    · simp only [ha1, if_pos hcmp]
      rw [hlo1]
      refine LvlGt_mono ?_ hch1.2.2.1
      rw [← hv1]
      exact hvmf.1
    · simp only [ha1, if_neg hcmp]
      refine LvlGt_of_node hn01 ?_
      rw [← hv1]
      have h2 := hvmf.2.1
      omega
  have hlvm12 : LvlGt st a1.2.address vm := by
    by_cases hcmp : node1.var ≤ node2.var
    · simp only [ha1, if_pos hcmp]
      rw [hhi1]
      refine LvlGt_mono ?_ hch1.2.2.2
      rw [← hv1]
      exact hvmf.1
    · simp only [ha1, if_neg hcmp]
      refine LvlGt_of_node hn01 ?_
      rw [← hv1]
      have h2 := hvmf.2.1
      omega
  have hlvm21 : LvlGt st a2.1.address vm := by
    by_cases hcmp : node2.var ≤ node1.var
    · simp only [ha2, if_pos hcmp]
      exact LvlGt_mono hvmf.2.1 h2facts.2.2.1
    · simp only [ha2, if_neg hcmp]
      obtain ⟨n02, hn02, hv2⟩ := hN2 hcmp
      refine LvlGt_of_node hn02 ?_
      rw [← hv2]
      have h1 := hvmf.1
      omega
  have hlvm22 : LvlGt st a2.2.address vm := by
    by_cases hcmp : node2.var ≤ node1.var
    · simp only [ha2, if_pos hcmp]
      exact LvlGt_mono hvmf.2.1 h2facts.2.2.2
    · simp only [ha2, if_neg hcmp]
      obtain ⟨n02, hn02, hv2⟩ := hN2 hcmp
      refine LvlGt_of_node hn02 ?_
      rw [← hv2]
      have h1 := hvmf.1
      omega
  have hkeyw : ∀ w, LvlGt st i1.address w → LvlGt st i2.address w → w < vm := by
    intro w hA hB
    have h1 := LvlGt_node_elim hA hn01
    have hw1 : w < node1.var := by rw [hv1]; exact h1
    have hw2 : w < node2.var := by
      rcases hn2 with hreal | ⟨hv2e, -, -⟩
      · obtain ⟨n02, hn02, hv2, -, -⟩ :=
          nodeIncorporatingMultiplicity_some hreal
        have h2 := LvlGt_node_elim hB hn02
        rw [hv2]
        exact h2
      · rw [hv2e]
        exact hw1
    rcases hvmf.2.2 with heq | heq <;> omega
  have hO1 := ih st cache a1.1 a2.1 r1 hr1 wf hcache hga11 hga21
  have hO2 := ih r1.1 r1.2.1 a1.2 a2.2 r2 hr2 hO1.2.1 hO1.2.2.1
    (goodIdx_mono hO1.1 hga12) (goodIdx_mono hO1.1 hga22)
  exact wfCombineMain ops hga12 hga22 hlvm11 hlvm12 hlvm21 hlvm22 hkeyw
    (Or.inl rfl) hO1 hO2 hout

theorem zddWfMain [DecidableEq M] (ops : MultOps M)
    (rec : Store M → Cache (NodeIndex M × NodeIndex M) (NodeIndex M) →
      NodeIndex M → NodeIndex M →
      Option (Store M × Cache (NodeIndex M × NodeIndex M) (NodeIndex M) × NodeIndex M))
    (ih : ∀ (st : Store M) cache (x y : NodeIndex M) o,
      rec st cache x y = some o →
      StoreWF st → WfCacheOK st cache → goodIdx st x → goodIdx st y →
      WfOut st x y o)
    (st : Store M) (cache : Cache (NodeIndex M × NodeIndex M) (NodeIndex M))
    (i1 i2 : NodeIndex M)
    (out : Store M × Cache (NodeIndex M × NodeIndex M) (NodeIndex M) × NodeIndex M)
    (wf : StoreWF st) (hcache : WfCacheOK st cache)
    (hg1 : goodIdx st i1) (hg2 : goodIdx st i2)
    (node1 node2 : Node M)
    (hn1 : nodeIncorporatingMultiplicity ops st i1 = some node1)
    (hn2 : nodeIncorporatingMultiplicity ops st i2 = some node2 ∨
      (node2.var = node1.var ∧ node2.lo.address < 2 ∧ node2.hi.address < 2))
    (r1 r2 : Store M × Cache (NodeIndex M × NodeIndex M) (NodeIndex M) × NodeIndex M)
    (hr1 : rec st cache
      (if node1.var ≤ node2.var then (node1.lo, node1.hi)
        else (i1, NodeIndex.FALSE ops)).1
      (if node2.var ≤ node1.var then (node2.lo, node2.hi)
        else (i2, NodeIndex.FALSE ops)).1 = some r1)
    (hr2 : rec r1.1 r1.2.1
      (if node1.var ≤ node2.var then (node1.lo, node1.hi)
        else (i1, NodeIndex.FALSE ops)).2
      (if node2.var ≤ node1.var then (node2.lo, node2.hi)
        else (i2, NodeIndex.FALSE ops)).2 = some r2)
    (key : NodeIndex M × NodeIndex M)
    (hkey : key = (i1, i2) ∨ key = (i2, i1))
    (hout : createNodeZdd ops r2.1 r2.2.1 r1.2.2 r2.2.2
      (if node1.var ≤ node2.var then node1.var else node2.var) key = out) :
    WfOut st i1 i2 out := by
  obtain ⟨n01, hn01, hv1, hlo1, hhi1⟩ := nodeIncorporatingMultiplicity_some hn1
  set a1 := (if node1.var ≤ node2.var then (node1.lo, node1.hi)
    else (i1, NodeIndex.FALSE ops)) with ha1
  set a2 := (if node2.var ≤ node1.var then (node2.lo, node2.hi)
    else (i2, NodeIndex.FALSE ops)) with ha2
  set vm := (if node1.var ≤ node2.var then node1.var else node2.var) with hvm
  have hch1 := storeWF_children wf hn01
  have hi1r := nodeAt_some_range hn01
  have h2facts : goodIdx st node2.lo ∧ goodIdx st node2.hi ∧
      LvlGt st node2.lo.address node2.var ∧
      LvlGt st node2.hi.address node2.var := by
    rcases hn2 with hreal | ⟨hv2e, hlo2s, hhi2s⟩
    · obtain ⟨n02, hn02, hv2, hlo2, hhi2⟩ :=
        nodeIncorporatingMultiplicity_some hreal
      have hch2 := storeWF_children wf hn02
      have hi2r := nodeAt_some_range hn02
      refine ⟨?_, ?_, ?_, ?_⟩
      · unfold goodIdx
        rw [hlo2]
        omega
      · unfold goodIdx
        rw [hhi2]
        omega
      · rw [hlo2, hv2]
        exact hch2.2.2.1
      · rw [hhi2, hv2]
        exact hch2.2.2.2
    · exact ⟨by unfold goodIdx; omega, by unfold goodIdx; omega,
        LvlGt_sink hlo2s, LvlGt_sink hhi2s⟩
  have hvmf : vm ≤ node1.var ∧ vm ≤ node2.var ∧
      (vm = node1.var ∨ vm = node2.var) := by
    rw [hvm]
    by_cases hcmp : node1.var ≤ node2.var
    · rw [if_pos hcmp]
      exact ⟨le_refl _, hcmp, Or.inl rfl⟩
    · rw [if_neg hcmp]
      exact ⟨by omega, le_refl _, Or.inr rfl⟩
  have hN2 : ¬ node2.var ≤ node1.var →
      ∃ n02, nodeAt st i2.address = some n02 ∧ node2.var = n02.var := by
    intro hcmp
    rcases hn2 with hreal | ⟨hv2e, -, -⟩
    · obtain ⟨n02, hn02, hv2, -, -⟩ := nodeIncorporatingMultiplicity_some hreal
      exact ⟨n02, hn02, hv2⟩
    · exact absurd (le_of_eq hv2e) hcmp
  have hga11 : goodIdx st a1.1 := by
    by_cases hcmp : node1.var ≤ node2.var
    · simp only [ha1, if_pos hcmp]
      unfold goodIdx
      rw [hlo1]
      omega
    · simp only [ha1, if_neg hcmp]
      exact hg1
  have hga12 : goodIdx st a1.2 := by
    by_cases hcmp : node1.var ≤ node2.var
    · simp only [ha1, if_pos hcmp]
      unfold goodIdx
      rw [hhi1]
      omega
    · simp only [ha1, if_neg hcmp]
      show (0:Nat) < st.length + 2
      omega
  have hga21 : goodIdx st a2.1 := by
    by_cases hcmp : node2.var ≤ node1.var
    · simp only [ha2, if_pos hcmp]
      exact h2facts.1
    · simp only [ha2, if_neg hcmp]
      exact hg2
  have hga22 : goodIdx st a2.2 := by
    by_cases hcmp : node2.var ≤ node1.var
    · simp only [ha2, if_pos hcmp]
      exact h2facts.2.1
    · simp only [ha2, if_neg hcmp]
      show (0:Nat) < st.length + 2
      omega
  have hlvm11 : LvlGt st a1.1.address vm := by
    by_cases hcmp : node1.var ≤ node2.var
    · simp only [ha1, if_pos hcmp]
      rw [hlo1]
      refine LvlGt_mono ?_ hch1.2.2.1
      rw [← hv1]
      exact hvmf.1
    · simp only [ha1, if_neg hcmp]
      refine LvlGt_of_node hn01 ?_
      rw [← hv1]
      have h2 := hvmf.2.1
      omega
  have hlvm12 : LvlGt st a1.2.address vm := by
    by_cases hcmp : node1.var ≤ node2.var
    · simp only [ha1, if_pos hcmp]
      rw [hhi1]
      refine LvlGt_mono ?_ hch1.2.2.2
      rw [← hv1]
      exact hvmf.1
    · simp only [ha1, if_neg hcmp]
      exact LvlGt_sink (by simp [NodeIndex.FALSE])
  have hlvm21 : LvlGt st a2.1.address vm := by
    by_cases hcmp : node2.var ≤ node1.var
    · simp only [ha2, if_pos hcmp]
      exact LvlGt_mono hvmf.2.1 h2facts.2.2.1
    · simp only [ha2, if_neg hcmp]
      obtain ⟨n02, hn02, hv2⟩ := hN2 hcmp
      refine LvlGt_of_node hn02 ?_
      rw [← hv2]
      have h1 := hvmf.1
      omega
  have hlvm22 : LvlGt st a2.2.address vm := by
    by_cases hcmp : node2.var ≤ node1.var
    · simp only [ha2, if_pos hcmp]
      exact LvlGt_mono hvmf.2.1 h2facts.2.2.2
    · simp only [ha2, if_neg hcmp]
      exact LvlGt_sink (by simp [NodeIndex.FALSE])
  have hkeyw : ∀ w, LvlGt st i1.address w → LvlGt st i2.address w → w < vm := by
    intro w hA hB
    have h1 := LvlGt_node_elim hA hn01
    have hw1 : w < node1.var := by rw [hv1]; exact h1
    have hw2 : w < node2.var := by
      rcases hn2 with hreal | ⟨hv2e, -, -⟩
      · obtain ⟨n02, hn02, hv2, -, -⟩ :=
          nodeIncorporatingMultiplicity_some hreal
        have h2 := LvlGt_node_elim hB hn02
        rw [hv2]
        exact h2
      · rw [hv2e]
        exact hw1
    rcases hvmf.2.2 with heq | heq <;> omega
  have hO1 := ih st cache a1.1 a2.1 r1 hr1 wf hcache hga11 hga21
  have hO2 := ih r1.1 r1.2.1 a1.2 a2.2 r2 hr2 hO1.2.1 hO1.2.2.1
    (goodIdx_mono hO1.1 hga12) (goodIdx_mono hO1.1 hga22)
  exact wfCombineMainZ ops hga12 hga22 hlvm11 hlvm12 hlvm21 hlvm22 hkeyw
    hkey hO1 hO2 hout

theorem sumBdd_wf [DecidableEq M] (ops : MultOps M) :
    ∀ fuel (st : Store M) cache (j1 j2 : NodeIndex M) out,
      sumBdd ops fuel st cache j1 j2 = some out →
      StoreWF st → WfCacheOK st cache → goodIdx st j1 → goodIdx st j2 →
      WfOut st j1 j2 out := by
  intro fuel
  induction fuel with
  | zero => intro st cache j1 j2 out h; simp [sumBdd] at h
  | succ f ih =>
    intro st cache j1 j2 out h wf hcache hg1 hg2
    simp only [sumBdd] at h
    by_cases he : (j1.address == j2.address) = true
    · rw [if_pos he] at h
      cases Option.some_injective _ h
      exact ⟨StoreExtends.refl st, wf, hcache, hg1, fun v hA _ => hA⟩
    · rw [if_neg he] at h
      by_cases hf1 : j1.isFalse = true
      · rw [if_pos hf1] at h
        cases Option.some_injective _ h
        exact ⟨StoreExtends.refl st, wf, hcache, hg2, fun v _ hB => hB⟩
      · rw [if_neg hf1] at h
        by_cases hf2 : j2.isFalse = true
        · rw [if_pos hf2] at h
          cases Option.some_injective _ h
          exact ⟨StoreExtends.refl st, wf, hcache, hg1, fun v hA _ => hA⟩
        · rw [if_neg hf2] at h
          by_cases hirr : (ops.irrelevant && (j1.isTrue || j2.isTrue)) = true
          · rw [if_pos hirr] at h
            cases Option.some_injective _ h
            refine ⟨StoreExtends.refl st, wf, hcache, ?_, ?_⟩
            · show (1:Nat) < st.length + 2
              omega
            · intro v _ _
              exact LvlGt_sink (by simp [NodeIndex.TRUE])
          · rw [if_neg hirr] at h
            by_cases hsw : (ops.symmetricOr && decide (j1.address < j2.address) ||
                j1.address == 1) = true
            · simp only [if_pos hsw] at h
              cases hcf : cacheFind cache (j2, j1) with
              | some res =>
                rw [hcf] at h
                cases Option.some_injective _ h
                obtain ⟨hgood, hlvl⟩ := hcache _ (cacheFind_mem hcf)
                exact ⟨StoreExtends.refl st, wf, hcache, hgood,
                  fun v hA hB => hlvl v hB hA⟩
              | none =>
                rw [hcf] at h
                cases hn1 : nodeIncorporatingMultiplicity ops st j2 with
                | none => simp [hn1] at h
                | some node1 =>
                  simp only [hn1, Option.bind_eq_bind, Option.some_bind] at h
                  by_cases ht2 : j1.isTrue = true
                  · rw [if_pos ht2] at h
                    simp only [if_pos (le_refl node1.var)] at h
                    cases hr1 : sumBdd ops f st cache node1.lo
                        ⟨1, j1.multiplicity⟩ with
                    | none => simp [hr1] at h
                    | some r1 =>
                      simp only [hr1, Option.bind_eq_bind, Option.some_bind] at h
                      cases hr2 : sumBdd ops f r1.1 r1.2.1 node1.hi
                          ⟨1, j1.multiplicity⟩ with
                      | none => simp [hr2] at h
                      | some r2 =>
                        simp only [hr2, Option.bind_eq_bind,
                          Option.some_bind] at h
                        have hout := Option.some_injective _ h
                        obtain ⟨n01, hn01, hv1, hlo1, hhi1⟩ :=
                          nodeIncorporatingMultiplicity_some hn1
                        have hch1 := storeWF_children wf hn01
                        have hi1r := nodeAt_some_range hn01
                        have hga11 : goodIdx st node1.lo := by
                          unfold goodIdx
                          rw [hlo1]
                          omega
                        have hga12 : goodIdx st node1.hi := by
                          unfold goodIdx
                          rw [hhi1]
                          omega
                        have hgs : goodIdx st
                            (⟨1, j1.multiplicity⟩ : NodeIndex M) := by
                          show (1:Nat) < st.length + 2
                          omega
                        have hlvm11 : LvlGt st node1.lo.address node1.var := by
                          rw [hlo1, hv1]
                          exact hch1.2.2.1
                        have hlvm12 : LvlGt st node1.hi.address node1.var := by
                          rw [hhi1, hv1]
                          exact hch1.2.2.2
                        have hlvs : LvlGt st
                            (⟨1, j1.multiplicity⟩ : NodeIndex M).address
                            node1.var := LvlGt_sink Nat.one_lt_two
                        have hkeyw : ∀ w, LvlGt st j1.address w →
                            LvlGt st j2.address w → w < node1.var := by
                          intro w _ hB
                          have h1 := LvlGt_node_elim hB hn01
                          rw [hv1]
                          exact h1
                        have hO1 := ih st cache node1.lo
                          ⟨1, j1.multiplicity⟩ r1 hr1 wf hcache hga11 hgs
                        have hO2 := ih r1.1 r1.2.1 node1.hi
                          ⟨1, j1.multiplicity⟩ r2 hr2 hO1.2.1 hO1.2.2.1
                          (goodIdx_mono hO1.1 hga12) (goodIdx_mono hO1.1 hgs)
                        exact wfCombineMain ops hga12 hgs hlvm11 hlvm12
                          hlvs hlvs hkeyw (Or.inr rfl) hO1 hO2 hout
                  · rw [if_neg ht2] at h
                    cases hn2 : nodeIncorporatingMultiplicity ops st j1 with
                    | none => simp [hn2] at h
                    | some node2 =>
                      simp only [hn2, Option.bind_eq_bind, Option.some_bind] at h
                      cases hr1 : sumBdd ops f st cache
                          (if node1.var ≤ node2.var then (node1.lo, node1.hi)
                            else (j2, j2)).1
                          (if node2.var ≤ node1.var then (node2.lo, node2.hi)
                            else (j1, j1)).1 with
                      | none => simp [hr1] at h
                      | some r1 =>
                        simp only [hr1, Option.bind_eq_bind,
                          Option.some_bind] at h
                        cases hr2 : sumBdd ops f r1.1 r1.2.1
                            (if node1.var ≤ node2.var then (node1.lo, node1.hi)
                              else (j2, j2)).2
                            (if node2.var ≤ node1.var then (node2.lo, node2.hi)
                              else (j1, j1)).2 with
                        | none => simp [hr2] at h
                        | some r2 =>
                          simp only [hr2, Option.bind_eq_bind,
                            Option.some_bind] at h
                          have hout := Option.some_injective _ h
                          exact WfOut_swap (sumBddWfMain ops f ih st cache j2 j1
                            out wf hcache hg2 hg1 node1 node2 hn1
                            (Or.inl hn2) r1 r2 hr1 hr2 hout)
            · simp only [if_neg hsw] at h
              cases hcf : cacheFind cache (j1, j2) with
              | some res =>
                rw [hcf] at h
                cases Option.some_injective _ h
                obtain ⟨hgood, hlvl⟩ := hcache _ (cacheFind_mem hcf)
                exact ⟨StoreExtends.refl st, wf, hcache, hgood,
                  fun v hA hB => hlvl v hA hB⟩
              | none =>
                rw [hcf] at h
                cases hn1 : nodeIncorporatingMultiplicity ops st j1 with
                | none => simp [hn1] at h
                | some node1 =>
                  simp only [hn1, Option.bind_eq_bind, Option.some_bind] at h
                  by_cases ht2 : j2.isTrue = true
                  · rw [if_pos ht2] at h
                    simp only [if_pos (le_refl node1.var)] at h
                    cases hr1 : sumBdd ops f st cache node1.lo
                        ⟨1, j2.multiplicity⟩ with
                    | none => simp [hr1] at h
                    | some r1 =>
                      simp only [hr1, Option.bind_eq_bind, Option.some_bind] at h
                      cases hr2 : sumBdd ops f r1.1 r1.2.1 node1.hi
                          ⟨1, j2.multiplicity⟩ with
                      | none => simp [hr2] at h
                      | some r2 =>
                        simp only [hr2, Option.bind_eq_bind,
                          Option.some_bind] at h
                        have hout := Option.some_injective _ h
                        obtain ⟨n01, hn01, hv1, hlo1, hhi1⟩ :=
                          nodeIncorporatingMultiplicity_some hn1
                        have hch1 := storeWF_children wf hn01
                        have hi1r := nodeAt_some_range hn01
                        have hga11 : goodIdx st node1.lo := by
                          unfold goodIdx
                          rw [hlo1]
                          omega
                        have hga12 : goodIdx st node1.hi := by
                          unfold goodIdx
                          rw [hhi1]
                          omega
                        have hgs : goodIdx st
                            (⟨1, j2.multiplicity⟩ : NodeIndex M) := by
                          show (1:Nat) < st.length + 2
                          omega
                        have hlvm11 : LvlGt st node1.lo.address node1.var := by
                          rw [hlo1, hv1]
                          exact hch1.2.2.1
                        have hlvm12 : LvlGt st node1.hi.address node1.var := by
                          rw [hhi1, hv1]
                          exact hch1.2.2.2
                        have hlvs : LvlGt st
                            (⟨1, j2.multiplicity⟩ : NodeIndex M).address
                            node1.var := LvlGt_sink Nat.one_lt_two
                        have hkeyw : ∀ w, LvlGt st j1.address w →
                            LvlGt st j2.address w → w < node1.var := by
                          intro w hA _
                          have h1 := LvlGt_node_elim hA hn01
                          rw [hv1]
                          exact h1
                        have hO1 := ih st cache node1.lo
                          ⟨1, j2.multiplicity⟩ r1 hr1 wf hcache hga11 hgs
                        have hO2 := ih r1.1 r1.2.1 node1.hi
                          ⟨1, j2.multiplicity⟩ r2 hr2 hO1.2.1 hO1.2.2.1
                          (goodIdx_mono hO1.1 hga12) (goodIdx_mono hO1.1 hgs)
                        exact wfCombineMain ops hga12 hgs hlvm11 hlvm12
                          hlvs hlvs hkeyw (Or.inl rfl) hO1 hO2 hout
                  · rw [if_neg ht2] at h
                    cases hn2 : nodeIncorporatingMultiplicity ops st j2 with
                    | none => simp [hn2] at h
                    | some node2 =>
                      simp only [hn2, Option.bind_eq_bind, Option.some_bind] at h
                      cases hr1 : sumBdd ops f st cache
                          (if node1.var ≤ node2.var then (node1.lo, node1.hi)
                            else (j1, j1)).1
                          (if node2.var ≤ node1.var then (node2.lo, node2.hi)
                            else (j2, j2)).1 with
                      | none => simp [hr1] at h
                      | some r1 =>
                        simp only [hr1, Option.bind_eq_bind,
                          Option.some_bind] at h
                        cases hr2 : sumBdd ops f r1.1 r1.2.1
                            (if node1.var ≤ node2.var then (node1.lo, node1.hi)
                              else (j1, j1)).2
                            (if node2.var ≤ node1.var then (node2.lo, node2.hi)
                              else (j2, j2)).2 with
                        | none => simp [hr2] at h
                        | some r2 =>
                          simp only [hr2, Option.bind_eq_bind,
                            Option.some_bind] at h
                          have hout := Option.some_injective _ h
                          exact sumBddWfMain ops f ih st cache j1 j2
                            out wf hcache hg1 hg2 node1 node2 hn1
                            (Or.inl hn2) r1 r2 hr1 hr2 hout

theorem mulZdd_wf [DecidableEq M] (ops : MultOps M) :
    ∀ fuel (st : Store M) cache (i1 i2 : NodeIndex M) out,
      mulZdd ops fuel st cache i1 i2 = some out →
      StoreWF st → WfCacheOK st cache → goodIdx st i1 → goodIdx st i2 →
      WfOut st i1 i2 out := by
  intro fuel
  induction fuel with
  | zero => intro st cache i1 i2 out h; simp [mulZdd] at h
  | succ f ih =>
    intro st cache i1 i2 out h wf hcache hg1 hg2
    simp only [mulZdd] at h
    by_cases hf12 : (i1.isFalse || i2.isFalse) = true
    · rw [if_pos hf12] at h
      cases Option.some_injective _ h
      refine ⟨StoreExtends.refl st, wf, hcache, ?_, ?_⟩
      · show (0:Nat) < st.length + 2
        omega
      · intro v _ _
        exact LvlGt_sink (by simp [NodeIndex.FALSE])
    · rw [if_neg hf12] at h
      by_cases ht1 : i1.isTrue = true
      · rw [if_pos ht1] at h
        cases haz : andZddTrue ops st (st.length + 2) i2 with
        | none => simp [haz] at h
        | some r =>
          simp only [haz, Option.bind_eq_bind, Option.some_bind] at h
          cases Option.some_injective _ h
          have hsink := andZddTrue_sink ops st (st.length + 2) i2 r haz
          refine ⟨StoreExtends.refl st, wf, hcache, ?_, ?_⟩
          · show r.address < st.length + 2
            omega
          · intro v _ _
            exact LvlGt_sink hsink
      · rw [if_neg ht1] at h
        by_cases ht2 : i2.isTrue = true
        · rw [if_pos ht2] at h
          cases haz : andZddTrue ops st (st.length + 2) i1 with
          | none => simp [haz] at h
          | some r =>
            simp only [haz, Option.bind_eq_bind, Option.some_bind] at h
            cases Option.some_injective _ h
            have hsink := andZddTrue_sink ops st (st.length + 2) i1 r haz
            refine ⟨StoreExtends.refl st, wf, hcache, ?_, ?_⟩
            · show r.address < st.length + 2
              omega
            · intro v _ _
              exact LvlGt_sink hsink
        · rw [if_neg ht2] at h
          by_cases hirr : (ops.irrelevant && i1 == i2) = true
          · rw [if_pos hirr] at h
            cases Option.some_injective _ h
            refine ⟨StoreExtends.refl st, wf, hcache, ?_, ?_⟩
            · show i1.address < st.length + 2
              exact hg1
            · intro v hA _
              exact hA
          · rw [if_neg hirr] at h
            by_cases hlt : i1.address < i2.address
            · simp only [if_pos hlt] at h
              cases hcf : cacheFind cache (i1, i2) with
              | some res =>
                rw [hcf] at h
                cases Option.some_injective _ h
                obtain ⟨hgood, hlvl⟩ := hcache _ (cacheFind_mem hcf)
                exact ⟨StoreExtends.refl st, wf, hcache, hgood, hlvl⟩
              | none =>
                rw [hcf] at h
                cases hn1 : nodeIncorporatingMultiplicity ops st i1 with
                | none => simp [hn1] at h
                | some node1 =>
                  simp only [hn1, Option.bind_eq_bind, Option.some_bind] at h
                  cases hn2 : nodeIncorporatingMultiplicity ops st i2 with
                  | none => simp [hn2] at h
                  | some node2 =>
                    simp only [hn2, Option.bind_eq_bind, Option.some_bind] at h
                    cases hr1 : mulZdd ops f st cache
                        (if node1.var ≤ node2.var then (node1.lo, node1.hi)
                          else (i1, NodeIndex.FALSE ops)).1
                        (if node2.var ≤ node1.var then (node2.lo, node2.hi)
                          else (i2, NodeIndex.FALSE ops)).1 with
                    | none => simp [hr1] at h
                    | some r1 =>
                      simp only [hr1, Option.bind_eq_bind, Option.some_bind] at h
                      cases hr2 : mulZdd ops f r1.1 r1.2.1
                          (if node1.var ≤ node2.var then (node1.lo, node1.hi)
                            else (i1, NodeIndex.FALSE ops)).2
                          (if node2.var ≤ node1.var then (node2.lo, node2.hi)
                            else (i2, NodeIndex.FALSE ops)).2 with
                      | none => simp [hr2] at h
                      | some r2 =>
                        simp only [hr2, Option.bind_eq_bind,
                          Option.some_bind] at h
                        have hout := Option.some_injective _ h
                        exact zddWfMain ops (mulZdd ops f) ih st cache i1 i2 out
                          wf hcache hg1 hg2 node1 node2 hn1 (Or.inl hn2)
                          r1 r2 hr1 hr2 (i1, i2) (Or.inl rfl) hout
            · simp only [if_neg hlt] at h
              cases hcf : cacheFind cache (i2, i1) with
              | some res =>
                rw [hcf] at h
                cases Option.some_injective _ h
                obtain ⟨hgood, hlvl⟩ := hcache _ (cacheFind_mem hcf)
                exact ⟨StoreExtends.refl st, wf, hcache, hgood,
                  fun v hA hB => hlvl v hB hA⟩
              | none =>
                rw [hcf] at h
                cases hn1 : nodeIncorporatingMultiplicity ops st i1 with
                | none => simp [hn1] at h
                | some node1 =>
                  simp only [hn1, Option.bind_eq_bind, Option.some_bind] at h
                  cases hn2 : nodeIncorporatingMultiplicity ops st i2 with
                  | none => simp [hn2] at h
                  | some node2 =>
                    simp only [hn2, Option.bind_eq_bind, Option.some_bind] at h
                    cases hr1 : mulZdd ops f st cache
                        (if node1.var ≤ node2.var then (node1.lo, node1.hi)
                          else (i1, NodeIndex.FALSE ops)).1
                        (if node2.var ≤ node1.var then (node2.lo, node2.hi)
                          else (i2, NodeIndex.FALSE ops)).1 with
                    | none => simp [hr1] at h
                    | some r1 =>
                      simp only [hr1, Option.bind_eq_bind, Option.some_bind] at h
                      cases hr2 : mulZdd ops f r1.1 r1.2.1
                          (if node1.var ≤ node2.var then (node1.lo, node1.hi)
                            else (i1, NodeIndex.FALSE ops)).2
                          (if node2.var ≤ node1.var then (node2.lo, node2.hi)
                            else (i2, NodeIndex.FALSE ops)).2 with
                      | none => simp [hr2] at h
                      | some r2 =>
                        simp only [hr2, Option.bind_eq_bind,
                          Option.some_bind] at h
                        have hout := Option.some_injective _ h
                        exact zddWfMain ops (mulZdd ops f) ih st cache i1 i2 out
                          wf hcache hg1 hg2 node1 node2 hn1 (Or.inl hn2)
                          r1 r2 hr1 hr2 (i2, i1) (Or.inr rfl) hout

theorem sumZdd_wf [DecidableEq M] (ops : MultOps M) :
    ∀ fuel (st : Store M) cache (j1 j2 : NodeIndex M) out,
      sumZdd ops fuel st cache j1 j2 = some out →
      StoreWF st → WfCacheOK st cache → goodIdx st j1 → goodIdx st j2 →
      WfOut st j1 j2 out := by
  intro fuel
  induction fuel with
  | zero => intro st cache j1 j2 out h; simp [sumZdd] at h
  | succ f ih =>
    intro st cache j1 j2 out h wf hcache hg1 hg2
    simp only [sumZdd] at h
    by_cases he : (j1.address == j2.address) = true
    · rw [if_pos he] at h
      cases Option.some_injective _ h
      exact ⟨StoreExtends.refl st, wf, hcache, hg1, fun v hA _ => hA⟩
    · rw [if_neg he] at h
      by_cases hf1 : j1.isFalse = true
      · rw [if_pos hf1] at h
        cases Option.some_injective _ h
        exact ⟨StoreExtends.refl st, wf, hcache, hg2, fun v _ hB => hB⟩
      · rw [if_neg hf1] at h
        by_cases hf2 : j2.isFalse = true
        · rw [if_pos hf2] at h
          cases Option.some_injective _ h
          exact ⟨StoreExtends.refl st, wf, hcache, hg1, fun v hA _ => hA⟩
        · rw [if_neg hf2] at h
          by_cases hsw : (ops.symmetricOr && decide (j1.address < j2.address) ||
              j1.address == 1) = true
          · simp only [if_pos hsw] at h
            cases hcf : cacheFind cache (j2, j1) with
            | some res =>
              rw [hcf] at h
              cases Option.some_injective _ h
              obtain ⟨hgood, hlvl⟩ := hcache _ (cacheFind_mem hcf)
              exact ⟨StoreExtends.refl st, wf, hcache, hgood,
                fun v hA hB => hlvl v hB hA⟩
            | none =>
              rw [hcf] at h
              cases hn1 : nodeIncorporatingMultiplicity ops st j2 with
              | none => simp [hn1] at h
              | some node1 =>
                simp only [hn1, Option.bind_eq_bind, Option.some_bind] at h
                by_cases ht2 : j1.isTrue = true
                · rw [if_pos ht2] at h
                  simp only [if_pos (le_refl node1.var)] at h
                  cases hr1 : sumZdd ops f st cache node1.lo
                      ⟨1, j1.multiplicity⟩ with
                  | none => simp [hr1] at h
                  | some r1 =>
                    simp only [hr1, Option.bind_eq_bind, Option.some_bind] at h
                    cases hr2 : sumZdd ops f r1.1 r1.2.1 node1.hi
                        (NodeIndex.FALSE ops) with
                    | none => simp [hr2] at h
                    | some r2 =>
                      simp only [hr2, Option.bind_eq_bind,
                        Option.some_bind] at h
                      have hout := Option.some_injective _ h
                      obtain ⟨n01, hn01, hv1, hlo1, hhi1⟩ :=
                        nodeIncorporatingMultiplicity_some hn1
                      have hch1 := storeWF_children wf hn01
                      have hi1r := nodeAt_some_range hn01
                      have hga11 : goodIdx st node1.lo := by
                        unfold goodIdx
                        rw [hlo1]
                        omega
                      have hga12 : goodIdx st node1.hi := by
                        unfold goodIdx
                        rw [hhi1]
                        omega
                      have hgs : goodIdx st
                          (⟨1, j1.multiplicity⟩ : NodeIndex M) := by
                        show (1:Nat) < st.length + 2
                        omega
                      have hgf : goodIdx st (NodeIndex.FALSE ops) := by
                        show (0:Nat) < st.length + 2
                        omega
                      have hlvm11 : LvlGt st node1.lo.address node1.var := by
                        rw [hlo1, hv1]
                        exact hch1.2.2.1
                      have hlvm12 : LvlGt st node1.hi.address node1.var := by
                        rw [hhi1, hv1]
                        exact hch1.2.2.2
                      have hlvs : LvlGt st
                          (⟨1, j1.multiplicity⟩ : NodeIndex M).address
                          node1.var := LvlGt_sink Nat.one_lt_two
                      have hlvf : LvlGt st (NodeIndex.FALSE ops).address
                          node1.var := LvlGt_sink (by simp [NodeIndex.FALSE])
                      have hkeyw : ∀ w, LvlGt st j1.address w →
                          LvlGt st j2.address w → w < node1.var := by
                        intro w _ hB
                        have h1 := LvlGt_node_elim hB hn01
                        rw [hv1]
                        exact h1
                      have hO1 := ih st cache node1.lo
                        ⟨1, j1.multiplicity⟩ r1 hr1 wf hcache hga11 hgs
                      have hO2 := ih r1.1 r1.2.1 node1.hi
                        (NodeIndex.FALSE ops) r2 hr2 hO1.2.1 hO1.2.2.1
                        (goodIdx_mono hO1.1 hga12) (goodIdx_mono hO1.1 hgf)
                      exact wfCombineMainZ ops hga12 hgf hlvm11 hlvm12
                        hlvs hlvf hkeyw (Or.inr rfl) hO1 hO2 hout
                · rw [if_neg ht2] at h
                  cases hn2 : nodeIncorporatingMultiplicity ops st j1 with
                  | none => simp [hn2] at h
                  | some node2 =>
                    simp only [hn2, Option.bind_eq_bind, Option.some_bind] at h
                    cases hr1 : sumZdd ops f st cache
                        (if node1.var ≤ node2.var then (node1.lo, node1.hi)
                          else (j2, NodeIndex.FALSE ops)).1
                        (if node2.var ≤ node1.var then (node2.lo, node2.hi)
                          else (j1, NodeIndex.FALSE ops)).1 with
                    | none => simp [hr1] at h
                    | some r1 =>
                      simp only [hr1, Option.bind_eq_bind, Option.some_bind] at h
                      cases hr2 : sumZdd ops f r1.1 r1.2.1
                          (if node1.var ≤ node2.var then (node1.lo, node1.hi)
                            else (j2, NodeIndex.FALSE ops)).2
                          (if node2.var ≤ node1.var then (node2.lo, node2.hi)
                            else (j1, NodeIndex.FALSE ops)).2 with
                      | none => simp [hr2] at h
                      | some r2 =>
                        simp only [hr2, Option.bind_eq_bind,
                          Option.some_bind] at h
                        have hout := Option.some_injective _ h
                        exact WfOut_swap (zddWfMain ops (sumZdd ops f) ih st
                          cache j2 j1 out wf hcache hg2 hg1 node1 node2 hn1
                          (Or.inl hn2) r1 r2 hr1 hr2 (j2, j1) (Or.inl rfl) hout)
          · simp only [if_neg hsw] at h
            cases hcf : cacheFind cache (j1, j2) with
            | some res =>
              rw [hcf] at h
              cases Option.some_injective _ h
              obtain ⟨hgood, hlvl⟩ := hcache _ (cacheFind_mem hcf)
              exact ⟨StoreExtends.refl st, wf, hcache, hgood,
                fun v hA hB => hlvl v hA hB⟩
            | none =>
              rw [hcf] at h
              cases hn1 : nodeIncorporatingMultiplicity ops st j1 with
              | none => simp [hn1] at h
              | some node1 =>
                simp only [hn1, Option.bind_eq_bind, Option.some_bind] at h
                by_cases ht2 : j2.isTrue = true
                · rw [if_pos ht2] at h
                  simp only [if_pos (le_refl node1.var)] at h
                  cases hr1 : sumZdd ops f st cache node1.lo
                      ⟨1, j2.multiplicity⟩ with
                  | none => simp [hr1] at h
                  | some r1 =>
                    simp only [hr1, Option.bind_eq_bind, Option.some_bind] at h
                    cases hr2 : sumZdd ops f r1.1 r1.2.1 node1.hi
                        (NodeIndex.FALSE ops) with
                    | none => simp [hr2] at h
                    | some r2 =>
                      simp only [hr2, Option.bind_eq_bind,
                        Option.some_bind] at h
                      have hout := Option.some_injective _ h
                      obtain ⟨n01, hn01, hv1, hlo1, hhi1⟩ :=
                        nodeIncorporatingMultiplicity_some hn1
                      have hch1 := storeWF_children wf hn01
                      have hi1r := nodeAt_some_range hn01
                      have hga11 : goodIdx st node1.lo := by
                        unfold goodIdx
                        rw [hlo1]
                        omega
                      have hga12 : goodIdx st node1.hi := by
                        unfold goodIdx
                        rw [hhi1]
                        omega
                      have hgs : goodIdx st
                          (⟨1, j2.multiplicity⟩ : NodeIndex M) := by
                        show (1:Nat) < st.length + 2
                        omega
                      have hgf : goodIdx st (NodeIndex.FALSE ops) := by
                        show (0:Nat) < st.length + 2
                        omega
                      have hlvm11 : LvlGt st node1.lo.address node1.var := by
                        rw [hlo1, hv1]
                        exact hch1.2.2.1
                      have hlvm12 : LvlGt st node1.hi.address node1.var := by
                        rw [hhi1, hv1]
                        exact hch1.2.2.2
                      have hlvs : LvlGt st
                          (⟨1, j2.multiplicity⟩ : NodeIndex M).address
                          node1.var := LvlGt_sink Nat.one_lt_two
                      have hlvf : LvlGt st (NodeIndex.FALSE ops).address
                          node1.var := LvlGt_sink (by simp [NodeIndex.FALSE])
                      have hkeyw : ∀ w, LvlGt st j1.address w →
                          LvlGt st j2.address w → w < node1.var := by
                        intro w hA _
                        have h1 := LvlGt_node_elim hA hn01
                        rw [hv1]
                        exact h1
                      have hO1 := ih st cache node1.lo
                        ⟨1, j2.multiplicity⟩ r1 hr1 wf hcache hga11 hgs
                      have hO2 := ih r1.1 r1.2.1 node1.hi
                        (NodeIndex.FALSE ops) r2 hr2 hO1.2.1 hO1.2.2.1
                        (goodIdx_mono hO1.1 hga12) (goodIdx_mono hO1.1 hgf)
                      exact wfCombineMainZ ops hga12 hgf hlvm11 hlvm12
                        hlvs hlvf hkeyw (Or.inl rfl) hO1 hO2 hout
                · rw [if_neg ht2] at h
                  cases hn2 : nodeIncorporatingMultiplicity ops st j2 with
                  | none => simp [hn2] at h
                  | some node2 =>
                    simp only [hn2, Option.bind_eq_bind, Option.some_bind] at h
                    cases hr1 : sumZdd ops f st cache
                        (if node1.var ≤ node2.var then (node1.lo, node1.hi)
                          else (j1, NodeIndex.FALSE ops)).1
                        (if node2.var ≤ node1.var then (node2.lo, node2.hi)
                          else (j2, NodeIndex.FALSE ops)).1 with
                    | none => simp [hr1] at h
                    | some r1 =>
                      simp only [hr1, Option.bind_eq_bind, Option.some_bind] at h
                      cases hr2 : sumZdd ops f r1.1 r1.2.1
                          (if node1.var ≤ node2.var then (node1.lo, node1.hi)
                            else (j1, NodeIndex.FALSE ops)).2
                          (if node2.var ≤ node1.var then (node2.lo, node2.hi)
                            else (j2, NodeIndex.FALSE ops)).2 with
                      | none => simp [hr2] at h
                      | some r2 =>
                        simp only [hr2, Option.bind_eq_bind,
                          Option.some_bind] at h
                        have hout := Option.some_injective _ h
                        exact zddWfMain ops (sumZdd ops f) ih st cache j1 j2 out
                          wf hcache hg1 hg2 node1 node2 hn1 (Or.inl hn2)
                          r1 r2 hr1 hr2 (j1, j2) (Or.inl rfl) hout

theorem chainDontCare_spec [DecidableEq M] (ops : MultOps M) :
    ∀ (count upto : Nat) (st : Store M) (idx : NodeIndex M),
      StoreWF st → goodIdx st idx →
      (∀ v, v < upto + count → LvlGt st idx.address v) →
      StoreExtends st (chainDontCare ops count upto st idx).1 ∧
      StoreWF (chainDontCare ops count upto st idx).1 ∧
      goodIdx (chainDontCare ops count upto st idx).1
        (chainDontCare ops count upto st idx).2 ∧
      (∀ v, v < upto → LvlGt (chainDontCare ops count upto st idx).1
        (chainDontCare ops count upto st idx).2.address v) := by
  intro count
  induction count with
  | zero =>
    intro upto st idx wf hg hlv
    refine ⟨StoreExtends.refl st, wf, hg, ?_⟩
    intro v hv
    exact hlv v (by omega)
  | succ c ih =>
    intro upto st idx wf hg hlv
    obtain ⟨ext1, wf1, hg1, hlv1⟩ := ih (upto+1) st idx wf hg
      (fun v hv => hlv v (by omega))
    have he : chainDontCare ops (c+1) upto st idx =
        addNodeIfNotPresent ops (chainDontCare ops c (upto+1) st idx).1
          ⟨upto, (chainDontCare ops c (upto+1) st idx).2,
            (chainDontCare ops c (upto+1) st idx).2⟩ := rfl
    rw [he]
    obtain ⟨ext2, wf2, hlen2, hgood2, ⟨nd', hnd', hv', hlo', hhi'⟩, hvb2⟩ :=
      addNodeIfNotPresent_spec ops wf1
        ⟨upto, (chainDontCare ops c (upto+1) st idx).2,
          (chainDontCare ops c (upto+1) st idx).2⟩
        hg1 hg1 (hlv1 upto (by omega)) (hlv1 upto (by omega))
    refine ⟨StoreExtends.trans ext1 ext2, wf2, hgood2, ?_⟩
    intro v hv
    refine LvlGt_of_node hnd' ?_
    rw [hv']
    exact hv

theorem trueRegardless_spec [DecidableEq M] (ops : MultOps M)
    {st : Store M} (wf : StoreWF st) (upto total : Nat) :
    StoreExtends st (trueRegardlessOfVariablesBelowZdd ops st upto total).1 ∧
    StoreWF (trueRegardlessOfVariablesBelowZdd ops st upto total).1 ∧
    goodIdx (trueRegardlessOfVariablesBelowZdd ops st upto total).1
      (trueRegardlessOfVariablesBelowZdd ops st upto total).2 ∧
    (∀ v, v < upto →
      LvlGt (trueRegardlessOfVariablesBelowZdd ops st upto total).1
        (trueRegardlessOfVariablesBelowZdd ops st upto total).2.address v) :=
  chainDontCare_spec ops (total - upto) upto st (NodeIndex.TRUE ops) wf
    (by show (1:Nat) < st.length + 2; omega)
    (fun v hv => LvlGt_sink Nat.one_lt_two)

theorem zddVariablesInRangeDontMatter_spec [DecidableEq M] (ops : MultOps M)
    {st : Store M} (wf : StoreWF st) (base : NodeIndex M) (lo hi : Nat)
    (hg : goodIdx st base)
    (hlv : ∀ v, v < lo + (hi - lo) → LvlGt st base.address v) :
    StoreExtends st (zddVariablesInRangeDontMatter ops st base lo hi).1 ∧
    StoreWF (zddVariablesInRangeDontMatter ops st base lo hi).1 ∧
    goodIdx (zddVariablesInRangeDontMatter ops st base lo hi).1
      (zddVariablesInRangeDontMatter ops st base lo hi).2 ∧
    (∀ v, v < lo →
      LvlGt (zddVariablesInRangeDontMatter ops st base lo hi).1
        (zddVariablesInRangeDontMatter ops st base lo hi).2.address v) :=
  chainDontCare_spec ops (hi - lo) lo st base wf hg hlv

theorem notZddChain_spec [DecidableEq M] (ops : MultOps M) (total : Nat) :
    ∀ (count upto : Nat) (st : Store M) (idx : NodeIndex M),
      StoreWF st → goodIdx st idx →
      (∀ v, v < upto + count → LvlGt st idx.address v) →
      StoreExtends st (notZddChain ops count upto total st idx).1 ∧
      StoreWF (notZddChain ops count upto total st idx).1 ∧
      goodIdx (notZddChain ops count upto total st idx).1
        (notZddChain ops count upto total st idx).2 ∧
      (∀ v, v < upto → LvlGt (notZddChain ops count upto total st idx).1
        (notZddChain ops count upto total st idx).2.address v) := by
  intro count
  induction count with
  | zero =>
    intro upto st idx wf hg hlv
    refine ⟨StoreExtends.refl st, wf, hg, ?_⟩
    intro v hv
    exact hlv v (by omega)
  | succ c ih =>
    intro upto st idx wf hg hlv
    obtain ⟨ext1, wf1, hg1, hlv1⟩ := ih (upto+1) st idx wf hg
      (fun v hv => hlv v (by omega))
    obtain ⟨ext2, wf2, hg2, hlv2⟩ := trueRegardless_spec ops wf1 (upto+1) total
    have he : notZddChain ops (c+1) upto total st idx =
        addNodeIfNotPresent ops
          (trueRegardlessOfVariablesBelowZdd ops
            (notZddChain ops c (upto+1) total st idx).1 (upto+1) total).1
          ⟨upto, (notZddChain ops c (upto+1) total st idx).2,
            (trueRegardlessOfVariablesBelowZdd ops
              (notZddChain ops c (upto+1) total st idx).1 (upto+1) total).2⟩ :=
      rfl
    rw [he]
    have hplv : LvlGt (trueRegardlessOfVariablesBelowZdd ops
        (notZddChain ops c (upto+1) total st idx).1 (upto+1) total).1
        (notZddChain ops c (upto+1) total st idx).2.address upto := by
      rw [LvlGt_congr ext2 hg1]
      exact hlv1 upto (by omega)
    obtain ⟨ext3, wf3, hlen3, hgood3, ⟨nd', hnd', hv', hlo', hhi'⟩, hvb3⟩ :=
      addNodeIfNotPresent_spec ops wf2
        ⟨upto, (notZddChain ops c (upto+1) total st idx).2,
          (trueRegardlessOfVariablesBelowZdd ops
            (notZddChain ops c (upto+1) total st idx).1 (upto+1) total).2⟩
        (goodIdx_mono ext2 hg1) hg2 hplv (hlv2 upto (by omega))
    refine ⟨StoreExtends.trans ext1 (StoreExtends.trans ext2 ext3), wf3,
      hgood3, ?_⟩
    intro v hv
    refine LvlGt_of_node hnd' ?_
    rw [hv']
    exact hv

theorem NotZddCacheOK_nil (st : Store M) :
    NotZddCacheOK st ([] : Cache (Nat × Nat) Nat) := by
  intro p hp
  simp at hp

theorem NotZddCacheOK_extends {st st' : Store M} (hext : StoreExtends st st')
    {cache : Cache (Nat × Nat) Nat} (hc : NotZddCacheOK st cache) :
    NotZddCacheOK st' cache := by
  intro p hp
  obtain ⟨hlt, hlv⟩ := hc p hp
  have hlen := hext.length_le
  refine ⟨by omega, ?_⟩
  intro v hv
  rw [LvlGt_congr hext hlt]
  exact hlv v hv

theorem notZdd_wf [DecidableEq M] (ops : MultOps M) (total : Nat) :
    ∀ fuel (st : Store M) (cache : Cache (Nat × Nat) Nat)
      (index : NodeIndex M) (upto : Nat) out,
      notZdd ops fuel st cache index upto total = some out →
      StoreWF st → NotZddCacheOK st cache → goodIdx st index →
      (∀ v, v < upto → LvlGt st index.address v) →
      NotZddOut st upto out := by
  intro fuel
  induction fuel with
  | zero => intro st cache index upto out h; simp [notZdd] at h
  | succ f ih =>
    intro st cache index upto out h wf hc hg hup
    simp only [notZdd] at h
    cases hcf : cacheFind cache (index.address, upto) with
    | some res =>
      rw [hcf] at h
      cases Option.some_injective _ h
      obtain ⟨hlt, hlv⟩ := hc _ (cacheFind_mem hcf)
      refine ⟨StoreExtends.refl st, wf, hc, ?_, ?_⟩
      · show res < st.length + 2
        exact hlt
      · intro v hv
        exact hlv v hv
    | none =>
      simp only [hcf] at h
      by_cases hif : index.isFalse = true
      · rw [if_pos hif] at h
        simp only [Option.bind_eq_bind, Option.some_bind] at h
        cases Option.some_injective _ h
        obtain ⟨ext1, wf1, hg1, hlv1⟩ := notZddChain_spec ops total
          (total - upto) upto st (NodeIndex.TRUE ops) wf
          (by show (1:Nat) < st.length + 2; omega)
          (fun v hv => LvlGt_sink Nat.one_lt_two)
        refine ⟨ext1, wf1, ?_, hg1, hlv1⟩
        intro p hp
        rcases List.mem_cons.mp hp with hpk | hpold
        · subst hpk
          exact ⟨hg1, hlv1⟩
        · exact NotZddCacheOK_extends ext1 hc p hpold
      · rw [if_neg hif] at h
        by_cases hit : index.isTrue = true
        · rw [if_pos hit] at h
          simp only [Option.bind_eq_bind, Option.some_bind] at h
          cases Option.some_injective _ h
          obtain ⟨ext1, wf1, hg1, hlv1⟩ := notZddChain_spec ops total
            (total - upto) upto st (NodeIndex.FALSE ops) wf
            (by show (0:Nat) < st.length + 2; omega)
            (fun v hv => LvlGt_sink (by simp [NodeIndex.FALSE]))
          refine ⟨ext1, wf1, ?_, hg1, hlv1⟩
          intro p hp
          rcases List.mem_cons.mp hp with hpk | hpold
          · subst hpk
            exact ⟨hg1, hlv1⟩
          · exact NotZddCacheOK_extends ext1 hc p hpold
        · rw [if_neg hit] at h
          cases hn : nodeAt st index.address with
          | none => simp [hn] at h
          | some node =>
            simp only [hn, Option.bind_eq_bind, Option.some_bind] at h
            cases hr1 : notZdd ops f st cache node.lo (node.var+1) total with
            | none => simp [hr1] at h
            | some r1 =>
              simp only [hr1, Option.bind_eq_bind, Option.some_bind] at h
              cases hr2 : notZdd ops f r1.1 r1.2.1 node.hi (node.var+1)
                  total with
              | none => simp [hr2] at h
              | some r2 =>
                simp only [hr2, Option.bind_eq_bind, Option.some_bind] at h
                have hch := storeWF_children wf hn
                have hnv : upto ≤ node.var := by
                  by_cases h0 : upto = 0
                  · omega
                  · have := hup (upto - 1) (by omega) node hn
                    omega
                have hglo : goodIdx st node.lo := by
                  unfold goodIdx at hg ⊢
                  have := hch.1
                  omega
                have hghi : goodIdx st node.hi := by
                  unfold goodIdx at hg ⊢
                  have := hch.2.1
                  omega
                obtain ⟨ext1, wf1, hc1, hgr1, hlv1⟩ :=
                  ih st cache node.lo (node.var+1) r1 hr1 wf hc hglo
                    (fun v hv => LvlGt_mono (by omega) hch.2.2.1)
                obtain ⟨ext2, wf2, hc2, hgr2, hlv2⟩ :=
                  ih r1.1 r1.2.1 node.hi (node.var+1) r2 hr2 wf1 hc1
                    (goodIdx_mono ext1 hghi)
                    (by
                      intro v hv
                      rw [LvlGt_congr ext1 hghi]
                      exact LvlGt_mono (by omega) hch.2.2.2)
                by_cases hpf : r2.2.2.isFalse = true
                · simp only [if_pos hpf] at h
                  cases Option.some_injective _ h
                  have hgr1' : goodIdx r2.1 r1.2.2 := goodIdx_mono ext2 hgr1
                  have hlv1' : ∀ v, v < upto + (node.var - upto) →
                      LvlGt r2.1 r1.2.2.address v := by
                    intro v hv
                    rw [LvlGt_congr ext2 hgr1]
                    exact hlv1 v (by omega)
                  obtain ⟨ext3, wf3, hg3, hlv3⟩ := notZddChain_spec ops total
                    (node.var - upto) upto r2.1 r1.2.2 wf2 hgr1' hlv1'
                  refine ⟨StoreExtends.trans ext1
                    (StoreExtends.trans ext2 ext3), wf3, ?_, hg3, hlv3⟩
                  intro p hp
                  rcases List.mem_cons.mp hp with hpk | hpold
                  · subst hpk
                    exact ⟨hg3, hlv3⟩
                  · exact NotZddCacheOK_extends ext3 hc2 p hpold
                · simp only [if_neg hpf] at h
                  cases Option.some_injective _ h
                  have hgr1' : goodIdx r2.1 r1.2.2 := goodIdx_mono ext2 hgr1
                  have hrlv1 : LvlGt r2.1 r1.2.2.address node.var := by
                    rw [LvlGt_congr ext2 hgr1]
                    exact hlv1 node.var (by omega)
                  have hrlv2 : LvlGt r2.1 r2.2.2.address node.var :=
                    hlv2 node.var (by omega)
                  obtain ⟨extp, wfp, hlenp, hgoodp,
                      ⟨nd', hnd', hndv, hndlo, hndhi⟩, hvbp⟩ :=
                    addNodeIfNotPresent_spec ops wf2
                      ⟨node.var, r1.2.2, r2.2.2⟩ hgr1' hgr2 hrlv1 hrlv2
                  have hplv : ∀ v, v < upto + (node.var - upto) →
                      LvlGt (addNodeIfNotPresent ops r2.1
                          ⟨node.var, r1.2.2, r2.2.2⟩).1
                        (addNodeIfNotPresent ops r2.1
                          ⟨node.var, r1.2.2, r2.2.2⟩).2.address v := by
                    intro v hv
                    refine LvlGt_of_node hnd' ?_
                    rw [hndv]
                    show v < node.var
                    omega
                  obtain ⟨ext3, wf3, hg3, hlv3⟩ := notZddChain_spec ops total
                    (node.var - upto) upto
                    (addNodeIfNotPresent ops r2.1 ⟨node.var, r1.2.2, r2.2.2⟩).1
                    (addNodeIfNotPresent ops r2.1 ⟨node.var, r1.2.2, r2.2.2⟩).2
                    wfp hgoodp hplv
                  refine ⟨StoreExtends.trans ext1 (StoreExtends.trans ext2
                    (StoreExtends.trans extp ext3)), wf3, ?_, hg3, hlv3⟩
                  intro p hp
                  rcases List.mem_cons.mp hp with hpk | hpold
                  · subst hpk
                    exact ⟨hg3, hlv3⟩
                  · exact NotZddCacheOK_extends ext3
                      (NotZddCacheOK_extends extp hc2) p hpold


theorem advanceFalse_allFalseRange {x : List Bool} :
    ∀ d u, (∀ j, u ≤ j → j < u + d → x[j]? = some false) → u + d ≤ x.length →
      advanceFalse x (x.length+1) u (u + d) = some true := by
  intro d
  induction d with
  | zero =>
    intro u _ _
    rw [Nat.add_zero]
    exact advanceFalse_refl x x.length u
  | succ d ih =>
    intro u hall hlen
    have hxu : x[u]? = some false := hall u (le_refl u) (by omega)
    rw [advanceFalse_shift (by omega) (by omega) hxu]
    rw [show u + (d+1) = (u+1) + d from by omega]
    exact ih (u+1) (fun j h1 h2 => hall j (by omega) (by omega)) (by omega)

theorem advanceFalse_hitSome {x : List Bool} :
    ∀ d u, (∃ j, u ≤ j ∧ j < u + d ∧ x[j]? = some true) → u + d ≤ x.length →
      advanceFalse x (x.length+1) u (u + d) = some false := by
  intro d
  induction d with
  | zero =>
    intro u hex _
    obtain ⟨j, h1, h2, _⟩ := hex
    omega
  | succ d ih =>
    intro u hex hlen
    obtain ⟨j, hj1, hj2, hjt⟩ := hex
    cases hxu : x[u]? with
    | none =>
      exfalso
      rw [List.getElem?_eq_none_iff] at hxu
      omega
    | some c =>
      cases c with
      | true => exact advanceFalse_hitTrue (by omega) hxu
      | false =>
        have hj : u + 1 ≤ j := by
          rcases Nat.eq_or_lt_of_le hj1 with he | hl
          · rw [← he] at hjt
            rw [hxu] at hjt
            simp at hjt
          · omega
        rw [advanceFalse_shift (by omega) (by omega) hxu,
          show u + (d+1) = (u+1) + d from by omega]
        exact ih (u+1) ⟨j, hj, by omega, hjt⟩ (by omega)

theorem advanceFalse_true_allFalse {x : List Bool} :
    ∀ fuel u t, advanceFalse x fuel u t = some true →
      ∀ j, u ≤ j → j < t → x[j]? = some false := by
  intro fuel
  induction fuel with
  | zero => intro u t h; simp [advanceFalse] at h
  | succ f ih =>
    intro u t h j hj1 hj2
    rw [advanceFalse_succ] at h
    by_cases hut : u = t
    · omega
    · rw [if_neg hut] at h
      cases hxu : x[u]? with
      | none => rw [hxu] at h; simp at h
      | some c =>
        rw [hxu] at h
        simp only [Option.some_bind] at h
        cases c with
        | true =>
          rw [if_pos rfl] at h
          simp at h
        | false =>
          rw [if_neg Bool.false_ne_true] at h
          rcases Nat.eq_or_lt_of_le hj1 with he | hl
          · rw [← he]
            exact hxu
          · exact ih (u+1) t h j hl hj2

theorem advanceFalse_false_exists {x : List Bool} :
    ∀ fuel u t, u ≤ t → advanceFalse x fuel u t = some false →
      ∃ j, u ≤ j ∧ j < t ∧ x[j]? = some true := by
  intro fuel
  induction fuel with
  | zero => intro u t _ h; simp [advanceFalse] at h
  | succ f ih =>
    intro u t hut h
    rw [advanceFalse_succ] at h
    by_cases he : u = t
    · rw [if_pos he] at h
      simp at h
    · rw [if_neg he] at h
      cases hxu : x[u]? with
      | none => rw [hxu] at h; simp at h
      | some c =>
        rw [hxu] at h
        simp only [Option.some_bind] at h
        cases c with
        | true => exact ⟨u, le_refl u, by omega, hxu⟩
        | false =>
          rw [if_neg Bool.false_ne_true] at h
          obtain ⟨j, h1, h2, h3⟩ := ih (u+1) t (by omega) h
          exact ⟨j, by omega, h2, h3⟩

theorem evaluateZddLoop_addr (st : Store M) (x : List Bool) (fuel : Nat)
    {i j : NodeIndex M} (h : i.address = j.address) (u : Nat) :
    evaluateZddLoop st x fuel i u = evaluateZddLoop st x fuel j u := by
  cases fuel with
  | zero => rfl
  | succ f =>
    rw [evaluateZddLoop_succ, evaluateZddLoop_succ]
    have hs : i.isSink = j.isSink := by
      unfold NodeIndex.isSink NodeIndex.isFalse NodeIndex.isTrue
      rw [h]
    have ht : i.isTrue = j.isTrue := by
      unfold NodeIndex.isTrue
      rw [h]
    rw [hs, ht, h]

theorem EvalZdd_addr {st : Store M} {i j : NodeIndex M}
    (h : i.address = j.address) {x : List Bool} {u : Nat} {b : Bool}
    (he : EvalZdd st i x u b) : EvalZdd st j x u b := by
  obtain ⟨f, hf⟩ := he
  refine ⟨f, ?_⟩
  rw [← evaluateZddLoop_addr st x f h u]
  exact hf

theorem evaluateZddLoop_extends {st st' : Store M} (hext : StoreExtends st st')
    (x : List Bool) :
    ∀ fuel (e : NodeIndex M) u b,
      evaluateZddLoop st x fuel e u = some b →
      evaluateZddLoop st' x fuel e u = some b := by
  intro fuel
  induction fuel with
  | zero => intro e u b h; simp [evaluateZddLoop] at h
  | succ f ih =>
    intro e u b h
    rw [evaluateZddLoop_succ] at h ⊢
    by_cases hs : e.isSink
    · rw [if_pos hs] at h ⊢
      exact h
    · rw [if_neg hs] at h ⊢
      cases hn : nodeAt st e.address with
      | none => rw [hn] at h; simp at h
      | some nd =>
        rw [hn] at h
        rw [nodeAt_extends hext hn]
        simp only [Option.some_bind] at h ⊢
        cases ha : advanceFalse x (x.length+1) u nd.var with
        | none => rw [ha] at h; simp at h
        | some ok =>
          rw [ha] at h
          simp only [Option.some_bind] at h ⊢
          cases ok with
          | false => exact h
          | true =>
            rw [if_pos rfl] at h ⊢
            cases hx : x[nd.var]? with
            | none => rw [hx] at h; simp at h
            | some xv =>
              rw [hx] at h
              simp only [Option.some_bind] at h ⊢
              exact ih _ _ _ h

theorem EvalZdd_extends {st st' : Store M} (hext : StoreExtends st st')
    {e : NodeIndex M} {x : List Bool} {u : Nat} {b : Bool}
    (h : EvalZdd st e x u b) : EvalZdd st' e x u b := by
  obtain ⟨f, hf⟩ := h
  exact ⟨f, evaluateZddLoop_extends hext x f e u b hf⟩

theorem evaluateZddLoop_congr {st st' : Store M} (wf : StoreWF st)
    (hext : StoreExtends st st') (x : List Bool) :
    ∀ fuel (e : NodeIndex M) u b, goodIdx st e →
      evaluateZddLoop st' x fuel e u = some b →
      evaluateZddLoop st x fuel e u = some b := by
  intro fuel
  induction fuel with
  | zero => intro e u b _ h; simp [evaluateZddLoop] at h
  | succ f ih =>
    intro e u b hg h
    rw [evaluateZddLoop_succ] at h ⊢
    by_cases hs : e.isSink
    · rw [if_pos hs] at h ⊢
      exact h
    · rw [if_neg hs] at h ⊢
      rw [nodeAt_congr hext hg] at h
      cases hn : nodeAt st e.address with
      | none => rw [hn] at h; simp at h
      | some nd =>
        rw [hn] at h
        simp only [Option.some_bind] at h ⊢
        cases ha : advanceFalse x (x.length+1) u nd.var with
        | none => rw [ha] at h; simp at h
        | some ok =>
          rw [ha] at h
          simp only [Option.some_bind] at h ⊢
          cases ok with
          | false => exact h
          | true =>
            rw [if_pos rfl] at h ⊢
            cases hx : x[nd.var]? with
            | none => rw [hx] at h; simp at h
            | some xv =>
              rw [hx] at h
              simp only [Option.some_bind] at h ⊢
              have hch := storeWF_children wf hn
              have hga : e.address < st.length + 2 := hg
              have hgch : goodIdx st (if xv then nd.hi else nd.lo) := by
                cases xv with
                | false =>
                  show nd.lo.address < st.length + 2
                  have := hch.1
                  omega
                | true =>
                  show nd.hi.address < st.length + 2
                  have := hch.2.1
                  omega
              exact ih _ _ _ hgch h

theorem EvalZdd_congr {st st' : Store M} (wf : StoreWF st)
    (hext : StoreExtends st st') {e : NodeIndex M} (hg : goodIdx st e)
    {x : List Bool} {u : Nat} {b : Bool} (h : EvalZdd st' e x u b) :
    EvalZdd st e x u b := by
  obtain ⟨f, hf⟩ := h
  exact ⟨f, evaluateZddLoop_congr wf hext x f e u b hg hf⟩

theorem isSink_of_isFalse {e : NodeIndex M} (hf : e.isFalse = true) :
    e.isSink = true := by
  unfold NodeIndex.isSink
  rw [hf]
  rfl

theorem isSink_of_isTrue {e : NodeIndex M} (ht : e.isTrue = true) :
    e.isSink = true := by
  unfold NodeIndex.isSink
  rw [ht]
  simp

theorem isTrue_eq_false_of_isFalse {e : NodeIndex M} (hf : e.isFalse = true) :
    e.isTrue = false := by
  unfold NodeIndex.isFalse at hf
  unfold NodeIndex.isTrue
  have h0 : e.address = 0 := by simpa using hf
  simp [h0]

theorem EvalZdd_isFalse_elim {st : Store M} {e : NodeIndex M}
    (hf : e.isFalse = true) {x : List Bool} {u : Nat} {b : Bool}
    (he : EvalZdd st e x u b) : b = false := by
  obtain ⟨fuel, hfe⟩ := he
  cases fuel with
  | zero => simp [evaluateZddLoop] at hfe
  | succ f =>
    rw [evaluateZddLoop_succ, if_pos (isSink_of_isFalse hf),
      isTrue_eq_false_of_isFalse hf] at hfe
    cases ha : advanceFalse x (x.length+1) u x.length with
    | none => rw [ha] at hfe; simp at hfe
    | some r =>
      rw [ha] at hfe
      have h2 : some (r && false) = some b := hfe
      have h3 : (r && false) = b := Option.some_injective _ h2
      rw [Bool.and_false] at h3
      exact h3.symm

theorem EvalZdd_isFalse_intro {st : Store M} {e : NodeIndex M}
    (hf : e.isFalse = true) {x : List Bool} {u : Nat} (hu : u ≤ x.length) :
    EvalZdd st e x u false := by
  obtain ⟨r, hr⟩ := advanceFalse_total x (x.length - u) u (x.length+1)
    (by omega) (by omega)
  rw [show u + (x.length - u) = x.length from by omega] at hr
  refine ⟨1, ?_⟩
  rw [evaluateZddLoop_succ, if_pos (isSink_of_isFalse hf),
    isTrue_eq_false_of_isFalse hf, hr]
  show some (r && false) = some false
  rw [Bool.and_false]

theorem EvalZdd_isTrue_elim {st : Store M} {e : NodeIndex M}
    (ht : e.isTrue = true) {x : List Bool} {u : Nat} {b : Bool}
    (he : EvalZdd st e x u b) :
    advanceFalse x (x.length+1) u x.length = some b := by
  obtain ⟨fuel, hfe⟩ := he
  cases fuel with
  | zero => simp [evaluateZddLoop] at hfe
  | succ f =>
    rw [evaluateZddLoop_succ, if_pos (isSink_of_isTrue ht), ht] at hfe
    cases ha : advanceFalse x (x.length+1) u x.length with
    | none => rw [ha] at hfe; simp at hfe
    | some r =>
      rw [ha] at hfe
      have h2 : some (r && true) = some b := hfe
      have h3 : (r && true) = b := Option.some_injective _ h2
      rw [Bool.and_true] at h3
      rw [h3]

theorem EvalZdd_isTrue_intro {st : Store M} {e : NodeIndex M}
    (ht : e.isTrue = true) {x : List Bool} {u : Nat} {r : Bool}
    (hr : advanceFalse x (x.length+1) u x.length = some r) :
    EvalZdd st e x u r := by
  refine ⟨1, ?_⟩
  rw [evaluateZddLoop_succ, if_pos (isSink_of_isTrue ht), ht, hr]
  show some (r && true) = some r
  rw [Bool.and_true]

theorem EvalZdd_trueSink_end {st : Store M} {e : NodeIndex M}
    (ht : e.isTrue = true) {x : List Bool} {u : Nat} (hu : u = x.length) :
    EvalZdd st e x u true := by
  refine EvalZdd_isTrue_intro ht ?_
  rw [hu]
  exact advanceFalse_refl x x.length x.length

theorem EvalZdd_node_elim {st : Store M} {e : NodeIndex M} {nd : Node M}
    (hn : nodeAt st e.address = some nd) {x : List Bool} {u : Nat} {b : Bool}
    (he : EvalZdd st e x u b) :
    (advanceFalse x (x.length+1) u nd.var = some false ∧ b = false) ∨
    (advanceFalse x (x.length+1) u nd.var = some true ∧
      ∃ xv, x[nd.var]? = some xv ∧
        EvalZdd st (if xv then nd.hi else nd.lo) x (nd.var+1) b) := by
  obtain ⟨fuel, hfe⟩ := he
  cases fuel with
  | zero => simp [evaluateZddLoop] at hfe
  | succ f =>
    rw [evaluateZddLoop_succ,
      if_neg (by rw [not_isSink_of_nodeAt hn]; exact Bool.false_ne_true),
      hn] at hfe
    simp only [Option.some_bind] at hfe
    cases ha : advanceFalse x (x.length+1) u nd.var with
    | none => rw [ha] at hfe; simp at hfe
    | some ok =>
      rw [ha] at hfe
      simp only [Option.some_bind] at hfe
      cases ok with
      | false =>
        rw [if_neg Bool.false_ne_true] at hfe
        left
        exact ⟨rfl, (Option.some_injective _ hfe).symm⟩
      | true =>
        rw [if_pos rfl] at hfe
        cases hx : x[nd.var]? with
        | none => rw [hx] at hfe; simp at hfe
        | some xv =>
          rw [hx] at hfe
          simp only [Option.some_bind] at hfe
          right
          exact ⟨rfl, xv, rfl, ⟨f, hfe⟩⟩

theorem EvalZdd_node_intro {st : Store M} {e : NodeIndex M} {nd : Node M}
    (hn : nodeAt st e.address = some nd) {x : List Bool} {u : Nat}
    (ha : advanceFalse x (x.length+1) u nd.var = some true) {xv : Bool}
    (hx : x[nd.var]? = some xv) {b : Bool}
    (he : EvalZdd st (if xv then nd.hi else nd.lo) x (nd.var+1) b) :
    EvalZdd st e x u b := by
  obtain ⟨f, hf⟩ := he
  refine ⟨f+1, ?_⟩
  rw [evaluateZddLoop_succ,
    if_neg (by rw [not_isSink_of_nodeAt hn]; exact Bool.false_ne_true), hn]
  simp only [Option.some_bind]
  rw [ha]
  simp only [Option.some_bind]
  rw [if_pos trivial, hx]
  simp only [Option.some_bind]
  exact hf

theorem EvalZdd_node_intro_false {st : Store M} {e : NodeIndex M} {nd : Node M}
    (hn : nodeAt st e.address = some nd) {x : List Bool} {u : Nat}
    (ha : advanceFalse x (x.length+1) u nd.var = some false) :
    EvalZdd st e x u false := by
  refine ⟨1, ?_⟩
  rw [evaluateZddLoop_succ,
    if_neg (by rw [not_isSink_of_nodeAt hn]; exact Bool.false_ne_true), hn]
  simp only [Option.some_bind]
  rw [ha]
  simp

theorem EvalZdd_hitTrue {st : Store M} {e : NodeIndex M} (hg : goodIdx st e)
    {x : List Bool} {u : Nat} (hl : LvlGe st e.address (u+1))
    (hx : x[u]? = some true) : EvalZdd st e x u false := by
  by_cases hs : e.isSink = true
  · have hlt : u < x.length := (List.getElem?_eq_some_iff.mp hx).1
    refine ⟨1, ?_⟩
    rw [evaluateZddLoop_succ, if_pos hs,
      advanceFalse_hitTrue (show u ≠ x.length from by omega) hx]
    show some (false && e.isTrue) = some false
    rw [Bool.false_and]
  · have h2 : 2 ≤ e.address := not_isSink_ge (by simpa using hs)
    obtain ⟨nd, hn⟩ := nodeAt_of_lt h2 hg
    have hv := hl nd hn
    exact EvalZdd_node_intro_false hn
      (advanceFalse_hitTrue (show u ≠ nd.var from by omega) hx)

theorem EvalZdd_shift {st : Store M} {V : Nat} (vb : VarsBelow V st)
    {x : List Bool} (hxlen : x.length = V) {e : NodeIndex M} {u : Nat}
    (hu : u < V) (hl : LvlGe st e.address (u+1)) (hxu : x[u]? = some false)
    {b : Bool} :
    EvalZdd st e x u b ↔ EvalZdd st e x (u+1) b := by
  constructor
  · rintro ⟨f, hf⟩
    cases f with
    | zero => simp [evaluateZddLoop] at hf
    | succ f2 =>
      rw [evaluateZddLoop_shift vb hxlen hu hl hxu f2] at hf
      exact ⟨f2+1, hf⟩
  · rintro ⟨f, hf⟩
    refine ⟨f+1, ?_⟩
    rw [evaluateZddLoop_shift vb hxlen hu hl hxu f]
    exact evaluateZddLoop_mono st x f (f+1) e (u+1) b (by omega) hf

theorem chainDontCare_eval [DecidableEq M] (ops : MultOps M) {x : List Bool} :
    ∀ (count upto : Nat) (st : Store M) (idx : NodeIndex M) (b : Bool),
      StoreWF st → goodIdx st idx →
      (∀ v, v < upto + count → LvlGt st idx.address v) →
      upto + count ≤ x.length →
      EvalZdd st idx x (upto + count) b →
      EvalZdd (chainDontCare ops count upto st idx).1
        (chainDontCare ops count upto st idx).2 x upto b := by
  intro count
  induction count with
  | zero =>
    intro upto st idx b _ _ _ _ he
    exact he
  | succ c ih =>
    intro upto st idx b wf hg hlv hlen he
    have hrec := ih (upto+1) st idx b wf hg
      (fun v hv => hlv v (by omega)) (by omega)
      (by rw [show upto + 1 + c = upto + (c+1) from by omega]; exact he)
    obtain ⟨ext1, wf1, hg1, hlv1⟩ := chainDontCare_spec ops c (upto+1) st idx
      wf hg (fun v hv => hlv v (by omega))
    have he2 : chainDontCare ops (c+1) upto st idx =
        addNodeIfNotPresent ops (chainDontCare ops c (upto+1) st idx).1
          ⟨upto, (chainDontCare ops c (upto+1) st idx).2,
            (chainDontCare ops c (upto+1) st idx).2⟩ := rfl
    rw [he2]
    obtain ⟨ext2, wf2, hlen2, hgood2, ⟨nd', hnd', hv', hlo', hhi'⟩, hvb2⟩ :=
      addNodeIfNotPresent_spec ops wf1
        ⟨upto, (chainDontCare ops c (upto+1) st idx).2,
          (chainDontCare ops c (upto+1) st idx).2⟩
        hg1 hg1 (hlv1 upto (by omega)) (hlv1 upto (by omega))
    cases hx : x[upto]? with
    | none =>
      exfalso
      rw [List.getElem?_eq_none_iff] at hx
      omega
    | some xv =>
      refine EvalZdd_node_intro hnd'
        (by rw [hv']; exact advanceFalse_refl x x.length upto)
        (show x[nd'.var]? = some xv from by rw [hv']; exact hx) ?_
      rw [hv']
      refine EvalZdd_addr ?_ (EvalZdd_extends ext2 hrec)
      cases xv with
      | false => exact hlo'.symm
      | true => exact hhi'.symm

theorem trueRegardless_eval [DecidableEq M] (ops : MultOps M) {x : List Bool}
    {st : Store M} (wf : StoreWF st) {upto total : Nat} (hu : upto ≤ total)
    (hxlen : x.length = total) :
    EvalZdd (trueRegardlessOfVariablesBelowZdd ops st upto total).1
      (trueRegardlessOfVariablesBelowZdd ops st upto total).2 x upto true := by
  unfold trueRegardlessOfVariablesBelowZdd
  refine chainDontCare_eval ops (total - upto) upto st (NodeIndex.TRUE ops) true
    wf (by show (1:Nat) < st.length + 2; omega)
    (fun v hv => LvlGt_sink Nat.one_lt_two) (by omega) ?_
  exact EvalZdd_trueSink_end (show (NodeIndex.TRUE ops).isTrue = true from rfl)
    (by omega)

theorem chainDontCare_vb [DecidableEq M] (ops : MultOps M) {V : Nat} :
    ∀ (count upto : Nat) (st : Store M) (idx : NodeIndex M),
      StoreWF st → goodIdx st idx →
      (∀ v, v < upto + count → LvlGt st idx.address v) →
      (∀ j, j < count → upto + j < V) →
      VarsBelow V st →
      VarsBelow V (chainDontCare ops count upto st idx).1 := by
  intro count
  induction count with
  | zero => intro upto st idx _ _ _ _ hvb; exact hvb
  | succ c ih =>
    intro upto st idx wf hg hlv hjv hvb
    have hvb1 := ih (upto+1) st idx wf hg (fun v hv => hlv v (by omega))
      (fun j hj => by have := hjv (j+1) (by omega); omega) hvb
    obtain ⟨ext1, wf1, hg1, hlv1⟩ := chainDontCare_spec ops c (upto+1) st idx
      wf hg (fun v hv => hlv v (by omega))
    have he2 : chainDontCare ops (c+1) upto st idx =
        addNodeIfNotPresent ops (chainDontCare ops c (upto+1) st idx).1
          ⟨upto, (chainDontCare ops c (upto+1) st idx).2,
            (chainDontCare ops c (upto+1) st idx).2⟩ := rfl
    rw [he2]
    obtain ⟨ext2, wf2, hlen2, hgood2, hnd2, hvb2⟩ :=
      addNodeIfNotPresent_spec ops wf1
        ⟨upto, (chainDontCare ops c (upto+1) st idx).2,
          (chainDontCare ops c (upto+1) st idx).2⟩
        hg1 hg1 (hlv1 upto (by omega)) (hlv1 upto (by omega))
    exact hvb2 V hvb1 (show upto < V from by have := hjv 0 (by omega); omega)

theorem trueRegardless_vb [DecidableEq M] (ops : MultOps M) {V : Nat}
    {st : Store M} (wf : StoreWF st) (upto total : Nat) (htV : total ≤ V)
    (hvb : VarsBelow V st) :
    VarsBelow V (trueRegardlessOfVariablesBelowZdd ops st upto total).1 := by
  unfold trueRegardlessOfVariablesBelowZdd
  exact chainDontCare_vb ops (total - upto) upto st (NodeIndex.TRUE ops) wf
    (by show (1:Nat) < st.length + 2; omega)
    (fun v hv => LvlGt_sink Nat.one_lt_two)
    (fun j hj => by omega) hvb

theorem notZddChain_vb [DecidableEq M] (ops : MultOps M) {V total : Nat}
    (htV : total ≤ V) :
    ∀ (count upto : Nat) (st : Store M) (idx : NodeIndex M),
      StoreWF st → goodIdx st idx →
      (∀ v, v < upto + count → LvlGt st idx.address v) →
      (∀ j, j < count → upto + j < V) →
      VarsBelow V st →
      VarsBelow V (notZddChain ops count upto total st idx).1 := by
  intro count
  induction count with
  | zero => intro upto st idx _ _ _ _ hvb; exact hvb
  | succ c ih =>
    intro upto st idx wf hg hlv hjv hvb
    have hvb1 := ih (upto+1) st idx wf hg (fun v hv => hlv v (by omega))
      (fun j hj => by have := hjv (j+1) (by omega); omega) hvb
    obtain ⟨ext1, wf1, hg1, hlv1⟩ := notZddChain_spec ops total c (upto+1) st idx
      wf hg (fun v hv => hlv v (by omega))
    have hvb2 := trueRegardless_vb ops wf1 (upto+1) total htV hvb1
    obtain ⟨ext2, wf2, hg2, hlv2⟩ := trueRegardless_spec ops wf1 (upto+1) total
    have he2 : notZddChain ops (c+1) upto total st idx =
        addNodeIfNotPresent ops
          (trueRegardlessOfVariablesBelowZdd ops
            (notZddChain ops c (upto+1) total st idx).1 (upto+1) total).1
          ⟨upto, (notZddChain ops c (upto+1) total st idx).2,
            (trueRegardlessOfVariablesBelowZdd ops
              (notZddChain ops c (upto+1) total st idx).1 (upto+1) total).2⟩ :=
      rfl
    rw [he2]
    have hplv : LvlGt (trueRegardlessOfVariablesBelowZdd ops
        (notZddChain ops c (upto+1) total st idx).1 (upto+1) total).1
        (notZddChain ops c (upto+1) total st idx).2.address upto := by
      rw [LvlGt_congr ext2 hg1]
      exact hlv1 upto (by omega)
    obtain ⟨ext3, wf3, hlen3, hgood3, hnd3, hvb3⟩ :=
      addNodeIfNotPresent_spec ops wf2
        ⟨upto, (notZddChain ops c (upto+1) total st idx).2,
          (trueRegardlessOfVariablesBelowZdd ops
            (notZddChain ops c (upto+1) total st idx).1 (upto+1) total).2⟩
        (goodIdx_mono ext2 hg1) hg2 hplv (hlv2 upto (by omega))
    exact hvb3 V hvb2 (show upto < V from by have := hjv 0 (by omega); omega)

theorem notZddChain_evalFalse [DecidableEq M] (ops : MultOps M)
    {total : Nat} {x : List Bool} (hxlen : x.length = total) :
    ∀ (count upto : Nat) (st : Store M) (idx : NodeIndex M) (b : Bool),
      StoreWF st → goodIdx st idx →
      (∀ v, v < upto + count → LvlGt st idx.address v) →
      upto + count ≤ total →
      (∀ j, upto ≤ j → j < upto + count → x[j]? = some false) →
      EvalZdd st idx x (upto + count) b →
      EvalZdd (notZddChain ops count upto total st idx).1
        (notZddChain ops count upto total st idx).2 x upto b := by
  intro count
  induction count with
  | zero =>
    intro upto st idx b _ _ _ _ _ he
    exact he
  | succ c ih =>
    intro upto st idx b wf hg hlv hct hall he
    have hrec := ih (upto+1) st idx b wf hg (fun v hv => hlv v (by omega))
      (by omega) (fun j h1 h2 => hall j (by omega) (by omega))
      (by rw [show upto + 1 + c = upto + (c+1) from by omega]; exact he)
    obtain ⟨ext1, wf1, hg1, hlv1⟩ := notZddChain_spec ops total c (upto+1) st idx
      wf hg (fun v hv => hlv v (by omega))
    obtain ⟨ext2, wf2, hg2, hlv2⟩ := trueRegardless_spec ops wf1 (upto+1) total
    have he2 : notZddChain ops (c+1) upto total st idx =
        addNodeIfNotPresent ops
          (trueRegardlessOfVariablesBelowZdd ops
            (notZddChain ops c (upto+1) total st idx).1 (upto+1) total).1
          ⟨upto, (notZddChain ops c (upto+1) total st idx).2,
            (trueRegardlessOfVariablesBelowZdd ops
              (notZddChain ops c (upto+1) total st idx).1 (upto+1) total).2⟩ :=
      rfl
    rw [he2]
    have hplv : LvlGt (trueRegardlessOfVariablesBelowZdd ops
        (notZddChain ops c (upto+1) total st idx).1 (upto+1) total).1
        (notZddChain ops c (upto+1) total st idx).2.address upto := by
      rw [LvlGt_congr ext2 hg1]
      exact hlv1 upto (by omega)
    obtain ⟨ext3, wf3, hlen3, hgood3, ⟨nd', hnd', hv', hlo', hhi'⟩, hvb3⟩ :=
      addNodeIfNotPresent_spec ops wf2
        ⟨upto, (notZddChain ops c (upto+1) total st idx).2,
          (trueRegardlessOfVariablesBelowZdd ops
            (notZddChain ops c (upto+1) total st idx).1 (upto+1) total).2⟩
        (goodIdx_mono ext2 hg1) hg2 hplv (hlv2 upto (by omega))
    have hx : x[upto]? = some false := hall upto (le_refl upto) (by omega)
    refine EvalZdd_node_intro hnd'
      (by rw [hv']; exact advanceFalse_refl x x.length upto)
      (show x[nd'.var]? = some false from by rw [hv']; exact hx) ?_
    rw [hv']
    refine EvalZdd_addr ?_ (EvalZdd_extends ext3 (EvalZdd_extends ext2 hrec))
    exact hlo'.symm

theorem notZddChain_evalHit [DecidableEq M] (ops : MultOps M)
    {total : Nat} {x : List Bool} (hxlen : x.length = total) :
    ∀ (count upto : Nat) (st : Store M) (idx : NodeIndex M),
      StoreWF st → goodIdx st idx →
      (∀ v, v < upto + count → LvlGt st idx.address v) →
      upto + count ≤ total →
      (∃ j, upto ≤ j ∧ j < upto + count ∧ x[j]? = some true) →
      EvalZdd (notZddChain ops count upto total st idx).1
        (notZddChain ops count upto total st idx).2 x upto true := by
  intro count
  induction count with
  | zero =>
    intro upto st idx _ _ _ _ hex
    obtain ⟨j, h1, h2, _⟩ := hex
    omega
  | succ c ih =>
    intro upto st idx wf hg hlv hct hex
    obtain ⟨j, hj1, hj2, hjt⟩ := hex
    obtain ⟨ext1, wf1, hg1, hlv1⟩ := notZddChain_spec ops total c (upto+1) st idx
      wf hg (fun v hv => hlv v (by omega))
    obtain ⟨ext2, wf2, hg2, hlv2⟩ := trueRegardless_spec ops wf1 (upto+1) total
    have he2 : notZddChain ops (c+1) upto total st idx =
        addNodeIfNotPresent ops
          (trueRegardlessOfVariablesBelowZdd ops
            (notZddChain ops c (upto+1) total st idx).1 (upto+1) total).1
          ⟨upto, (notZddChain ops c (upto+1) total st idx).2,
            (trueRegardlessOfVariablesBelowZdd ops
              (notZddChain ops c (upto+1) total st idx).1 (upto+1) total).2⟩ :=
      rfl
    rw [he2]
    have hplv : LvlGt (trueRegardlessOfVariablesBelowZdd ops
        (notZddChain ops c (upto+1) total st idx).1 (upto+1) total).1
        (notZddChain ops c (upto+1) total st idx).2.address upto := by
      rw [LvlGt_congr ext2 hg1]
      exact hlv1 upto (by omega)
    obtain ⟨ext3, wf3, hlen3, hgood3, ⟨nd', hnd', hv', hlo', hhi'⟩, hvb3⟩ :=
      addNodeIfNotPresent_spec ops wf2
        ⟨upto, (notZddChain ops c (upto+1) total st idx).2,
          (trueRegardlessOfVariablesBelowZdd ops
            (notZddChain ops c (upto+1) total st idx).1 (upto+1) total).2⟩
        (goodIdx_mono ext2 hg1) hg2 hplv (hlv2 upto (by omega))
    cases hx : x[upto]? with
    | none =>
      exfalso
      rw [List.getElem?_eq_none_iff] at hx
      omega
    | some xv =>
      refine EvalZdd_node_intro hnd'
        (by rw [hv']; exact advanceFalse_refl x x.length upto)
        (show x[nd'.var]? = some xv from by rw [hv']; exact hx) ?_
      rw [hv']
      cases xv with
      | true =>
        refine EvalZdd_addr ?_ (EvalZdd_extends ext3
          (trueRegardless_eval ops wf1 (by omega) hxlen))
        exact hhi'.symm
      | false =>
        have hj : upto + 1 ≤ j := by
          rcases Nat.eq_or_lt_of_le hj1 with heq | hlt
          · rw [← heq] at hjt
            rw [hx] at hjt
            simp at hjt
          · omega
        refine EvalZdd_addr ?_ (EvalZdd_extends ext3 (EvalZdd_extends ext2
          (ih (upto+1) st idx wf hg (fun v hv => hlv v (by omega)) (by omega)
            ⟨j, hj, by omega, hjt⟩)))
        exact hlo'.symm

theorem NotZddSemCacheOK_nil (T : Nat) (st : Store M) :
    NotZddSemCacheOK T st ([] : Cache (Nat × Nat) Nat) := by
  intro p hp
  simp at hp

theorem NotZddSemCacheOK_extends {T : Nat} {st st' : Store M} (wf : StoreWF st)
    (hext : StoreExtends st st') {cache : Cache (Nat × Nat) Nat}
    (hc : NotZddSemCacheOK T st cache) : NotZddSemCacheOK T st' cache := by
  intro p hp
  obtain ⟨h1, h2, h3, h4⟩ := hc p hp
  have hlen := hext.length_le
  refine ⟨by omega, by omega, ?_, ?_⟩
  · intro v hv
    rw [LvlGt_congr hext h2]
    exact h3 v hv
  · intro m m' x b hxlen he
    refine EvalZdd_extends hext (h4 m m' x b hxlen ?_)
    exact EvalZdd_congr wf hext
      (show goodIdx st (⟨p.1.1, m⟩ : NodeIndex M) from h1) he

theorem NotZddSemCacheOK_insert {T : Nat} {st0 stc stq : Store M}
    (wf0 : StoreWF st0) (wfc : StoreWF stc)
    (hext0 : StoreExtends st0 stq) (hextc : StoreExtends stc stq)
    {cache : Cache (Nat × Nat) Nat} (hc : NotZddSemCacheOK T stc cache)
    {i res : NodeIndex M} {upto : Nat}
    (hg : goodIdx st0 i) (hgr : goodIdx stq res)
    (hlv : ∀ v, v < upto → LvlGt stq res.address v)
    (hsem : ∀ x b, x.length = T → EvalZdd st0 i x upto b →
      EvalZdd stq res x upto (!b)) :
    NotZddSemCacheOK T stq
      (cacheInsert cache (i.address, upto) res.address) := by
  intro p hp
  rcases List.mem_cons.mp hp with hpk | hpold
  · subst hpk
    have hlen := hext0.length_le
    have hga : i.address < st0.length + 2 := hg
    refine ⟨?_, ?_, ?_, ?_⟩
    · show i.address < stq.length + 2
      omega
    · show res.address < stq.length + 2
      exact hgr
    · show ∀ v, v < upto → LvlGt stq res.address v
      exact hlv
    · intro m m' x b hxlen he
      show EvalZdd stq ⟨res.address, m'⟩ x upto (!b)
      have he2 : EvalZdd stq ⟨i.address, m⟩ x upto b := he
      have he3 : EvalZdd st0 i x upto b :=
        EvalZdd_congr wf0 hext0 hg (EvalZdd_addr
          (show (⟨i.address, m⟩ : NodeIndex M).address = i.address from rfl)
          he2)
      exact EvalZdd_addr
        (show res.address = (⟨res.address, m'⟩ : NodeIndex M).address from rfl)
        (hsem x b hxlen he3)
  · exact NotZddSemCacheOK_extends wfc hextc hc p hpold

theorem notZdd_sem [DecidableEq M] (ops : MultOps M) (total : Nat) :
    ∀ fuel (st : Store M) (cache : Cache (Nat × Nat) Nat)
      (index : NodeIndex M) (upto : Nat) out,
      notZdd ops fuel st cache index upto total = some out →
      StoreWF st → VarsBelow total st → NotZddSemCacheOK total st cache →
      goodIdx st index →
      (∀ v, v < upto → LvlGt st index.address v) →
      upto ≤ total →
      NotZddSemOut total st index upto out := by
  intro fuel
  induction fuel with
  | zero => intro st cache index upto out h; simp [notZdd] at h
  | succ f ih =>
    intro st cache index upto out h wf vb hc hg hup huT
    simp only [notZdd] at h
    cases hcf : cacheFind cache (index.address, upto) with
    | some res =>
      rw [hcf] at h
      cases Option.some_injective _ h
      obtain ⟨ha1, ha2, hlv, hsem⟩ := hc _ (cacheFind_mem hcf)
      refine ⟨StoreExtends.refl st, wf, vb, hc, ha2, hlv, ?_⟩
      intro x b hxlen he
      exact hsem index.multiplicity ops.one x b hxlen he
    | none =>
      simp only [hcf] at h
      by_cases hif : index.isFalse = true
      · rw [if_pos hif] at h
        simp only [Option.bind_eq_bind, Option.some_bind] at h
        cases Option.some_injective _ h
        obtain ⟨ext1, wf1, hg1, hlv1⟩ := notZddChain_spec ops total
          (total - upto) upto st (NodeIndex.TRUE ops) wf
          (by show (1:Nat) < st.length + 2; omega)
          (fun v hv => LvlGt_sink Nat.one_lt_two)
        have hvb1 := notZddChain_vb ops (le_refl total) (total - upto) upto st
          (NodeIndex.TRUE ops) wf
          (by show (1:Nat) < st.length + 2; omega)
          (fun v hv => LvlGt_sink Nat.one_lt_two)
          (fun j hj => by omega) vb
        have hsem1 : ∀ x b, x.length = total → EvalZdd st index x upto b →
            EvalZdd (notZddChain ops (total - upto) upto total st
                (NodeIndex.TRUE ops)).1
              (notZddChain ops (total - upto) upto total st
                (NodeIndex.TRUE ops)).2 x upto (!b) := by
          intro x b hxlen he
          have hb : b = false := EvalZdd_isFalse_elim hif he
          subst hb
          show EvalZdd _ _ x upto true
          by_cases hex : ∃ j, upto ≤ j ∧ j < total ∧ x[j]? = some true
          · obtain ⟨j, h1, h2, h3⟩ := hex
            exact notZddChain_evalHit ops hxlen (total - upto) upto st
              (NodeIndex.TRUE ops) wf
              (by show (1:Nat) < st.length + 2; omega)
              (fun v hv => LvlGt_sink Nat.one_lt_two)
              (by omega) ⟨j, h1, by omega, h3⟩
          · push_neg at hex
            have hall : ∀ j, upto ≤ j → j < upto + (total - upto) →
                x[j]? = some false := by
              intro j h1 h2
              cases hxj : x[j]? with
              | none =>
                exfalso
                rw [List.getElem?_eq_none_iff] at hxj
                omega
              | some c =>
                cases c with
                | true => exact absurd hxj (hex j h1 (by omega))
                | false => rfl
            refine notZddChain_evalFalse ops hxlen (total - upto) upto st
              (NodeIndex.TRUE ops) true wf
              (by show (1:Nat) < st.length + 2; omega)
              (fun v hv => LvlGt_sink Nat.one_lt_two)
              (by omega) hall ?_
            exact EvalZdd_trueSink_end
              (show (NodeIndex.TRUE ops).isTrue = true from rfl) (by omega)
        refine ⟨ext1, wf1, hvb1, ?_, hg1, hlv1, hsem1⟩
        exact NotZddSemCacheOK_insert wf wf ext1 ext1 hc hg hg1 hlv1 hsem1
      · rw [if_neg hif] at h
        by_cases hit : index.isTrue = true
        · rw [if_pos hit] at h
          simp only [Option.bind_eq_bind, Option.some_bind] at h
          cases Option.some_injective _ h
          obtain ⟨ext1, wf1, hg1, hlv1⟩ := notZddChain_spec ops total
            (total - upto) upto st (NodeIndex.FALSE ops) wf
            (by show (0:Nat) < st.length + 2; omega)
            (fun v hv => LvlGt_sink (by simp [NodeIndex.FALSE]))
          have hvb1 := notZddChain_vb ops (le_refl total) (total - upto) upto st
            (NodeIndex.FALSE ops) wf
            (by show (0:Nat) < st.length + 2; omega)
            (fun v hv => LvlGt_sink (by simp [NodeIndex.FALSE]))
            (fun j hj => by omega) vb
          have hsem1 : ∀ x b, x.length = total → EvalZdd st index x upto b →
              EvalZdd (notZddChain ops (total - upto) upto total st
                  (NodeIndex.FALSE ops)).1
                (notZddChain ops (total - upto) upto total st
                  (NodeIndex.FALSE ops)).2 x upto (!b) := by
            intro x b hxlen he
            have hadv := EvalZdd_isTrue_elim hit he
            cases b with
            | true =>
              have hall0 := advanceFalse_true_allFalse (x.length+1) upto
                x.length hadv
              have hall : ∀ j, upto ≤ j → j < upto + (total - upto) →
                  x[j]? = some false := by
                intro j h1 h2
                exact hall0 j h1 (by omega)
              refine notZddChain_evalFalse ops hxlen (total - upto) upto st
                (NodeIndex.FALSE ops) false wf
                (by show (0:Nat) < st.length + 2; omega)
                (fun v hv => LvlGt_sink (by simp [NodeIndex.FALSE]))
                (by omega) hall ?_
              exact EvalZdd_isFalse_intro
                (show (NodeIndex.FALSE ops).isFalse = true from rfl) (by omega)
            | false =>
              obtain ⟨j, h1, h2, h3⟩ := advanceFalse_false_exists (x.length+1)
                upto x.length (by omega) hadv
              exact notZddChain_evalHit ops hxlen (total - upto) upto st
                (NodeIndex.FALSE ops) wf
                (by show (0:Nat) < st.length + 2; omega)
                (fun v hv => LvlGt_sink (by simp [NodeIndex.FALSE]))
                (by omega) ⟨j, h1, by omega, h3⟩
          refine ⟨ext1, wf1, hvb1, ?_, hg1, hlv1, hsem1⟩
          exact NotZddSemCacheOK_insert wf wf ext1 ext1 hc hg hg1 hlv1 hsem1
        · rw [if_neg hit] at h
          cases hn : nodeAt st index.address with
          | none => simp [hn] at h
          | some node =>
            simp only [hn, Option.bind_eq_bind, Option.some_bind] at h
            cases hr1 : notZdd ops f st cache node.lo (node.var+1) total with
            | none => simp [hr1] at h
            | some r1 =>
              simp only [hr1, Option.bind_eq_bind, Option.some_bind] at h
              cases hr2 : notZdd ops f r1.1 r1.2.1 node.hi (node.var+1)
                  total with
              | none => simp [hr2] at h
              | some r2 =>
                simp only [hr2, Option.bind_eq_bind, Option.some_bind] at h
                have hch := storeWF_children wf hn
                have hv : node.var < total := varsBelow_nodeAt vb hn
                have hnv : upto ≤ node.var := by
                  by_cases h0 : upto = 0
                  · omega
                  · have := hup (upto - 1) (by omega) node hn
                    omega
                have hglo : goodIdx st node.lo := by
                  unfold goodIdx at hg ⊢
                  have := hch.1
                  omega
                have hghi : goodIdx st node.hi := by
                  unfold goodIdx at hg ⊢
                  have := hch.2.1
                  omega
                obtain ⟨ext1, wf1, vb1, hc1, hgr1, hlv1, hev1⟩ :=
                  ih st cache node.lo (node.var+1) r1 hr1 wf vb hc hglo
                    (fun v hv2 => LvlGt_mono (by omega) hch.2.2.1) (by omega)
                obtain ⟨ext2, wf2, vb2, hc2, hgr2, hlv2, hev2⟩ :=
                  ih r1.1 r1.2.1 node.hi (node.var+1) r2 hr2 wf1 vb1 hc1
                    (goodIdx_mono ext1 hghi)
                    (by
                      intro v hv2
                      rw [LvlGt_congr ext1 hghi]
                      exact LvlGt_mono (by omega) hch.2.2.2) (by omega)
                have hgr1' : goodIdx r2.1 r1.2.2 := goodIdx_mono ext2 hgr1
                have hlv1' : ∀ v, v < upto + (node.var - upto) →
                    LvlGt r2.1 r1.2.2.address v := by
                  intro v hv2
                  rw [LvlGt_congr ext2 hgr1]
                  exact hlv1 v (by omega)
                have hrlv1 : LvlGt r2.1 r1.2.2.address node.var := by
                  rw [LvlGt_congr ext2 hgr1]
                  exact hlv1 node.var (by omega)
                have hLge1 : LvlGe r2.1 r1.2.2.address (node.var + 1) := by
                  intro nd0 hnd0
                  have := hrlv1 nd0 hnd0
                  omega
                by_cases hpf : r2.2.2.isFalse = true
                · simp only [if_pos hpf] at h
                  cases Option.some_injective _ h
                  obtain ⟨ext3, wf3, hg3, hlv3⟩ := notZddChain_spec ops total
                    (node.var - upto) upto r2.1 r1.2.2 wf2 hgr1' hlv1'
                  have hvb3 := notZddChain_vb ops (le_refl total)
                    (node.var - upto) upto r2.1 r1.2.2 wf2 hgr1' hlv1'
                    (fun j hj => by omega) vb2
                  have hsem1 : ∀ x b, x.length = total →
                      EvalZdd st index x upto b →
                      EvalZdd (notZddChain ops (node.var - upto) upto total
                          r2.1 r1.2.2).1
                        (notZddChain ops (node.var - upto) upto total
                          r2.1 r1.2.2).2 x upto (!b) := by
                    intro x b hxlen he
                    rcases EvalZdd_node_elim hn he with
                      ⟨hadv, hb⟩ | ⟨hadv, xv, hx, hche⟩
                    · subst hb
                      obtain ⟨j, h1, h2, h3⟩ := advanceFalse_false_exists
                        (x.length+1) upto node.var (by omega) hadv
                      exact notZddChain_evalHit ops hxlen (node.var - upto)
                        upto r2.1 r1.2.2 wf2 hgr1' hlv1' (by omega)
                        ⟨j, h1, by omega, h3⟩
                    · have hall : ∀ j, upto ≤ j →
                          j < upto + (node.var - upto) → x[j]? = some false := by
                        intro j hj1 hj2
                        exact advanceFalse_true_allFalse (x.length+1) upto
                          node.var hadv j hj1 (by omega)
                      cases xv with
                      | false =>
                        have hlo_e : EvalZdd st node.lo x (node.var+1) b := hche
                        have h2e : EvalZdd r2.1 r1.2.2 x (node.var+1) (!b) :=
                          EvalZdd_extends ext2 (hev1 x b hxlen hlo_e)
                        have hbr : EvalZdd r2.1 r1.2.2 x node.var (!b) :=
                          (EvalZdd_shift vb2 hxlen hv hLge1 hx).mpr h2e
                        refine notZddChain_evalFalse ops hxlen (node.var - upto)
                          upto r2.1 r1.2.2 (!b) wf2 hgr1' hlv1' (by omega)
                          hall ?_
                        rw [show upto + (node.var - upto) = node.var from
                          by omega]
                        exact hbr
                      | true =>
                        have hhi_e : EvalZdd st node.hi x (node.var+1) b := hche
                        have h1e : EvalZdd r2.1 r2.2.2 x (node.var+1) (!b) :=
                          hev2 x b hxlen (EvalZdd_extends ext1 hhi_e)
                        have hbf : (!b) = false := EvalZdd_isFalse_elim hpf h1e
                        have hb : b = true := by
                          cases b
                          · simp at hbf
                          · rfl
                        subst hb
                        have hfr : EvalZdd r2.1 r1.2.2 x node.var false :=
                          EvalZdd_hitTrue hgr1' hLge1 hx
                        refine notZddChain_evalFalse ops hxlen (node.var - upto)
                          upto r2.1 r1.2.2 false wf2 hgr1' hlv1' (by omega)
                          hall ?_
                        rw [show upto + (node.var - upto) = node.var from
                          by omega]
                        exact hfr
                  have hextT : StoreExtends st (notZddChain ops
                      (node.var - upto) upto total r2.1 r1.2.2).1 :=
                    StoreExtends.trans ext1 (StoreExtends.trans ext2 ext3)
                  refine ⟨hextT, wf3, hvb3, ?_, hg3, hlv3, hsem1⟩
                  exact NotZddSemCacheOK_insert wf wf2 hextT ext3 hc2 hg
                    hg3 hlv3 hsem1
                · simp only [if_neg hpf] at h
                  cases Option.some_injective _ h
                  have hrlv2 : LvlGt r2.1 r2.2.2.address node.var :=
                    hlv2 node.var (by omega)
                  obtain ⟨extp, wfp, hlenp, hgoodp,
                      ⟨nd', hnd', hndv, hndlo, hndhi⟩, hvbp⟩ :=
                    addNodeIfNotPresent_spec ops wf2
                      ⟨node.var, r1.2.2, r2.2.2⟩ hgr1' hgr2 hrlv1 hrlv2
                  have hvbp2 : VarsBelow total (addNodeIfNotPresent ops r2.1
                      ⟨node.var, r1.2.2, r2.2.2⟩).1 :=
                    hvbp total vb2 hv
                  have hplv : ∀ v, v < upto + (node.var - upto) →
                      LvlGt (addNodeIfNotPresent ops r2.1
                          ⟨node.var, r1.2.2, r2.2.2⟩).1
                        (addNodeIfNotPresent ops r2.1
                          ⟨node.var, r1.2.2, r2.2.2⟩).2.address v := by
                    intro v hv2
                    refine LvlGt_of_node hnd' ?_
                    rw [hndv]
                    show v < node.var
                    omega
                  obtain ⟨ext3, wf3, hg3, hlv3⟩ := notZddChain_spec ops total
                    (node.var - upto) upto
                    (addNodeIfNotPresent ops r2.1 ⟨node.var, r1.2.2, r2.2.2⟩).1
                    (addNodeIfNotPresent ops r2.1 ⟨node.var, r1.2.2, r2.2.2⟩).2
                    wfp hgoodp hplv
                  have hvb3 := notZddChain_vb ops (le_refl total)
                    (node.var - upto) upto
                    (addNodeIfNotPresent ops r2.1 ⟨node.var, r1.2.2, r2.2.2⟩).1
                    (addNodeIfNotPresent ops r2.1 ⟨node.var, r1.2.2, r2.2.2⟩).2
                    wfp hgoodp hplv (fun j hj => by omega) hvbp2
                  have hsem1 : ∀ x b, x.length = total →
                      EvalZdd st index x upto b →
                      EvalZdd (notZddChain ops (node.var - upto) upto total
                          (addNodeIfNotPresent ops r2.1
                            ⟨node.var, r1.2.2, r2.2.2⟩).1
                          (addNodeIfNotPresent ops r2.1
                            ⟨node.var, r1.2.2, r2.2.2⟩).2).1
                        (notZddChain ops (node.var - upto) upto total
                          (addNodeIfNotPresent ops r2.1
                            ⟨node.var, r1.2.2, r2.2.2⟩).1
                          (addNodeIfNotPresent ops r2.1
                            ⟨node.var, r1.2.2, r2.2.2⟩).2).2 x upto (!b) := by
                    intro x b hxlen he
                    rcases EvalZdd_node_elim hn he with
                      ⟨hadv, hb⟩ | ⟨hadv, xv, hx, hche⟩
                    · subst hb
                      obtain ⟨j, h1, h2, h3⟩ := advanceFalse_false_exists
                        (x.length+1) upto node.var (by omega) hadv
                      exact notZddChain_evalHit ops hxlen (node.var - upto)
                        upto _ _ wfp hgoodp hplv (by omega)
                        ⟨j, h1, by omega, h3⟩
                    · have hall : ∀ j, upto ≤ j →
                          j < upto + (node.var - upto) → x[j]? = some false := by
                        intro j hj1 hj2
                        exact advanceFalse_true_allFalse (x.length+1) upto
                          node.var hadv j hj1 (by omega)
                      have hpe : EvalZdd (addNodeIfNotPresent ops r2.1
                          ⟨node.var, r1.2.2, r2.2.2⟩).1
                          (addNodeIfNotPresent ops r2.1
                            ⟨node.var, r1.2.2, r2.2.2⟩).2 x node.var (!b) := by
                        refine EvalZdd_node_intro hnd'
                          (by rw [hndv]
                              exact advanceFalse_refl x x.length node.var)
                          (show x[nd'.var]? = some xv from by
                            rw [hndv]; exact hx) ?_
                        rw [hndv]
                        cases xv with
                        | false =>
                          refine EvalZdd_addr ?_ (EvalZdd_extends extp
                            (EvalZdd_extends ext2 (hev1 x b hxlen hche)))
                          exact hndlo.symm
                        | true =>
                          refine EvalZdd_addr ?_ (EvalZdd_extends extp
                            (hev2 x b hxlen (EvalZdd_extends ext1 hche)))
                          exact hndhi.symm
                      refine notZddChain_evalFalse ops hxlen (node.var - upto)
                        upto _ _ (!b) wfp hgoodp hplv (by omega) hall ?_
                      rw [show upto + (node.var - upto) = node.var from
                        by omega]
                      exact hpe
                  have hextT : StoreExtends st (notZddChain ops
                      (node.var - upto) upto total
                      (addNodeIfNotPresent ops r2.1
                        ⟨node.var, r1.2.2, r2.2.2⟩).1
                      (addNodeIfNotPresent ops r2.1
                        ⟨node.var, r1.2.2, r2.2.2⟩).2).1 :=
                    StoreExtends.trans ext1 (StoreExtends.trans ext2
                      (StoreExtends.trans extp ext3))
                  refine ⟨hextT, wf3, hvb3, ?_, hg3, hlv3, hsem1⟩
                  exact NotZddSemCacheOK_insert wf wf2 hextT
                    (StoreExtends.trans extp ext3) hc2 hg hg3 hlv3 hsem1

theorem notNotZdd_sem [DecidableEq M] (ops : MultOps M) {T fuel1 fuel2 : Nat}
    {st st1 st2 : Store M} {c0 c1 c2 : Cache (Nat × Nat) Nat}
    {f g h : NodeIndex M} (wf : StoreWF st) (vb : VarsBelow T st)
    (hc : NotZddSemCacheOK T st c0) (hg : goodIdx st f)
    (h1 : notZdd ops fuel1 st c0 f 0 T = some (st1, c1, g))
    (h2 : notZdd ops fuel2 st1 c1 g 0 T = some (st2, c2, h))
    {x : List Bool} (hx : x.length = T) {b : Bool} (he : EvalZdd st f x 0 b) :
    EvalZdd st2 h x 0 b := by
  obtain ⟨ext1, wf1, vb1, hcc1, hg1, -, hev1⟩ :=
    notZdd_sem ops T fuel1 st c0 f 0 (st1, c1, g) h1 wf vb hc hg
      (fun v hv => absurd hv (Nat.not_lt_zero v)) (Nat.zero_le T)
  obtain ⟨ext2, wf2, vb2, hcc2, hg2, -, hev2⟩ :=
    notZdd_sem ops T fuel2 st1 c1 g 0 (st2, c2, h) h2 wf1 vb1 hcc1 hg1
      (fun v hv => absurd hv (Nat.not_lt_zero v)) (Nat.zero_le T)
  have h1e := hev1 x b hx he
  have h2e := hev2 x (!b) hx h1e
  rw [Bool.not_not] at h2e
  exact h2e

/-- C8 (corrected): double negation is an involution on the computed
function, not on edges, for both the BDD `not` and the ZDD `not`: if two
successive `not_bdd` (resp. `not_zdd` over the window `[0, T)`) runs in the
same factory (store and memo table threaded through, any multiplicity type)
take `f` to `g` to `h`, then `h` evaluates exactly as `f` on every input
(of length `T` in the ZDD case).  The edge itself can change: the result
multiplicity is always ONE, and `not_zdd` can return a different address on
stores holding non-canonical nodes (`claim8_counterexample`). -/
theorem claim8_not_not :
    (∀ {M : Type} [DecidableEq M] (ops : MultOps M) {fuel1 fuel2 : Nat}
      {st st1 st2 : Store M} {c0 c1 c2 : Cache Nat Nat} {f g h : NodeIndex M},
      StoreWF st → NotCacheOK st c0 → goodIdx st f →
      notBdd ops fuel1 st c0 f = some (st1, c1, g) →
      notBdd ops fuel2 st1 c1 g = some (st2, c2, h) →
      ∀ {x : List Bool} {b : Bool}, EvalBdd st f x b → EvalBdd st2 h x b) ∧
    (∀ {M : Type} [DecidableEq M] (ops : MultOps M) {T fuel1 fuel2 : Nat}
      {st st1 st2 : Store M} {c0 c1 c2 : Cache (Nat × Nat) Nat}
      {f g h : NodeIndex M},
      StoreWF st → VarsBelow T st → NotZddSemCacheOK T st c0 → goodIdx st f →
      notZdd ops fuel1 st c0 f 0 T = some (st1, c1, g) →
      notZdd ops fuel2 st1 c1 g 0 T = some (st2, c2, h) →
      ∀ {x : List Bool}, x.length = T → ∀ {b : Bool},
        EvalZdd st f x 0 b → EvalZdd st2 h x 0 b) := by
  constructor
  · intro M inst ops fuel1 fuel2 st st1 st2 c0 c1 c2 f g h wf hc hg h1 h2 x b he
    exact notNotBdd_sem ops wf hc hg h1 h2 he
  · intro M inst ops T fuel1 fuel2 st st1 st2 c0 c1 c2 f g h wf vb hc hg h1 h2
      x hx b he
    exact notNotZdd_sem ops wf vb hc hg h1 h2 hx he

/-- C8 witness: BDD half — in the single-node factory for the function `x0`,
the double negation lands back on the original address (after hash-consing)
and evaluates identically at `x = [true]`.  ZDD half — over one variable,
double-negating the TRUE edge from the empty store builds the chain node and
collapses back to the TRUE edge, evaluating identically at `x = [false]`. -/
theorem claim8_witness :
    (StoreWF ([⟨0, ⟨0, ()⟩, ⟨1, ()⟩⟩] : Store Unit) ∧
    goodIdx ([⟨0, ⟨0, ()⟩, ⟨1, ()⟩⟩] : Store Unit) ⟨2, ()⟩ ∧
    EvalBdd [⟨0, ⟨0, ()⟩, ⟨1, ()⟩⟩] ⟨2, ()⟩ [true] true ∧
    EvalBdd [⟨0, ⟨0, ()⟩, ⟨1, ()⟩⟩, ⟨0, ⟨1, ()⟩, ⟨0, ()⟩⟩] ⟨2, ()⟩ [true]
      true) ∧
    (EvalZdd ([] : Store Unit) ⟨1, ()⟩ [false] 0 true ∧
    EvalZdd [(⟨0, ⟨0, ()⟩, ⟨1, ()⟩⟩ : Node Unit)] ⟨1, ()⟩ [false] 0 true) := by
  refine ⟨⟨by decide, by decide, ⟨2, by decide⟩, ?_⟩, ⟨⟨1, by decide⟩, ?_⟩⟩
  · exact claim8_not_not.1 noMultOps (by decide) (NotCacheOK_nil _) (by decide)
      (show notBdd noMultOps 3 [⟨0, ⟨0, ()⟩, ⟨1, ()⟩⟩] [] ⟨2, ()⟩ =
          some ([⟨0, ⟨0, ()⟩, ⟨1, ()⟩⟩, ⟨0, ⟨1, ()⟩, ⟨0, ()⟩⟩], [(2, 3)],
            ⟨3, ()⟩) from by decide)
      (show notBdd noMultOps 3 [⟨0, ⟨0, ()⟩, ⟨1, ()⟩⟩, ⟨0, ⟨1, ()⟩, ⟨0, ()⟩⟩]
          [(2, 3)] ⟨3, ()⟩ =
          some ([⟨0, ⟨0, ()⟩, ⟨1, ()⟩⟩, ⟨0, ⟨1, ()⟩, ⟨0, ()⟩⟩], [(3, 2), (2, 3)],
            ⟨2, ()⟩) from by decide)
      ⟨2, by decide⟩
  · exact claim8_not_not.2 noMultOps (by decide) (by decide)
      (NotZddSemCacheOK_nil 1 []) (by decide)
      (show notZdd noMultOps 3 ([] : Store Unit) [] ⟨1, ()⟩ 0 1 =
          some ([⟨0, ⟨0, ()⟩, ⟨1, ()⟩⟩], [((1, 0), 2)], ⟨2, ()⟩) from by rfl)
      (show notZdd noMultOps 3 [(⟨0, ⟨0, ()⟩, ⟨1, ()⟩⟩ : Node Unit)]
          [((1, 0), 2)] ⟨2, ()⟩ 0 1 =
          some ([⟨0, ⟨0, ()⟩, ⟨1, ()⟩⟩],
            [((2, 0), 1), ((1, 1), 0), ((0, 1), 1), ((1, 0), 2)], ⟨1, ()⟩)
        from by rfl)
      (show ([false] : List Bool).length = 1 from rfl) ⟨1, by decide⟩

theorem singleVariable_wf [DecidableEq M] (ops : MultOps M)
    {st : Store M} (wf : StoreWF st) (v : Nat) :
    StoreExtends st (singleVariable ops st v).1 ∧
    StoreWF (singleVariable ops st v).1 ∧
    goodIdx (singleVariable ops st v).1 (singleVariable ops st v).2 := by
  obtain ⟨hext, hwf, hlen, hgood, hnode, hvb⟩ :=
    addNodeIfNotPresent_spec ops wf
      ⟨v, NodeIndex.FALSE ops, NodeIndex.TRUE ops⟩
      (by show (0:Nat) < st.length + 2; omega)
      (by show (1:Nat) < st.length + 2; omega)
      (LvlGt_sink (by simp [NodeIndex.FALSE]))
      (LvlGt_sink (by simp [NodeIndex.TRUE]))
  exact ⟨hext, hwf, hgood⟩

theorem singleVariableZddAux_spec [DecidableEq M] (ops : MultOps M) (v : Nat) :
    ∀ (count i0 : Nat) (st : Store M) (idx : NodeIndex M),
      StoreWF st → goodIdx st idx →
      (∀ w, w < i0 + count → LvlGt st idx.address w) →
      StoreExtends st (singleVariableZddAux ops v count i0 st idx).1 ∧
      StoreWF (singleVariableZddAux ops v count i0 st idx).1 ∧
      goodIdx (singleVariableZddAux ops v count i0 st idx).1
        (singleVariableZddAux ops v count i0 st idx).2 ∧
      (∀ w, w < i0 → LvlGt (singleVariableZddAux ops v count i0 st idx).1
        (singleVariableZddAux ops v count i0 st idx).2.address w) := by
  intro count
  induction count with
  | zero =>
    intro i0 st idx wf hg hlv
    refine ⟨StoreExtends.refl st, wf, hg, ?_⟩
    intro w hw
    exact hlv w (by omega)
  | succ c ih =>
    intro i0 st idx wf hg hlv
    obtain ⟨ext1, wf1, hg1, hlv1⟩ := ih (i0+1) st idx wf hg
      (fun w hw => hlv w (by omega))
    have he : singleVariableZddAux ops v (c+1) i0 st idx =
        addNodeIfNotPresent ops (singleVariableZddAux ops v c (i0+1) st idx).1
          ⟨i0, if i0 = v then NodeIndex.FALSE ops
            else (singleVariableZddAux ops v c (i0+1) st idx).2,
            (singleVariableZddAux ops v c (i0+1) st idx).2⟩ := rfl
    rw [he]
    have hlo : (if i0 = v then NodeIndex.FALSE ops
        else (singleVariableZddAux ops v c (i0+1) st idx).2).address <
        (singleVariableZddAux ops v c (i0+1) st idx).1.length + 2 := by
      by_cases hiv : i0 = v
      · rw [if_pos hiv]
        show (0:Nat) < _ + 2
        omega
      · rw [if_neg hiv]
        exact hg1
    have hlvlo : LvlGt (singleVariableZddAux ops v c (i0+1) st idx).1
        (if i0 = v then NodeIndex.FALSE ops
          else (singleVariableZddAux ops v c (i0+1) st idx).2).address i0 := by
      by_cases hiv : i0 = v
      · rw [if_pos hiv]
        exact LvlGt_sink (by simp [NodeIndex.FALSE])
      · rw [if_neg hiv]
        exact hlv1 i0 (by omega)
    obtain ⟨ext2, wf2, hlen2, hgood2, ⟨nd', hnd', hv', hlo', hhi'⟩, hvb2⟩ :=
      addNodeIfNotPresent_spec ops wf1
        ⟨i0, if i0 = v then NodeIndex.FALSE ops
          else (singleVariableZddAux ops v c (i0+1) st idx).2,
          (singleVariableZddAux ops v c (i0+1) st idx).2⟩
        hlo hg1 hlvlo (hlv1 i0 (by omega))
    refine ⟨StoreExtends.trans ext1 ext2, wf2, hgood2, ?_⟩
    intro w hw
    refine LvlGt_of_node hnd' ?_
    rw [hv']
    exact hw

theorem singleVariableZdd_wf [DecidableEq M] (ops : MultOps M)
    {st : Store M} (wf : StoreWF st) (v total : Nat) :
    StoreExtends st (singleVariableZdd ops st v total).1 ∧
    StoreWF (singleVariableZdd ops st v total).1 ∧
    goodIdx (singleVariableZdd ops st v total).1
      (singleVariableZdd ops st v total).2 := by
  obtain ⟨hext, hwf, hgood, hlv⟩ :=
    singleVariableZddAux_spec ops v total 0 st (NodeIndex.TRUE ops) wf
      (by show (1:Nat) < st.length + 2; omega)
      (fun w hw => LvlGt_sink Nat.one_lt_two)
  exact ⟨hext, hwf, hgood⟩

theorem exactlyOneOfBddAux_wf [DecidableEq M] (ops : MultOps M) (v0 : Nat) :
    ∀ (l : List Nat) (st : Store M) (left right : NodeIndex M) out,
      exactlyOneOfBddAux ops v0 l st left right = some out →
      StoreWF st → goodIdx st left → goodIdx st right →
      (∀ v ∈ l, LvlGt st left.address v ∧ LvlGt st right.address v) →
      List.Pairwise (fun a b => b < a) l →
      StoreExtends st out.1 ∧ StoreWF out.1 ∧ goodIdx out.1 out.2 := by
  intro l
  induction l with
  | nil => intro st left right out h _ _ _ _ _; simp [exactlyOneOfBddAux] at h
  | cons v rest ih =>
    intro st left right out h wf hgl hgr hlv hpw
    simp only [exactlyOneOfBddAux] at h
    obtain ⟨ext1, wf1, hlen1, hgood1, ⟨nd1, hnd1, hv1, hl1, hh1⟩, hvb1⟩ :=
      addNodeIfNotPresent_spec ops wf ⟨v, left, right⟩ hgl hgr
        (hlv v (by simp)).1 (hlv v (by simp)).2
    by_cases hvv : v = v0
    · rw [if_pos hvv] at h
      cases Option.some_injective _ h
      exact ⟨ext1, wf1, hgood1⟩
    · rw [if_neg hvv] at h
      obtain ⟨ext2, wf2, hlen2, hgood2, ⟨nd2, hnd2, hv2, hl2, hh2⟩, hvb2⟩ :=
        addNodeIfNotPresent_spec ops wf1 ⟨v, right, NodeIndex.FALSE ops⟩
          (goodIdx_mono ext1 hgr)
          (by show (0:Nat) < _ + 2; omega)
          (by
            rw [LvlGt_congr ext1 hgr]
            exact (hlv v (by simp)).2)
          (LvlGt_sink (by simp [NodeIndex.FALSE]))
      obtain ⟨ext3, wf3, hg3⟩ := ih _ _ _ out h wf2
        (goodIdx_mono ext2 hgood1) hgood2
        (fun w hw =>
          ⟨LvlGt_of_node (nodeAt_extends ext2 hnd1)
            (by rw [hv1]; exact (List.pairwise_cons.mp hpw).1 w hw),
           LvlGt_of_node hnd2
            (by rw [hv2]; exact (List.pairwise_cons.mp hpw).1 w hw)⟩)
        (List.pairwise_cons.mp hpw).2
      exact ⟨StoreExtends.trans ext1 (StoreExtends.trans ext2 ext3), wf3, hg3⟩

theorem exactlyOneOfBdd_wf [DecidableEq M] (ops : MultOps M)
    {st : Store M} (wf : StoreWF st) {vars : List Nat}
    (hsort : List.Pairwise (fun a b => a < b) vars) {out : Store M × NodeIndex M}
    (h : exactlyOneOfBdd ops st vars = some out) :
    StoreExtends st out.1 ∧ StoreWF out.1 ∧ goodIdx out.1 out.2 := by
  cases vars with
  | nil =>
    simp only [exactlyOneOfBdd] at h
    cases Option.some_injective _ h
    exact ⟨StoreExtends.refl st, wf, by show (0:Nat) < st.length + 2; omega⟩
  | cons v0 vrest =>
    simp only [exactlyOneOfBdd] at h
    exact exactlyOneOfBddAux_wf ops v0 ((v0 :: vrest).reverse) st _ _ out h wf
      (by show (0:Nat) < st.length + 2; omega)
      (by show (1:Nat) < st.length + 2; omega)
      (fun v hv => ⟨LvlGt_sink (by simp [NodeIndex.FALSE]),
        LvlGt_sink (by simp [NodeIndex.TRUE])⟩)
      (List.pairwise_reverse.mpr hsort)

theorem exactlyOneOfZddAux_wf [DecidableEq M] (ops : MultOps M) (v0 : Nat) :
    ∀ (l : List Nat) (dealtWith : Nat) (st : Store M)
      (left right : NodeIndex M) out,
      exactlyOneOfZddAux ops v0 l dealtWith st left right = some out →
      StoreWF st → goodIdx st left → goodIdx st right →
      (∀ v, v < dealtWith → LvlGt st left.address v) →
      (∀ v, v < dealtWith → LvlGt st right.address v) →
      (∀ v ∈ l, v < dealtWith) →
      List.Pairwise (fun a b => b < a) l →
      StoreExtends st out.1 ∧ StoreWF out.1 ∧ goodIdx out.1 out.2 := by
  intro l
  induction l with
  | nil =>
    intro dealtWith st left right out h _ _ _ _ _ _ _
    simp [exactlyOneOfZddAux] at h
  | cons v rest ih =>
    intro dealtWith st left right out h wf hgl hgr hll hlr hmem hpw
    simp only [exactlyOneOfZddAux] at h
    have hvd : v < dealtWith := hmem v (by simp)
    obtain ⟨extA, wfA, hgA, hlvA⟩ :=
      zddVariablesInRangeDontMatter_spec ops wf left (v+1) dealtWith hgl
        (fun w hw => hll w (by omega))
    obtain ⟨extB, wfB, hgB, hlvB⟩ :=
      zddVariablesInRangeDontMatter_spec ops wfA right (v+1) dealtWith
        (goodIdx_mono extA hgr)
        (by
          intro w hw
          rw [LvlGt_congr extA hgr]
          exact hlr w (by omega))
    obtain ⟨extP, wfP, hlenP, hgP, ⟨ndP, hndP, hvP, hlP, hhP⟩, hvbP⟩ :=
      addNodeIfNotPresent_spec ops wfB
        ⟨v, (zddVariablesInRangeDontMatter ops st left (v+1) dealtWith).2,
          (zddVariablesInRangeDontMatter ops
            (zddVariablesInRangeDontMatter ops st left (v+1) dealtWith).1
            right (v+1) dealtWith).2⟩
        (goodIdx_mono extB hgA) hgB
        (by
          rw [LvlGt_congr extB hgA]
          exact hlvA v (by omega))
        (hlvB v (by omega))
    by_cases hvv : v = v0
    · rw [if_pos hvv] at h
      cases Option.some_injective _ h
      obtain ⟨extC, wfC, hgC, hlvC⟩ :=
        zddVariablesInRangeDontMatter_spec ops wfP _ 0 v hgP
          (by
            intro w hw
            refine LvlGt_of_node hndP ?_
            rw [hvP]
            show w < v
            omega)
      exact ⟨StoreExtends.trans extA (StoreExtends.trans extB
        (StoreExtends.trans extP extC)), wfC, hgC⟩
    · rw [if_neg hvv] at h
      obtain ⟨extQ, wfQ, hlenQ, hgQ, ⟨ndQ, hndQ, hvQ, hlQ, hhQ⟩, hvbQ⟩ :=
        addNodeIfNotPresent_spec ops wfP
          ⟨v, (zddVariablesInRangeDontMatter ops
              (zddVariablesInRangeDontMatter ops st left (v+1) dealtWith).1
              right (v+1) dealtWith).2, NodeIndex.FALSE ops⟩
          (goodIdx_mono extP hgB)
          (by show (0:Nat) < _ + 2; omega)
          (by
            rw [LvlGt_congr extP hgB]
            exact hlvB v (by omega))
          (LvlGt_sink (by simp [NodeIndex.FALSE]))
      obtain ⟨ext3, wf3, hg3⟩ := ih v _ _ _ out h wfQ
        (goodIdx_mono extQ hgP) hgQ
        (fun w hw =>
          LvlGt_of_node (nodeAt_extends extQ hndP)
            (by rw [hvP]; exact hw))
        (fun w hw =>
          LvlGt_of_node hndQ (by rw [hvQ]; exact hw))
        (fun w hw => (List.pairwise_cons.mp hpw).1 w hw)
        (List.pairwise_cons.mp hpw).2
      exact ⟨StoreExtends.trans extA (StoreExtends.trans extB
        (StoreExtends.trans extP (StoreExtends.trans extQ ext3))), wf3, hg3⟩

theorem exactlyOneOfZdd_wf [DecidableEq M] (ops : MultOps M)
    {st : Store M} (wf : StoreWF st) {vars : List Nat} {total : Nat}
    (hsort : List.Pairwise (fun a b => a < b) vars)
    (hbound : ∀ v ∈ vars, v < total) {out : Store M × NodeIndex M}
    (h : exactlyOneOfZdd ops st vars total = some out) :
    StoreExtends st out.1 ∧ StoreWF out.1 ∧ goodIdx out.1 out.2 := by
  cases vars with
  | nil =>
    simp only [exactlyOneOfZdd] at h
    cases Option.some_injective _ h
    exact ⟨StoreExtends.refl st, wf, by show (0:Nat) < st.length + 2; omega⟩
  | cons v0 vrest =>
    simp only [exactlyOneOfZdd] at h
    exact exactlyOneOfZddAux_wf ops v0 ((v0 :: vrest).reverse) total st _ _
      out h wf
      (by show (0:Nat) < st.length + 2; omega)
      (by show (1:Nat) < st.length + 2; omega)
      (fun v hv => LvlGt_sink (by simp [NodeIndex.FALSE]))
      (fun v hv => LvlGt_sink (by simp [NodeIndex.TRUE]))
      (fun v hv => hbound v (List.mem_reverse.mp hv))
      (List.pairwise_reverse.mpr hsort)

theorem ExactCacheOK_nil (st : Store M) (vars0 : List Nat) :
    ExactCacheOK st vars0 ([] : Cache (Nat × Nat) (NodeIndex M)) := by
  intro p hp
  simp at hp

theorem ExactCacheOK_extends {st st' : Store M} (hext : StoreExtends st st')
    {vars0 : List Nat} {cache : Cache (Nat × Nat) (NodeIndex M)}
    (hc : ExactCacheOK st vars0 cache) : ExactCacheOK st' vars0 cache := by
  intro p hp
  obtain ⟨hlen, hg, hlv⟩ := hc p hp
  refine ⟨hlen, goodIdx_mono hext hg, ?_⟩
  intro v hv
  rw [LvlGt_congr hext hg]
  exact hlv v hv

theorem suffix_drop_self {l1 l2 : List Nat} (h : l1 <:+ l2) :
    l2.drop (l2.length - l1.length) = l1 :=
  (List.suffix_iff_eq_drop.mp h).symm

theorem exactlyNOfBdd_wf [DecidableEq M] (ops : MultOps M) (vars0 : List Nat)
    (hsort : List.Pairwise (fun a b => a < b) vars0) :
    ∀ (vars : List Nat), vars <:+ vars0 →
      ∀ (n : Nat) (st : Store M) (cache : Cache (Nat × Nat) (NodeIndex M)),
      StoreWF st → ExactCacheOK st vars0 cache →
      StoreExtends st (exactlyNOfBdd ops n vars st cache).1 ∧
      StoreWF (exactlyNOfBdd ops n vars st cache).1 ∧
      ExactCacheOK (exactlyNOfBdd ops n vars st cache).1 vars0
        (exactlyNOfBdd ops n vars st cache).2.1 ∧
      goodIdx (exactlyNOfBdd ops n vars st cache).1
        (exactlyNOfBdd ops n vars st cache).2.2 ∧
      (∀ u, (∀ w ∈ vars, u < w) →
        LvlGt (exactlyNOfBdd ops n vars st cache).1
          (exactlyNOfBdd ops n vars st cache).2.2.address u) := by
  intro vars
  induction vars with
  | nil =>
    intro hsuf n st cache wf hc
    by_cases hn : n > ([] : List Nat).length
    · have he : exactlyNOfBdd ops n [] st cache =
          (st, cache, NodeIndex.FALSE ops) := by
        rw [exactlyNOfBdd, if_pos hn]
      rw [he]
      refine ⟨StoreExtends.refl st, wf, hc, ?_, ?_⟩
      · show (0:Nat) < st.length + 2
        omega
      · intro u _
        exact LvlGt_sink (by simp [NodeIndex.FALSE])
    · have he : exactlyNOfBdd ops n [] st cache =
          (st, cache, NodeIndex.TRUE ops) := by
        rw [exactlyNOfBdd, if_neg hn]
      rw [he]
      refine ⟨StoreExtends.refl st, wf, hc, ?_, ?_⟩
      · show (1:Nat) < st.length + 2
        omega
      · intro u _
        exact LvlGt_sink (by simp [NodeIndex.TRUE])
  | cons v rest ih =>
    intro hsuf n st cache wf hc
    have hsufrest : rest <:+ vars0 := (List.suffix_cons v rest).trans hsuf
    have hsortv : List.Pairwise (fun a b => a < b) (v :: rest) :=
      hsort.sublist hsuf.sublist
    by_cases hgt : n > (v :: rest).length
    · have he : exactlyNOfBdd ops n (v :: rest) st cache =
          (st, cache, NodeIndex.FALSE ops) := by
        rw [exactlyNOfBdd, if_pos hgt]
      rw [he]
      refine ⟨StoreExtends.refl st, wf, hc, ?_, ?_⟩
      · show (0:Nat) < st.length + 2
        omega
      · intro u _
        exact LvlGt_sink (by simp [NodeIndex.FALSE])
    · cases hcf : cacheFind cache (n, (v :: rest).length) with
      | some existing =>
        have he : exactlyNOfBdd ops n (v :: rest) st cache =
            (st, cache, existing) := by
          rw [exactlyNOfBdd, if_neg hgt]
          simp only [hcf]
        rw [he]
        obtain ⟨hlenE, hgE, hlvE⟩ := hc _ (cacheFind_mem hcf)
        refine ⟨StoreExtends.refl st, wf, hc, hgE, ?_⟩
        intro u hu
        apply hlvE
        intro w hw
        rw [suffix_drop_self hsuf] at hw
        exact hu w hw
      | none =>
        rw [exactlyNOfBdd, if_neg hgt]
        simp only [hcf]
        rcases heq1 : (if n > 0 then exactlyNOfBdd ops (n-1) rest st cache
            else (st, cache, NodeIndex.FALSE ops)) with ⟨s1, c1, e1⟩
        simp only []
        have hR1 : StoreExtends st s1 ∧ StoreWF s1 ∧ ExactCacheOK s1 vars0 c1 ∧
            goodIdx s1 e1 ∧
            (∀ u, (∀ w ∈ rest, u < w) → LvlGt s1 e1.address u) := by
          by_cases hn0 : n > 0
          · rw [if_pos hn0] at heq1
            have hfacts := ih hsufrest (n-1) st cache wf hc
            rw [heq1] at hfacts
            exact hfacts
          · rw [if_neg hn0] at heq1
            injection heq1 with h1 h2
            injection h2 with h2a h2b
            subst h1
            subst h2a
            subst h2b
            refine ⟨StoreExtends.refl st, wf, hc, ?_, ?_⟩
            · show (0:Nat) < st.length + 2
              omega
            · intro u _
              exact LvlGt_sink (by simp [NodeIndex.FALSE])
        obtain ⟨ext1, wf1, hc1, hge1, hlve1⟩ := hR1
        rcases heq2 : exactlyNOfBdd ops n rest s1 c1 with ⟨s2, c2, e2⟩
        simp only []
        have hR2 := ih hsufrest n s1 c1 wf1 hc1
        rw [heq2] at hR2
        obtain ⟨ext2x, wf2x, hc2x, hge2x, hlve2x⟩ := hR2
        have ext2 : StoreExtends s1 s2 := ext2x
        have wf2 : StoreWF s2 := wf2x
        have hc2 : ExactCacheOK s2 vars0 c2 := hc2x
        have hge2 : goodIdx s2 e2 := hge2x
        have hlve2 : ∀ u, (∀ w ∈ rest, u < w) → LvlGt s2 e2.address u := hlve2x
        have hge1' : goodIdx s2 e1 := goodIdx_mono ext2 hge1
        have hlve1' : ∀ u, (∀ w ∈ rest, u < w) → LvlGt s2 e1.address u := by
          intro u hu
          rw [LvlGt_congr ext2 hge1]
          exact hlve1 u hu
        have hheadlt : ∀ w ∈ rest, v < w := (List.pairwise_cons.mp hsortv).1
        have hlen_le : (v :: rest).length ≤ vars0.length :=
          hsuf.sublist.length_le
        by_cases hme : e2 = e1
        · rw [if_pos hme]
          refine ⟨StoreExtends.trans ext1 ext2, wf2, ?_, hge2, ?_⟩
          · intro p hp
            rcases List.mem_cons.mp hp with hpk | hpold
            · subst hpk
              refine ⟨hlen_le, hge2, ?_⟩
              intro u hu
              rw [suffix_drop_self hsuf] at hu
              exact hlve2 u (fun w hw => hu w (List.mem_cons_of_mem v hw))
            · exact hc2 p hpold
          · intro u hu
            exact hlve2 u (fun w hw => hu w (List.mem_cons_of_mem v hw))
        · rw [if_neg hme]
          obtain ⟨extP, wfP, hlenP, hgP, ⟨ndP, hndP, hvP, hlP, hhP⟩, hvbP⟩ :=
            addNodeIfNotPresent_spec ops wf2 ⟨v, e2, e1⟩ hge2 hge1'
              (hlve2 v hheadlt) (hlve1' v hheadlt)
          refine ⟨StoreExtends.trans ext1 (StoreExtends.trans ext2 extP),
            wfP, ?_, hgP, ?_⟩
          · intro p hp
            rcases List.mem_cons.mp hp with hpk | hpold
            · subst hpk
              refine ⟨hlen_le, hgP, ?_⟩
              intro u hu
              rw [suffix_drop_self hsuf] at hu
              refine LvlGt_of_node hndP ?_
              rw [hvP]
              show u < v
              exact hu v (by simp)
            · exact ExactCacheOK_extends extP hc2 p hpold
          · intro u hu
            refine LvlGt_of_node hndP ?_
            rw [hvP]
            show u < v
            exact hu v (by simp)

/-- C5: every public factory operation preserves the structural store
invariant (spec I1): starting from a well-formed store — with the factory's
memo tables structurally sound, the argument edges valid, and the variable
lists of `exactly_one_of` sorted as documented (for the ZDD version, below
the variable count) — the store after `and` (`mul_bdd`/`mul_zdd`), `or`
(`sum_bdd`/`sum_zdd`), `not` (`not_bdd`/`not_zdd` from level 0),
`single_variable`, `single_variable_zdd`, `exactly_one_of`
(BDD and ZDD), `exactly_n_of` (fresh memo table, as the factory passes) and
`gc` again satisfies `StoreWF`: every stored node's children have strictly
smaller addresses and strictly larger variable indices. -/
theorem claim5_invariants [DecidableEq M] (ops : MultOps M) {st : Store M}
    (wf : StoreWF st) :
    (∀ fuel cache (f g : NodeIndex M) out, MulCacheOK st cache →
      goodIdx st f → goodIdx st g →
      mulBdd ops fuel st cache f g = some out → StoreWF out.1) ∧
    (∀ fuel cache (f g : NodeIndex M) out, WfCacheOK st cache →
      goodIdx st f → goodIdx st g →
      sumBdd ops fuel st cache f g = some out → StoreWF out.1) ∧
    (∀ fuel cache (f : NodeIndex M) out, NotCacheOK st cache →
      goodIdx st f → notBdd ops fuel st cache f = some out →
      StoreWF out.1) ∧
    (∀ v, StoreWF (singleVariable ops st v).1) ∧
    (∀ vars (out : Store M × NodeIndex M),
      List.Pairwise (fun a b => a < b) vars →
      exactlyOneOfBdd ops st vars = some out → StoreWF out.1) ∧
    (∀ n vars, List.Pairwise (fun a b => a < b) vars →
      StoreWF (exactlyNOfBdd ops n vars st
        ([] : Cache (Nat × Nat) (NodeIndex M))).1) ∧
    (∀ keep stF mapF, (∀ e ∈ keep, goodIdx st e) →
      gc st keep = some (stF, mapF) → StoreWF stF) ∧
    (∀ fuel cache (f g : NodeIndex M) out, WfCacheOK st cache →
      goodIdx st f → goodIdx st g →
      mulZdd ops fuel st cache f g = some out → StoreWF out.1) ∧
    (∀ fuel cache (f g : NodeIndex M) out, WfCacheOK st cache →
      goodIdx st f → goodIdx st g →
      sumZdd ops fuel st cache f g = some out → StoreWF out.1) ∧
    (∀ fuel cache (f : NodeIndex M) total out, NotZddCacheOK st cache →
      goodIdx st f → notZdd ops fuel st cache f 0 total = some out →
      StoreWF out.1) ∧
    (∀ v total, StoreWF (singleVariableZdd ops st v total).1) ∧
    (∀ vars total (out : Store M × NodeIndex M),
      List.Pairwise (fun a b => a < b) vars → (∀ v ∈ vars, v < total) →
      exactlyOneOfZdd ops st vars total = some out → StoreWF out.1) := by
  refine ⟨?_, ?_, ?_, ?_, ?_, ?_, ?_, ?_, ?_, ?_, ?_, ?_⟩
  · intro fuel cache f g out hcache hgf hgg h
    exact (mulBdd_spec ops fuel st cache f g out h wf hcache hgf hgg).2.1
  · intro fuel cache f g out hcache hgf hgg h
    exact (sumBdd_wf ops fuel st cache f g out h wf hcache hgf hgg).2.1
  · intro fuel cache f out hcache hgf h
    exact (notBdd_spec ops fuel st cache f out h wf hcache hgf).2.1
  · intro v
    exact (singleVariable_wf ops wf v).2.1
  · intro vars out hs h
    exact (exactlyOneOfBdd_wf ops wf hs h).2.1
  · intro n vars hs
    exact (exactlyNOfBdd_wf ops vars hs vars (List.suffix_refl vars) n st []
      wf (ExactCacheOK_nil st vars)).2.1
  · intro keep stF mapF hkeep hgc
    exact (gc_spec wf hgc hkeep).2.2.1
  · intro fuel cache f g out hcache hgf hgg h
    exact (mulZdd_wf ops fuel st cache f g out h wf hcache hgf hgg).2.1
  · intro fuel cache f g out hcache hgf hgg h
    exact (sumZdd_wf ops fuel st cache f g out h wf hcache hgf hgg).2.1
  · intro fuel cache f total out hcache hgf h
    exact (notZdd_wf ops total fuel st cache f 0 out h wf hcache hgf
      (fun v hv => absurd hv (by omega))).2.1
  · intro v total
    exact (singleVariableZdd_wf ops wf v total).2.1
  · intro vars total out hs hb h
    exact (exactlyOneOfZdd_wf ops wf hs hb h).2.1

/-- C5 witness: in the empty factory, `single_variable 0`,
`single_variable_zdd 0`, `exactly_n_of(1, [0,1])`, `exactly_one_of([0,1])`
and `gc []` all leave a store satisfying the structural invariant. -/
theorem claim5_witness :
    StoreWF (singleVariable noMultOps ([] : Store Unit) 0).1 ∧
    StoreWF (singleVariableZdd noMultOps ([] : Store Unit) 0 2).1 ∧
    StoreWF (exactlyNOfBdd noMultOps 1 [0, 1] ([] : Store Unit) []).1 ∧
    StoreWF ([⟨1, ⟨0, ()⟩, ⟨1, ()⟩⟩, ⟨1, ⟨1, ()⟩, ⟨0, ()⟩⟩,
      ⟨0, ⟨2, ()⟩, ⟨3, ()⟩⟩] : Store Unit) ∧
    StoreWF ([] : Store Unit) := by
  have h := @claim5_invariants Unit _ noMultOps [] (by decide)
  refine ⟨h.2.2.2.1 0, h.2.2.2.2.2.2.2.2.2.2.1 0 2,
    h.2.2.2.2.2.1 1 [0, 1] (by decide), ?_, ?_⟩
  · exact h.2.2.2.2.1 [0, 1]
      ([⟨1, ⟨0, ()⟩, ⟨1, ()⟩⟩, ⟨1, ⟨1, ()⟩, ⟨0, ()⟩⟩,
        ⟨0, ⟨2, ()⟩, ⟨3, ()⟩⟩], ⟨4, ()⟩)
      (by decide) (by decide)
  · exact h.2.2.2.2.2.2.1 [] [] [0, 1] (by decide) (by decide)

/- C7: the solution finder (find_all_solutions / get_ith_solution). -/
theorem bddSolsFrom_length (st : Store M) (V : Nat) (e : NodeIndex M) (u : Nat) :
    (bddSolsFrom st V e u).length = bddCountFrom st V e u := rfl

theorem bddCountFrom_le_pow (st : Store M) (V : Nat) (e : NodeIndex M) (u : Nat) :
    bddCountFrom st V e u ≤ 2 ^ (V - u) := by
  unfold bddCountFrom
  calc ((allVectors (V - u)).filter _).length
      ≤ (allVectors (V - u)).length := List.length_filter_le _ _
    _ = 2 ^ (V - u) := allVectors_length _

theorem natToBits_length : ∀ c q, (natToBits c q).length = c := by
  intro c
  induction c with
  | zero => intro q; rfl
  | succ c ih =>
    intro q
    show (natToBits c (q % 2 ^ c)).length + 1 = c + 1
    rw [ih]

theorem allVectors_getElem : ∀ c q, q < 2 ^ c →
    (allVectors c)[q]? = some (natToBits c q) := by
  intro c
  induction c with
  | zero =>
    intro q hq
    have h0 : q = 0 := by omega
    subst h0
    rfl
  | succ c ih =>
    intro q hq
    rw [allVectors_succ]
    by_cases hlt : q < 2 ^ c
    · rw [List.getElem?_append_left
        (by rw [List.length_map, allVectors_length]; exact hlt)]
      rw [List.getElem?_map, ih q hlt]
      have hd : decide (2 ^ c ≤ q) = false := by
        rw [decide_eq_false_iff_not]
        omega
      have hm : q % 2 ^ c = q := Nat.mod_eq_of_lt hlt
      show some (false :: natToBits c q) =
        some (decide (2 ^ c ≤ q) :: natToBits c (q % 2 ^ c))
      rw [hd, hm]
    · push_neg at hlt
      rw [List.getElem?_append_right
        (by rw [List.length_map, allVectors_length]; exact hlt)]
      rw [List.length_map, allVectors_length]
      have hpow : 2 ^ (c + 1) = 2 ^ c + 2 ^ c := by ring
      have hlt2 : q - 2 ^ c < 2 ^ c := by omega
      rw [List.getElem?_map, ih _ hlt2]
      have hd : decide (2 ^ c ≤ q) = true := by simp [hlt]
      have hm : q % 2 ^ c = q - 2 ^ c := by
        rw [Nat.mod_eq_sub_mod hlt, Nat.mod_eq_of_lt hlt2]
      show some (true :: natToBits c (q - 2 ^ c)) =
        some (decide (2 ^ c ≤ q) :: natToBits c (q % 2 ^ c))
      rw [hd, hm]

theorem trueVarsShift_append : ∀ (p : List Bool) (u : Nat) (z : List Bool),
    trueVarsShift u (p ++ z) =
      trueVarsShift u p ++ trueVarsShift (u + p.length) z := by
  intro p
  induction p with
  | nil =>
    intro u z
    show trueVarsShift u z = [] ++ trueVarsShift (u + 0) z
    rw [List.nil_append, Nat.add_zero]
  | cons b p ih =>
    intro u z
    have hlen : u + (b :: p).length = (u + 1) + p.length := by
      simp only [List.length_cons]
      omega
    cases b
    · show trueVarsShift (u + 1) (p ++ z) =
        trueVarsShift (u + 1) p ++ trueVarsShift (u + (false :: p).length) z
      rw [hlen]
      exact ih (u + 1) z
    · show u :: trueVarsShift (u + 1) (p ++ z) =
        (u :: trueVarsShift (u + 1) p) ++ trueVarsShift (u + (true :: p).length) z
      rw [hlen, List.cons_append, ih (u + 1) z]

theorem flatMap_map_aux {α β γ : Type} (g : α → β) (f : β → List γ) :
    ∀ l : List α, (l.map g).flatMap f = l.flatMap (fun a => f (g a)) := by
  intro l
  induction l with
  | nil => rfl
  | cons a t ih => simp only [List.map_cons, List.flatMap_cons, ih]

theorem flatMap_congr_aux {α β : Type} {f g : α → List β} :
    ∀ l : List α, (∀ a ∈ l, f a = g a) → l.flatMap f = l.flatMap g := by
  intro l
  induction l with
  | nil => intro _; rfl
  | cons a t ih =>
    intro h
    simp only [List.flatMap_cons]
    rw [h a (List.mem_cons_self a t), ih (fun x hx => h x (List.mem_cons_of_mem a hx))]

theorem allVectors_flatMap : ∀ c m, allVectors (c + m) =
    (allVectors c).flatMap (fun p => (allVectors m).map (fun z => p ++ z)) := by
  intro c
  induction c with
  | zero =>
    intro m
    rw [Nat.zero_add]
    show allVectors m = ((allVectors m).map (fun z => [] ++ z)) ++ []
    simp
  | succ c ih =>
    intro m
    have hside : ∀ b : Bool,
        (allVectors c).flatMap
          (fun p => (allVectors m).map (fun z => (b :: p) ++ z)) =
        ((allVectors c).flatMap
          (fun p => (allVectors m).map (fun z => p ++ z))).map
            (fun y => b :: y) := by
      intro b
      rw [List.map_flatMap]
      apply flatMap_congr_aux
      intro p _
      rw [List.map_map]
      rfl
    have hc : c + 1 + m = (c + m) + 1 := by omega
    rw [hc, allVectors_succ, ih m, allVectors_succ, List.flatMap_append,
      flatMap_map_aux, flatMap_map_aux]
    rw [hside false, hside true]

theorem flatMap_getElem_const {α β : Type} {f : α → List β} {L : Nat} :
    ∀ (l : List α), (∀ a ∈ l, (f a).length = L) → ∀ q s, s < L →
      (l.flatMap f)[q * L + s]? = (l[q]?.bind fun a => (f a)[s]?) := by
  intro l
  induction l with
  | nil => intro _ q s _; simp
  | cons a t ih =>
    intro h q s hs
    have hla : (f a).length = L := h a (List.mem_cons_self a t)
    rw [List.flatMap_cons]
    cases q with
    | zero =>
      rw [Nat.zero_mul, Nat.zero_add, List.getElem?_append_left (by omega)]
      simp
    | succ q =>
      have hge : (f a).length ≤ (q + 1) * L + s := by
        rw [hla, Nat.succ_mul]
        omega
      rw [List.getElem?_append_right hge]
      have harith : (q + 1) * L + s - (f a).length = q * L + s := by
        rw [hla, Nat.succ_mul]
        omega
      rw [harith, ih (fun x hx => h x (List.mem_cons_of_mem a hx)) q s hs]
      simp

theorem bddSolsFrom_falseSink (st : Store M) (V u : Nat) (m : M) :
    bddSolsFrom st V ⟨0, m⟩ u = [] := by
  have h : (bddSolsFrom st V ⟨0, m⟩ u).length = 0 := bddCountFrom_falseSink st V u m
  exact List.length_eq_zero.mp h

theorem bddSolsFrom_trueSink_top (st : Store M) (V : Nat) (m : M) :
    bddSolsFrom st V ⟨1, m⟩ V = [[]] := by
  unfold bddSolsFrom
  have hrw : ∀ y ∈ allVectors (V - V),
      (evaluateBdd st (st.length + 2) ⟨1, m⟩ (List.replicate V false ++ y) ==
        some true) = (fun _ : List Bool => true) y := fun y _ => rfl
  rw [List.filter_congr hrw, List.filter_true, Nat.sub_self]
  rfl

theorem bddSolsFrom_flat {st : Store M} (wf : StoreWF st) {V : Nat}
    {e : NodeIndex M} {u L : Nat} (huL : u ≤ L) (hLV : L ≤ V)
    (hge : LvlGe st e.address L) :
    bddSolsFrom st V e u =
      (allVectors (L - u)).flatMap (fun p =>
        (bddSolsFrom st V e L).map (fun z => p ++ z)) := by
  unfold bddSolsFrom
  have hVu : V - u = (L - u) + (V - L) := by omega
  rw [hVu, allVectors_flatMap, List.filter_flatMap]
  apply flatMap_congr_aux
  intro p hp
  have hplen : p.length = L - u := (allVectors_mem _ p).mp hp
  rw [List.filter_map]
  congr 1
  apply List.filter_congr
  intro z hz
  have hagree : ∀ i, L ≤ i →
      (List.replicate u false ++ (p ++ z))[i]? =
      (List.replicate L false ++ z)[i]? := by
    intro i hi
    rw [pad_getElem_ge (by omega) (p ++ z), pad_getElem_ge hi z,
      List.getElem?_append_right (by omega)]
    have harith : i - u - p.length = i - L := by omega
    rw [harith]
  show (evaluateBdd st (st.length + 2) e (List.replicate u false ++ (p ++ z)) ==
      some true) =
    (evaluateBdd st (st.length + 2) e (List.replicate L false ++ z) == some true)
  rw [evaluateBdd_agree wf (st.length + 2) e _ _ hagree hge]

theorem bddSolsFrom_node {st : Store M} (wf : StoreWF st) {V : Nat}
    (vb : VarsBelow V st) (e : NodeIndex M) {nd : Node M}
    (hnd : nodeAt st e.address = some nd) :
    bddSolsFrom st V e nd.var =
      (bddSolsFrom st V nd.lo (nd.var + 1)).map (fun z => false :: z) ++
      (bddSolsFrom st V nd.hi (nd.var + 1)).map (fun z => true :: z) := by
  have hv : nd.var < V := varsBelow_nodeAt vb hnd
  have hch := storeWF_children wf hnd
  have hlo := hch.1
  have hhi := hch.2.1
  have hs : e.isSink = false := not_isSink_of_nodeAt hnd
  have hea : e.address < st.length + 2 := (nodeAt_some_range hnd).2
  have hglo : goodIdx st nd.lo := by unfold goodIdx; omega
  have hghi : goodIdx st nd.hi := by unfold goodIdx; omega
  have hF : st.length + 2 = st.length + 1 + 1 := rfl
  unfold bddSolsFrom
  have hVu : V - nd.var = (V - (nd.var + 1)) + 1 := by omega
  rw [hVu, allVectors_succ, List.filter_append, List.filter_map, List.filter_map]
  congr 1
  · congr 1
    apply List.filter_congr
    intro y hy
    have hylen : y.length = V - (nd.var + 1) := (allVectors_mem _ y).mp hy
    have hxlen : V ≤ (List.replicate (nd.var + 1) false ++ y).length := by
      simp only [List.length_append, List.length_replicate, hylen]
      omega
    show (evaluateBdd st (st.length + 2) e
        (List.replicate nd.var false ++ false :: y) == some true) =
      (evaluateBdd st (st.length + 2) nd.lo
        (List.replicate (nd.var + 1) false ++ y) == some true)
    rw [pad_cons, hF, evaluateBdd_succ, if_neg (by simp [hs]), hnd]
    simp only [Option.some_bind]
    rw [pad_getElem_lt (by omega) y]
    simp only [Option.some_bind]
    obtain ⟨b, hb⟩ := evaluateBdd_total wf vb hxlen st.length nd.lo (by omega) hglo
    show (evaluateBdd st (st.length + 1) nd.lo _ == some true) = _
    rw [hb, evaluateBdd_mono st (st.length + 1) (st.length + 1 + 1) nd.lo _ b
      (by omega) hb]
  · congr 1
    apply List.filter_congr
    intro y hy
    have hylen : y.length = V - (nd.var + 1) := (allVectors_mem _ y).mp hy
    have hxlen : V ≤ (List.replicate (nd.var + 1) false ++ y).length := by
      simp only [List.length_append, List.length_replicate, hylen]
      omega
    show (evaluateBdd st (st.length + 2) e
        (List.replicate nd.var false ++ true :: y) == some true) =
      (evaluateBdd st (st.length + 2) nd.hi
        (List.replicate (nd.var + 1) false ++ y) == some true)
    rw [hF, evaluateBdd_succ, if_neg (by simp [hs]), hnd]
    simp only [Option.some_bind]
    have hxv : (List.replicate nd.var false ++ true :: y)[nd.var]? = some true := by
      rw [pad_getElem_ge (le_refl nd.var)]
      simp
    rw [hxv]
    simp only [Option.some_bind]
    have hlge : LvlGe st nd.hi.address (nd.var + 1) := fun c hc => hch.2.2.2 c hc
    have hag := evaluateBdd_agree wf (st.length + 1) nd.hi
      (List.replicate nd.var false ++ true :: y)
      (List.replicate (nd.var + 1) false ++ y)
      (fun i hi => pad_shift hi true y) hlge
    obtain ⟨b, hb⟩ := evaluateBdd_total wf vb hxlen st.length nd.hi (by omega) hghi
    show (evaluateBdd st (st.length + 1) nd.hi _ == some true) = _
    rw [hag, hb, evaluateBdd_mono st (st.length + 1) (st.length + 1 + 1) nd.hi _ b
      (by omega) hb]

theorem ithIndetLoop_spec {k base : Nat} (hbase : 0 < base) :
    ∀ c q s i bypassed res, s < base → q < 2 ^ c →
      bypassed + (q * base + s) = k → k + 2 ^ c * base < u64 →
      ithIndetLoop k base c i bypassed res =
        (bypassed + q * base, res ++ trueVarsShift i (natToBits c q)) := by
  intro c
  induction c with
  | zero =>
    intro q s i bypassed res hs hq hsum _
    have hq0 : q = 0 := by omega
    subst hq0
    show (bypassed, res) = (bypassed + 0 * base, res ++ trueVarsShift i [])
    rw [Nat.zero_mul, Nat.add_zero]
    show (bypassed, res) = (bypassed, res ++ [])
    rw [List.append_nil]
  | succ c ih =>
    intro q s i bypassed res hs hq hsum hbnd
    have hpow : 2 ^ (c + 1) = 2 ^ c + 2 ^ c := by ring
    have hcc : 2 ^ c * base ≤ 2 ^ (c + 1) * base := by
      apply Nat.mul_le_mul_right
      omega
    have hbu : base < u64 := by
      have h1 : base ≤ 2 ^ (c + 1) * base :=
        Nat.le_mul_of_pos_left base (by positivity)
      omega
    have hd : doubleMod base c = 2 ^ c * base := by
      conv_lhs => rw [← Nat.mod_eq_of_lt hbu]
      rw [doubleMod_spec]
      exact Nat.mod_eq_of_lt (by omega)
    have hby : bypassed ≤ k := by omega
    simp only [ithIndetLoop]
    rw [hd]
    have hmod : (bypassed + 2 ^ c * base) % u64 = bypassed + 2 ^ c * base :=
      Nat.mod_eq_of_lt (by omega)
    rw [hmod]
    by_cases hbit : 2 ^ c ≤ q
    · obtain ⟨q', rfl⟩ : ∃ q', q = q' + 2 ^ c := ⟨q - 2 ^ c, by omega⟩
      have hmul : (q' + 2 ^ c) * base = q' * base + 2 ^ c * base := by ring
      have hcond : bypassed + 2 ^ c * base ≤ k := by
        rw [hmul] at hsum
        omega
      rw [if_pos hcond]
      have hq' : q' < 2 ^ c := by omega
      have hsum' : (bypassed + 2 ^ c * base) + (q' * base + s) = k := by
        rw [hmul] at hsum
        omega
      rw [ih q' s (i + 1) (bypassed + 2 ^ c * base) (res ++ [i]) hs hq' hsum'
        (by omega)]
      have hbits : natToBits (c + 1) (q' + 2 ^ c) = true :: natToBits c q' := by
        show (decide (2 ^ c ≤ q' + 2 ^ c)) ::
          natToBits c ((q' + 2 ^ c) % 2 ^ c) = true :: natToBits c q'
        have h1 : decide (2 ^ c ≤ q' + 2 ^ c) = true := by simp
        have h2 : (q' + 2 ^ c) % 2 ^ c = q' := by
          rw [Nat.add_mod_right, Nat.mod_eq_of_lt hq']
        rw [h1, h2]
      have hfst : bypassed + 2 ^ c * base + q' * base =
          bypassed + (q' + 2 ^ c) * base := by
        rw [hmul]
        omega
      have hsnd : (res ++ [i]) ++ trueVarsShift (i + 1) (natToBits c q') =
          res ++ trueVarsShift i (natToBits (c + 1) (q' + 2 ^ c)) := by
        rw [hbits]
        show (res ++ [i]) ++ trueVarsShift (i + 1) (natToBits c q') =
          res ++ (i :: trueVarsShift (i + 1) (natToBits c q'))
        rw [List.append_assoc]
        rfl
      rw [hfst, hsnd]
    · have hqb : q * base + s < 2 ^ c * base := by
        have h1 : q * base + base ≤ 2 ^ c * base := by
          have h2 := Nat.mul_le_mul_right base (show q + 1 ≤ 2 ^ c by omega)
          rw [Nat.add_mul, Nat.one_mul] at h2
          exact h2
        omega
      rw [if_neg (by omega)]
      rw [ih q s (i + 1) bypassed res hs (by omega) hsum (by omega)]
      have hbits : natToBits (c + 1) q = false :: natToBits c q := by
        show (decide (2 ^ c ≤ q)) :: natToBits c (q % 2 ^ c) =
          false :: natToBits c q
        have h1 : decide (2 ^ c ≤ q) = false := by
          rw [decide_eq_false_iff_not]
          exact hbit
        rw [h1, Nat.mod_eq_of_lt (by omega)]
      rw [hbits]
      rfl

theorem nSSFV_unit {st : Store Unit} {V : Nat} (wf : StoreWF st)
    (vb : VarsBelow V st) (hV : V < 64) {work : List Nat} {e : NodeIndex Unit}
    (hwe : work[e.address]? =
      some (bddCountFrom st V e (levelOf st V e.address) % u64))
    (hg : goodIdx st e) {uv : Nat} (huv : uv ≤ levelOf st V e.address) :
    numberSolutionsStartingFromVariable noMultOps unitGfMul true st V work e uv =
      some (bddCountFrom st V e uv) := by
  unfold numberSolutionsStartingFromVariable
  rw [hwe]
  simp only [Option.bind_eq_bind, Option.some_bind, if_true]
  rw [levelOf_branch hg]
  simp only [Option.map_some', Option.bind_eq_bind, Option.some_bind, unitGfMul]
  unfold dealRangeU64
  rw [doubleMod_spec]
  have hlev : levelOf st V e.address ≤ V := levelOf_le vb e.address
  have h2 : uv + (levelOf st V e.address - uv) = levelOf st V e.address := by omega
  have hbr := bddCountFrom_bridge wf V e (levelOf st V e.address - uv) uv
    (by omega) (by rw [h2]; exact LvlGe_levelOf st V e.address)
  rw [h2] at hbr
  rw [← hbr]
  have hle := bddCountFrom_le_pow st V e uv
  have hp : (2 : Nat) ^ (V - uv) < 2 ^ 64 :=
    Nat.pow_lt_pow_right (by omega) (by omega)
  have hcnt : bddCountFrom st V e uv < u64 := by
    unfold u64
    omega
  rw [Nat.mod_eq_of_lt hcnt]

theorem getIthLoop_spec {st : Store Unit} {V : Nat} (wf : StoreWF st)
    (vb : VarsBelow V st) (hV : V < 64) {work : List Nat} {k : Nat}
    (hkV : k < 2 ^ V)
    (hwork : ∀ a, a < work.length →
      work[a]? = some (bddCountFrom st V ⟨a, ()⟩ (levelOf st V a) % u64)) :
    ∀ fuel (current : NodeIndex Unit) (res : List Nat) (bypassed upTo : Nat),
      current.address < fuel →
      current.address < work.length →
      goodIdx st current →
      (∀ v, v < upTo → LvlGt st current.address v) →
      upTo ≤ V →
      bypassed ≤ k →
      k - bypassed < bddCountFrom st V current upTo →
      ∃ y, (bddSolsFrom st V current upTo)[k - bypassed]? = some y ∧
        getIthLoop noMultOps unitGfMul true st V work k fuel current res
          bypassed () upTo = some (res ++ trueVarsShift upTo y) := by
  intro fuel
  induction fuel with
  | zero =>
    intro current res bypassed upTo hfuel _ _ _ _ _ _
    exact absurd hfuel (Nat.not_lt_zero _)
  | succ f ih =>
    intro current res bypassed upTo hfuel hwl hg hup huV hbk hcnt
    have hgoodlt : current.address < st.length + 2 := hg
    have hlevV : levelOf st V current.address ≤ V := levelOf_le vb current.address
    have hge : LvlGe st current.address (levelOf st V current.address) :=
      LvlGe_levelOf st V current.address
    have hul : upTo ≤ levelOf st V current.address := by
      by_cases h0 : upTo = 0
      · omega
      · by_cases h2 : current.address < 2
        · rw [levelOf_sink h2]
          omega
        · obtain ⟨nd, hnd⟩ := nodeAt_of_lt (by omega) hgoodlt
          rw [levelOf_node hnd]
          have := hup (upTo - 1) (by omega) nd hnd
          omega
    have hbridge := bddCountFrom_bridge wf V current
      (levelOf st V current.address - upTo) upTo (by omega)
      (by rw [show upTo + (levelOf st V current.address - upTo) =
            levelOf st V current.address from by omega]
          exact hge)
    rw [show upTo + (levelOf st V current.address - upTo) =
      levelOf st V current.address from by omega] at hbridge
    have hbasePos : 0 < bddCountFrom st V current (levelOf st V current.address) := by
      by_contra hb
      push_neg at hb
      have hb0 : bddCountFrom st V current (levelOf st V current.address) = 0 := by
        omega
      rw [hb0, Nat.mul_zero] at hbridge
      omega
    have hcntU := bddCountFrom_le_pow st V current upTo
    have hpVu : (2 : Nat) ^ (V - upTo) ≤ 2 ^ V :=
      Nat.pow_le_pow_right (by omega) (by omega)
    have hu64 : 2 ^ V + 2 ^ V ≤ u64 := by
      have h1 : (2 : Nat) ^ (V + 1) ≤ 2 ^ 64 :=
        Nat.pow_le_pow_right (by omega) (by omega)
      have h2 : (2 : Nat) ^ (V + 1) = 2 ^ V + 2 ^ V := by ring
      unfold u64
      omega
    have hbnd : k + 2 ^ (levelOf st V current.address - upTo) *
        bddCountFrom st V current (levelOf st V current.address) < u64 := by
      omega
    have hble : bddCountFrom st V current (levelOf st V current.address) ≤
        2 ^ (levelOf st V current.address - upTo) *
          bddCountFrom st V current (levelOf st V current.address) :=
      Nat.le_mul_of_pos_left _ (by positivity)
    have hbaseU : bddCountFrom st V current (levelOf st V current.address) < u64 := by
      omega
    obtain ⟨q, s, hs, hr⟩ : ∃ q s,
        s < bddCountFrom st V current (levelOf st V current.address) ∧
        k - bypassed =
          q * bddCountFrom st V current (levelOf st V current.address) + s := by
      refine ⟨(k - bypassed) /
          bddCountFrom st V current (levelOf st V current.address),
        (k - bypassed) % bddCountFrom st V current (levelOf st V current.address),
        Nat.mod_lt _ hbasePos, ?_⟩
      rw [Nat.mul_comm]
      exact (Nat.div_add_mod _ _).symm
    have hq : q < 2 ^ (levelOf st V current.address - upTo) := by
      by_contra hqc
      push_neg at hqc
      have h1 := Nat.mul_le_mul_right
        (bddCountFrom st V current (levelOf st V current.address)) hqc
      omega
    have hsum : bypassed + (q * bddCountFrom st V current
        (levelOf st V current.address) + s) = k := by omega
    have hIL := ithIndetLoop_spec hbasePos (levelOf st V current.address - upTo)
      q s upTo bypassed res hs hq hsum hbnd
    have hlens : ∀ p ∈ allVectors (levelOf st V current.address - upTo),
        ((bddSolsFrom st V current (levelOf st V current.address)).map
          (fun z => p ++ z)).length =
        bddCountFrom st V current (levelOf st V current.address) := by
      intro p _
      rw [List.length_map, bddSolsFrom_length]
    have hflat := bddSolsFrom_flat wf hul hlevV hge
    have hidx : (bddSolsFrom st V current upTo)[k - bypassed]? =
        ((bddSolsFrom st V current (levelOf st V current.address))[s]?).map
          (fun z => natToBits (levelOf st V current.address - upTo) q ++ z) := by
      rw [hflat, hr, flatMap_getElem_const _ hlens q s hs,
        allVectors_getElem _ q hq]
      simp only [Option.some_bind, List.getElem?_map]
    by_cases hsink : current.isSink = true
    · have haddr : current.address < 2 := isSink_lt hsink
      by_cases h0 : current.address = 0
      · exfalso
        have hcur : current = (⟨0, ()⟩ : NodeIndex Unit) := by
          cases current with
          | mk a m =>
            cases m
            exact congrArg (fun x => (⟨x, ()⟩ : NodeIndex Unit)) h0
        rw [hcur, bddCountFrom_falseSink] at hbasePos
        omega
      · have h1 : current.address = 1 := by omega
        have hcur : current = (⟨1, ()⟩ : NodeIndex Unit) := by
          cases current with
          | mk a m =>
            cases m
            exact congrArg (fun x => (⟨x, ()⟩ : NodeIndex Unit)) h1
        have histrue : current.isTrue = true := by
          rw [hcur]
          rfl
        have hsols : bddSolsFrom st V current (levelOf st V current.address) =
            [[]] := by
          rw [levelOf_sink haddr, hcur]
          exact bddSolsFrom_trueSink_top st V ()
        have hbase1 : bddCountFrom st V current (levelOf st V current.address) = 1 := by
          rw [levelOf_sink haddr, hcur, bddCountFrom_trueSink, Nat.sub_self, pow_zero]
        have hs0 : s = 0 := by omega
        refine ⟨natToBits (levelOf st V current.address - upTo) q ++ [], ?_, ?_⟩
        · rw [hidx, hsols, hs0]
          rfl
        · simp only [getIthLoop]
          rw [hwork current.address hwl]
          simp only [Option.bind_eq_bind, Option.some_bind]
          rw [levelOf_branch hg]
          simp only [Option.bind_eq_bind, Option.some_bind, if_true, unitGfMul]
          rw [nodeIndex_unit_eta current, Nat.mod_eq_of_lt hbaseU, hIL]
          simp only []
          rw [Nat.mod_eq_of_lt (show bypassed +
            q * bddCountFrom st V current (levelOf st V current.address) +
            bddCountFrom st V current (levelOf st V current.address) < u64 from
            by omega)]
          rw [if_pos (And.intro (by omega) (by omega))]
          rw [if_pos hsink, if_pos histrue, List.append_nil]
    · have h2le : 2 ≤ current.address := not_isSink_ge (by simpa using hsink)
      obtain ⟨nd, hnd⟩ := nodeAt_of_lt h2le hgoodlt
      have hlv : levelOf st V current.address = nd.var := levelOf_node hnd
      have hv : nd.var < V := varsBelow_nodeAt vb hnd
      have hch := storeWF_children wf hnd
      have hsplit := bddSolsFrom_node wf vb current hnd
      have hcount := bddCountFrom_node wf vb current hnd
      have hwlo := hwork nd.lo.address (by omega)
      rw [nodeIndex_unit_eta] at hwlo
      have hglo : goodIdx st nd.lo := by
        show nd.lo.address < st.length + 2
        omega
      have hlevlo : nd.var + 1 ≤ levelOf st V nd.lo.address :=
        levelOf_ge_child hch.2.2.1 hv
      have hnum := nSSFV_unit wf vb hV hwlo hglo hlevlo
      rw [hlv] at hidx hIL hs hr hbaseU hq hbridge hul hbnd hble
      by_cases hdir : bypassed + q * bddCountFrom st V current nd.var +
          bddCountFrom st V nd.lo (nd.var + 1) ≤ k
      · have hsL : bddCountFrom st V nd.lo (nd.var + 1) ≤ s := by omega
        obtain ⟨z, hz, hlz⟩ := ih nd.hi
          ((res ++ trueVarsShift upTo (natToBits (nd.var - upTo) q)) ++ [nd.var])
          (bypassed + q * bddCountFrom st V current nd.var +
            bddCountFrom st V nd.lo (nd.var + 1))
          (nd.var + 1)
          (by omega)
          (by omega)
          (by show nd.hi.address < st.length + 2; omega)
          (fun v hv' => LvlGt_mono (by omega) hch.2.2.2)
          (by omega)
          hdir
          (by omega)
        refine ⟨natToBits (nd.var - upTo) q ++ (true :: z), ?_, ?_⟩
        · rw [hidx, hsplit]
          rw [List.getElem?_append_right (by
            rw [List.length_map, bddSolsFrom_length]
            omega)]
          rw [List.length_map, bddSolsFrom_length]
          rw [show s - bddCountFrom st V nd.lo (nd.var + 1) =
            k - (bypassed + q * bddCountFrom st V current nd.var +
              bddCountFrom st V nd.lo (nd.var + 1)) from by omega]
          rw [List.getElem?_map, hz]
          rfl
        · simp only [getIthLoop]
          rw [hwork current.address hwl]
          simp only [Option.bind_eq_bind, Option.some_bind]
          rw [levelOf_branch hg]
          simp only [Option.bind_eq_bind, Option.some_bind, if_true, unitGfMul]
          rw [nodeIndex_unit_eta current, hlv, Nat.mod_eq_of_lt hbaseU, hIL]
          simp only []
          rw [Nat.mod_eq_of_lt (show bypassed +
            q * bddCountFrom st V current nd.var +
            bddCountFrom st V current nd.var < u64 from by omega)]
          rw [if_pos (And.intro (by omega) (by omega))]
          rw [if_neg hsink, hnd]
          simp only [Option.some_bind]
          rw [hnum]
          simp only [Option.some_bind, unitGfMul]
          rw [Nat.mod_eq_of_lt (show bypassed +
            q * bddCountFrom st V current nd.var +
            bddCountFrom st V nd.lo (nd.var + 1) < u64 from by omega)]
          rw [if_pos hdir, hlz]
          rw [trueVarsShift_append, natToBits_length]
          rw [show upTo + (nd.var - upTo) = nd.var from by omega]
          show some (((res ++ trueVarsShift upTo (natToBits (nd.var - upTo) q)) ++
              [nd.var]) ++ trueVarsShift (nd.var + 1) z) =
            some (res ++ (trueVarsShift upTo (natToBits (nd.var - upTo) q) ++
              (nd.var :: trueVarsShift (nd.var + 1) z)))
          simp only [List.append_assoc, List.singleton_append]
      · have hsL : s < bddCountFrom st V nd.lo (nd.var + 1) := by omega
        obtain ⟨z, hz, hlz⟩ := ih nd.lo
          (res ++ trueVarsShift upTo (natToBits (nd.var - upTo) q))
          (bypassed + q * bddCountFrom st V current nd.var)
          (nd.var + 1)
          (by omega)
          (by omega)
          (by show nd.lo.address < st.length + 2; omega)
          (fun v hv' => LvlGt_mono (by omega) hch.2.2.1)
          (by omega)
          (by omega)
          (by omega)
        rw [show k - (bypassed + q * bddCountFrom st V current nd.var) = s from
          by omega] at hz
        refine ⟨natToBits (nd.var - upTo) q ++ (false :: z), ?_, ?_⟩
        · rw [hidx, hsplit]
          rw [List.getElem?_append_left (by
            rw [List.length_map, bddSolsFrom_length]
            omega)]
          rw [List.getElem?_map, hz]
          rfl
        · simp only [getIthLoop]
          rw [hwork current.address hwl]
          simp only [Option.bind_eq_bind, Option.some_bind]
          rw [levelOf_branch hg]
          simp only [Option.bind_eq_bind, Option.some_bind, if_true, unitGfMul]
          rw [nodeIndex_unit_eta current, hlv, Nat.mod_eq_of_lt hbaseU, hIL]
          simp only []
          rw [Nat.mod_eq_of_lt (show bypassed +
            q * bddCountFrom st V current nd.var +
            bddCountFrom st V current nd.var < u64 from by omega)]
          rw [if_pos (And.intro (by omega) (by omega))]
          rw [if_neg hsink, hnd]
          simp only [Option.some_bind]
          rw [hnum]
          simp only [Option.some_bind, unitGfMul]
          rw [Nat.mod_eq_of_lt (show bypassed +
            q * bddCountFrom st V current nd.var +
            bddCountFrom st V nd.lo (nd.var + 1) < u64 from by omega)]
          rw [if_neg hdir, hlz]
          rw [trueVarsShift_append, natToBits_length]
          rw [show upTo + (nd.var - upTo) = nd.var from by omega]
          show some ((res ++ trueVarsShift upTo (natToBits (nd.var - upTo) q)) ++
              trueVarsShift (nd.var + 1) z) =
            some (res ++ (trueVarsShift upTo (natToBits (nd.var - upTo) q) ++
              trueVarsShift (nd.var + 1) z))
          simp only [List.append_assoc]


theorem zddSolsFrom_length (st : Store M) (V : Nat) (e : NodeIndex M) (u : Nat) :
    (zddSolsFrom st V e u).length = zddCountFrom st V e u := rfl

theorem zddCountFrom_le_pow (st : Store M) (V : Nat) (e : NodeIndex M) (u : Nat) :
    zddCountFrom st V e u ≤ 2 ^ (V - u) := by
  unfold zddCountFrom
  calc ((allVectors (V - u)).filter _).length
      ≤ (allVectors (V - u)).length := List.length_filter_le _ _
    _ = 2 ^ (V - u) := allVectors_length _

theorem trueVarsShift_replicate : ∀ (m u : Nat),
    trueVarsShift u (List.replicate m false) = [] := by
  intro m
  induction m with
  | zero => intro u; rfl
  | succ m ih =>
    intro u
    show trueVarsShift (u + 1) (List.replicate m false) = []
    exact ih (u + 1)

theorem allVectors_filter_allFalse : ∀ n : Nat,
    (allVectors n).filter (fun y => allFalse y) = [List.replicate n false] := by
  intro n
  induction n with
  | zero => rfl
  | succ n ih =>
    rw [allVectors_succ, List.filter_append, List.filter_map, List.filter_map]
    simp only [Function.comp_def]
    have h1 : ∀ y ∈ allVectors n,
        (allFalse (false :: y) : Bool) = allFalse y := by
      intro y _
      simp [allFalse]
    have h2 : ∀ y ∈ allVectors n,
        (allFalse (true :: y) : Bool) = (fun _ : List Bool => false) y := by
      intro y _
      simp [allFalse]
    rw [List.filter_congr h1, List.filter_congr h2, ih]
    simp [List.replicate_succ]

theorem zddSolsFrom_falseSink (st : Store M) (V u : Nat) (m : M) :
    zddSolsFrom st V ⟨0, m⟩ u = [] := by
  have h : (zddSolsFrom st V ⟨0, m⟩ u).length = 0 :=
    zddCountFrom_falseSink st V u m
  exact List.length_eq_zero.mp h

theorem zddSolsFrom_trueSink (st : Store M) (V u : Nat) (m : M) :
    zddSolsFrom st V ⟨1, m⟩ u = [List.replicate (V - u) false] := by
  unfold zddSolsFrom
  have hrw : ∀ y ∈ allVectors (V - u),
      (evaluateZddLoop st (List.replicate u false ++ y) (st.length + 2)
        (⟨1, m⟩ : NodeIndex M) u == some true) = (fun y => allFalse y) y := by
    intro y _
    have hF : st.length + 2 = st.length + 1 + 1 := rfl
    have hss : (⟨1, m⟩ : NodeIndex M).isSink = true := rfl
    rw [hF, evaluateZddLoop_succ, if_pos hss]
    have hlen : (List.replicate u false ++ y).length = u + y.length := by simp
    have hadv := advanceFalse_allFalse y u
      ((List.replicate u false ++ y).length + 1) (by simp; omega)
    rw [← hlen] at hadv
    rw [hadv]
    simp [NodeIndex.isTrue]
  rw [List.filter_congr hrw]
  exact allVectors_filter_allFalse (V - u)

theorem zddSolsFrom_step {st : Store M} {V : Nat} (vb : VarsBelow V st)
    (e : NodeIndex M) {u : Nat} (hu : u < V) (hl : LvlGe st e.address (u+1)) :
    zddSolsFrom st V e u =
      (zddSolsFrom st V e (u+1)).map (fun z => false :: z) := by
  unfold zddSolsFrom
  have hVu : V - u = (V - (u+1)) + 1 := by omega
  rw [hVu, allVectors_succ, List.filter_append]
  have hY : ((allVectors (V - (u+1))).map (fun y => true :: y)).filter
      (fun y => evaluateZddLoop st (List.replicate u false ++ y) (st.length + 2)
        e u == some true) = [] := by
    have h : ∀ a ∈ (allVectors (V - (u+1))).map (fun y => true :: y),
        (evaluateZddLoop st (List.replicate u false ++ a) (st.length + 2)
          e u == some true) = (fun _ : List Bool => false) a := by
      intro a ha
      obtain ⟨y, hy, rfl⟩ := List.mem_map.mp ha
      have hylen : y.length = V - (u + 1) := (allVectors_mem _ y).mp hy
      have hxlen : (List.replicate u false ++ true :: y).length =
          u + (1 + y.length) := by
        simp
        omega
      have hxu : (List.replicate u false ++ true :: y)[u]? = some true := by
        rw [pad_getElem_ge (le_refl u)]
        simp
      have hF : st.length + 2 = st.length + 1 + 1 := rfl
      rw [hF, evaluateZddLoop_succ]
      by_cases hs : e.isSink
      · have hne : u ≠ (List.replicate u false ++ true :: y).length := by
          rw [hxlen]
          omega
        rw [if_pos hs, advanceFalse_hitTrue hne hxu]
        simp
      · rw [if_neg hs]
        cases hn : nodeAt st e.address with
        | none => rfl
        | some nd =>
          simp only [Option.bind_eq_bind, Option.some_bind]
          have hv : u + 1 ≤ nd.var := hl nd hn
          rw [advanceFalse_hitTrue (by omega) hxu]
          simp only [Option.bind_eq_bind, Option.some_bind]
          rw [if_neg Bool.false_ne_true]
          rfl
    rw [List.filter_congr h]
    simp
  rw [hY, List.append_nil, List.filter_map]
  congr 1
  apply List.filter_congr
  intro y hy
  have hylen : y.length = V - (u + 1) := (allVectors_mem _ y).mp hy
  have hxlen : (List.replicate (u+1) false ++ y).length = V := by
    simp
    omega
  have hxu : (List.replicate (u+1) false ++ y)[u]? = some false :=
    pad_getElem_lt (by omega) y
  have hF : st.length + 2 = st.length + 1 + 1 := rfl
  show (evaluateZddLoop st (List.replicate u false ++ false :: y)
      (st.length + 2) e u == some true) =
    (evaluateZddLoop st (List.replicate (u+1) false ++ y)
      (st.length + 2) e (u+1) == some true)
  rw [pad_cons, hF, evaluateZddLoop_shift vb hxlen hu hl hxu]

theorem zddSolsFrom_prefix {st : Store M} {V : Nat} (vb : VarsBelow V st)
    (e : NodeIndex M) :
    ∀ k u, u + k ≤ V → LvlGe st e.address (u + k) →
      zddSolsFrom st V e u =
        (zddSolsFrom st V e (u + k)).map
          (fun z => List.replicate k false ++ z) := by
  intro k
  induction k with
  | zero =>
    intro u _ _
    simp
  | succ k ih =>
    intro u hk hl
    have hadd : u + 1 + k = u + (k + 1) := by omega
    have h1 := zddSolsFrom_step vb e (show u < V by omega)
      (LvlGe_mono (by omega) hl)
    have h2 := ih (u + 1) (by omega) (by rw [hadd]; exact hl)
    rw [h1, h2, hadd, List.map_map]
    rfl

theorem LvlGe_of_node {st : Store M} {a : Nat} {nd : Node M}
    (hnd : nodeAt st a = some nd) : LvlGe st a nd.var := by
  intro nd' hnd'
  rw [hnd] at hnd'
  cases Option.some_injective _ hnd'
  exact le_refl _

theorem zddSolsFrom_node {st : Store M} (wf : StoreWF st) {V : Nat}
    (vb : VarsBelow V st) (e : NodeIndex M) {nd : Node M}
    (hnd : nodeAt st e.address = some nd) :
    zddSolsFrom st V e nd.var =
      (zddSolsFrom st V nd.lo (nd.var + 1)).map (fun z => false :: z) ++
      (zddSolsFrom st V nd.hi (nd.var + 1)).map (fun z => true :: z) := by
  have hv : nd.var < V := varsBelow_nodeAt vb hnd
  have hch := storeWF_children wf hnd
  have hlo := hch.1
  have hhi := hch.2.1
  have hs : e.isSink = false := not_isSink_of_nodeAt hnd
  have hea : e.address < st.length + 2 := (nodeAt_some_range hnd).2
  have hglo : goodIdx st nd.lo := by unfold goodIdx; omega
  have hghi : goodIdx st nd.hi := by unfold goodIdx; omega
  have hF : st.length + 2 = st.length + 1 + 1 := rfl
  unfold zddSolsFrom
  have hVu : V - nd.var = (V - (nd.var+1)) + 1 := by omega
  rw [hVu, allVectors_succ, List.filter_append, List.filter_map, List.filter_map]
  congr 1
  · congr 1
    apply List.filter_congr
    intro y hy
    have hylen : y.length = V - (nd.var + 1) := (allVectors_mem _ y).mp hy
    have hxlen : (List.replicate (nd.var+1) false ++ y).length = V := by
      simp
      omega
    show (evaluateZddLoop st (List.replicate nd.var false ++ false :: y)
        (st.length + 2) e nd.var == some true) = _
    rw [pad_cons, hF, evaluateZddLoop_succ, if_neg (by simp [hs]), hnd]
    simp only [Option.bind_eq_bind, Option.some_bind]
    rw [advanceFalse_refl]
    simp only [Option.bind_eq_bind, Option.some_bind, if_true]
    rw [pad_getElem_lt (by omega) y]
    simp only [Option.bind_eq_bind, Option.some_bind]
    obtain ⟨b, hb⟩ := evaluateZddLoop_total wf vb hxlen st.length nd.lo
      (nd.var + 1) (by omega) hglo (fun c hc => hch.2.2.1 c hc) (by omega)
    show (evaluateZddLoop st _ (st.length + 1)
        (if false = true then nd.hi else nd.lo) (nd.var + 1) == some true) = _
    rw [if_neg Bool.false_ne_true, hb,
      evaluateZddLoop_mono st _ (st.length+1) (st.length+1+1) nd.lo _ b
        (by omega) hb]
  · congr 1
    apply List.filter_congr
    intro y hy
    have hylen : y.length = V - (nd.var + 1) := (allVectors_mem _ y).mp hy
    have hxlen : (List.replicate (nd.var+1) false ++ y).length = V := by
      simp
      omega
    have hxlen2 : (List.replicate nd.var false ++ true :: y).length = V := by
      simp
      omega
    have hxv : (List.replicate nd.var false ++ true :: y)[nd.var]? = some true := by
      rw [pad_getElem_ge (le_refl nd.var)]
      simp
    show (evaluateZddLoop st (List.replicate nd.var false ++ true :: y)
        (st.length + 2) e nd.var == some true) = _
    rw [hF, evaluateZddLoop_succ, if_neg (by simp [hs]), hnd]
    simp only [Option.bind_eq_bind, Option.some_bind]
    rw [advanceFalse_refl]
    simp only [Option.bind_eq_bind, Option.some_bind, if_true]
    rw [hxv]
    simp only [Option.bind_eq_bind, Option.some_bind]
    have hag := evaluateZddLoop_agree st
      (show (List.replicate nd.var false ++ true :: y).length =
        (List.replicate (nd.var+1) false ++ y).length by rw [hxlen2, hxlen])
      (fun i hi => pad_shift hi true y) (st.length+1) nd.hi (nd.var+1)
      (le_refl (nd.var+1))
    obtain ⟨b, hb⟩ := evaluateZddLoop_total wf vb hxlen st.length nd.hi
      (nd.var + 1) (by omega) hghi (fun c hc => hch.2.2.2 c hc) (by omega)
    show (evaluateZddLoop st _ (st.length + 1)
        (if true = true then nd.hi else nd.lo) (nd.var + 1) == some true) = _
    rw [if_pos rfl, hag, hb,
      evaluateZddLoop_mono st _ (st.length+1) (st.length+1+1) nd.hi _ b
        (by omega) hb]

theorem nSSFV_unit_zdd {st : Store Unit} {V : Nat} (vb : VarsBelow V st)
    (hV : V < 64) {work : List Nat} {e : NodeIndex Unit}
    (hwe : work[e.address]? =
      some (zddCountFrom st V e (levelOf st V e.address) % u64))
    {w : Nat} (hw : w ≤ levelOf st V e.address) (uv : Nat) :
    numberSolutionsStartingFromVariable noMultOps unitGfMul false st V work e uv =
      some (zddCountFrom st V e w) := by
  unfold numberSolutionsStartingFromVariable
  rw [hwe]
  simp only [Option.bind_eq_bind, Option.some_bind, Bool.false_eq_true,
    if_false, unitGfMul]
  have hlev : levelOf st V e.address ≤ V := levelOf_le vb e.address
  have heq : w + (levelOf st V e.address - w) = levelOf st V e.address := by
    omega
  have htr := zddCountFrom_transfer vb e (levelOf st V e.address - w) w
    (by omega) (by rw [heq]; exact LvlGe_levelOf st V e.address)
  rw [heq] at htr
  rw [← htr]
  have hle := zddCountFrom_le_pow st V e w
  have hp : (2 : Nat) ^ (V - w) ≤ 2 ^ 64 :=
    Nat.pow_le_pow_right (by omega) (by omega)
  rw [Nat.mod_eq_of_lt (by
    have hq : (2 : Nat) ^ (V - w) < 2 ^ 64 :=
      Nat.pow_lt_pow_right (by omega) (by omega)
    unfold u64
    omega)]

theorem getIthLoopZdd_spec {st : Store Unit} {V : Nat} (wf : StoreWF st)
    (vb : VarsBelow V st) (hV : V < 64) {work : List Nat} {k : Nat}
    (hkV : k < 2 ^ V)
    (hwork : ∀ a, a < work.length →
      work[a]? = some (zddCountFrom st V ⟨a, ()⟩ (levelOf st V a) % u64)) :
    ∀ fuel (current : NodeIndex Unit) (res : List Nat) (bypassed u u0 : Nat),
      current.address < fuel →
      current.address < work.length →
      goodIdx st current →
      LvlGe st current.address u →
      u ≤ V →
      bypassed ≤ k →
      k - bypassed < zddCountFrom st V current u →
      ∃ y, (zddSolsFrom st V current u)[k - bypassed]? = some y ∧
        getIthLoop noMultOps unitGfMul false st V work k fuel current res
          bypassed () u0 = some (res ++ trueVarsShift u y) := by
  intro fuel
  induction fuel with
  | zero =>
    intro current res bypassed u u0 hfuel _ _ _ _ _ _
    exact absurd hfuel (Nat.not_lt_zero _)
  | succ f ih =>
    intro current res bypassed u u0 hfuel hwl hg hLu huV hbk hcnt
    have hgoodlt : current.address < st.length + 2 := hg
    have hlevV : levelOf st V current.address ≤ V := levelOf_le vb current.address
    have hge : LvlGe st current.address (levelOf st V current.address) :=
      LvlGe_levelOf st V current.address
    have hul : u ≤ levelOf st V current.address := by
      by_cases h2 : current.address < 2
      · rw [levelOf_sink h2]
        omega
      · obtain ⟨nd, hnd⟩ := nodeAt_of_lt (by omega) hgoodlt
        rw [levelOf_node hnd]
        exact hLu nd hnd
    have heq : u + (levelOf st V current.address - u) =
        levelOf st V current.address := by omega
    have htr := zddCountFrom_transfer vb current
      (levelOf st V current.address - u) u (by omega) (by rw [heq]; exact hge)
    rw [heq] at htr
    have hpre := zddSolsFrom_prefix vb current
      (levelOf st V current.address - u) u (by omega) (by rw [heq]; exact hge)
    rw [heq] at hpre
    have hcntU := zddCountFrom_le_pow st V current u
    have hpVu : (2 : Nat) ^ (V - u) ≤ 2 ^ V :=
      Nat.pow_le_pow_right (by omega) (by omega)
    have hu64 : 2 ^ V + 2 ^ V ≤ u64 := by
      have h1 : (2 : Nat) ^ (V + 1) ≤ 2 ^ 64 :=
        Nat.pow_le_pow_right (by omega) (by omega)
      have h2 : (2 : Nat) ^ (V + 1) = 2 ^ V + 2 ^ V := by ring
      unfold u64
      omega
    have hbaseU :
        zddCountFrom st V current (levelOf st V current.address) < u64 := by
      omega
    have hidx : (zddSolsFrom st V current u)[k - bypassed]? =
        ((zddSolsFrom st V current
            (levelOf st V current.address))[k - bypassed]?).map
          (fun z =>
            List.replicate (levelOf st V current.address - u) false ++ z) := by
      rw [hpre, List.getElem?_map]
    by_cases hsink : current.isSink = true
    · have haddr : current.address < 2 := isSink_lt hsink
      by_cases h0 : current.address = 0
      · exfalso
        have hcur : current = (⟨0, ()⟩ : NodeIndex Unit) := by
          cases current with
          | mk a m =>
            cases m
            exact congrArg (fun x => (⟨x, ()⟩ : NodeIndex Unit)) h0
        rw [hcur, zddCountFrom_falseSink] at hcnt
        omega
      · have h1 : current.address = 1 := by omega
        have hcur : current = (⟨1, ()⟩ : NodeIndex Unit) := by
          cases current with
          | mk a m =>
            cases m
            exact congrArg (fun x => (⟨x, ()⟩ : NodeIndex Unit)) h1
        have histrue : current.isTrue = true := by
          rw [hcur]
          rfl
        have hone : zddCountFrom st V current u = 1 := by
          rw [hcur, zddCountFrom_trueSink]
        have hzero : k - bypassed = 0 := by omega
        refine ⟨List.replicate (V - u) false, ?_, ?_⟩
        · have hsols : zddSolsFrom st V current u =
              [List.replicate (V - u) false] := by
            rw [hcur]
            exact zddSolsFrom_trueSink st V u ()
          rw [hzero, hsols]
          rfl
        · simp only [getIthLoop]
          rw [hwork current.address hwl]
          simp only [Option.bind_eq_bind, Option.some_bind]
          rw [levelOf_branch hg]
          simp only [Option.bind_eq_bind, Option.some_bind, Bool.false_eq_true,
            if_false, unitGfMul]
          rw [nodeIndex_unit_eta current, Nat.mod_eq_of_lt hbaseU]
          rw [if_pos (And.intro (by omega) (by
            rw [Nat.mod_eq_of_lt (by omega)]
            omega))]
          rw [if_pos hsink, if_pos histrue]
          show some res = some (res ++ trueVarsShift u (List.replicate (V - u) false))
          rw [trueVarsShift_replicate, List.append_nil]
    · have h2le : 2 ≤ current.address := not_isSink_ge (by simpa using hsink)
      obtain ⟨nd, hnd⟩ := nodeAt_of_lt h2le hgoodlt
      have hlv : levelOf st V current.address = nd.var := levelOf_node hnd
      have hv : nd.var < V := varsBelow_nodeAt vb hnd
      have hch := storeWF_children wf hnd
      have hsplit := zddSolsFrom_node wf vb current hnd
      have hcount := zddCountFrom_node wf vb current hnd
      have hwlo := hwork nd.lo.address (by omega)
      rw [nodeIndex_unit_eta] at hwlo
      have hglo : goodIdx st nd.lo := by
        show nd.lo.address < st.length + 2
        omega
      have hlevlo : nd.var + 1 ≤ levelOf st V nd.lo.address :=
        levelOf_ge_child hch.2.2.1 hv
      have hnum := nSSFV_unit_zdd vb hV hwlo hlevlo u0
      have hLlo : LvlGe st nd.lo.address (nd.var + 1) :=
        fun nd' h => hch.2.2.1 nd' h
      have hLhi : LvlGe st nd.hi.address (nd.var + 1) :=
        fun nd' h => hch.2.2.2 nd' h
      rw [hlv] at hidx htr hbaseU hul
      by_cases hdir : bypassed + zddCountFrom st V nd.lo (nd.var + 1) ≤ k
      · obtain ⟨z, hz, hlz⟩ := ih nd.hi (res ++ [nd.var])
          (bypassed + zddCountFrom st V nd.lo (nd.var + 1)) (nd.var + 1) u0
          (by omega)
          (by omega)
          (by show nd.hi.address < st.length + 2; omega)
          hLhi
          (by omega)
          hdir
          (by omega)
        refine ⟨List.replicate (nd.var - u) false ++ (true :: z), ?_, ?_⟩
        · rw [hidx, hsplit]
          rw [List.getElem?_append_right (by
            rw [List.length_map, zddSolsFrom_length]
            omega)]
          rw [List.length_map, zddSolsFrom_length]
          rw [show k - bypassed - zddCountFrom st V nd.lo (nd.var + 1) =
            k - (bypassed + zddCountFrom st V nd.lo (nd.var + 1)) from by omega]
          rw [List.getElem?_map, hz]
          rfl
        · simp only [getIthLoop]
          rw [hwork current.address hwl]
          simp only [Option.bind_eq_bind, Option.some_bind]
          rw [levelOf_branch hg]
          simp only [Option.bind_eq_bind, Option.some_bind, Bool.false_eq_true,
            if_false, unitGfMul]
          rw [nodeIndex_unit_eta current, hlv, Nat.mod_eq_of_lt hbaseU]
          rw [if_pos (And.intro (by omega) (by
            rw [Nat.mod_eq_of_lt (by omega)]
            omega))]
          rw [if_neg hsink, hnd]
          simp only [Option.some_bind]
          rw [hnum]
          simp only [Option.some_bind, unitGfMul]
          rw [Nat.mod_eq_of_lt (show bypassed +
            zddCountFrom st V nd.lo (nd.var + 1) < u64 from by omega)]
          rw [if_pos hdir, hlz]
          rw [trueVarsShift_append, trueVarsShift_replicate,
            List.length_replicate]
          rw [show u + (nd.var - u) = nd.var from by omega]
          show some ((res ++ [nd.var]) ++ trueVarsShift (nd.var + 1) z) =
            some (res ++ ([] ++ (nd.var :: trueVarsShift (nd.var + 1) z)))
          simp only [List.nil_append, List.append_assoc, List.singleton_append]
      · obtain ⟨z, hz, hlz⟩ := ih nd.lo res bypassed (nd.var + 1) u0
          (by omega)
          (by omega)
          (by show nd.lo.address < st.length + 2; omega)
          hLlo
          (by omega)
          hbk
          (by omega)
        refine ⟨List.replicate (nd.var - u) false ++ (false :: z), ?_, ?_⟩
        · rw [hidx, hsplit]
          rw [List.getElem?_append_left (by
            rw [List.length_map, zddSolsFrom_length]
            omega)]
          rw [List.getElem?_map, hz]
          rfl
        · simp only [getIthLoop]
          rw [hwork current.address hwl]
          simp only [Option.bind_eq_bind, Option.some_bind]
          rw [levelOf_branch hg]
          simp only [Option.bind_eq_bind, Option.some_bind, Bool.false_eq_true,
            if_false, unitGfMul]
          rw [nodeIndex_unit_eta current, hlv, Nat.mod_eq_of_lt hbaseU]
          rw [if_pos (And.intro (by omega) (by
            rw [Nat.mod_eq_of_lt (by omega)]
            omega))]
          rw [if_neg hsink, hnd]
          simp only [Option.some_bind]
          rw [hnum]
          simp only [Option.some_bind, unitGfMul]
          rw [Nat.mod_eq_of_lt (show bypassed +
            zddCountFrom st V nd.lo (nd.var + 1) < u64 from by omega)]
          rw [if_neg hdir, hlz]
          rw [trueVarsShift_append, trueVarsShift_replicate,
            List.length_replicate]
          rw [show u + (nd.var - u) = nd.var from by omega]
          show some (res ++ trueVarsShift (nd.var + 1) z) =
            some (res ++ ([] ++ trueVarsShift (nd.var + 1) z))
          simp only [List.nil_append]

theorem getIthZdd_full {st : Store Unit} {V : Nat} (wf : StoreWF st)
    (vb : VarsBelow V st) (hV : V < 64) (e : NodeIndex Unit) (hg : goodIdx st e)
    (k : Nat) :
    ∃ n r,
      numberSolutions noMultOps unitGfMul false st V e = some n ∧
      n = zddCountFrom st V e 0 ∧
      getIthSolution noMultOps unitGfMul false st V (st.length + 2) e k =
        some r ∧
      (r = none ↔ n ≤ k) ∧
      (∀ l, r = some l →
        ∃ y, (zddSolsFrom st V e 0)[k]? = some y ∧ l = trueVarsShift 0 y) := by
  have hga : e.address < st.length + 2 := hg
  have hcle : zddCountFrom st V e 0 ≤ 2 ^ V := by
    have h := zddCountFrom_le_pow st V e 0
    rw [Nat.sub_zero] at h
    exact h
  have hp64 : (2 : Nat) ^ V < u64 := by
    have h1 : (2 : Nat) ^ V < 2 ^ 64 := Nat.pow_lt_pow_right (by omega) (by omega)
    unfold u64
    omega
  have hns := numberSolutions_zdd_unit wf vb hg
  rw [Nat.mod_eq_of_lt (by omega)] at hns
  have hbase : ∀ a, a < 2 → ([0, 1] : List Nat)[a]? =
      some (zddCountFrom st V ⟨a, ()⟩ (levelOf st V a) % u64) := by
    intro a ha
    match a, ha with
    | 0, _ =>
      rw [levelOf_sink (by omega), zddCountFrom_falseSink]
      simp
    | 1, _ =>
      rw [levelOf_sink (by omega), zddCountFrom_trueSink]
      show some 1 = some (1 % u64)
      rw [Nat.mod_eq_of_lt (by norm_num [u64])]
  obtain ⟨work, hw, hwlen, hwinv⟩ := ansLoop_zdd wf vb (e.address + 1 - 2) 2
    [0, 1] (le_refl 2) (by omega) rfl hbase
  have hwl : e.address < work.length := by omega
  have hnroot := hwinv e.address (by omega)
  rw [nodeIndex_unit_eta] at hnroot
  have hnum := nSSFV_unit_zdd vb hV hnroot (Nat.zero_le _) 0
  unfold getIthSolution allNumberSolutions
  rw [hw]
  simp only [Option.bind_eq_bind, Option.some_bind]
  rw [hnum]
  simp only [Option.bind_eq_bind, Option.some_bind]
  by_cases hk : zddCountFrom st V e 0 ≤ k
  · rw [if_pos hk]
    refine ⟨zddCountFrom st V e 0, none, hns, rfl, rfl, ?_, ?_⟩
    · exact ⟨fun _ => hk, fun _ => rfl⟩
    · intro l hl
      exact absurd hl (by simp)
  · rw [if_neg hk]
    have hwork : ∀ a, a < work.length →
        work[a]? = some (zddCountFrom st V ⟨a, ()⟩ (levelOf st V a) % u64) := by
      intro a ha
      exact hwinv a (by omega)
    obtain ⟨y, hy, hloop⟩ := getIthLoopZdd_spec wf vb hV (by omega) hwork
      (st.length + 2) e [] 0 0 0 hga hwl hg
      (fun nd _ => Nat.zero_le nd.var)
      (Nat.zero_le V) (Nat.zero_le k) (by omega)
    rw [Nat.sub_zero] at hy
    rw [hloop]
    simp only [Option.bind_eq_bind, Option.some_bind]
    refine ⟨zddCountFrom st V e 0, some ([] ++ trueVarsShift 0 y), hns, rfl, rfl,
      ?_, ?_⟩
    · constructor
      · intro h
        exact absurd h (by simp)
      · intro h
        exact absurd h hk
    · intro l hl
      refine ⟨y, hy, ?_⟩
      injection hl with hl'
      rw [← hl', List.nil_append]

/-- BDD half of the corrected C7: the all-solutions finder over a
`NoMultiplicity` BDD factory computes the exact model count and the `k`-th
satisfying assignment in truth-table order. -/
theorem getIthBdd_full {st : Store Unit} {V : Nat} (wf : StoreWF st)
    (vb : VarsBelow V st) (hV : V < 64) (e : NodeIndex Unit) (hg : goodIdx st e)
    (k : Nat) :
    ∃ n r,
      numberSolutions noMultOps unitGfMul true st V e = some n ∧
      n = bddCountFrom st V e 0 ∧
      getIthSolution noMultOps unitGfMul true st V (st.length + 2) e k = some r ∧
      (r = none ↔ n ≤ k) ∧
      (∀ l, r = some l →
        ∃ y, (bddSolsFrom st V e 0)[k]? = some y ∧ l = trueVarsShift 0 y) := by
  have hga : e.address < st.length + 2 := hg
  have hcle : bddCountFrom st V e 0 ≤ 2 ^ V := by
    have h := bddCountFrom_le_pow st V e 0
    rw [Nat.sub_zero] at h
    exact h
  have hp64 : (2 : Nat) ^ V < u64 := by
    have h1 : (2 : Nat) ^ V < 2 ^ 64 := Nat.pow_lt_pow_right (by omega) (by omega)
    unfold u64
    omega
  have hns := numberSolutions_bdd_unit wf vb hg
  rw [Nat.mod_eq_of_lt (by omega)] at hns
  have hbase : ∀ a, a < 2 → ([0, 1] : List Nat)[a]? =
      some (bddCountFrom st V ⟨a, ()⟩ (levelOf st V a) % u64) := by
    intro a ha
    match a, ha with
    | 0, _ =>
      rw [levelOf_sink (by omega), bddCountFrom_falseSink]
      simp
    | 1, _ =>
      rw [levelOf_sink (by omega), bddCountFrom_trueSink, Nat.sub_self]
      show some 1 = some (2 ^ 0 % u64)
      rw [Nat.mod_eq_of_lt (by norm_num [u64])]
      norm_num
  obtain ⟨work, hw, hwlen, hwinv⟩ := ansLoop_bdd wf vb (e.address + 1 - 2) 2
    [0, 1] (le_refl 2) (by omega) rfl hbase
  have hwl : e.address < work.length := by omega
  have hnroot := hwinv e.address (by omega)
  rw [nodeIndex_unit_eta] at hnroot
  have hnum := nSSFV_unit wf vb hV hnroot hg (Nat.zero_le _)
  unfold getIthSolution allNumberSolutions
  rw [hw]
  simp only [Option.bind_eq_bind, Option.some_bind]
  rw [hnum]
  simp only [Option.bind_eq_bind, Option.some_bind]
  by_cases hk : bddCountFrom st V e 0 ≤ k
  · rw [if_pos hk]
    refine ⟨bddCountFrom st V e 0, none, hns, rfl, rfl, ?_, ?_⟩
    · exact ⟨fun _ => hk, fun _ => rfl⟩
    · intro l hl
      exact absurd hl (by simp)
  · rw [if_neg hk]
    have hwork : ∀ a, a < work.length →
        work[a]? = some (bddCountFrom st V ⟨a, ()⟩ (levelOf st V a) % u64) := by
      intro a ha
      exact hwinv a (by omega)
    obtain ⟨y, hy, hloop⟩ := getIthLoop_spec wf vb hV (by omega) hwork
      (st.length + 2) e [] 0 0 hga hwl hg
      (fun v hv => absurd hv (Nat.not_lt_zero v))
      (Nat.zero_le V) (Nat.zero_le k) (by omega)
    rw [Nat.sub_zero] at hy
    rw [hloop]
    simp only [Option.bind_eq_bind, Option.some_bind]
    refine ⟨bddCountFrom st V e 0, some ([] ++ trueVarsShift 0 y), hns, rfl, rfl,
      ?_, ?_⟩
    · constructor
      · intro h
        exact absurd h (by simp)
      · intro h
        exact absurd h hk
    · intro l hl
      refine ⟨y, hy, ?_⟩
      injection hl with hl'
      rw [← hl', List.nil_append]

/-- C7 (corrected): over a `NoMultiplicity` factory with `V < 64` variables
and a well-formed store, the all-solutions finder built by
`find_all_solutions` satisfies, for the BDD finder (`is_bdd = true`) and the
ZDD finder (`is_bdd = false`) alike: `number_solutions()` is the exact model
count (under `evaluate_bdd` resp. `evaluate_zdd` semantics),
`get_ith_solution(k)` returns Rust `None` exactly when
`k ≥ number_solutions()`, and otherwise returns the increasing list of the
variables true in the `k`-th solution in truth-table order. -/
theorem claim7_get_ith_solution {st : Store Unit} {V : Nat} (wf : StoreWF st)
    (vb : VarsBelow V st) (hV : V < 64) (e : NodeIndex Unit) (hg : goodIdx st e)
    (k : Nat) :
    (∃ n r,
      numberSolutions noMultOps unitGfMul true st V e = some n ∧
      n = bddCountFrom st V e 0 ∧
      getIthSolution noMultOps unitGfMul true st V (st.length + 2) e k =
        some r ∧
      (r = none ↔ n ≤ k) ∧
      (∀ l, r = some l →
        ∃ y, (bddSolsFrom st V e 0)[k]? = some y ∧ l = trueVarsShift 0 y)) ∧
    (∃ n r,
      numberSolutions noMultOps unitGfMul false st V e = some n ∧
      n = zddCountFrom st V e 0 ∧
      getIthSolution noMultOps unitGfMul false st V (st.length + 2) e k =
        some r ∧
      (r = none ↔ n ≤ k) ∧
      (∀ l, r = some l →
        ∃ y, (zddSolsFrom st V e 0)[k]? = some y ∧ l = trueVarsShift 0 y)) :=
  ⟨getIthBdd_full wf vb hV e hg k, getIthZdd_full wf vb hV e hg k⟩

/-- C7 counterexample (multiplicities break the literal claim): in a `u32`
factory with one variable, the edge `or(TRUE, TRUE)` (TRUE with multiplicity
2) has `number_solutions = 4` although only 2 assignments satisfy it, and
`get_ith_solution(2)` returns `Some [0]` although there is no solution of
index 2 in truth-table order. -/
theorem claim7_counterexample :
    numberSolutions u32MultOps u32GfMul true ([] : Store Nat) 1 ⟨1, 2⟩ =
      some 4 ∧
    getIthSolution u32MultOps u32GfMul true ([] : Store Nat) 1 2 ⟨1, 2⟩ 2 =
      some (some [0]) ∧
    bddSolsFrom ([] : Store Nat) 1 ⟨1, 2⟩ 0 = [[false], [true]] := by
  refine ⟨?_, ?_, ?_⟩ <;> rfl

theorem claim7_witness :
    ((∃ n r,
      numberSolutions noMultOps unitGfMul true
        [(⟨0, ⟨0, ()⟩, ⟨1, ()⟩⟩ : Node Unit)] 1 ⟨2, ()⟩ = some n ∧
      n = bddCountFrom [(⟨0, ⟨0, ()⟩, ⟨1, ()⟩⟩ : Node Unit)] 1 ⟨2, ()⟩ 0 ∧
      getIthSolution noMultOps unitGfMul true
        [(⟨0, ⟨0, ()⟩, ⟨1, ()⟩⟩ : Node Unit)] 1 3 ⟨2, ()⟩ 0 = some r ∧
      (r = none ↔ n ≤ 0) ∧
      (∀ l, r = some l →
        ∃ y,
          (bddSolsFrom [(⟨0, ⟨0, ()⟩, ⟨1, ()⟩⟩ : Node Unit)] 1 ⟨2, ()⟩ 0)[0]? =
            some y ∧ l = trueVarsShift 0 y)) ∧
    (∃ n r,
      numberSolutions noMultOps unitGfMul false
        [(⟨0, ⟨0, ()⟩, ⟨1, ()⟩⟩ : Node Unit)] 1 ⟨2, ()⟩ = some n ∧
      n = zddCountFrom [(⟨0, ⟨0, ()⟩, ⟨1, ()⟩⟩ : Node Unit)] 1 ⟨2, ()⟩ 0 ∧
      getIthSolution noMultOps unitGfMul false
        [(⟨0, ⟨0, ()⟩, ⟨1, ()⟩⟩ : Node Unit)] 1 3 ⟨2, ()⟩ 0 = some r ∧
      (r = none ↔ n ≤ 0) ∧
      (∀ l, r = some l →
        ∃ y,
          (zddSolsFrom [(⟨0, ⟨0, ()⟩, ⟨1, ()⟩⟩ : Node Unit)] 1 ⟨2, ()⟩ 0)[0]? =
            some y ∧ l = trueVarsShift 0 y))) :=
  claim7_get_ith_solution (by decide) (by decide) (by decide) ⟨2, ()⟩
    (by decide) 0


/- C9: the permutation layer basis operations (swap / left_rot). -/

end Xdd
